import Mathlib

/-!
# N2A C runtime: event scheduler, intrusive part queues

A shallow embedding of `runtime.cc` (classes `Part`, `PartTime`, `VisitorStep`,
`EventStep`, `EventSpikeSingle`, `EventSpikeMulti`, `Euler`, `RungeKutta`, `More`,
`Simulator`, `Population`, and the functions `uniform`, `grid`, `gridRaw`,
`holderHelper`) and of `OutputHolder.h` (the functions `split`, `trim`,
`replace_all` and the class `OutputHolder`), and the properties of the
scheduler, of the populations and of the output columns that are proved about
them.

Conventions of the embedding.

* Objects live in an explicit store, the structure `World`.  A `Part *` is an
  `Option Addr` (`none` is the null pointer).  An address is either a part
  object, named by a number, or the sentinel `queue` member of a
  `VisitorStep`.
* An `EventStep` owns exactly one `VisitorStep` (`visitors[0]`, made in the
  constructor with `event = this` and never replaced), so the embedding names
  that `VisitorStep` by the number of its event.
* Virtual functions of generated model code (`integrate`, `update`,
  `finalize`, ...) are an argument `H : Hooks`; a hook maps worlds to worlds.
* Loops that the source does not bound carry a fuel argument and return
  `none` when it runs out; `none` is also the result of dereferencing a null
  pointer.
* Times (`double t`, `float dt`) are values of a type `T` with the order and
  the arithmetic of class `TimeLike`; no algebraic law is assumed, and NaN is
  outside the model.
* `calls`, `visited` and `ran` are instrumentation: the embedding appends to them at
  the places where the source calls a hook, resp. a visitor function.
-/

namespace N2A

/-! ## Values and the store -/

/-- Arithmetic that the runtime applies to times: a linear order (comparison of
non-NaN floating point numbers), sum, difference, quotient and literals. -/
class TimeLike (T : Type) extends LinearOrder T, Add T, Sub T, Div T where
  /-- A numeric literal such as `2.0f`. -/
  lit : Nat → T

/-- Address of an object of class `Part`. -/
inductive Addr where
  /-- A part object. -/
  | part (i : Nat)
  /-- The member `queue` of the `VisitorStep` of event `v`: the list head. -/
  | queue (v : Nat)
  deriving DecidableEq, Repr

/-- A call of a virtual function, as recorded by the instrumentation. -/
inductive Call (T : Type) where
  | integrate (p : Addr)
  | update (p : Addr)
  | finalize (p : Addr) (result : Bool)
  | leaveSimulation (p : Addr)
  | updateDerivative (p : Addr)
  | finalizeDerivative (p : Addr)
  | snapshot (p : Addr)
  | restore (p : Addr)
  | pushDerivative (p : Addr)
  | multiplyAddToStack (p : Addr) (scalar : T)
  | multiply (p : Addr) (scalar : T)
  | addToMembers (p : Addr)
  | resize (population : Nat) (n : Int)
  | connect (population : Nat)
  | updatePopulations
  | requeue (event : Nat)
  | setLatch (p : Addr) (latch : Int)
  | finalizeEvent (p : Addr)
  deriving DecidableEq, Repr

/-- The two integrators of the runtime. -/
inductive Integrator where
  | euler
  | rungeKutta
  deriving DecidableEq, Repr

/-- The store: every field of the objects the scheduler touches. -/
structure World (T U : Type) where
  /-- `Part::next` of every object of class `Part`, sentinels included. -/
  next : Addr → Option Addr
  /-- `PartTime::previous`. -/
  previous : Nat → Option Addr
  /-- `PartTime::visitor`: the number of a `VisitorStep`. -/
  visitor : Nat → Option Nat
  /-- Dynamic type of a part: `true` for `PartTime` and its subclasses. -/
  timed : Nat → Bool
  /-- `VisitorStep::previous`, the cursor of the walk. -/
  vprevious : Nat → Option Addr
  /-- `Visitor::part`, the part being visited. -/
  vpart : Nat → Option Addr
  /-- `Event::t`. -/
  t : Nat → T
  /-- `EventStep::dt`. -/
  dt : Nat → T
  /-- Events that have been destroyed with `delete`. -/
  deleted : List Nat
  /-- Number of event objects made so far; `new EventStep` takes this number. -/
  fresh : Nat
  /-- `Simulator::integrator`. -/
  integrator : Option Integrator
  /-- `Simulator::stop`. -/
  stop : Bool
  /-- `Simulator::currentEvent`. -/
  currentEvent : Option Nat
  /-- `Simulator::periods`. -/
  periods : List Nat
  /-- `Simulator::queueEvent`: the vector under the `std::priority_queue`. -/
  queueEvent : List Nat
  /-- `Simulator::queueResize`. -/
  queueResize : List (Nat × Int)
  /-- `Simulator::queueConnect`, front first. -/
  queueConnect : List Nat
  /-- `Simulator::queueClearNew`. -/
  queueClearNew : List Nat
  /-- Instrumentation: hook calls, oldest first. -/
  calls : List (Call T)
  /-- Instrumentation: parts handed to a visitor function, oldest first. -/
  visited : List Addr
  /-- Instrumentation: events run by `Simulator::run` with their time `t` at the
  moment they were popped, oldest first. -/
  ran : List (Nat × T)
  /-- State of the generated model code. -/
  user : U

/-- Type `visitorFunction`: called with a `Visitor *`, here the number of the
`VisitorStep`. -/
abbrev VisitorFunction (T U : Type) := Nat → World T U → World T U

/-- The virtual functions of `Part` and `Population` that model code overrides. -/
structure Hooks (T U : Type) where
  integrate : Addr → World T U → World T U
  update : Addr → World T U → World T U
  finalize : Addr → World T U → Bool × World T U
  leaveSimulation : Addr → World T U → World T U
  updateDerivative : Addr → World T U → World T U
  finalizeDerivative : Addr → World T U → World T U
  snapshot : Addr → World T U → World T U
  restore : Addr → World T U → World T U
  pushDerivative : Addr → World T U → World T U
  multiplyAddToStack : Addr → T → World T U → World T U
  multiply : Addr → T → World T U → World T U
  addToMembers : Addr → World T U → World T U
  resize : Nat → Int → World T U → World T U
  connect : Nat → World T U → World T U

variable {T U : Type}

/-- Pointwise update of a field map. -/
def upd {α β : Type} [DecidableEq α] (m : α → β) (a : α) (b : β) : α → β :=
  fun x => if x = a then b else m x

/-- Append a hook call to the instrumentation. -/
def World.record (w : World T U) (c : Call T) : World T U :=
  { w with calls := w.calls ++ [c] }

/-! ## class Part, class PartTime -/

/-- `Part::setPrevious` does nothing; `PartTime::setPrevious` stores the pointer.
The sentinel of a `VisitorStep` is a plain `Part`. -/
def setPrevious (a : Addr) (p : Option Addr) (w : World T U) : World T U :=
  match a with
  | Addr.part i => if w.timed i then { w with previous := upd w.previous i p } else w
  | Addr.queue _ => w

/-- `Part::setVisitor` does nothing; `PartTime::setVisitor` stores the pointer. -/
def setVisitor (a : Addr) (v : Nat) (w : World T U) : World T U :=
  match a with
  | Addr.part i => if w.timed i then { w with visitor := upd w.visitor i (some v) } else w
  | Addr.queue _ => w

/-! ## class VisitorStep -/

/-- The assignment `part = previous->next` of `VisitorStep::visit`, with `p` the
value of `previous->next`; the instrumentation notes that the visitor function is
about to be called with this part. -/
def World.atPart (w : World T U) (v : Nat) (p : Addr) : World T U :=
  { w with vpart := upd w.vpart v (some p), visited := w.visited ++ [p] }

/-- The loop of `VisitorStep::visit`, one iteration per unit of fuel:
`while (previous->next) { part = previous->next; f (this); if (previous->next == part) previous = part; }`. -/
def VisitorStep.visitLoop (f : VisitorFunction T U) (v : Nat) : Nat → World T U → Option (World T U)
  | 0, _ => none
  | fuel + 1, w =>
    match w.vprevious v with
    | none => none
    | some prev =>
      match w.next prev with
      | none => some w
      | some p =>
        let w2 := f v (w.atPart v p)
        match w2.vprevious v with
        | none => none
        | some prev2 =>
          let w3 := if w2.next prev2 = w2.vpart v
                    then { w2 with vprevious := upd w2.vprevious v (w2.vpart v) }
                    else w2
          VisitorStep.visitLoop f v fuel w3

/-- `VisitorStep::visit`: `previous = &queue;` and then the loop. -/
def VisitorStep.visit (f : VisitorFunction T U) (v : Nat) (fuel : Nat) (w : World T U) :
    Option (World T U) :=
  VisitorStep.visitLoop f v fuel { w with vprevious := upd w.vprevious v (some (Addr.queue v)) }

/-- `VisitorStep::enqueue`. -/
def VisitorStep.enqueue (v : Nat) (newPart : Addr) (w : World T U) : World T U :=
  let w1 := setVisitor newPart v w
  let w2 := match w1.next (Addr.queue v) with
            | some head => setPrevious head (some newPart) w1
            | none => w1
  let w3 := setPrevious newPart (some (Addr.queue v)) w2
  let w4 := { w3 with next := upd w3.next newPart (w3.next (Addr.queue v)) }
  { w4 with next := upd w4.next (Addr.queue v) (some newPart) }

/-- `PartTime::dequeue` on the part numbered `i`. -/
def PartTime.dequeue (i : Nat) (w : World T U) : Option (World T U) :=
  match w.visitor i with
  | none => none
  | some v =>
    let w1 := if w.currentEvent = some v ∧ w.vprevious v = some (Addr.part i)
              then { w with vprevious := upd w.vprevious v (w.next (Addr.part i)) }
              else w
    let w2 := match w1.next (Addr.part i) with
              | some n => setPrevious n (w1.previous i) w1
              | none => w1
    match w2.previous i with
    | none => none
    | some prev => some { w2 with next := upd w2.next prev (w2.next (Addr.part i)) }

/-- `PartTime::getEvent`: `visitor->event`. -/
def PartTime.getEvent (i : Nat) (w : World T U) : Option Nat :=
  w.visitor i

/-! ## std::priority_queue

`queueEvent` is a `std::priority_queue<Event *, std::vector<Event *>, More>`.
Its operations are those of the C++ standard library (`bits/stl_heap.h` and
`bits/stl_queue.h` of libstdc++), embedded here on a list that stands for the
vector. -/

/-- The loop of `std::__push_heap (first, holeIndex, topIndex, value, comp)`:
`parent = (holeIndex - 1) / 2; while (holeIndex > topIndex && comp (first + parent, value))
{ first[holeIndex] = first[parent]; holeIndex = parent; parent = (holeIndex - 1) / 2; }
first[holeIndex] = value;`.
The first argument bounds the iterations; the hole index strictly decreases, so a
bound of `holeIndex` is never exhausted while the loop condition holds (at bound
`0` the hole index is `0` and the loop has ended). -/
def Heap.pushHeapLoop {α : Type} (comp : α → α → Bool) (value : α) (topIndex : Nat) :
    Nat → List α → Nat → List α
  | 0, first, holeIndex => first.set holeIndex value
  | fuel + 1, first, holeIndex =>
    let parent := (holeIndex - 1) / 2
    if holeIndex > topIndex then
      match first[parent]? with
      | some pv =>
        if comp pv value then Heap.pushHeapLoop comp value topIndex fuel (first.set holeIndex pv) parent
        else first.set holeIndex value
      | none => first.set holeIndex value
    else first.set holeIndex value

/-- `std::__push_heap`. -/
def Heap.pushHeapAt {α : Type} (comp : α → α → Bool) (first : List α) (holeIndex topIndex : Nat)
    (value : α) : List α :=
  Heap.pushHeapLoop comp value topIndex holeIndex first holeIndex

/-- `std::push_heap (first, last, comp)`: `value = *(last - 1);
__push_heap (first, (last - first) - 1, 0, value, comp)`. -/
def Heap.pushHeap {α : Type} (comp : α → α → Bool) (c : List α) : List α :=
  match c.getLast? with
  | none => c
  | some value => Heap.pushHeapAt comp c (c.length - 1) 0 value

/-- The first loop of `std::__adjust_heap`, which moves the hole down to a leaf:
`while (secondChild < (len - 1) / 2) { secondChild = 2 * (secondChild + 1);
if (comp (first + secondChild, first + (secondChild - 1))) secondChild--;
first[holeIndex] = first[secondChild]; holeIndex = secondChild; }`.
It returns the vector and the final hole index (`secondChild` equals `holeIndex`
at every loop head). -/
def Heap.adjustDown {α : Type} (comp : α → α → Bool) (len : Nat) :
    Nat → List α → Nat → List α × Nat
  | 0, first, holeIndex => (first, holeIndex)
  | fuel + 1, first, holeIndex =>
    if holeIndex < (len - 1) / 2 then
      let right := 2 * (holeIndex + 1)
      match first[right]?, first[right - 1]? with
      | some r, some l =>
        let secondChild := if comp r l then right - 1 else right
        let moved := if comp r l then l else r
        Heap.adjustDown comp len fuel (first.set holeIndex moved) secondChild
      | _, _ => (first, holeIndex)
    else (first, holeIndex)

/-- `std::__adjust_heap (first, holeIndex, len, value, comp)`: the loop above, then
`if ((len & 1) == 0 && secondChild == (len - 2) / 2) { secondChild = 2 * (secondChild + 1);
first[holeIndex] = first[secondChild - 1]; holeIndex = secondChild - 1; }` and
`__push_heap (first, holeIndex, topIndex, value, comp)`.  `len` is a signed
integer in the source and `(len - 2) / 2` is negative for `len < 2`, hence the
test `2 ≤ len`. -/
def Heap.adjustHeap {α : Type} (comp : α → α → Bool) (first : List α) (holeIndex len : Nat)
    (value : α) : List α :=
  let topIndex := holeIndex
  let (first1, hole1) := Heap.adjustDown comp len len first holeIndex
  let (first2, hole2) :=
    if len % 2 = 0 ∧ 2 ≤ len ∧ hole1 = (len - 2) / 2 then
      match first1[2 * (hole1 + 1) - 1]? with
      | some x => (first1.set hole1 x, 2 * (hole1 + 1) - 1)
      | none => (first1, hole1)
    else (first1, hole1)
  Heap.pushHeapAt comp first2 hole2 topIndex value

/-- `std::pop_heap (first, last, comp)`: `if (last - first > 1) { --last;
value = *last; *last = *first; __adjust_heap (first, 0, last - first, value, comp); }`. -/
def Heap.popHeap {α : Type} (comp : α → α → Bool) (c : List α) : List α :=
  match c.head?, c.getLast? with
  | some front, some value =>
    if c.length > 1 then
      Heap.adjustHeap comp (c.set (c.length - 1) front) 0 (c.length - 1) value
    else c
  | _, _ => c

/-- `std::priority_queue::push`: `c.push_back (x); std::push_heap (c.begin (), c.end (), comp);`. -/
def Heap.push {α : Type} (comp : α → α → Bool) (x : α) (c : List α) : List α :=
  Heap.pushHeap comp (c ++ [x])

/-- `std::priority_queue::pop`: `std::pop_heap (c.begin (), c.end (), comp); c.pop_back ();`. -/
def Heap.pop {α : Type} (comp : α → α → Bool) (c : List α) : List α :=
  (Heap.popHeap comp c).dropLast

/-- `std::priority_queue::top`: `c.front ()`. -/
def Heap.top {α : Type} (c : List α) : Option α :=
  c.head?

/-! ## class More -/

/-- `More::operator()`: `a->t >= b->t`. -/
def More [TimeLike T] (w : World T U) (a b : Nat) : Bool :=
  decide (w.t a ≥ w.t b)

/-! ## class EventStep, class Simulator -/

/-- A store without objects, for building examples: all pointers null, all
containers empty, every time `0`. -/
def World.blank [TimeLike T] (u : U) : World T U :=
  { next := fun _ => none, previous := fun _ => none, visitor := fun _ => none,
    timed := fun _ => false, vprevious := fun _ => none, vpart := fun _ => none,
    t := fun _ => TimeLike.lit 0, dt := fun _ => TimeLike.lit 0, deleted := [], fresh := 0,
    integrator := none, stop := false, currentEvent := none, periods := [],
    queueEvent := [], queueResize := [], queueConnect := [], queueClearNew := [],
    calls := [], visited := [], ran := [], user := u }

/-- `new EventStep (t, dt)`: the constructor stores `t` and `dt` and makes the
`VisitorStep`, whose constructor sets `queue.next = 0; previous = 0;`.  The result
is the new event and the new store. -/
def EventStep.new (t dt : T) (w : World T U) : Nat × World T U :=
  (w.fresh,
    { w with
      fresh := w.fresh + 1
      t := upd w.t w.fresh t
      dt := upd w.dt w.fresh dt
      next := upd w.next (Addr.queue w.fresh) none
      vprevious := upd w.vprevious w.fresh none
      vpart := upd w.vpart w.fresh none })

/-- `EventStep::visit`: `visitors[0]->visit (f)`. -/
def EventStep.visit (f : VisitorFunction T U) (e : Nat) (fuel : Nat) (w : World T U) :
    Option (World T U) :=
  VisitorStep.visit f e fuel w

/-- `EventStep::enqueue`: `visitors[0]->enqueue (part)`. -/
def EventStep.enqueue (e : Nat) (part : Addr) (w : World T U) : World T U :=
  VisitorStep.enqueue e part w

/-- `Simulator::Simulator`: `integrator = 0; stop = false;
event = new EventStep (0, 1e-4); currentEvent = event; periods.push_back (event);`. -/
def Simulator.new [TimeLike T] (u : U) : World T U :=
  let (event, w) := EventStep.new (TimeLike.lit 0) (TimeLike.lit 1 / TimeLike.lit 10000)
    (World.blank u)
  { w with integrator := none, stop := false, currentEvent := some event,
           periods := w.periods ++ [event] }

/-- `Simulator::removePeriod`: erase the first entry of `periods` equal to
`event`, then `delete event`. -/
def Simulator.removePeriod (event : Nat) (w : World T U) : World T U :=
  { w with periods := w.periods.erase event, deleted := event :: w.deleted }

/-- The search loop of `Simulator::enqueue`:
`for (; index < count; index++) if (periods[index]->dt >= dt) break;`,
on the entries of `periods` from `index` on. -/
def Simulator.findPeriod [TimeLike T] (w : World T U) (dt : T) : List Nat → Nat → Nat
  | [], index => index
  | e :: rest, index => if w.dt e ≥ dt then index else Simulator.findPeriod w dt rest (index + 1)

/-- `Simulator::enqueue`. -/
def Simulator.enqueue [TimeLike T] (part : Addr) (dt : T) (w : World T U) :
    Option (World T U) :=
  let index := Simulator.findPeriod w dt w.periods 0
  let create : Option (World T U) :=
    match w.currentEvent with
    | none => none
    | some current =>
      let (event, w1) := EventStep.new (w.t current + dt) dt w
      let w2 := { w1 with periods := w1.periods.take index ++ event :: w1.periods.drop index }
      let w3 := { w2 with queueEvent := Heap.push (More w2) event w2.queueEvent }
      some (EventStep.enqueue event part w3)
  match w.periods[index]? with
  | some event => if w.dt event = dt then some (EventStep.enqueue event part w) else create
  | none => create

/-- `Simulator::resize`. -/
def Simulator.resize (population : Nat) (n : Int) (w : World T U) : World T U :=
  { w with queueResize := w.queueResize ++ [(population, n)] }

/-- `Simulator::connect`. -/
def Simulator.connect (population : Nat) (w : World T U) : World T U :=
  { w with queueConnect := w.queueConnect ++ [population] }

/-- `Simulator::clearNew`: `queueClearNew` is a `std::set`. -/
def Simulator.clearNew (population : Nat) (w : World T U) : World T U :=
  if population ∈ w.queueClearNew then w
  else { w with queueClearNew := w.queueClearNew ++ [population] }

/-- The loop `while (! queueConnect.empty ()) { queueConnect.front ()->connect ();
queueConnect.pop (); }` of `Simulator::updatePopulations`. -/
def Simulator.connectLoop (H : Hooks T U) : Nat → World T U → Option (World T U)
  | 0, w => if w.queueConnect = [] then some w else none
  | fuel + 1, w =>
    match w.queueConnect with
    | [] => some w
    | population :: _ =>
      let w1 := H.connect population (w.record (Call.connect population))
      Simulator.connectLoop H fuel { w1 with queueConnect := w1.queueConnect.tail }

/-- `Simulator::updatePopulations`.  The range-based `for` over `queueResize`
reads `begin` and `end` once, so it runs over the requests present at its start;
the lines that would drain `queueClearNew` are commented out in the source. -/
def Simulator.updatePopulations (H : Hooks T U) (fuel : Nat) (w : World T U) :
    Option (World T U) :=
  let w0 := w.record Call.updatePopulations
  let w1 := w0.queueResize.foldl
    (fun s it => H.resize it.1 it.2 (s.record (Call.resize it.1 it.2))) w0
  let w2 := { w1 with queueResize := [] }
  Simulator.connectLoop H fuel w2

/-- `EventStep::requeue`. -/
def EventStep.requeue [TimeLike T] (e : Nat) (w : World T U) : World T U :=
  let w0 := w.record (Call.requeue e)
  match w0.next (Addr.queue e) with
  | some _ =>
    let w1 := { w0 with t := upd w0.t e (w0.t e + w0.dt e) }
    { w1 with queueEvent := Heap.push (More w1) e w1.queueEvent }
  | none => Simulator.removePeriod e w0

/-- A visitor function that calls one hook without result on `visitor->part`. -/
def callOn (c : Addr → Call T) (h : Addr → World T U → World T U) : VisitorFunction T U :=
  fun v w =>
    match w.vpart v with
    | some p => h p (w.record (c p))
    | none => w

/-- A visitor function that calls two hooks without result on `visitor->part`. -/
def callOn2 (c1 : Addr → Call T) (h1 : Addr → World T U → World T U)
    (c2 : Addr → Call T) (h2 : Addr → World T U → World T U) : VisitorFunction T U :=
  fun v w => callOn c2 h2 v (callOn c1 h1 v w)

/-! ## class Euler, class RungeKutta -/

/-- `Euler::run`: `event.visit` with `visitor->part->integrate ()`. -/
def Euler.run (H : Hooks T U) (e : Nat) (fuel : Nat) (w : World T U) : Option (World T U) :=
  EventStep.visit (callOn Call.integrate H.integrate) e fuel w

/-- The three passes of one of the stages k2, k3 of `RungeKutta::run`. -/
def RungeKutta.stage [TimeLike T] (H : Hooks T U) (e : Nat) (fuel : Nat) (w : World T U) :
    Option (World T U) :=
  (EventStep.visit (callOn Call.integrate H.integrate) e fuel w).bind fun w1 =>
  (EventStep.visit (callOn Call.updateDerivative H.updateDerivative) e fuel w1).bind fun w2 =>
  EventStep.visit (callOn2 Call.finalizeDerivative H.finalizeDerivative
    (fun p => Call.multiplyAddToStack p (TimeLike.lit 2))
    (fun p => H.multiplyAddToStack p (TimeLike.lit 2))) e fuel w2

/-- `RungeKutta::run` on an `EventStep`. -/
def RungeKutta.run [TimeLike T] (H : Hooks T U) (e : Nat) (fuel : Nat) (w : World T U) :
    Option (World T U) :=
  -- k1
  (EventStep.visit (callOn2 Call.snapshot H.snapshot Call.pushDerivative H.pushDerivative)
    e fuel w).bind fun w1 =>
  -- k2 and k3
  let t := w1.t e
  let dt := w1.dt e
  let w2 := { w1 with dt := upd w1.dt e (w1.dt e / TimeLike.lit 2) }
  let w3 := { w2 with t := upd w2.t e (w2.t e - w2.dt e) }
  (RungeKutta.stage H e fuel w3).bind fun w4 =>
  (RungeKutta.stage H e fuel w4).bind fun w5 =>
  let w6 := { w5 with dt := upd w5.dt e dt }
  let w7 := { w6 with t := upd w6.t e t }
  -- k4
  (EventStep.visit (callOn Call.integrate H.integrate) e fuel w7).bind fun w8 =>
  (EventStep.visit (callOn Call.updateDerivative H.updateDerivative) e fuel w8).bind fun w9 =>
  (EventStep.visit (callOn2 Call.finalizeDerivative H.finalizeDerivative
    Call.addToMembers H.addToMembers) e fuel w9).bind fun w10 =>
  -- finish
  (EventStep.visit (callOn (fun p => Call.multiply p (TimeLike.lit 1 / TimeLike.lit 6))
    (fun p => H.multiply p (TimeLike.lit 1 / TimeLike.lit 6))) e fuel w10).bind fun w11 =>
  (EventStep.visit (callOn Call.integrate H.integrate) e fuel w11).bind fun w12 =>
  EventStep.visit (callOn Call.restore H.restore) e fuel w12

/-- `simulator.integrator->run (*this)` in `EventStep::run`. -/
def Integrator.run [TimeLike T] (H : Hooks T U) (e : Nat) (fuel : Nat) (w : World T U) :
    Option (World T U) :=
  match w.integrator with
  | none => none
  | some Integrator.euler => Euler.run H e fuel w
  | some Integrator.rungeKutta => RungeKutta.run H e fuel w

/-- The visitor function of the last pass of `EventStep::run`:
`if (! visitor->part->finalize ()) { v = (VisitorStep *) visitor; p = visitor->part;
if (p->next) p->next->setPrevious (v->previous); v->previous->next = p->next;
p->leaveSimulation (); }`. -/
def EventStep.finalizePart (H : Hooks T U) : VisitorFunction T U :=
  fun v w =>
    match w.vpart v with
    | none => w
    | some part =>
      let r := H.finalize part w
      let w1 := r.2.record (Call.finalize part r.1)
      if r.1 then w1
      else
        match w1.vpart v, w1.vprevious v with
        | some p, some prev =>
          let w2 := match w1.next p with
                    | some n => setPrevious n (some prev) w1
                    | none => w1
          let w3 := { w2 with next := upd w2.next prev (w2.next p) }
          H.leaveSimulation p (w3.record (Call.leaveSimulation p))
        | _, _ => w1

/-- `EventStep::run`. -/
def EventStep.run [TimeLike T] (H : Hooks T U) (e : Nat) (fuel : Nat) (w : World T U) :
    Option (World T U) :=
  (Integrator.run H e fuel w).bind fun w1 =>
  (EventStep.visit (callOn Call.update H.update) e fuel w1).bind fun w2 =>
  (EventStep.visit (EventStep.finalizePart H) e fuel w2).bind fun w3 =>
  (Simulator.updatePopulations H fuel w3).bind fun w4 =>
  some (EventStep.requeue e w4)

/-- `PartTime::setPeriod`: `dequeue (); simulator.enqueue (this, dt);`. -/
def PartTime.setPeriod [TimeLike T] (i : Nat) (dt : T) (w : World T U) : Option (World T U) :=
  (PartTime.dequeue i w).bind fun w1 => Simulator.enqueue (Addr.part i) dt w1

/-- One iteration of the loop of `Simulator::run`, with `Event::run` (virtual)
given by `run`: `currentEvent = queueEvent.top (); queueEvent.pop (); currentEvent->run ();`. -/
def Simulator.step [TimeLike T] (run : Nat → World T U → Option (World T U)) (w : World T U) :
    Option (World T U) :=
  match Heap.top w.queueEvent with
  | none => none
  | some e =>
    let w1 := { w with currentEvent := some e }
    let w2 := { w1 with queueEvent := Heap.pop (More w1) w1.queueEvent,
                        ran := w1.ran ++ [(e, w1.t e)] }
    run e w2

/-- `Simulator::run`, at most `fuel` iterations of
`while (! queueEvent.empty () && ! stop)`: the result is `none` when an event
fails, and otherwise the store reached and whether the loop has ended. -/
def Simulator.run [TimeLike T] (run : Nat → World T U → Option (World T U)) :
    Nat → World T U → Option (World T U × Bool)
  | 0, w => some (w, decide (w.queueEvent = [] ∨ w.stop = true))
  | fuel + 1, w =>
    if w.queueEvent ≠ [] ∧ w.stop = false then
      match Simulator.step run w with
      | none => none
      | some w1 => Simulator.run run fuel w1
    else some (w, true)


/-! ## Order of a binary heap -/

/-- Following `next` from `a` passes through exactly the addresses `ps`, in this
order, and then reaches the null pointer. -/
def Linked (next : Addr → Option Addr) : Addr → List Addr → Prop
  | a, [] => next a = none
  | a, p :: ps => next a = some p ∧ Linked next p ps

/-- The queue of `VisitorStep` `v` holds exactly the parts `ps`, head first. -/
def IsQueue (w : World T U) (v : Nat) (ps : List Addr) : Prop :=
  Linked w.next (Addr.queue v) ps

/-- A visitor function that does not modify the queue it is applied to: the
links, the cursor and the current part of the visitor are as before (and it
leaves the instrumentation alone). -/
def KeepsQueue (f : VisitorFunction T U) (v : Nat) : Prop :=
  ∀ w, (f v w).next = w.next ∧ (f v w).vprevious v = w.vprevious v ∧
    (f v w).vpart v = w.vpart v ∧ (f v w).visited = w.visited

/-- The last address of the chain `a, l`: the cursor after walking over `l` from `a`. -/
def lastOf (a : Addr) : List Addr → Addr
  | [] => a
  | p :: ps => lastOf p ps


/-- A hook that changes nothing but the state of the model code. -/
def KeepsRuntime (g : World T U → World T U) : Prop :=
  ∀ w, g w = { w with user := (g w).user }

/-- `w1` differs from `w` at most in the part links, the cursor and current part
of visitors, the instrumentation of calls and visits, and model state. -/
def SameBut (w w1 : World T U) : Prop :=
  w1 = { w with next := w1.next, previous := w1.previous, vprevious := w1.vprevious,
                vpart := w1.vpart, visited := w1.visited, calls := w1.calls, user := w1.user }

/-- The calls of a pass that makes the calls `g p` on each part `p` of `ps`. -/
def passCalls (g : Addr → List (Call T)) : List Addr → List (Call T)
  | [] => []
  | p :: ps => g p ++ passCalls g ps

/-- A visitor function that makes the calls `g p` on the current part `p` and
otherwise changes model state only. -/
def Framed (f : VisitorFunction T U) (v : Nat) (g : Addr → List (Call T)) : Prop :=
  ∀ w p, w.vpart v = some p →
    f v w = { w with calls := w.calls ++ g p, user := (f v w).user }

/-- The event data of the scheduler: times, periods and the event queue. -/
def World.events (w : World T U) : (Nat → T) × (Nat → T) × List Nat × List Nat :=
  (w.t, w.dt, w.periods, w.queueEvent)

/-- Every virtual function of a part changes model state only. -/
structure Hooks.PartsPure (H : Hooks T U) : Prop where
  integrate : ∀ p, KeepsRuntime (H.integrate p)
  update : ∀ p, KeepsRuntime (H.update p)
  finalize : ∀ p, KeepsRuntime (fun w => (H.finalize p w).2)
  leaveSimulation : ∀ p, KeepsRuntime (H.leaveSimulation p)
  updateDerivative : ∀ p, KeepsRuntime (H.updateDerivative p)
  finalizeDerivative : ∀ p, KeepsRuntime (H.finalizeDerivative p)
  snapshot : ∀ p, KeepsRuntime (H.snapshot p)
  restore : ∀ p, KeepsRuntime (H.restore p)
  pushDerivative : ∀ p, KeepsRuntime (H.pushDerivative p)
  multiplyAddToStack : ∀ p s, KeepsRuntime (H.multiplyAddToStack p s)
  multiply : ∀ p s, KeepsRuntime (H.multiply p s)
  addToMembers : ∀ p, KeepsRuntime (H.addToMembers p)

/-- A function of a population that leaves the event data, the queue of pending
connects and the instrumentation of calls as they are. -/
def KeepsEvents (g : World T U → World T U) : Prop :=
  ∀ w, (g w).events = w.events ∧ (g w).queueConnect = w.queueConnect ∧ (g w).calls = w.calls

/-- `resize` and `connect` of every population leave the event data alone. -/
structure Hooks.PopulationsKeepEvents (H : Hooks T U) : Prop where
  resize : ∀ population n, KeepsEvents (H.resize population n)
  connect : ∀ population, KeepsEvents (H.connect population)

/-- The calls of one of the stages k2, k3 of `RungeKutta::run` on parts `ps`. -/
def RungeKutta.stageCalls [TimeLike T] (ps : List Addr) : List (Call T) :=
  passCalls (fun p => [Call.integrate p]) ps ++
  passCalls (fun p => [Call.updateDerivative p]) ps ++
  passCalls (fun p => [Call.finalizeDerivative p, Call.multiplyAddToStack p (TimeLike.lit 2)]) ps

/-- The calls of the thirteen passes of `RungeKutta::run` on parts `ps`. -/
def RungeKutta.calls [TimeLike T] (ps : List Addr) : List (Call T) :=
  passCalls (fun p => [Call.snapshot p, Call.pushDerivative p]) ps ++
  RungeKutta.stageCalls ps ++ RungeKutta.stageCalls ps ++
  passCalls (fun p => [Call.integrate p]) ps ++
  passCalls (fun p => [Call.updateDerivative p]) ps ++
  passCalls (fun p => [Call.finalizeDerivative p, Call.addToMembers p]) ps ++
  passCalls (fun p => [Call.multiply p (TimeLike.lit 1 / TimeLike.lit 6)]) ps ++
  passCalls (fun p => [Call.integrate p]) ps ++
  passCalls (fun p => [Call.restore p]) ps

/-- The calls of the integrator on parts `ps`. -/
def Integrator.calls [TimeLike T] : Integrator → List Addr → List (Call T)
  | Integrator.euler, ps => passCalls (fun p => [Call.integrate p]) ps
  | Integrator.rungeKutta, ps => RungeKutta.calls ps

/-- Calls that the last pass of `EventStep::run` makes on part `p` when its
`finalize` returns `r`. -/
def finalizeCalls (p : Addr) (r : Bool) : List (Call T) :=
  if r then [Call.finalize p true] else [Call.finalize p false, Call.leaveSimulation p]

/-- Calls of the whole pass over parts `ps` with `finalize` results `rs`. -/
def finalizeTrace : List Addr → List Bool → List (Call T)
  | p :: ps, r :: rs => finalizeCalls p r ++ finalizeTrace ps rs
  | _, _ => []

/-- The parts of `ps` whose `finalize` result in `rs` is `true`, in order. -/
def survivors : List Addr → List Bool → List Addr
  | p :: ps, r :: rs => if r then p :: survivors ps rs else survivors ps rs
  | _, _ => []

/-- Invariant of `periods`: strictly ascending periods `dt`. -/
def Simulator.PeriodsSorted [TimeLike T] (w : World T U) : Prop :=
  w.periods.Pairwise (fun a b => w.dt a < w.dt b)

/-- The store after the branch of `Simulator::enqueue` that makes a new event, in
closed form (`Simulator.enqueue_notFound` proves it equal to what the code
computes): the new event has the number `w.fresh`. -/
def Simulator.enqueueNew [TimeLike T] (part : Addr) (dt : T) (ce : Nat) (w : World T U) :
    World T U :=
  VisitorStep.enqueue w.fresh part
    { w with
      fresh := w.fresh + 1
      t := upd w.t w.fresh (w.t ce + dt)
      dt := upd w.dt w.fresh dt
      next := upd w.next (Addr.queue w.fresh) none
      vprevious := upd w.vprevious w.fresh none
      vpart := upd w.vpart w.fresh none
      periods := w.periods.takeWhile (fun x => decide (w.dt x < dt)) ++
        w.fresh :: w.periods.dropWhile (fun x => decide (w.dt x < dt))
      queueEvent := Heap.push (fun a b => decide (upd w.t w.fresh (w.t ce + dt) a ≥
        upd w.t w.fresh (w.t ce + dt) b)) w.fresh w.queueEvent }

/-- Back links of a chain of parts that starts after `a`: every part is a
`PartTime` whose `visitor` is `v` and whose `previous` is its predecessor in the
chain (`a` for the first part). -/
def BackLinked (w : World T U) (v : Nat) : Addr → List Addr → Prop
  | _, [] => True
  | a, p :: ps =>
    (∃ i, p = Addr.part i ∧ w.timed i = true ∧ w.visitor i = some v ∧ w.previous i = some a) ∧
    BackLinked w v p ps

/-- The queue of `VisitorStep` `v` holds the `PartTime` parts `l`, with their back
links in order. -/
def WellLinked (w : World T U) (v : Nat) (l : List Addr) : Prop :=
  IsQueue w v l ∧ BackLinked w v (Addr.queue v) l

/-- Store `w1` has the queue of visitor `v` with parts `l` as store `w` has it: the
links of the sentinel and of the parts, the cursor and current part of the
visitor, the current event, and the record of visits. -/
def AgreeOn (v : Nat) (l : List Addr) (w w1 : World T U) : Prop :=
  w1.vprevious v = w.vprevious v ∧ w1.vpart v = w.vpart v ∧
  w1.currentEvent = w.currentEvent ∧ w1.visited = w.visited ∧
  w1.next (Addr.queue v) = w.next (Addr.queue v) ∧
  ∀ i, Addr.part i ∈ l →
    w1.next (Addr.part i) = w.next (Addr.part i) ∧ w1.previous i = w.previous i ∧
    w1.visitor i = w.visitor i ∧ w1.timed i = w.timed i

/-- The visitor function `f`, when called by visitor `v`, dequeues the part `iq`
with `PartTime::dequeue` while it visits `x`, and leaves the queue of `v` alone
while it visits any other part.  What `f` does to objects outside that queue
(the dequeued part included) is not restricted. -/
structure DequeuesAt (f : VisitorFunction T U) (v : Nat) (x : Addr) (iq : Nat) : Prop where
  keeps : ∀ w l, WellLinked w v l → w.vpart v ≠ some x → AgreeOn v l w (f v w)
  dequeues : ∀ w l, WellLinked w v l → w.vpart v = some x → w.currentEvent = some v →
    Addr.part iq ∈ l →
    ∃ wd, PartTime.dequeue iq w = some wd ∧ AgreeOn v (l.erase (Addr.part iq)) wd (f v w)

/-- State of a walk of visitor `v` during its own event: the queue is `pre`
followed by `rest`, and the cursor stands on the last part of `pre` (on the
sentinel when `pre` is empty). -/
def WalkAt (w : World T U) (v : Nat) (pre rest : List Addr) : Prop :=
  WellLinked w v (pre ++ rest) ∧ w.vprevious v = some (lastOf (Addr.queue v) pre) ∧
  w.currentEvent = some v

/-- Time values for examples: natural numbers. -/
instance : TimeLike Nat :=
  { (inferInstance : LinearOrder Nat) with add := Nat.add, sub := Nat.sub, div := Nat.div, lit := id }

/-- The default implementations of the virtual functions in `runtime.cc`: empty
bodies, and `finalize` returns `true`. -/
def Hooks.base : Hooks T U :=
  { integrate := fun _ w => w, update := fun _ w => w, finalize := fun _ w => (true, w),
    leaveSimulation := fun _ w => w, updateDerivative := fun _ w => w,
    finalizeDerivative := fun _ w => w, snapshot := fun _ w => w, restore := fun _ w => w,
    pushDerivative := fun _ w => w, multiplyAddToStack := fun _ _ w => w,
    multiply := fun _ _ w => w, addToMembers := fun _ w => w, resize := fun _ _ w => w,
    connect := fun _ w => w }

/-- Example hooks: the defaults, except that `finalize` of part `2` returns `false`. -/
def exampleHooks : Hooks Nat Unit :=
  { Hooks.base with finalize := fun p w => (decide (p ≠ Addr.part 2), w) }

/-- Example store: event `0` holds the queue `part 1, part 2, part 3` of plain parts. -/
def exampleQueue : World Nat Unit :=
  { World.blank () with
    next := upd (upd (upd (fun _ => none) (Addr.queue 0) (some (Addr.part 1)))
      (Addr.part 1) (some (Addr.part 2))) (Addr.part 2) (some (Addr.part 3)) }

/-- Example store: `exampleQueue` as popped step event `0` with period `1`, under
the Euler integrator, with one pending resize and one pending connect. -/
def exampleStep : World Nat Unit :=
  { exampleQueue with
    integrator := some Integrator.euler
    currentEvent := some 0
    periods := [0]
    dt := fun _ => 1
    queueResize := [(7, 2)]
    queueConnect := [8] }

/-- Example store: three events with the same time `5`. -/
def exampleTies : World Nat Unit :=
  { World.blank () with t := fun _ => 5 }

/-- Example store: event `0`, the current event, holds the queue
`part 1, part 2, part 3` of `PartTime` parts with their back links; its period is `1`. -/
def exampleTimed : World Nat Unit :=
  { exampleQueue with
    timed := fun _ => true
    visitor := fun _ => some 0
    previous := upd (upd (upd (fun _ => none) 1 (some (Addr.queue 0))) 2 (some (Addr.part 1)))
      3 (some (Addr.part 2))
    currentEvent := some 0
    periods := [0]
    fresh := 1
    dt := fun _ => 1 }

/-- Example visitor function: it dequeues part `2` while visiting it. -/
def exampleDequeue : VisitorFunction Nat Unit :=
  fun v w => if w.vpart v = some (Addr.part 2) then (PartTime.dequeue 2 w).getD w else w

/-- Example visitor function: part `2` moves itself to the period `5` while it is
visited. -/
def exampleSetPeriod : VisitorFunction Nat Unit :=
  fun v w => if w.vpart v = some (Addr.part 2) then (PartTime.setPeriod 2 5 w).getD w else w

/-! ## class Population

Conventions of this part of the embedding.

* The lists of a `Population` live in the store `PopWorld`.  A `Part *` is an
  `Option Node`; a node is a part object or the member `live` of a population,
  the sentinel of its ring.  `after` and `before` are the links of the ring,
  `next` is the link of the dead chain.
* The virtual functions that `Population` calls (`create`, `getTarget`,
  `getMax`, `setPart`, `getCount`, `getP`, ...) and the function `uniform` are an
  argument `H : PopHooks`.  A hook sees the whole store and returns its result
  and the next state `user` of the model code: it cannot change a link.
* `calls`, `bound`, `proposed` and `accepted` are instrumentation.  `bound i` is
  the part last given to `setPart (i, ...)` of the scratch connection since it
  was created; `proposed` receives the bound pair at each call of `getP`, and
  `accepted` receives it when the scratch connection enters the simulation.
-/

/-- Address of a `Part` object in the lists of a `Population`. -/
inductive Node where
  /-- The member `live` of population `population`: the head of its ring. -/
  | live (population : Nat)
  /-- A part object. -/
  | part (i : Nat)
  deriving DecidableEq, Repr

/-- A call made by `Population::allocate` or `Population::connect`, as recorded
by the instrumentation. -/
inductive PopCall (T : Type) where
  | getTarget (i : Nat)
  | getMin (i : Nat)
  | getMax (i : Nat)
  | create (result : Node)
  | delete (c : Node)
  | setPart (c : Node) (i : Nat) (part : Node)
  | getCount (c : Node) (i : Nat) (result : Int)
  | getP (c : Node) (result : T)
  | uniform (result : T)
  | enterSimulation (c : Node)
  /-- The call `p->getEvent ()->enqueue (c)`. -/
  | enqueue (p : Node) (c : Node)
  | init (c : Node)
  | isFree (p : Node) (result : Bool)
  | clear (p : Node)
  | add (p : Node)
  deriving DecidableEq, Repr

/-- The store of the populations.  `user` is the state of the model code. -/
structure PopWorld (T U : Type) where
  /-- `Part::after`. -/
  after : Node → Option Node
  /-- `Part::before`. -/
  before : Node → Option Node
  /-- `Population::old`, by population. -/
  old : Nat → Option Node
  /-- `Population::dead`, by population. -/
  dead : Nat → Option Node
  /-- `Part::next`. -/
  next : Node → Option Node
  calls : List (PopCall T)
  bound : Nat → Option Node
  proposed : List (Option Node × Option Node)
  accepted : List (Option Node × Option Node)
  user : U

/-- The virtual functions called by `Population`, and `uniform`.  The first
argument of a member function of `Population` is the population; the first
argument of a member function of `Part` is the part. -/
structure PopHooks (T U : Type) where
  getTarget : Nat → Nat → PopWorld T U → Option Nat
  getMin : Nat → Nat → PopWorld T U → Int
  getMax : Nat → Nat → PopWorld T U → Int
  create : Nat → PopWorld T U → Node × U
  delete : Node → PopWorld T U → U
  setPart : Node → Nat → Node → PopWorld T U → U
  getCount : Node → Nat → PopWorld T U → Int × U
  getP : Node → PopWorld T U → T × U
  uniform : PopWorld T U → T × U
  enterSimulation : Node → PopWorld T U → U
  /-- The call `p->getEvent ()->enqueue (c)`, arguments `p` and `c`. -/
  enqueue : Node → Node → PopWorld T U → U
  init : Node → PopWorld T U → U
  isFree : Node → PopWorld T U → Bool × U
  clear : Node → PopWorld T U → U
  add : Nat → Node → PopWorld T U → U

/-- Record a call and the state in which the model code leaves. -/
def PopWorld.call (w : PopWorld T U) (k : PopCall T) (u : U) : PopWorld T U :=
  { w with calls := w.calls ++ [k], user := u }

/-- `Population::Population`: `dead = 0; live.before = &live; live.after = &live; old = &live;`. -/
def Population.new (P : Nat) (w : PopWorld T U) : PopWorld T U :=
  { w with
    dead := upd w.dead P none
    before := upd w.before (Node.live P) (some (Node.live P))
    after := upd w.after (Node.live P) (some (Node.live P))
    old := upd w.old P (some (Node.live P)) }

/-- `Population::remove`: `part->next = dead; dead = part;`. -/
def Population.remove (P : Nat) (part : Node) (w : PopWorld T U) : PopWorld T U :=
  { w with next := upd w.next part (w.dead P), dead := upd w.dead P (some part) }

/-- `Population::clearNew` of `runtime.cc`: the body is empty. -/
def Population.clearNew (_P : Nat) (w : PopWorld T U) : PopWorld T U := w

/-- The call `this->create ()`: the new part has no endpoint. -/
def Population.create (H : PopHooks T U) (P : Nat) (w : PopWorld T U) : Node × PopWorld T U :=
  let r := H.create P w
  (r.1, { w.call (PopCall.create r.1) r.2 with bound := fun _ => none })

/-- A `Part **`: the address of the member `dead` of a population, or of the
member `next` of a part. -/
inductive Slot where
  | dead (population : Nat)
  | next (p : Node)
  deriving DecidableEq, Repr

/-- The value `*p`. -/
def PopWorld.read (w : PopWorld T U) : Slot → Option Node
  | Slot.dead P => w.dead P
  | Slot.next p => w.next p

/-- The assignment `*p = v`. -/
def PopWorld.write (w : PopWorld T U) (p : Slot) (v : Option Node) : PopWorld T U :=
  match p with
  | Slot.dead P => { w with dead := upd w.dead P v }
  | Slot.next d => { w with next := upd w.next d v }

/-- The loop of `Population::allocate`, from `p`; the result is the variable
`result`.
```
while (*p)
{
    if ((*p)->isFree ())
    {
        result = *p;
        result->clear ();
        *p = (*p)->next;
        break;
    }
    p = & (*p)->next;
}
``` -/
def Population.allocateLoop (H : PopHooks T U) :
    Nat → Slot → PopWorld T U → Option (Option Node × PopWorld T U)
  | 0, _, _ => none
  | fuel + 1, p, w =>
    match w.read p with
    | none => some (none, w)
    | some d =>
      let r := H.isFree d w
      let w1 := w.call (PopCall.isFree d r.1) r.2
      if r.1 then
        let w2 := w1.call (PopCall.clear d) (H.clear d w1)
        some (some d, w2.write p (w2.next d))
      else Population.allocateLoop H fuel (Slot.next d) w1

/-- `Population::allocate` of population `P`: the loop, then
`if (! result) result = create (); add (result); return result;`. -/
def Population.allocate (H : PopHooks T U) (P : Nat) (fuel : Nat) (w : PopWorld T U) :
    Option (Node × PopWorld T U) :=
  match Population.allocateLoop H fuel (Slot.dead P) w with
  | none => none
  | some (some d, w1) => some (d, w1.call (PopCall.add d) (H.add P d w1))
  | some (none, w1) =>
    let r := Population.create H P w1
    some (r.1, r.2.call (PopCall.add r.1) (H.add P r.1 r.2))

/-! ### Population::connect -/

/-- The call `c->setPart (i, part)` on the scratch connection `c`. -/
def Population.setPart (H : PopHooks T U) (c : Node) (i : Nat) (part : Node)
    (w : PopWorld T U) : PopWorld T U :=
  { w.call (PopCall.setPart c i part) (H.setPart c i part w) with
    bound := upd w.bound i (some part) }

/-- The call `c->getCount (i)`. -/
def Population.getCount (H : PopHooks T U) (c : Node) (i : Nat) (w : PopWorld T U) :
    Int × PopWorld T U :=
  let r := H.getCount c i w
  (r.1, w.call (PopCall.getCount c i r.1) r.2)

/-- The call `c->getP ()`: the bound pair is proposed. -/
def Population.getP (H : PopHooks T U) (c : Node) (w : PopWorld T U) : T × PopWorld T U :=
  let r := H.getP c w
  (r.1, { w.call (PopCall.getP c r.1) r.2 with
          proposed := w.proposed ++ [(w.bound 0, w.bound 1)] })

/-- The call `uniform ()`. -/
def Population.uniform (H : PopHooks T U) (w : PopWorld T U) : T × PopWorld T U :=
  let r := H.uniform w
  (r.1, w.call (PopCall.uniform r.1) r.2)

/-- The condition of `if (create <= 0  ||  create < 1  &&  create < uniform ()) continue;`
with its short-circuit evaluation: `true` when the candidate is rejected. -/
def Population.reject [TimeLike T] (H : PopHooks T U) (create : T) (w : PopWorld T U) :
    Bool × PopWorld T U :=
  if create ≤ TimeLike.lit 0 then (true, w)
  else if create < TimeLike.lit 1 then
    let r := Population.uniform H w
    (decide (create < r.1), r.2)
  else (false, w)

/-- The statements that make the scratch connection `c` a connection, `p` being
the part of the outer loop:
`c->enterSimulation (); p->getEvent ()->enqueue (c); c->init ();`. -/
def Population.enter (H : PopHooks T U) (p c : Node) (w : PopWorld T U) : PopWorld T U :=
  let w1 := { w.call (PopCall.enterSimulation c) (H.enterSimulation c w) with
              accepted := w.accepted ++ [(w.bound 0, w.bound 1)] }
  let w2 := w1.call (PopCall.enqueue p c) (H.enqueue p c w1)
  w2.call (PopCall.init c) (H.init c w2)

/-- What differs between the two walks of `Population::connect`.  In the walk
"new A with all of B" the outer loop binds endpoint `0` and the inner loop walks
the ring of `B` and binds endpoint `1`; in the walk "new B with old A" the outer
loop binds endpoint `1` and the inner loop walks the old parts of `A` and binds
endpoint `0`. -/
structure Walk where
  /-- Index bound by the outer loop. -/
  outerIndex : Nat
  /-- Index bound by the inner loop. -/
  innerIndex : Nat
  /-- The population walked by the inner loop. -/
  inner : Nat
  /-- `Amax` resp. `Bmax`: the cap of the outer part. -/
  outerMax : Int
  /-- `Amin` resp. `Bmin`. -/
  outerMin : Int
  /-- `Bmax` resp. `Amax`: the cap of the inner part. -/
  innerMax : Int
  /-- Whether the inner loop walks only the old parts. -/
  oldOnly : Bool

/-- The first statements of the body of the inner loop.
First walk: `b = b->after; if (b == &B->live) b = b->after;`.
Second walk: `a = a->after; if (a == &A->live) a = A->old;`. -/
def Walk.step (k : Walk) (x : Node) (w : PopWorld T U) : Option Node :=
  match w.after x with
  | none => none
  | some y =>
    if y = Node.live k.inner then (if k.oldOnly then w.old k.inner else w.after y)
    else some y

/-- The initial value of `Bnext` resp. `Anext`.
First walk: `Bnext = Blast->before; if (Bnext == &B->live) Bnext = Bnext->before;`.
Second walk: `if (Alast == A->old) Anext = A->live.before; else Anext = Alast->before;`. -/
def Walk.prev (k : Walk) (last : Node) (w : PopWorld T U) : Option Node :=
  if k.oldOnly then
    (if some last = w.old k.inner then w.before (Node.live k.inner) else w.before last)
  else
    match w.before last with
    | none => none
    | some y => if y = Node.live k.inner then w.before y else some y

/-- Local variables of an inner loop: the scratch connection `c`, the cursor
(`b` resp. `a`), `Bnext` resp. `Anext`, and `Acount` resp. `Bcount`. -/
structure Scan where
  c : Node
  cur : Node
  nxt : Node
  count : Int

/-- The body of the inner `do` loop from the call of `getP` on, for the outer
part `p` and the cursor `b`; the third result is `true` when the loop is left
with `break`.  First walk:
```
float create = c->getP ();
if (create <= 0  ||  create < 1  &&  create < uniform ()) continue;
c->enterSimulation ();
a->getEvent ()->enqueue (c);
c->init ();
c = this->create ();
c->setPart (0, a);
Bnext = b;
if (Amax)
{
    if (++Acount >= Amax) break;
}
``` -/
def Population.offer [TimeLike T] (H : PopHooks T U) (P : Nat) (k : Walk) (p b : Node)
    (s : Scan) (w : PopWorld T U) : Scan × PopWorld T U × Bool :=
  let g := Population.getP H s.c w
  let j := Population.reject H g.1 g.2
  if j.1 then ({ s with cur := b }, j.2, false)
  else
    let w2 := Population.enter H p s.c j.2
    let r := Population.create H P w2
    let w3 := Population.setPart H r.1 k.outerIndex p r.2
    if k.outerMax ≠ 0 then
      ({ c := r.1, cur := b, nxt := b, count := s.count + 1 }, w3,
        decide (s.count + 1 ≥ k.outerMax))
    else ({ c := r.1, cur := b, nxt := b, count := s.count }, w3, false)

/-- The body of the inner `do` loop after the cursor has moved to `b`.  A
`continue` goes to the test of the loop.  First walk:
```
c->setPart (1, b);
if (Bmax  &&  c->getCount (1) >= Bmax) continue;
...
``` -/
def Population.scanBody [TimeLike T] (H : PopHooks T U) (P : Nat) (k : Walk) (p b : Node)
    (s : Scan) (w : PopWorld T U) : Scan × PopWorld T U × Bool :=
  let w1 := Population.setPart H s.c k.innerIndex b w
  if k.innerMax ≠ 0 then
    let r := Population.getCount H s.c k.innerIndex w1
    if r.1 ≥ k.innerMax then ({ s with cur := b }, r.2, false)
    else Population.offer H P k p b s r.2
  else Population.offer H P k p b s w1

/-- The inner loop `do { ... } while (b != Blast);` resp.
`do { ... } while (a != Alast);`, where `last` is `Blast` resp. `Alast`. -/
def Population.scan [TimeLike T] (H : PopHooks T U) (P : Nat) (k : Walk) (p last : Node) :
    Nat → Scan → PopWorld T U → Option (Scan × PopWorld T U)
  | 0, _, _ => none
  | fuel + 1, s, w =>
    match k.step s.cur w with
    | none => none
    | some b =>
      let r := Population.scanBody H P k p b s w
      if r.2.2 then some (r.1, r.2.1)
      else if b ≠ last then Population.scan H P k p last fuel r.1 r.2.1
      else some (r.1, r.2.1)

/-- Local variables of `Population::connect` that outlive an outer loop: the
scratch connection `c`, and `Blast` resp. `Alast`. -/
structure Vars where
  c : Node
  last : Node

/-- The body of an outer loop for the part `p`, up to the move of the cursor.
First walk, for `p = a`:
```
c->setPart (0, a);
volatile int Acount;
if (Amax  ||  Amin) Acount = c->getCount (0);
if (Amax  &&  Acount >= Amax)
{
    a = a->after;
    continue;
}
{
    Part * Bnext = Blast->before;
    if (Bnext == &B->live) Bnext = Bnext->before;
    Part * b = Blast;
    do { ... } while (b != Blast);
    Blast = Bnext;
}
```
The count that the source leaves uninitialised when both `Amax` and `Amin` are
zero is `0` here; the source does not read it in that case. -/
def Population.passBody [TimeLike T] (H : PopHooks T U) (P : Nat) (k : Walk) (fuel : Nat)
    (p : Node) (v : Vars) (w : PopWorld T U) : Option (Vars × PopWorld T U) :=
  let w1 := Population.setPart H v.c k.outerIndex p w
  let n : Int × PopWorld T U :=
    if k.outerMax ≠ 0 ∨ k.outerMin ≠ 0 then Population.getCount H v.c k.outerIndex w1
    else (0, w1)
  if k.outerMax ≠ 0 ∧ n.1 ≥ k.outerMax then some (v, n.2)
  else
    match k.prev v.last n.2 with
    | none => none
    | some nxt =>
      match Population.scan H P k p v.last fuel
          { c := v.c, cur := v.last, nxt := nxt, count := n.1 } n.2 with
      | none => none
      | some (s, w2) => some ({ c := s.c, last := s.nxt }, w2)

/-- An outer loop over the new parts of population `X`, from the cursor `p`;
`inner` is the fuel of each inner loop:
`while (a != A->old) { ...; a = a->after; }` resp.
`while (b != B->old) { ...; b = b->after; }`. -/
def Population.pass [TimeLike T] (H : PopHooks T U) (P : Nat) (k : Walk) (X : Nat)
    (inner : Nat) : Nat → Node → Vars → PopWorld T U → Option (Vars × PopWorld T U)
  | 0, _, _, _ => none
  | fuel + 1, p, v, w =>
    if some p = w.old X then some (v, w)
    else
      match Population.passBody H P k inner p v w with
      | none => none
      | some (v1, w1) =>
        match w1.after p with
        | none => none
        | some p1 => Population.pass H P k X inner fuel p1 v1 w1

/-- The walk "new A with all of B". -/
def Walk.newA (B : Nat) (Amin Amax Bmax : Int) : Walk :=
  { outerIndex := 0, innerIndex := 1, inner := B, outerMax := Amax, outerMin := Amin,
    innerMax := Bmax, oldOnly := false }

/-- The walk "new B with old A". -/
def Walk.newB (A : Nat) (Bmin Bmax Amax : Int) : Walk :=
  { outerIndex := 1, innerIndex := 0, inner := A, outerMax := Bmax, outerMin := Bmin,
    innerMax := Amax, oldOnly := true }

/-- The body of the loop `while (! minSatisfied)`: the walk "new A with all of
B" with `Blast`, then, when `A->old != &A->live`, the walk "new B with old A"
with `Alast`.  The result holds `c`, `Alast` and `Blast`. -/
def Population.round [TimeLike T] (H : PopHooks T U) (P A B : Nat) (Amin Amax Bmin Bmax : Int)
    (fuel : Nat) (c Alast Blast : Node) (w : PopWorld T U) :
    Option (Node × Node × Node × PopWorld T U) :=
  match w.after (Node.live A) with
  | none => none
  | some a =>
    match Population.pass H P (Walk.newA B Amin Amax Bmax) A fuel fuel a { c := c, last := Blast } w with
    | none => none
    | some (v1, w1) =>
      if w1.old A ≠ some (Node.live A) then
        match w1.after (Node.live B) with
        | none => none
        | some b =>
          match Population.pass H P (Walk.newB A Bmin Bmax Amax) B fuel fuel b
              { c := v1.c, last := Alast } w1 with
          | none => none
          | some (v2, w2) => some (v2.c, v2.last, v1.last, w2)
      else some (v1.c, Alast, v1.last, w1)

/-- The loop `while (! minSatisfied) { minSatisfied = true; ... }`; nothing in
the body sets `minSatisfied` to `false`. -/
def Population.rounds [TimeLike T] (H : PopHooks T U) (P A B : Nat) (Amin Amax Bmin Bmax : Int)
    (inner : Nat) : Nat → Bool → Node → Node → Node → PopWorld T U → Option (Node × PopWorld T U)
  | 0, _, _, _, _, _ => none
  | fuel + 1, minSatisfied, c, Alast, Blast, w =>
    if minSatisfied then some (c, w)
    else
      match Population.round H P A B Amin Amax Bmin Bmax inner c Alast Blast w with
      | none => none
      | some (c1, Alast1, Blast1, w1) =>
        Population.rounds H P A B Amin Amax Bmin Bmax inner fuel true c1 Alast1 Blast1 w1

/-- `Population::connect` of the connection population `P`.
```
Population * A = getTarget (0);
Population * B = getTarget (1);
if (A == 0  ||  B == 0) return;
if (A->old == A->live.after  &&  B->old == B->live.after) return;
int Amin = getMin (0);
int Amax = getMax (0);
int Bmin = getMin (1);
int Bmax = getMax (1);
Part * c = this->create ();
Part * Alast = A->old;
Part * Blast = B->live.after;
bool minSatisfied = false;
while (! minSatisfied) { ... }
delete c;
``` -/
def Population.connect [TimeLike T] (H : PopHooks T U) (P : Nat) (fuel : Nat)
    (w : PopWorld T U) : Option (PopWorld T U) :=
  let w1 := (w.call (PopCall.getTarget 0) w.user).call (PopCall.getTarget 1) w.user
  match H.getTarget P 0 w, H.getTarget P 1 w with
  | some A, some B =>
    if w1.old A = w1.after (Node.live A) ∧ w1.old B = w1.after (Node.live B) then some w1
    else
      let Amin := H.getMin P 0 w1
      let Amax := H.getMax P 0 w1
      let Bmin := H.getMin P 1 w1
      let Bmax := H.getMax P 1 w1
      let w2 := (((w1.call (PopCall.getMin 0) w1.user).call (PopCall.getMax 0) w1.user).call
        (PopCall.getMin 1) w1.user).call (PopCall.getMax 1) w1.user
      let r := Population.create H P w2
      match r.2.old A, r.2.after (Node.live B) with
      | some Alast, some Blast =>
        match Population.rounds H P A B Amin Amax Bmin Bmax fuel fuel false r.1 Alast Blast r.2 with
        | none => none
        | some (c, w3) => some (w3.call (PopCall.delete c) (H.delete c w3))
      | _, _ => none
  | _, _ => some w1

/-! ### Predicates on the store of the populations -/

/-- The chain `x, next x, ...` holds exactly the parts `ds` and ends in the null
pointer. -/
def Chained (next : Node → Option Node) : Option Node → List Node → Prop
  | x, [] => x = none
  | x, d :: ds => x = some d ∧ Chained next (next d) ds

/-- The dead chain of population `P` holds exactly the parts `ds`, head first. -/
def PopWorld.DeadChain (w : PopWorld T U) (P : Nat) (ds : List Node) : Prop :=
  Chained w.next (w.dead P) ds

/-- The calls that `w1` has recorded after those of `w`. -/
def PopWorld.callsSince (w1 w : PopWorld T U) : List (PopCall T) :=
  w1.calls.drop w.calls.length

/-- Whether a call is a call of `create`. -/
def PopCall.isCreate : PopCall T → Bool
  | PopCall.create _ => true
  | _ => false

/-- The slot that the loop of `Population::allocate` has reached after it has
passed the parts `pre` from the slot `p`. -/
def slotAfter (p : Slot) : List Node → Slot
  | [] => p
  | d :: ds => slotAfter (Slot.next d) ds


/-- Whether a call is one of the calls that make the scratch connection a
connection: `enterSimulation`, `enqueue` or `init`. -/
def PopCall.isEnter : PopCall T → Bool
  | PopCall.enterSimulation _ => true
  | PopCall.enqueue _ _ => true
  | PopCall.init _ => true
  | _ => false

/-- Whether a call is a call of `create` or a `delete`. -/
def PopCall.isLife : PopCall T → Bool
  | PopCall.create _ => true
  | PopCall.delete _ => true
  | _ => false

/-- Whether a call is one of the queries `setPart`, `getCount`, `getP` on the
scratch connection. -/
def PopCall.isProbe : PopCall T → Bool
  | PopCall.setPart _ _ _ => true
  | PopCall.getCount _ _ _ => true
  | PopCall.getP _ _ => true
  | _ => false

/-- From `w` to `w1` no connection was accepted and only queries on the scratch
connection were called. -/
def PopWorld.Probed (w1 w : PopWorld T U) : Prop :=
  w1.accepted = w.accepted ∧ ∃ l, w1.calls = w.calls ++ l ∧ ∀ x ∈ l, PopCall.isProbe x = true

/-! ### Predicates and list forms of the loops of Population::connect -/

/-- The stores `w1` and `w` have the same links. -/
def PopWorld.SameLinks (w1 w : PopWorld T U) : Prop :=
  w1.after = w.after ∧ w1.before = w.before ∧ w1.old = w.old ∧ w1.dead = w.dead ∧
    w1.next = w.next

/-- The ring of population `X` holds exactly the parts `l`, in the order of
`after`, and `before` is the inverse link. -/
def PopWorld.Ring (w : PopWorld T U) (X : Nat) (l : List Node) : Prop :=
  (Node.live X :: l).Nodup ∧
    List.Chain' (fun a b => w.after a = some b ∧ w.before b = some a)
      (Node.live X :: (l ++ [Node.live X]))

/-- The ring of population `X` holds the new parts `newX` followed by the old
parts `oldX`: `old` points to the first old part, or to `live` when there is
none. -/
def PopWorld.Holds (w : PopWorld T U) (X : Nat) (newX oldX : List Node) : Prop :=
  w.Ring X (newX ++ oldX) ∧ w.old X = some (oldX.head?.getD (Node.live X))

/-- The parts of the cyclic list `R` in the order in which a walk that starts
behind `last` meets them; the walk ends with `last`. -/
def candidates (R : List Node) (last : Node) : List Node :=
  R.rotate (R.indexOf last + 1)

/-- The part before `last` in the cyclic list `R`. -/
def cyclicPrev (R : List Node) (last : Node) : Node :=
  (candidates R last).dropLast.getLast?.getD last

/-- The inner loop of walk `k` goes around the cyclic list `R`: from each part
the steps of the loop lead through the parts behind it and back to it, and the
initial value of `Bnext` resp. `Anext` is the part before it. -/
def Walk.Cycle (k : Walk) (w : PopWorld T U) (R : List Node) : Prop :=
  R.Nodup ∧ ∀ x ∈ R,
    List.Chain' (fun a b => k.step a w = some b) (x :: candidates R x) ∧
    k.prev x w = some (cyclicPrev R x)

/-- The inner loop as a recursion over the candidates that it meets. -/
def Population.scanList [TimeLike T] (H : PopHooks T U) (P : Nat) (k : Walk) (p : Node) :
    List Node → Scan → PopWorld T U → Scan × PopWorld T U
  | [], s, w => (s, w)
  | b :: bs, s, w =>
    let r := Population.scanBody H P k p b s w
    if r.2.2 then (r.1, r.2.1) else Population.scanList H P k p bs r.1 r.2.1

/-- The body of an outer loop, with the inner loop over the cyclic list `R`. -/
def Population.passBodyList [TimeLike T] (H : PopHooks T U) (P : Nat) (k : Walk)
    (R : List Node) (p : Node) (v : Vars) (w : PopWorld T U) : Vars × PopWorld T U :=
  let w1 := Population.setPart H v.c k.outerIndex p w
  let n : Int × PopWorld T U :=
    if k.outerMax ≠ 0 ∨ k.outerMin ≠ 0 then Population.getCount H v.c k.outerIndex w1
    else (0, w1)
  if k.outerMax ≠ 0 ∧ n.1 ≥ k.outerMax then (v, n.2)
  else
    let r := Population.scanList H P k p (candidates R v.last)
      { c := v.c, cur := v.last, nxt := cyclicPrev R v.last, count := n.1 } n.2
    ({ c := r.1.c, last := r.1.nxt }, r.2)

/-- An outer loop as a recursion over the new parts that it meets. -/
def Population.passList [TimeLike T] (H : PopHooks T U) (P : Nat) (k : Walk) (R : List Node) :
    List Node → Vars → PopWorld T U → Vars × PopWorld T U
  | [], v, w => (v, w)
  | p :: ps, v, w =>
    let r := Population.passBodyList H P k R p v w
    Population.passList H P k R ps r.1 r.2

/-- The cyclic list that the walk over the ring of `B` goes around: the parts of
the ring, or the sentinel alone when the ring is empty. -/
def ringCycle (B : Nat) (l : List Node) : List Node :=
  if l = [] then [Node.live B] else l

/-- `Population::connect` of population `P` with targets `A` and `B`, past the
two early returns, with the loops as recursions over lists: `newA`, `oldA` and
`newB` are the new and old parts of `A` and the new parts of `B`, `RB` is the
cyclic list of the walk over `B`. -/
def Population.connectList [TimeLike T] (H : PopHooks T U) (P A B : Nat)
    (newA oldA newB RB : List Node) (w : PopWorld T U) : PopWorld T U :=
  let w1 := (w.call (PopCall.getTarget 0) w.user).call (PopCall.getTarget 1) w.user
  let Amin := H.getMin P 0 w1
  let Amax := H.getMax P 0 w1
  let Bmin := H.getMin P 1 w1
  let Bmax := H.getMax P 1 w1
  let w2 := (((w1.call (PopCall.getMin 0) w1.user).call (PopCall.getMax 0) w1.user).call
    (PopCall.getMin 1) w1.user).call (PopCall.getMax 1) w1.user
  let r := Population.create H P w2
  let r1 := Population.passList H P (Walk.newA B Amin Amax Bmax) RB newA
    ⟨r.1, RB.headD (Node.live B)⟩ r.2
  let r2 := if oldA = [] then r1
    else Population.passList H P (Walk.newB A Bmin Bmax Amax) oldA newB
      ⟨r1.1.c, oldA.headD (Node.live A)⟩ r1.2
  r2.2.call (PopCall.delete r2.1.c) (H.delete r2.1.c r2.2)

/-- The walk binds both endpoints: the outer loop one, the inner loop the other. -/
def Walk.Good (k : Walk) : Prop :=
  (k.outerIndex = 0 ∧ k.innerIndex = 1) ∨ (k.outerIndex = 1 ∧ k.innerIndex = 0)

/-- The pair (endpoint `0`, endpoint `1`) bound when the outer loop is at
`p` and the inner loop at `b`. -/
def Walk.pair (k : Walk) (p b : Node) : Option Node × Option Node :=
  if k.outerIndex = 0 then (some p, some b) else (some b, some p)

/-- The number of connections accepted so far whose endpoint `i` is the part
bound as endpoint `i` of the scratch connection. -/
def PopWorld.degree (w : PopWorld T U) (i : Nat) : Int :=
  ((w.accepted.countP (fun x =>
    if i = 0 then decide (x.1 = w.bound 0) else decide (x.2 = w.bound 1)) : Nat) : Int)

/-- The parts `bs` are, one after the other, the first candidate of a walk over
`R` that starts behind the part before. -/
def Follows (R : List Node) : Node → List Node → Prop
  | _, [] => True
  | last, b :: bs => (candidates R last).head? = some b ∧ Follows R b bs

/-- A store without objects. -/
def PopWorld.blank (u : U) : PopWorld T U :=
  { after := fun _ => none, before := fun _ => none, old := fun _ => none, dead := fun _ => none,
    next := fun _ => none, calls := [], bound := fun _ => none, proposed := [], accepted := [],
    user := u }

/-- The link function that leads from `x` through `l`. -/
def link (f : Node → Option Node) : Node → List Node → Node → Option Node
  | _, [] => f
  | x, y :: ys => link (upd f x (some y)) y ys

/-- The store in which the ring of population `X` holds the parts `l` and its
`old` is `old`. -/
def PopWorld.withRing (w : PopWorld T U) (X : Nat) (l : List Node) (old : Node) : PopWorld T U :=
  { w with
    after := link w.after (Node.live X) (l ++ [Node.live X])
    before := link w.before (Node.live X) (l.reverse ++ [Node.live X])
    old := upd w.old X (some old) }

/-- Example hooks: population `0` connects population `1` to population `2`;
`create` numbers the parts it makes from `100`, counting in `user`; the caps are
`cap`, `getP` returns `p`, `getCount` counts the accepted connections of the
bound endpoint, and every part but part `1` is free. -/
def exampleModel (cap : Int) (p : Nat) : PopHooks Nat Nat :=
  { getTarget := fun _ i _ => some (i + 1), getMin := fun _ _ _ => 0, getMax := fun _ _ _ => cap,
    create := fun _ w => (Node.part (100 + w.user), w.user + 1), delete := fun _ w => w.user,
    setPart := fun _ _ _ w => w.user,
    getCount := fun _ i w => (w.degree i, w.user),
    getP := fun _ w => (p, w.user), uniform := fun w => (0, w.user),
    enterSimulation := fun _ w => w.user, enqueue := fun _ _ w => w.user, init := fun _ w => w.user,
    isFree := fun d w => (decide (d ≠ Node.part 1), w.user), clear := fun _ w => w.user, add := fun _ _ w => w.user }

/-- Example store: the rings of populations `1` and `2` hold the parts numbered
`la` resp. `lb`. -/
def exampleRings (la : List Nat) (olda : Node) (lb : List Nat) (oldb : Node) : PopWorld Nat Nat :=
  ((PopWorld.blank 0).withRing 1 (la.map Node.part) olda).withRing 2 (lb.map Node.part) oldb

/-- Example store: the dead chain of population `0` holds the parts `1, 2, 3`. -/
def exampleDead : PopWorld Nat Nat :=
  { PopWorld.blank 0 with
    dead := fun _ => some (Node.part 1)
    next := upd (upd (fun _ => none) (Node.part 1) (some (Node.part 2))) (Node.part 2)
      (some (Node.part 3)) }

/-- Example store: the store `exampleRings [1] (Node.live 1) [11] (Node.live 2)`
after `connect` of population `0` under `exampleModel 0 1`. -/
def exampleConnected : PopWorld Nat Nat :=
  { exampleRings [1] (Node.live 1) [11] (Node.live 2) with
    calls := [PopCall.getTarget 0, PopCall.getTarget 1, PopCall.getMin 0, PopCall.getMax 0,
      PopCall.getMin 1, PopCall.getMax 1, PopCall.create (Node.part 100),
      PopCall.setPart (Node.part 100) 0 (Node.part 1),
      PopCall.setPart (Node.part 100) 1 (Node.part 11), PopCall.getP (Node.part 100) 1,
      PopCall.enterSimulation (Node.part 100), PopCall.enqueue (Node.part 1) (Node.part 100),
      PopCall.init (Node.part 100), PopCall.create (Node.part 101),
      PopCall.setPart (Node.part 101) 0 (Node.part 1), PopCall.delete (Node.part 101)]
    bound := upd (fun _ => none) 0 (some (Node.part 1))
    proposed := [(some (Node.part 1), some (Node.part 11))]
    accepted := [(some (Node.part 1), some (Node.part 11))]
    user := 2 }

/-! ## Spike events

Conventions of this part of the embedding.

* The members `target` and `latch` of a spike event and the vector `*targets`
  are arguments of the functions: no hook of the model changes them.
* The virtual functions `setLatch` and `finalizeEvent` of `Part` are an
  argument `H : SpikeHooks`, next to the hooks of `Hooks`.
* An `int` index into a `std::vector` is an `Int`; an access outside the vector
  has no defined behaviour and gives `none`.
-/

/-- The virtual functions of `Part` that spike events call, next to those of
`Hooks`. -/
structure SpikeHooks (T U : Type) extends Hooks T U where
  setLatch : Addr → Int → World T U → World T U
  finalizeEvent : Addr → World T U → World T U

/-- The element `v[i]` of a `std::vector` for an `int` index `i`: there is none
outside the vector. -/
def vectorAt {α : Type} (v : List α) (i : Int) : Option α :=
  if 0 ≤ i then v[i.toNat]? else none

/-- The call `v.resize (n)` of a `std::vector` of pointers: the first `n`
elements, filled up with null pointers. -/
def vectorResize {α : Type} (v : List (Option α)) (n : Int) : List (Option α) :=
  v.take n.toNat ++ List.replicate (n.toNat - v.length) none

/-- The loop of `EventSpikeMulti::setLatch`, one iteration per unit of fuel; the
result holds the variable `last`.
```
while (i <= last)
{
    Part * target = (*targets)[i];
    if (target) target->setLatch (latch);
    else        (*targets)[i] = (*targets)[last--];
    i++;
}
``` -/
def EventSpikeMulti.setLatchLoop (H : SpikeHooks T U) (latch : Int) :
    Nat → Int → Int → List (Option Addr) → World T U →
      Option (Int × List (Option Addr) × World T U)
  | 0, _, _, _, _ => none
  | fuel + 1, i, last, targets, w =>
    if i ≤ last then
      match vectorAt targets i with
      | none => none
      | some (some target) =>
        EventSpikeMulti.setLatchLoop H latch fuel (i + 1) last targets
          (H.setLatch target latch (w.record (Call.setLatch target latch)))
      | some none =>
        match vectorAt targets last with
        | none => none
        | some x =>
          EventSpikeMulti.setLatchLoop H latch fuel (i + 1) (last - 1) (targets.set i.toNat x) w
    else some (last, targets, w)

/-- `EventSpikeMulti::setLatch` on the vector `targets`: `int i = 0;
int last = targets->size () - 1;`, the loop, and then
`if ((*targets)[last]) targets->resize (last + 1); else targets->resize (last);`.
The result is the vector and the store. -/
def EventSpikeMulti.setLatch (H : SpikeHooks T U) (latch : Int) (fuel : Nat)
    (targets : List (Option Addr)) (w : World T U) :
    Option (List (Option Addr) × World T U) :=
  match EventSpikeMulti.setLatchLoop H latch fuel 0 ((targets.length : Int) - 1) targets w with
  | none => none
  | some (last, targets1, w1) =>
    match vectorAt targets1 last with
    | none => none
    | some (some _) => some (vectorResize targets1 (last + 1), w1)
    | some none => some (vectorResize targets1 last, w1)

/-- `EventSpikeSingle::visit`: `Visitor v (this, target); f (&v);`.  The visitor
on the stack is named by the number of the event. -/
def EventSpikeSingle.visit (f : VisitorFunction T U) (e : Nat) (target : Addr)
    (w : World T U) : World T U :=
  f e (w.atPart e target)

/-- `Euler::run` on an event whose virtual function `visit` is `visit`. -/
def Euler.runOn (visit : VisitorFunction T U → World T U → Option (World T U))
    (H : Hooks T U) (w : World T U) : Option (World T U) :=
  visit (callOn Call.integrate H.integrate) w

/-- The virtual call `simulator.integrator->run (event)`, with the two
implementations of `run` on that event as arguments. -/
def Integrator.runOn (euler rungeKutta : World T U → Option (World T U)) (w : World T U) :
    Option (World T U) :=
  match w.integrator with
  | none => none
  | some Integrator.euler => euler w
  | some Integrator.rungeKutta => rungeKutta w

/-- The visitor function of `EventSpikeSingle::run`:
`visitor->part->update (); visitor->part->finalize (); visitor->part->finalizeEvent ();`.
The result of `finalize` is dropped. -/
def EventSpikeSingle.finish (H : SpikeHooks T U) : VisitorFunction T U :=
  fun v w =>
    let w1 := callOn Call.update H.update v w
    let w2 :=
      match w1.vpart v with
      | none => w1
      | some p =>
        let r := H.finalize p w1
        r.2.record (Call.finalize p r.1)
    callOn Call.finalizeEvent H.finalizeEvent v w2

/-- `EventSpikeSingle::run` of event `e` with members `target` and `latch`:
`target->setLatch (latch); simulator.integrator->run (*this); visit (...);
delete this;`.  `rungeKutta` is `RungeKutta::run` on this event, which starts
with the cast `(EventStep &) event`. -/
def EventSpikeSingle.run (H : SpikeHooks T U) (rungeKutta : World T U → Option (World T U))
    (e : Nat) (target : Option Addr) (latch : Int) (w : World T U) : Option (World T U) :=
  match target with
  | none => none
  | some p =>
    let w1 := H.setLatch p latch (w.record (Call.setLatch p latch))
    (Integrator.runOn
      (Euler.runOn (fun f s => some (EventSpikeSingle.visit f e p s)) H.toHooks)
      rungeKutta w1).bind fun w2 =>
    let w3 := EventSpikeSingle.visit (EventSpikeSingle.finish H) e p w2
    some { w3 with deleted := e :: w3.deleted }

/-- The hooks of a spike event change model state only. -/
structure SpikeHooks.PartsPure (H : SpikeHooks T U) : Prop where
  parts : H.toHooks.PartsPure
  setLatch : ∀ p latch, KeepsRuntime (H.setLatch p latch)
  finalizeEvent : ∀ p, KeepsRuntime (H.finalizeEvent p)

/-- The default implementations of `runtime.cc`: empty bodies. -/
def SpikeHooks.base : SpikeHooks T U :=
  { Hooks.base with setLatch := fun _ _ w => w, finalizeEvent := fun _ w => w }

/-! ## Runge-Kutta: what the hooks read -/

/-- Model code whose hooks compute the next state of the model from the call,
the values of `t` and `dt` of event `e` that they read, and the state: `k` is
that computation. -/
def Hooks.reading (e : Nat) (k : Call T → T → T → U → U) : Hooks T U :=
  let h : Call T → World T U → World T U :=
    fun c w => { w with user := k c (w.t e) (w.dt e) w.user }
  { integrate := fun p => h (Call.integrate p)
    update := fun p => h (Call.update p)
    finalize := fun p w => (true, h (Call.finalize p true) w)
    leaveSimulation := fun p => h (Call.leaveSimulation p)
    updateDerivative := fun p => h (Call.updateDerivative p)
    finalizeDerivative := fun p => h (Call.finalizeDerivative p)
    snapshot := fun p => h (Call.snapshot p)
    restore := fun p => h (Call.restore p)
    pushDerivative := fun p => h (Call.pushDerivative p)
    multiplyAddToStack := fun p s => h (Call.multiplyAddToStack p s)
    multiply := fun p s => h (Call.multiply p s)
    addToMembers := fun p => h (Call.addToMembers p)
    resize := fun _ _ w => w
    connect := fun _ w => w }

/-- A visitor function that makes the calls `g p` on the current part `p`, each
of them reading `t` and `dt` of event `e` and changing model state by `k`. -/
def Reads (f : VisitorFunction T U) (v e : Nat) (k : Call T → T → T → U → U)
    (g : Addr → List (Call T)) : Prop :=
  ∀ w p, w.vpart v = some p →
    f v w = { w with calls := w.calls ++ g p,
                     user := (g p).foldl (fun u c => k c (w.t e) (w.dt e) u) w.user }

/-- The calls of the first pass of `RungeKutta::run` on parts `ps`. -/
def RungeKutta.callsK1 (ps : List Addr) : List (Call T) :=
  passCalls (fun p => [Call.snapshot p, Call.pushDerivative p]) ps

/-- The calls of the last six passes of `RungeKutta::run` on parts `ps`. -/
def RungeKutta.callsK4 [TimeLike T] (ps : List Addr) : List (Call T) :=
  passCalls (fun p => [Call.integrate p]) ps ++
  passCalls (fun p => [Call.updateDerivative p]) ps ++
  passCalls (fun p => [Call.finalizeDerivative p, Call.addToMembers p]) ps ++
  passCalls (fun p => [Call.multiply p (TimeLike.lit 1 / TimeLike.lit 6)]) ps ++
  passCalls (fun p => [Call.integrate p]) ps ++
  passCalls (fun p => [Call.restore p]) ps

/-- The thirteen passes of `RungeKutta::run`: the calls each makes on a part. -/
def RungeKutta.passes [TimeLike T] : List (Addr → List (Call T)) :=
  [fun p => [Call.snapshot p, Call.pushDerivative p],
   fun p => [Call.integrate p],
   fun p => [Call.updateDerivative p],
   fun p => [Call.finalizeDerivative p, Call.multiplyAddToStack p (TimeLike.lit 2)],
   fun p => [Call.integrate p],
   fun p => [Call.updateDerivative p],
   fun p => [Call.finalizeDerivative p, Call.multiplyAddToStack p (TimeLike.lit 2)],
   fun p => [Call.integrate p],
   fun p => [Call.updateDerivative p],
   fun p => [Call.finalizeDerivative p, Call.addToMembers p],
   fun p => [Call.multiply p (TimeLike.lit 1 / TimeLike.lit 6)],
   fun p => [Call.integrate p],
   fun p => [Call.restore p]]

/-! ## Populations that enqueue -/

/-- A function of a population that may call `Simulator::connect`: it appends
`added` to `queueConnect`, notes that in the history `hist` of the model, pays
for it from the budget `budget` of the model, and leaves the other queues of
populations and the instrumentation of calls alone. -/
def Enqueues (hist : U → List Nat) (budget : U → Nat) (g : World T U → World T U) : Prop :=
  ∀ w, ∃ added : List Nat, (g w).queueConnect = w.queueConnect ++ added ∧
    (g w).queueResize = w.queueResize ∧ (g w).queueClearNew = w.queueClearNew ∧
    (g w).calls = w.calls ∧ hist (g w).user = hist w.user ++ added ∧
    budget (g w).user + added.length ≤ budget w.user

/-- Every `resize` and `connect` of a population is such a function. -/
structure Hooks.PopulationsEnqueue (H : Hooks T U) (hist : U → List Nat) (budget : U → Nat) :
    Prop where
  resize : ∀ population n, Enqueues hist budget (H.resize population n)
  connect : ∀ population, Enqueues hist budget (H.connect population)

/-- Example hooks: `connect` of population `8` calls `simulator.connect` for
population `9` as long as the budget, the second component of the state,
allows; the first component is the history of these calls. -/
def exampleEnqueue : Hooks Nat (List Nat × Nat) :=
  { Hooks.base with
    connect := fun population w =>
      if population = 8 ∧ 0 < w.user.2 then
        { w with queueConnect := w.queueConnect ++ [9], user := (w.user.1 ++ [9], w.user.2 - 1) }
      else w }

/-- Example store: one pending resize, one pending connect, budget `1`. -/
def examplePending : World Nat (List Nat × Nat) :=
  { World.blank ([], 1) with queueResize := [(7, 2)], queueConnect := [8] }

/-! ## uniform, grid, gridRaw

The type `float` is the binary32 format of IEEE 754 under the default rounding:
the result of a conversion or of an operation is the value of the format
nearest to the exact result, and of two nearest values the one with the even
significand.  A finite value is a rational number.  The sign of a zero is not
represented: the zero divisors met in these functions come from the conversion
of the `int` zero, which is `+0`.
-/

/-- A value of type `float`. -/
inductive Float32 where
  | finite (q : ℚ)
  | inf (negative : Bool)
  | nan
  deriving DecidableEq

/-- The integer nearest to `q`, and of two nearest integers the even one. -/
def roundHalfEven (q : ℚ) : Int :=
  if q - ⌊q⌋ < 1 / 2 then ⌊q⌋
  else if 1 / 2 < q - ⌊q⌋ then ⌊q⌋ + 1
  else if ⌊q⌋ % 2 = 0 then ⌊q⌋ else ⌊q⌋ + 1

/-- The unit in the last place at `a > 0`: `2 ^ (e - 23)` with
`2 ^ e ≤ a < 2 ^ (e + 1)`, and `2 ^ (-149)` for `a < 2 ^ (-126)`. -/
def Float32.ulp (a : ℚ) : ℚ :=
  2 ^ (max (Int.log 2 a) (-126) - 23)

/-- The multiple of the unit in the last place that is nearest to `a ≥ 0`, and
of two nearest the even one: the `float` nearest to `a`, when it is finite. -/
def Float32.nearest (a : ℚ) : ℚ :=
  (roundHalfEven (a / Float32.ulp a) : ℚ) * Float32.ulp a

/-- The `float` that an operation with the exact result `q` returns; a result
that rounds to `2 ^ 128` or more in absolute value is an infinity. -/
def Float32.round (q : ℚ) : Float32 :=
  if 2 ^ 128 ≤ Float32.nearest |q| then Float32.inf (decide (q < 0))
  else Float32.finite (if q < 0 then - Float32.nearest |q| else Float32.nearest |q|)

/-- The conversion `(float) i` of an `int`. -/
def Float32.ofInt (i : Int) : Float32 :=
  Float32.round (i : ℚ)

/-- The sum `a + b` of two `float`. -/
def Float32.add : Float32 → Float32 → Float32
  | Float32.finite a, Float32.finite b => Float32.round (a + b)
  | Float32.finite _, Float32.inf s => Float32.inf s
  | Float32.inf s, Float32.finite _ => Float32.inf s
  | Float32.inf s, Float32.inf s1 => if s = s1 then Float32.inf s else Float32.nan
  | _, _ => Float32.nan

/-- The quotient `a / b` of two `float`; a zero divisor is `+0`. -/
def Float32.div : Float32 → Float32 → Float32
  | Float32.finite a, Float32.finite b =>
    if b = 0 then (if a = 0 then Float32.nan else Float32.inf (decide (a < 0)))
    else Float32.round (a / b)
  | Float32.finite _, Float32.inf _ => Float32.finite 0
  | Float32.inf s, Float32.finite b => Float32.inf (xor s (decide (b < 0)))
  | _, _ => Float32.nan

/-- `uniform ()`: `return (float) rand () / RAND_MAX;`, with `r` the value
returned by `rand ()` and the constant `RAND_MAX` of `<cstdlib>` as argument. -/
def uniform (RAND_MAX : Nat) (r : Nat) : Float32 :=
  Float32.div (Float32.ofInt (r : Int)) (Float32.ofInt (RAND_MAX : Int))

/-- The value of an `int` expression whose exact value is `x`: two's complement
on 32 bits. -/
def wrapInt (x : Int) : Int :=
  (x + 2 ^ 31) % 2 ^ 32 - 2 ^ 31

/-- The expression `a / b` on `int`: the quotient truncated towards zero; no
defined behaviour for `b = 0` and for `INT_MIN / -1`. -/
def intDiv (a b : Int) : Option Int :=
  if b = 0 ∨ (a = -2 ^ 31 ∧ b = -1) then none else some (Int.tdiv a b)

/-- The expression `a % b` on `int`: the remainder of the truncated division. -/
def intMod (a b : Int) : Option Int :=
  if b = 0 ∨ (a = -2 ^ 31 ∧ b = -1) then none else some (Int.tmod a b)

/-- `gridRaw (i, nx, ny, nz)`:
`int sx = ny * nz; result[0] = i / sx; i %= sx; result[1] = i / nz; result[2] = i % nz;`.
The elements of the result are `float`, so each assignment converts an `int`. -/
def gridRaw (i _nx ny nz : Int) : Option (Float32 × Float32 × Float32) :=
  let sx := wrapInt (ny * nz)
  (intDiv i sx).bind fun x =>
  (intMod i sx).bind fun i1 =>
  (intDiv i1 nz).bind fun y =>
  (intMod i1 nz).bind fun z =>
  some (Float32.ofInt x, Float32.ofInt y, Float32.ofInt z)

/-- `grid (i, nx, ny, nz)`:
`int sx = ny * nz; result[0] = ((i / sx) + 0.5f) / nx; i %= sx;
result[1] = ((i / nz) + 0.5f) / ny; result[2] = ((i % nz) + 0.5f) / nz;`.
In `(i / sx) + 0.5f` the `int` is converted and the sum is a `float`; in the
quotient the `int` divisor is converted. -/
def grid (i nx ny nz : Int) : Option (Float32 × Float32 × Float32) :=
  let sx := wrapInt (ny * nz)
  (intDiv i sx).bind fun x =>
  (intMod i sx).bind fun i1 =>
  (intDiv i1 nz).bind fun y =>
  (intMod i1 nz).bind fun z =>
  some (Float32.div (Float32.add (Float32.ofInt x) (Float32.finite (1 / 2))) (Float32.ofInt nx),
    Float32.div (Float32.add (Float32.ofInt y) (Float32.finite (1 / 2))) (Float32.ofInt ny),
    Float32.div (Float32.add (Float32.ofInt z) (Float32.finite (1 / 2))) (Float32.ofInt nz))

/-- Example store: the events `3`, `1`, `2` with the same time `5` wait in
`queueEvent`. -/
def exampleThree : World Nat Unit :=
  { exampleTies with queueEvent := [3, 1, 2] }

/-- Example of `Event::run`: every event sets `stop`. -/
def exampleStop (_e : Nat) (w : World Nat Unit) : Option (World Nat Unit) :=
  some { w with stop := true }

/-- Example store: `exampleThree` after `Simulator::run` has popped and run
event `3` under `exampleStop`. -/
def exampleStopped : World Nat Unit :=
  { exampleThree with stop := true, currentEvent := some 3, queueEvent := [2, 1], ran := [(3, 5)] }

/-- The calls of `RungeKutta::run` on parts `ps`, each with the values of `t` and
`dt` of the event at that moment, for an event that starts with `t0` and `dt0`:
the halved step and the time moved back by it in the stages k2 and k3, and
`t0`, `dt0` elsewhere. -/
def RungeKutta.seen [TimeLike T] (t0 dt0 : T) (ps : List Addr) : List (Call T × T × T) :=
  (RungeKutta.callsK1 ps).map (fun c => (c, t0, dt0)) ++
  (RungeKutta.stageCalls ps ++ RungeKutta.stageCalls ps).map
    (fun c => (c, t0 - dt0 / TimeLike.lit 2, dt0 / TimeLike.lit 2)) ++
  (RungeKutta.callsK4 ps).map (fun c => (c, t0, dt0))

/-- Example of model code for `Hooks.reading`: it notes what it reads. -/
def exampleNote (c : Call Nat) (t dt : Nat) (u : List (Call Nat × Nat × Nat)) :
    List (Call Nat × Nat × Nat) :=
  u ++ [(c, t, dt)]

/-- Example store: event `0` with time `10` and period `4` holds the queue
`part 1, part 2`. -/
def exampleTimes : World Nat (List (Call Nat × Nat × Nat)) :=
  { World.blank [] with
    next := upd (upd (fun _ => none) (Addr.queue 0) (some (Addr.part 1)))
      (Addr.part 1) (some (Addr.part 2))
    t := fun _ => 10
    dt := fun _ => 4 }

/-! ## holderHelper

A `Holder *` is the number of the holder object; the member `fileName` of the
holders is the argument `fileNameOf`.
-/

/-- The loop `for (it = holders.begin (); it != holders.end (); it++)
if (*it == oldHandle) ...` of `holderHelper`: the position of `it` when the test
succeeds, from position `i` on. -/
def holderHelper.search (oldHandle : Nat) : List Nat → Nat → Option Nat
  | [], _ => none
  | h :: rest, i => if h = oldHandle then some i else holderHelper.search oldHandle rest (i + 1)

/-- `holderHelper (holders, fileName, oldHandle)`.  The result is the pointer
returned, the vector `holders` and the holders destroyed with `delete`.

In `holders.erase (it); delete *it;` the call `erase` moves the later elements
one slot down and `it` keeps its position, so `*it` is the element that came
after `oldHandle`; when `oldHandle` was the last element, `it` is at the slot
behind the new end, which still holds `oldHandle`. -/
def holderHelper (fileNameOf : Nat → String) (holders : List Nat) (fileName : String)
    (oldHandle : Option Nat) : Option Nat × List Nat × List Nat :=
  let find := fun (l : List Nat) => l.find? (fun h => decide (fileNameOf h = fileName))
  match oldHandle with
  | none => (find holders, holders, [])
  | some old =>
    if fileNameOf old = fileName then (some old, holders, [])
    else
      match holderHelper.search old holders 0 with
      | none => (find holders, holders, [])
      | some i =>
        let holders1 := holders.eraseIdx i
        let storage := holders1 ++ holders.getLast?.toList
        (find holders1, holders1, storage[i]?.toList)

/-- Example of file names: holder `1` writes `a`, every other holder `b`. -/
def exampleFileName (h : Nat) : String :=
  if h = 1 then "a" else "b"

/-- Example store: the simulator as made by its constructor, then
`simulator.integrator = new Euler`, `simulator.enqueue (part 1, 1e-4)` and
`simulator.enqueue (part 2, 5)`.  Times are natural numbers here, so that the
period `1 / 10000` of the first event is `0`. -/
def exampleSecond : Option (World Nat Unit) :=
  (Simulator.enqueue (Addr.part 1) (TimeLike.lit 1 / TimeLike.lit 10000)
    { (Simulator.new () : World Nat Unit) with integrator := some Integrator.euler }).bind
    (Simulator.enqueue (Addr.part 2) 5)

/-- Example of `Event::run`: `EventStep::run` with the default hooks. -/
def exampleStepRun (e : Nat) (w : World Nat Unit) : Option (World Nat Unit) :=
  EventStep.run Hooks.base e 3 w

/-! ## OutputHolder.h: strings

A `std::string` is a list of characters.  `std::string::npos` is `none`.  The
conversion of a `size_type` to `int` takes the value in two's complement on 32
bits, and the conversion of an `int` to `size_type` takes it modulo `2 ^ 64`.
-/

/-- The search of `std::string::find`: the first position at which `a` occurs in
`s`, where `s` starts at position `p` of the string. -/
def findIn (a : List Char) : List Char → Nat → Option Nat
  | [], p => if a = [] then some p else none
  | c :: s, p => if a.isPrefixOf (c :: s) then some p else findIn a s (p + 1)

/-- The call `target.find (a, i)` of `std::string`. -/
def stringFind (target a : List Char) (i : Nat) : Option Nat :=
  if i ≤ target.length then findIn a (target.drop i) i else none

/-- The call `target.substr (pos, n)` of `std::string`: it throws when `pos` is
behind the end. -/
def substr (target : List Char) (pos n : Nat) : Option (List Char) :=
  if pos ≤ target.length then some ((target.drop pos).take n) else none

/-- The value of an `int` variable that is assigned the result of
`std::string::find`. -/
def intOfFind : Option Nat → Int
  | none => -1
  | some p => wrapInt p

/-- The conversion of an `int` to `size_type`. -/
def toSize (x : Int) : Nat :=
  (x % 2 ^ 64).toNat

/-- The loop of `replace_all`, one iteration per unit of fuel:
```
while (i < count)
{
    int next = target.find (a, i);
    if (next == std::string::npos)
    {
        result += target.substr (i, count - i);
        break;
    }
    result += target.substr (i, next - i);
    result += b;
    i = next + countA;
}
``` -/
def replace_allLoop (target a b : List Char) (count countA : Int) :
    Nat → Int → List Char → Option (List Char)
  | 0, _, _ => none
  | fuel + 1, i, result =>
    if i < count then
      let next := intOfFind (stringFind target a (toSize i))
      if next = -1 then
        (substr target (toSize i) (toSize (wrapInt (count - i)))).map fun s => result ++ s
      else
        (substr target (toSize i) (toSize (wrapInt (next - i)))).bind fun s =>
        replace_allLoop target a b count countA fuel (wrapInt (next + countA)) (result ++ s ++ b)
    else some result

/-- `replace_all (target, a, b)`; the calls of `reserve` change the capacity of
`result` only. -/
def replace_all (target a b : List Char) (fuel : Nat) : Option (List Char) :=
  replace_allLoop target a b (wrapInt target.length) (wrapInt a.length) fuel 0 []

/-- Replacing from left to right: the text `s` with every occurrence of `a`
replaced by `b`, where the first `skip` characters of `s` belong to an occurrence
that has been replaced already. -/
def replaceList (a b : List Char) : Nat → List Char → List Char
  | _, [] => []
  | skip + 1, _ :: s => replaceList a b skip s
  | 0, c :: s =>
    if a.isPrefixOf (c :: s) then b ++ replaceList a b (a.length - 1) s
    else c :: replaceList a b 0 s

/-- The number of occurrences of `a` in `s` that are replaced from left to
right. -/
def occurrences (a : List Char) : Nat → List Char → Nat
  | _, [] => 0
  | skip + 1, _ :: s => occurrences a skip s
  | 0, c :: s =>
    if a.isPrefixOf (c :: s) then 1 + occurrences a (a.length - 1) s
    else occurrences a 0 s

/-! ## OutputHolder.h: class OutputHolder

Conventions of this part of the embedding.

* A `float` is a value of a type `V` with a linear order; `NAN` in `columnValues`
  is `none`.  The functions of the C library that the class calls on a `float`
  are the argument `F : Format`.
* `columnMap`, a `std::unordered_map`, is the list of its entries in the order
  in which they were inserted.  The order in which a loop
  `for (auto & it : columnMap)` meets the entries is left open by the source: it
  is the argument `F.iterate`, which lists every entry once.  A `std::map` is
  the list of its entries in ascending order of the keys.
* `out` tells whether the pointer `out` is not null; the text sent to `*out` is
  `written`, and `modes` is the content of the file `columnFileName`.
* The number of columns is a value of `int`.
-/

/-- What the class leaves to the library: the functions used on a `float`,
`(int) round (x)`, the output of `sprintf` with `%g` and the output of
`operator<<` (`shift`), and the order in which a `std::unordered_map` with the
entries `m`, listed as they were inserted, is iterated. -/
structure Format (V : Type) where
  round : V → Int
  g : V → List Char
  shift : V → List Char
  iterate : List (List Char × Nat) → List (List Char × Nat)
  visits : ∀ m, (iterate m).Perm m

/-- `split (source, delimiter, first, second)`: the strings `first` and
`second`. -/
def split (source delimiter : List Char) : Option (List Char × List Char) :=
  let index := intOfFind (stringFind source delimiter 0)
  if index = -1 then some (source, [])
  else
    (substr source 0 (toSize index)).bind fun first =>
    (substr source ((toSize index + delimiter.length) % 2 ^ 64) source.length).map fun second =>
    (first, second)

/-- `trim (source)`: `begin` and `end` are the positions of the first and the
last character that is not one of `" \t\r\n"`. -/
def trim (source : List Char) : List Char :=
  let space := fun c => " \t\r\n".toList.contains c
  match source.findIdx? (fun c => !space c), source.reverse.findIdx? (fun c => !space c) with
  | some b, some fromEnd =>
    let e := source.length - 1 - fromEnd
    (source.drop b).take (e - b + 1)
  | _, _ => []

/-- The assignment `m[key] = value` of a `std::map`. -/
def mapAssign {K W : Type} [LinearOrder K] (key : K) (value : W) : List (K × W) → List (K × W)
  | [] => [(key, value)]
  | (k, v) :: m =>
    if key < k then (key, value) :: (k, v) :: m
    else if key = k then (k, value) :: m
    else (k, v) :: mapAssign key value m

/-- The assignment `m[key] = value` of a `std::unordered_map`. -/
def umapAssign {K W : Type} [DecidableEq K] (key : K) (value : W) : List (K × W) → List (K × W)
  | [] => [(key, value)]
  | (k, v) :: m => if key = k then (k, value) :: m else (k, v) :: umapAssign key value m

/-- The call `m.find (key)` of a `std::unordered_map`: the value found. -/
def umapFind {K W : Type} [DecidableEq K] (key : K) : List (K × W) → Option W
  | [] => none
  | (k, v) :: m => if key = k then some v else umapFind key m

/-- The state of an `OutputHolder`. -/
structure OutputHolder (V : Type) where
  fileName : List Char
  columnFileName : List Char
  raw : Bool
  out : Bool
  columnMap : List (List Char × Nat)
  columnMode : List (List (List Char × List Char))
  columnValues : List (Option V)
  columnsPrevious : Nat
  traceReceived : Bool
  t : V
  written : List Char
  modes : Option (List Char)

/-- `OutputHolder::OutputHolder (fileName)`. -/
def OutputHolder.new {V : Type} [Zero V] (fileName : List Char) : OutputHolder V :=
  { fileName := fileName
    columnFileName := if fileName = [] then "out.columns".toList else fileName ++ ".columns".toList
    raw := false
    out := true
    columnMap := []
    columnMode := []
    columnValues := []
    columnsPrevious := 0
    traceReceived := false
    t := 0
    written := []
    modes := none }

/-- The inner loop of `OutputHolder::writeModes`:
`for (auto & nv : *mode) mo << " " << nv.first << ":" << nv.second << "\n";`. -/
def OutputHolder.modeLines : List (List Char × List Char) → List Char
  | [] => []
  | nv :: mode => " ".toList ++ nv.1 ++ ":".toList ++ nv.2 ++ "\n".toList ++ OutputHolder.modeLines mode

/-- The outer loop of `OutputHolder::writeModes` over the entries `it` of
`columnMap`: `int i = it.second; mo << i << ":" << it.first << "\n";
auto mode = columnMode[i];` and the inner loop. -/
def OutputHolder.columnLines (columnMode : List (List (List Char × List Char))) :
    List (List Char × Nat) → Option (List Char)
  | [] => some []
  | it :: rest =>
    match columnMode[it.2]? with
    | none => none
    | some mode =>
      (OutputHolder.columnLines columnMode rest).map fun text =>
        (toString it.2).toList ++ ":".toList ++ it.1 ++ "\n".toList ++
          OutputHolder.modeLines mode ++ text

/-- `OutputHolder::writeModes`: the file `columnFileName` is written anew, with
the columns in the order in which `columnMap` is iterated. -/
def OutputHolder.writeModes {V : Type} (F : Format V) (h : OutputHolder V) :
    Option (OutputHolder V) :=
  (OutputHolder.columnLines h.columnMode (F.iterate h.columnMap)).map fun text =>
    { h with modes := some ("N2A.schema=3\n".toList ++ text) }

/-- The loop `for (auto & it : columnMap) headers[it.second] = it.first;` of
`OutputHolder::writeTrace`. -/
def OutputHolder.headers : List (List Char × Nat) → List (List Char) → Option (List (List Char))
  | [], headers => some headers
  | it :: rest, headers =>
    if it.2 < headers.length then OutputHolder.headers rest (headers.set it.2 it.1) else none

/-- The text of one header in `OutputHolder::writeTrace`: in quotes, with the
quotes in it doubled, when it holds one of the characters of `" \t\","`. -/
def OutputHolder.header (header : List Char) : Option (List Char) :=
  if header.any (fun c => " \t\",".toList.contains c) then
    (replace_all header "\"".toList "\"\"".toList (header.length + 1)).map fun s =>
      "\"".toList ++ s ++ "\"".toList
  else some header

/-- The two loops of `OutputHolder::writeTrace` over the headers from position
`i` on: a tab for a column that was there in the previous cycle, a tab and the
header for a new column. -/
def OutputHolder.headerLine (columnsPrevious : Nat) : Nat → List (List Char) → Option (List Char)
  | _, [] => some []
  | i, header :: rest =>
    if i < columnsPrevious then
      (OutputHolder.headerLine columnsPrevious (i + 1) rest).map fun s => "\t".toList ++ s
    else
      (OutputHolder.header header).bind fun x =>
      (OutputHolder.headerLine columnsPrevious (i + 1) rest).map fun s => "\t".toList ++ x ++ s

/-- The loop of `OutputHolder::writeTrace` over the values:
`if (! std::isnan (c)) (*out) << c; if (i < last) (*out) << "\t";`. -/
def OutputHolder.valueLine {V : Type} (F : Format V) : List (Option V) → List Char
  | [] => []
  | [c] => (c.map F.shift).getD []
  | c :: rest => (c.map F.shift).getD [] ++ "\t".toList ++ OutputHolder.valueLine F rest

/-- `OutputHolder::writeTrace`. -/
def OutputHolder.writeTrace {V : Type} (F : Format V) (h : OutputHolder V) :
    Option (OutputHolder V) :=
  if h.traceReceived = false ∨ h.out = false then some h
  else
    let count := h.columnValues.length
    let h1 : Option (OutputHolder V) :=
      if count > h.columnsPrevious then
        let h2 : Option (OutputHolder V) :=
          if h.raw = false then
            (OutputHolder.headers (F.iterate h.columnMap) (List.replicate count [])).bind
              fun headers =>
            (OutputHolder.headerLine h.columnsPrevious 1 headers.tail).map fun line =>
              { h with written := h.written ++ headers.headD [] ++ line ++ "\n".toList }
          else some h
        h2.bind fun h3 => OutputHolder.writeModes F { h3 with columnsPrevious := count }
      else some h
    h1.map fun h4 =>
      { h4 with
        written := h4.written ++ OutputHolder.valueLine F h4.columnValues ++ "\n".toList
        columnValues := List.replicate count none
        traceReceived := false }

/-- `OutputHolder::trace (float now)`. -/
def OutputHolder.traceTime {V : Type} [LinearOrder V] (F : Format V) (now : V)
    (h : OutputHolder V) : Option (OutputHolder V) :=
  let h1 : Option (OutputHolder V) :=
    if now > h.t then (OutputHolder.writeTrace F h).map fun h2 => { h2 with t := now }
    else some h
  h1.map fun h3 =>
    if h3.traceReceived = false then
      if h3.columnValues = [] then
        { h3 with
          columnMap := umapAssign "$t".toList 0 h3.columnMap
          columnValues := h3.columnValues ++ [some h3.t]
          columnMode := h3.columnMode ++ [[]]
          traceReceived := true }
      else { h3 with columnValues := h3.columnValues.set 0 (some h3.t), traceReceived := true }
    else h3

/-- The assignment `(*c)[key] = value` for `c = columnMode[i]`. -/
def OutputHolder.setMode (i : Nat) (key value : List Char)
    (columnMode : List (List (List Char × List Char))) :
    Option (List (List (List Char × List Char))) :=
  columnMode[i]?.map fun c => columnMode.set i (mapAssign key value c)

/-- The loop of `OutputHolder::addMode`, with `result` the position in
`columnMode` of the map `result`:
```
while (! rest.empty ())
{
    split (rest, ",", hint, rest);
    hint = trim (hint);
    split (hint, "=", key, value);
    if (key == "timeScale") (*columnMode[0])["scale"] = value;
    else if (key == "ymin"  ||  key == "ymax"  ||  key == "xmin"  ||  key == "xmax")
        (*columnMode[0])[key] = value;
    else (*result)[key] = value;
}
``` -/
def OutputHolder.addModeLoop (result : Nat) :
    Nat → List Char → List (List (List Char × List Char)) →
      Option (List (List (List Char × List Char)))
  | 0, _, _ => none
  | fuel + 1, rest, columnMode =>
    if rest = [] then some columnMode
    else
      (split rest ",".toList).bind fun r1 =>
      (split (trim r1.1) "=".toList).bind fun r2 =>
      let key := r2.1
      let value := r2.2
      let columnMode1 :=
        if key = "timeScale".toList then OutputHolder.setMode 0 "scale".toList value columnMode
        else if key = "ymin".toList ∨ key = "ymax".toList ∨ key = "xmin".toList ∨
            key = "xmax".toList then OutputHolder.setMode 0 key value columnMode
        else OutputHolder.setMode result key value columnMode
      columnMode1.bind fun m => OutputHolder.addModeLoop result fuel r1.2 m

/-- `OutputHolder::addMode (mode)`; `mode` is `none` for the null pointer. -/
def OutputHolder.addMode {V : Type} (mode : Option (List Char)) (h : OutputHolder V) :
    Option (OutputHolder V) :=
  let columnMode := h.columnMode ++ [[]]
  match mode with
  | none => some { h with columnMode := columnMode }
  | some rest =>
    (OutputHolder.addModeLoop h.columnMode.length (rest.length + 1) rest columnMode).map fun m =>
      { h with columnMode := m }

/-- The part of the two functions `trace` after the name of the column is
known: `columnMap.find (columnName)`, and a new column or an assignment.  In raw
mode `index` is the variable `index` for a new column. -/
def OutputHolder.put {V : Type} (columnName : List Char) (index : Option Int) (value : V)
    (mode : Option (List Char)) (h : OutputHolder V) : Option (OutputHolder V) :=
  match umapFind columnName h.columnMap with
  | none =>
    let h1 : Option (OutputHolder V) :=
      match index with
      | none => some h
      | some index =>
        -- `index++; columnValues.resize (index, NAN);`
        if 0 ≤ index + 1 then
          some { h with columnValues := h.columnValues.take (index + 1).toNat ++
            List.replicate ((index + 1).toNat - h.columnValues.length) none }
        else none
    h1.bind fun h2 =>
      OutputHolder.addMode mode
        { h2 with
          columnMap := umapAssign columnName h2.columnValues.length h2.columnMap
          columnValues := h2.columnValues ++ [some value] }
  | some i =>
    if i < h.columnValues.length then
      some { h with columnValues := h.columnValues.set i (some value) }
    else none

/-- `OutputHolder::trace (float now, const std::string & column, float value,
const char * mode)`. -/
def OutputHolder.trace {V : Type} [LinearOrder V] (F : Format V) (now : V) (column : List Char)
    (value : V) (mode : Option (List Char)) (h : OutputHolder V) : Option (OutputHolder V) :=
  (OutputHolder.traceTime F now h).bind fun h1 => OutputHolder.put column none value mode h1

/-- `OutputHolder::trace (float now, float column, float value, const char * mode)`:
the name of the column is the output of `sprintf` with `%i` for the rounded
number in raw mode, and with `%g` otherwise. -/
def OutputHolder.traceNumber {V : Type} [LinearOrder V] (F : Format V) (now : V) (column : V)
    (value : V) (mode : Option (List Char)) (h : OutputHolder V) : Option (OutputHolder V) :=
  (OutputHolder.traceTime F now h).bind fun h1 =>
    if h1.raw then
      OutputHolder.put (toString (F.round column)).toList (some (F.round column)) value mode h1
    else OutputHolder.put (F.g column) none value mode h1

/-! ### OutputHolder: sequences of calls of `trace` -/

/-- The arguments of a call `trace (now, column, value, mode)`. -/
structure TraceCall (V : Type) where
  now : V
  column : List Char
  value : V
  mode : Option (List Char)

/-- A sequence of calls of `trace`, one after the other. -/
def OutputHolder.traces {V : Type} [LinearOrder V] (F : Format V) :
    List (TraceCall V) → OutputHolder V → Option (OutputHolder V)
  | [], h => some h
  | c :: cs, h =>
    (OutputHolder.trace F c.now c.column c.value c.mode h).bind (OutputHolder.traces F cs)

/-- The names `seen` so far, and `name` behind them when it is new. -/
def noteName (seen : List (List Char)) (name : List Char) : List (List Char) :=
  if name ∈ seen then seen else seen ++ [name]

/-- The distinct names of a sequence of names, in the order in which they come
first. -/
def firstTraced (names : List (List Char)) : List (List Char) :=
  names.foldl noteName []

/-- The names `names` with the indices `k`, `k + 1`, ... in this order. -/
def indexedFrom (k : Nat) : List (List Char) → List (List Char × Nat)
  | [] => []
  | n :: ns => (n, k) :: indexedFrom (k + 1) ns

/-- The time of a holder after the calls with the times `nows`: `t` is replaced
by every `now` that is greater. -/
def latest {V : Type} [LinearOrder V] (t : V) (nows : List V) : V :=
  nows.foldl (fun t now => if now > t then now else t) t

/-- A holder as its constructor leaves it, as far as the columns go. -/
structure OutputHolder.Fresh {V : Type} (h : OutputHolder V) : Prop where
  out : h.out = true
  raw : h.raw = false
  map : h.columnMap = []
  values : h.columnValues = []
  mode : h.columnMode = []
  received : h.traceReceived = false

/-- A holder that is not raw and whose columns are `$t` with index `0` and the
names `seen` with the indices `1, 2, ...`. -/
structure OutputHolder.Good {V : Type} (h : OutputHolder V) (seen : List (List Char)) : Prop where
  out : h.out = true
  raw : h.raw = false
  map : h.columnMap = ("$t".toList, 0) :: indexedFrom 1 seen
  values : h.columnValues.length = seen.length + 1
  mode : h.columnMode.length = seen.length + 1
  short : ∀ n ∈ seen, n.length < 2 ^ 31
  time : h.traceReceived = true → h.columnValues[0]? = some (some h.t)

/-- Example of the functions on `float`, for values that are integers; a
`std::unordered_map` is iterated from the entry inserted last to the one
inserted first. -/
def exampleFormat : Format Int :=
  { round := id, g := fun x => (toString x).toList, shift := fun x => (toString x).toList,
    iterate := List.reverse, visits := List.reverse_perm }

/-- Example of the functions on `float` with a `std::unordered_map` that is
iterated from the entry inserted first to the one inserted last. -/
def exampleForward : Format Int :=
  { round := id, g := fun x => (toString x).toList, shift := fun x => (toString x).toList,
    iterate := id, visits := List.Perm.refl }

/-- Example holder: a new holder after `trace (0, "x", 5, "k=v,a=b")`. -/
def exampleTraced : OutputHolder Int :=
  { (OutputHolder.new "f".toList : OutputHolder Int) with
    columnMap := [("$t".toList, 0), ("x".toList, 1)]
    columnMode := [[], [("a".toList, "b".toList), ("k".toList, "v".toList)]]
    columnValues := [some 0, some 5]
    traceReceived := true }

/-- Example holder: a new holder in raw mode. -/
def exampleRaw : OutputHolder Int :=
  { (OutputHolder.new "f".toList : OutputHolder Int) with raw := true }

/-- Example calls: `x`, `y z`, and `x` again at a later time. -/
def exampleCalls : List (TraceCall Int) :=
  [⟨0, "x".toList, 5, some "color=red, timeScale=2".toList⟩, ⟨1, "y z".toList, 6, none⟩,
   ⟨2, "x".toList, 7, none⟩]

/-- Example store: `exampleTimed` during a walk of visitor `0`, with the cursor on
part `1` and part `2` the current part. -/
def exampleCursor : World Nat Unit :=
  { exampleTimed with
    vprevious := fun _ => some (Addr.part 1)
    vpart := fun _ => some (Addr.part 2) }


/-! ### Population::connect and the values of getMin -/

/-- Two stores that differ at most in the record of calls. -/
structure PopWorld.Alike (w w1 : PopWorld T U) : Prop where
  after : w1.after = w.after
  before : w1.before = w.before
  old : w1.old = w.old
  dead : w1.dead = w.dead
  next : w1.next = w.next
  bound : w1.bound = w.bound
  proposed : w1.proposed = w.proposed
  accepted : w1.accepted = w.accepted
  user : w1.user = w.user

/-- The hooks of `H1` that `Population::connect` calls in its loops answer as
those of `H` do, whatever the record of calls holds. -/
structure PopHooks.Agree (H H1 : PopHooks T U) : Prop where
  create : ∀ P w w1, PopWorld.Alike w w1 → H1.create P w1 = H.create P w
  delete : ∀ c w w1, PopWorld.Alike w w1 → H1.delete c w1 = H.delete c w
  setPart : ∀ c i p w w1, PopWorld.Alike w w1 → H1.setPart c i p w1 = H.setPart c i p w
  getCount : ∀ c i w w1, PopWorld.Alike w w1 → H1.getCount c i w1 = H.getCount c i w
  getP : ∀ c w w1, PopWorld.Alike w w1 → H1.getP c w1 = H.getP c w
  uniform : ∀ w w1, PopWorld.Alike w w1 → H1.uniform w1 = H.uniform w
  enterSimulation : ∀ c w w1, PopWorld.Alike w w1 →
    H1.enterSimulation c w1 = H.enterSimulation c w
  enqueue : ∀ p c w w1, PopWorld.Alike w w1 → H1.enqueue p c w1 = H.enqueue p c w
  init : ∀ c w w1, PopWorld.Alike w w1 → H1.init c w1 = H.init c w

/-- Hooks that do not see the record of calls, which is instrumentation of the
embedding and no object of the program. -/
def PopHooks.Blind (H : PopHooks T U) : Prop :=
  PopHooks.Agree H H

/-- The hooks `H` with `getMin` replaced by `g`. -/
def PopHooks.withMin (H : PopHooks T U) (g : Nat → Nat → PopWorld T U → Int) : PopHooks T U :=
  { H with getMin := g }

/-- Two walks that differ at most in `outerMin`. -/
def Walk.Alike (k k1 : Walk) : Prop :=
  k1.outerIndex = k.outerIndex ∧ k1.innerIndex = k.innerIndex ∧ k1.outerMax = k.outerMax ∧
    k1.innerMax = k.innerMax

/-- Local variables of an inner loop of walk `k` that agree but for the count,
which the loop reads only when the cap `outerMax` is not zero. -/
def Scan.Alike (k : Walk) (s s1 : Scan) : Prop :=
  s1.c = s.c ∧ s1.cur = s.cur ∧ s1.nxt = s.nxt ∧ (k.outerMax ≠ 0 → s1.count = s.count)

/-- Example hooks without caps whose `getCount` changes the state of the model
code, which `getP` reads: `getMin` returns `m`. -/
def exampleCounting (m : Int) : PopHooks Nat Nat :=
  { exampleModel 0 0 with
    getMin := fun _ _ _ => m
    getCount := fun _ _ w => (0, w.user + 1000)
    getP := fun _ w => (if 1000 ≤ w.user then 1 else 0, w.user) }

/-! ## Theorems -/

/-! ### The binary heap under `queueEvent` -/

theorem perm_cons_eraseIdx {α : Type} : ∀ (l : List α) (i : Nat) (a : α), l[i]? = some a →
    List.Perm l (a :: l.eraseIdx i) := by
  intro l
  induction l with
  | nil => intro i a h; simp at h
  | cons x l ih =>
    intro i a h
    cases i with
    | zero => simp at h; subst h; simp
    | succ i =>
      simp at h
      simp only [List.eraseIdx_cons_succ]
      exact ((ih i a h).cons x).trans (List.Perm.swap a x _)

theorem set_perm_cons_eraseIdx {α : Type} : ∀ (l : List α) (i : Nat) (b : α), i < l.length →
    List.Perm (l.set i b) (b :: l.eraseIdx i) := by
  intro l
  induction l with
  | nil => intro i b h; simp at h
  | cons x l ih =>
    intro i b h
    cases i with
    | zero => simp
    | succ i =>
      simp at h
      simp only [List.set_cons_succ, List.eraseIdx_cons_succ]
      exact ((ih i b h).cons x).trans (List.Perm.swap b x _)

/-- Exchanging two entries of a list gives a permutation of it. -/
theorem swap_perm {α : Type} (l : List α) (i j : Nat) (a b : α) (hij : i ≠ j)
    (hi : l[i]? = some a) (hj : l[j]? = some b) : List.Perm ((l.set i b).set j a) l := by
  have hil : i < l.length := (List.getElem?_eq_some.mp hi).1
  have hjl : j < l.length := (List.getElem?_eq_some.mp hj).1
  have h1 : List.Perm ((l.set i b).set j a) (a :: (l.set i b).eraseIdx j) :=
    set_perm_cons_eraseIdx _ _ _ (by simpa using hjl)
  have h2 : List.Perm (l.set i b) (b :: (l.set i b).eraseIdx j) :=
    perm_cons_eraseIdx _ _ _ (by rw [List.getElem?_set_ne hij]; exact hj)
  have h3 : List.Perm (l.set i b) (b :: l.eraseIdx i) := set_perm_cons_eraseIdx _ _ _ hil
  have h4 : List.Perm ((l.set i b).eraseIdx j) (l.eraseIdx i) :=
    List.Perm.cons_inv (h2.symm.trans h3)
  exact (h1.trans (h4.cons a)).trans (perm_cons_eraseIdx l i a hi).symm

theorem parent_lt {h : Nat} (hh : 0 < h) : (h - 1) / 2 < h := by omega

theorem Heap.pushHeapLoop_perm {α : Type} (comp : α → α → Bool) (v : α) (top : Nat) :
    ∀ (fuel : Nat) (first : List α) (h : Nat), h < first.length →
      List.Perm (Heap.pushHeapLoop comp v top fuel first h) (first.set h v) := by
  intro fuel
  induction fuel with
  | zero => intro first h _; exact List.Perm.refl _
  | succ fuel ih =>
    intro first h hh
    simp only [Heap.pushHeapLoop]
    split
    · rename_i hpos
      split
      · rename_i pv hpv
        split
        · have hpl : (h - 1) / 2 < first.length := by omega
          refine (ih (first.set h pv) ((h - 1) / 2) (by simpa using hpl)).trans ?_
          have : (first.set h pv).set ((h - 1) / 2) v =
              ((first.set h v).set h pv).set ((h - 1) / 2) v := by rw [List.set_set]
          rw [this]
          exact swap_perm (first.set h v) h ((h - 1) / 2) v pv (by omega)
            (List.getElem?_set_self hh)
            (by rw [List.getElem?_set_ne (by omega)]; exact hpv)
        · exact List.Perm.refl _
      · exact List.Perm.refl _
    · exact List.Perm.refl _

/-- Whatever the comparator, `push` adds the event to the queue and nothing else. -/
theorem Heap.push_perm {α : Type} (comp : α → α → Bool) (x : α) (q : List α) :
    List.Perm (Heap.push comp x q) (q ++ [x]) := by
  have hrun : Heap.push comp x q =
      Heap.pushHeapLoop comp x 0 q.length (q ++ [x]) q.length := by
    simp [Heap.push, Heap.pushHeap, Heap.pushHeapAt]
  have hset : (q ++ [x]).set q.length x = q ++ [x] := by
    apply List.ext_getElem?
    intro j
    by_cases hj : j = q.length
    · subst hj
      rw [List.getElem?_set_self (by simp)]
      simp
    · rw [List.getElem?_set_ne (Ne.symm hj)]
  rw [hrun]
  have := Heap.pushHeapLoop_perm comp x 0 q.length (q ++ [x]) q.length (by simp)
  rwa [hset] at this

/-! ### Walks over a part queue -/

theorem lastOf_append_singleton (a p : Addr) (l : List Addr) : lastOf a (l ++ [p]) = p := by
  induction l generalizing a with
  | nil => rfl
  | cons q l ih => exact ih q

theorem Linked.cursor {next : Addr → Option Addr} :
    ∀ (pre : List Addr) (a : Addr) (rest : List Addr),
      Linked next a (pre ++ rest) → Linked next (lastOf a pre) rest := by
  intro pre
  induction pre with
  | nil => intro a rest h; exact h
  | cons q pre ih => intro a rest h; exact ih q rest h.2

theorem Linked.unique {next : Addr → Option Addr} :
    ∀ (l1 l2 : List Addr) (a : Addr), Linked next a l1 → Linked next a l2 → l1 = l2 := by
  intro l1
  induction l1 with
  | nil =>
    intro l2 a h1 h2
    cases l2 with
    | nil => rfl
    | cons q l2 => simp [Linked] at h1 h2; rw [h1] at h2; exact absurd h2.1 (by simp)
  | cons p l1 ih =>
    intro l2 a h1 h2
    cases l2 with
    | nil => simp [Linked] at h1 h2; rw [h2] at h1; exact absurd h1.1 (by simp)
    | cons q l2 =>
      obtain ⟨h1a, h1b⟩ := h1
      obtain ⟨h2a, h2b⟩ := h2
      rw [h1a] at h2a
      cases h2a
      rw [ih l2 p h1b h2b]

theorem Linked.suffix {next : Addr → Option Addr} :
    ∀ (l1 : List Addr) (a b : Addr) (l2 : List Addr),
      Linked next a (l1 ++ b :: l2) → Linked next b l2 := by
  intro l1
  induction l1 with
  | nil => intro a b l2 h; exact h.2
  | cons q l1 ih => intro a b l2 h; exact ih q b l2 h.2

theorem Linked.not_mem {next : Addr → Option Addr} {a : Addr} {l : List Addr}
    (h : Linked next a l) : a ∉ l := by
  intro hmem
  obtain ⟨l1, l2, rfl⟩ := List.append_of_mem hmem
  have h2 := Linked.suffix l1 a a l2 h
  have := Linked.unique _ _ a h h2
  have hlen := congrArg List.length this
  simp at hlen
  omega

theorem Linked.frame {next next1 : Addr → Option Addr} :
    ∀ (l : List Addr) (a : Addr), (∀ x, x = a ∨ x ∈ l → next1 x = next x) →
      Linked next a l → Linked next1 a l := by
  intro l
  induction l with
  | nil => intro a hx h; simp only [Linked] at h ⊢; rw [hx a (Or.inl rfl)]; exact h
  | cons p l ih =>
    intro a hx h
    refine ⟨by rw [hx a (Or.inl rfl)]; exact h.1, ih p ?_ h.2⟩
    intro x hxm
    apply hx
    rcases hxm with rfl | hm
    · exact Or.inr (List.mem_cons_self _ _)
    · exact Or.inr (List.mem_cons_of_mem _ hm)

theorem Linked.nodup {next : Addr → Option Addr} :
    ∀ (l : List Addr) (a : Addr), Linked next a l → (a :: l).Nodup := by
  intro l
  induction l with
  | nil => intro a _; simp
  | cons p l ih =>
    intro a h
    exact List.nodup_cons.mpr ⟨h.not_mem, ih p h.2⟩

theorem Linked.remove {next : Addr → Option Addr} :
    ∀ (pre : List Addr) (a p : Addr) (rest : List Addr),
      Linked next a (pre ++ p :: rest) →
      Linked (upd next (lastOf a pre) (next p)) a (pre ++ rest) := by
  intro pre
  induction pre with
  | nil =>
    intro a p rest h
    have hnd := Linked.nodup _ _ h
    obtain ⟨h1, h2⟩ := h
    have hap : a ≠ p := by
      intro e; subst e; simp at hnd
    have hp : p ∉ rest := h2.not_mem
    have ha : a ∉ rest := by
      intro hm; simp at hnd; exact hnd.1.2 hm
    simp only [lastOf, List.nil_append]
    cases rest with
    | nil => simp only [Linked] at h2 ⊢; simp [upd, h2]
    | cons r rest =>
      obtain ⟨h3, h4⟩ := h2
      refine ⟨by simp [upd, h3], Linked.frame _ _ ?_ h4⟩
      intro x hx
      have : x ≠ a := by
        rintro rfl
        rcases hx with rfl | hm
        · exact ha (List.mem_cons_self _ _)
        · exact ha (List.mem_cons_of_mem _ hm)
      simp [upd, this]
  | cons q pre ih =>
    intro a p rest h
    have hnd := Linked.nodup _ _ h
    obtain ⟨h1, h2⟩ := h
    have := ih q p rest h2
    have hne : a ≠ lastOf q pre := by
      intro e
      have hmem : lastOf q pre ∈ q :: pre := by
        clear * -
        induction pre generalizing q with
        | nil => simp [lastOf]
        | cons r pre ih => 
          simp only [lastOf]
          exact List.mem_cons_of_mem _ (ih r)
      rw [← e] at hmem
      simp at hnd
      rcases List.mem_cons.mp hmem with rfl | hm
      · exact hnd.1.1 rfl
      · exact hnd.1.2.1 hm
    refine ⟨?_, this⟩
    show upd next (lastOf q pre) (next p) a = some q
    simp [upd, hne, h1]


theorem setPrevious_frame (a : Addr) (p : Option Addr) (w : World T U) :
    setPrevious a p w = { w with previous := (setPrevious a p w).previous } := by
  cases a with
  | part i => 
    simp only [setPrevious]
    split <;> rfl
  | queue v => rfl

/-- One iteration of the walk in which the cursor advances. -/
theorem visitLoop_advance (f : VisitorFunction T U) (v n : Nat) (w : World T U) (c p c2 : Addr)
    (hc : w.vprevious v = some c) (hcp : w.next c = some p)
    (h2 : (f v (w.atPart v p)).vprevious v = some c2)
    (h3 : (f v (w.atPart v p)).next c2 = (f v (w.atPart v p)).vpart v) :
    VisitorStep.visitLoop f v (n + 1) w = VisitorStep.visitLoop f v n
      { f v (w.atPart v p) with
        vprevious := upd (f v (w.atPart v p)).vprevious v ((f v (w.atPart v p)).vpart v) } := by
  simp only [VisitorStep.visitLoop, hc, hcp]
  rw [h2]
  simp only [h3, if_true]

/-- One iteration of the walk in which the cursor stays. -/
theorem visitLoop_stay (f : VisitorFunction T U) (v n : Nat) (w : World T U) (c p c2 : Addr)
    (hc : w.vprevious v = some c) (hcp : w.next c = some p)
    (h2 : (f v (w.atPart v p)).vprevious v = some c2)
    (h3 : (f v (w.atPart v p)).next c2 ≠ (f v (w.atPart v p)).vpart v) :
    VisitorStep.visitLoop f v (n + 1) w = VisitorStep.visitLoop f v n (f v (w.atPart v p)) := by
  simp only [VisitorStep.visitLoop, hc, hcp]
  rw [h2]
  simp only [h3, if_false]

theorem SameBut.refl (w : World T U) : SameBut w w := rfl

theorem SameBut.trans {w w1 w2 : World T U} (h1 : SameBut w w1) (h2 : SameBut w1 w2) :
    SameBut w w2 := by
  unfold SameBut at *
  rw [h2, h1]

theorem callOn_framed (c : Addr → Call T) (h : Addr → World T U → World T U)
    (hh : ∀ p, KeepsRuntime (h p)) (v : Nat) : Framed (callOn c h) v (fun p => [c p]) := by
  intro w p hp
  simp only [callOn, hp]
  rw [hh p (w.record (c p))]
  rfl

theorem callOn2_framed (c1 : Addr → Call T) (h1 : Addr → World T U → World T U)
    (c2 : Addr → Call T) (h2 : Addr → World T U → World T U)
    (hh1 : ∀ p, KeepsRuntime (h1 p)) (hh2 : ∀ p, KeepsRuntime (h2 p)) (v : Nat) :
    Framed (callOn2 c1 h1 c2 h2) v (fun p => [c1 p, c2 p]) := by
  intro w p hp
  have e1 := callOn_framed c1 h1 hh1 v w p hp
  have hp2 : (callOn c1 h1 v w).vpart v = some p := by rw [e1]; exact hp
  have e2 := callOn_framed c2 h2 hh2 v _ p hp2
  simp only [callOn2]
  rw [e2, e1]
  simp

theorem visitLoop_framed (f : VisitorFunction T U) (v : Nat) (g : Addr → List (Call T))
    (hf : Framed f v g) :
    ∀ (ps : List Addr) (c : Addr) (w : World T U), w.vprevious v = some c →
      Linked w.next c ps → ∀ fuel, ps.length < fuel →
      ∃ w1, VisitorStep.visitLoop f v fuel w = some w1 ∧ SameBut w w1 ∧ w1.next = w.next ∧
        w1.previous = w.previous ∧
        w1.calls = w.calls ++ passCalls g ps ∧ w1.visited = w.visited ++ ps := by
  intro ps
  induction ps with
  | nil =>
    intro c w hc hl fuel hfuel
    obtain ⟨n, rfl⟩ : ∃ n, fuel = n + 1 := ⟨fuel - 1, by simp at hfuel; omega⟩
    simp only [Linked] at hl
    refine ⟨w, ?_, SameBut.refl w, rfl, rfl, by simp [passCalls], by simp⟩
    simp [VisitorStep.visitLoop, hc, hl]
  | cons p ps ih =>
    intro c w hc hl fuel hfuel
    obtain ⟨n, rfl⟩ : ∃ n, fuel = n + 1 := ⟨fuel - 1, by simp at hfuel; omega⟩
    have hlen : ps.length < n := by simp at hfuel; omega
    obtain ⟨hcp, hrest⟩ := hl
    have hw0p : (w.atPart v p).vpart v = some p := by simp [World.atPart, upd]
    have hfw := hf (w.atPart v p) p hw0p
    obtain ⟨wf, hwf⟩ : ∃ wf, wf = f v (w.atPart v p) := ⟨_, rfl⟩
    rw [← hwf] at hfw
    have e1 : wf.vprevious v = some c := by rw [hfw]; exact hc
    have e2 : wf.vpart v = some p := by rw [hfw]; exact hw0p
    have e3 : wf.next = w.next := by rw [hfw]; rfl
    have e4 : wf.calls = w.calls ++ g p := by rw [hfw]; rfl
    have e5 : wf.visited = w.visited ++ [p] := by rw [hfw]; rfl
    have e6 : wf.previous = w.previous := by rw [hfw]; rfl
    have e7 : SameBut w wf := by
      unfold SameBut
      rw [hfw]
      rfl
    have hadv := visitLoop_advance f v n w c p c hc hcp
      (by rw [← hwf]; exact e1) (by rw [← hwf, e3, e2]; exact hcp)
    rw [← hwf] at hadv
    obtain ⟨w1, h1, h2, h3, h4, h5, h6⟩ := ih p
      { wf with vprevious := upd wf.vprevious v (wf.vpart v) }
      (by simp [upd, e2]) (by simpa [e3] using hrest) n hlen
    refine ⟨w1, by rw [hadv]; exact h1, ?_, by rw [h3]; exact e3, by rw [h4]; exact e6, ?_, ?_⟩
    · refine SameBut.trans (SameBut.trans e7 ?_) h2
      rfl
    · rw [h5]; simp [e4, passCalls]
    · rw [h6]; simp [e5]

/-- A pass of `EventStep::visit` with a visitor function that only calls hooks
which change model state. -/
theorem visit_framed (f : VisitorFunction T U) (e : Nat) (g : Addr → List (Call T))
    (hf : Framed f e g) (w : World T U) (ps : List Addr) (hq : IsQueue w e ps)
    (fuel : Nat) (hfuel : ps.length < fuel) :
    ∃ w1, EventStep.visit f e fuel w = some w1 ∧ SameBut w w1 ∧ w1.next = w.next ∧
      w1.previous = w.previous ∧
      w1.calls = w.calls ++ passCalls g ps ∧ w1.visited = w.visited ++ ps := by
  obtain ⟨w1, h1, h2, h3, h4, h5, h6⟩ := visitLoop_framed f e g hf ps (Addr.queue e)
    { w with vprevious := upd w.vprevious e (some (Addr.queue e)) }
    (by simp [upd]) hq fuel hfuel
  exact ⟨w1, h1, SameBut.trans (by rfl) h2, h3, h4, h5, h6⟩

theorem SameBut.events {w w1 : World T U} (h : SameBut w w1) : w1.events = w.events := by
  unfold SameBut at h; rw [h]; rfl

theorem SameBut.queueConnect {w w1 : World T U} (h : SameBut w w1) :
    w1.queueConnect = w.queueConnect := by
  unfold SameBut at h; rw [h]

theorem SameBut.queueResize {w w1 : World T U} (h : SameBut w w1) :
    w1.queueResize = w.queueResize := by
  unfold SameBut at h; rw [h]

theorem SameBut.integrator {w w1 : World T U} (h : SameBut w w1) :
    w1.integrator = w.integrator := by
  unfold SameBut at h; rw [h]

theorem upd_upd_self {α β : Type} [DecidableEq α] (m : α → β) (a : α) (b : β) :
    upd (upd m a b) a (m a) = m := by
  funext x
  by_cases h : x = a
  · simp [upd, h]
  · simp [upd, h]

theorem RungeKutta.stage_spec [TimeLike T] (H : Hooks T U) (hp : H.PartsPure) (e : Nat)
    (w : World T U) (ps : List Addr) (hq : IsQueue w e ps) (fuel : Nat)
    (hfuel : ps.length < fuel) :
    ∃ w1, RungeKutta.stage H e fuel w = some w1 ∧ SameBut w w1 ∧ w1.next = w.next ∧
      w1.calls = w.calls ++ RungeKutta.stageCalls ps := by
  obtain ⟨w1, a1, a2, a3, _, a5, _⟩ := visit_framed _ e _
    (callOn_framed Call.integrate H.integrate hp.integrate e) w ps hq fuel hfuel
  obtain ⟨w2, b1, b2, b3, _, b5, _⟩ := visit_framed _ e _
    (callOn_framed Call.updateDerivative H.updateDerivative hp.updateDerivative e) w1 ps
    (by unfold IsQueue; rw [a3]; exact hq) fuel hfuel
  obtain ⟨w3, c1, c2, c3, _, c5, _⟩ := visit_framed _ e _
    (callOn2_framed Call.finalizeDerivative H.finalizeDerivative
      (fun p => Call.multiplyAddToStack p (TimeLike.lit 2))
      (fun p => H.multiplyAddToStack p (TimeLike.lit 2))
      hp.finalizeDerivative (fun p => hp.multiplyAddToStack p _) e) w2 ps
    (by unfold IsQueue; rw [b3, a3]; exact hq) fuel hfuel
  refine ⟨w3, ?_, (a2.trans b2).trans c2, by rw [c3, b3, a3], ?_⟩
  · simp only [RungeKutta.stage, a1, b1, Option.some_bind]
    exact c1
  · rw [c5, b5, a5]
    simp [RungeKutta.stageCalls, List.append_assoc]

theorem Euler.run_euler_spec (H : Hooks T U) (hp : H.PartsPure) (e : Nat)
    (w : World T U) (ps : List Addr) (hq : IsQueue w e ps) (fuel : Nat)
    (hfuel : ps.length < fuel) :
    ∃ w1, Euler.run H e fuel w = some w1 ∧ SameBut w w1 ∧ w1.next = w.next ∧
      w1.calls = w.calls ++ passCalls (fun p => [Call.integrate p]) ps := by
  obtain ⟨w1, a1, a2, a3, _, a5, _⟩ := visit_framed _ e _
    (callOn_framed Call.integrate H.integrate hp.integrate e) w ps hq fuel hfuel
  exact ⟨w1, a1, a2, a3, a5⟩

theorem RungeKutta.run_rk_spec [TimeLike T] (H : Hooks T U) (hp : H.PartsPure) (e : Nat)
    (w : World T U) (ps : List Addr) (hq : IsQueue w e ps) (fuel : Nat)
    (hfuel : ps.length < fuel) :
    ∃ w1, RungeKutta.run H e fuel w = some w1 ∧ SameBut w w1 ∧ w1.next = w.next ∧
      w1.calls = w.calls ++ RungeKutta.calls ps := by
  obtain ⟨w1, a1, a2, a3, _, a5, _⟩ := visit_framed _ e _
    (callOn2_framed Call.snapshot H.snapshot Call.pushDerivative H.pushDerivative
      hp.snapshot hp.pushDerivative e) w ps hq fuel hfuel
  obtain ⟨w3, hw3⟩ : ∃ w3 : World T U, w3 =
      { w1 with dt := upd w1.dt e (w1.dt e / TimeLike.lit 2),
                t := upd w1.t e (w1.t e - upd w1.dt e (w1.dt e / TimeLike.lit 2) e) } := ⟨_, rfl⟩
  have hq3 : IsQueue w3 e ps := by unfold IsQueue; rw [hw3]; simp only; rw [a3]; exact hq
  obtain ⟨w4, b1, b2, b3, b5⟩ := RungeKutta.stage_spec H hp e w3 ps hq3 fuel hfuel
  obtain ⟨w5, c1, c2, c3, c5⟩ := RungeKutta.stage_spec H hp e w4 ps
    (by unfold IsQueue; rw [b3]; exact hq3) fuel hfuel
  obtain ⟨w7, hw7⟩ : ∃ w7 : World T U, w7 =
      { w5 with dt := upd w5.dt e (w1.dt e), t := upd w5.t e (w1.t e) } := ⟨_, rfl⟩
  have h35 := b2.trans c2
  have h17 : SameBut w1 w7 := by
    unfold SameBut at h35 ⊢
    rw [hw7, h35, hw3]
    dsimp only
    rw [upd_upd_self, upd_upd_self]
  have hq7 : IsQueue w7 e ps := by
    unfold IsQueue; rw [hw7]; simp only; rw [c3, b3]; exact hq3
  have hc7 : w7.calls = w.calls ++ passCalls (fun p => [Call.snapshot p, Call.pushDerivative p]) ps
      ++ RungeKutta.stageCalls ps ++ RungeKutta.stageCalls ps := by
    rw [hw7]; simp only; rw [c5, b5, hw3]; simp only; rw [a5]
  obtain ⟨w8, d1, d2, d3, _, d5, _⟩ := visit_framed _ e _
    (callOn_framed Call.integrate H.integrate hp.integrate e) w7 ps hq7 fuel hfuel
  obtain ⟨w9, e1, e2, e3, _, e5, _⟩ := visit_framed _ e _
    (callOn_framed Call.updateDerivative H.updateDerivative hp.updateDerivative e) w8 ps
    (by unfold IsQueue; rw [d3]; exact hq7) fuel hfuel
  obtain ⟨w10, f1, f2, f3, _, f5, _⟩ := visit_framed _ e _
    (callOn2_framed Call.finalizeDerivative H.finalizeDerivative Call.addToMembers
      H.addToMembers hp.finalizeDerivative hp.addToMembers e) w9 ps
    (by unfold IsQueue; rw [e3, d3]; exact hq7) fuel hfuel
  obtain ⟨w11, g1, g2, g3, _, g5, _⟩ := visit_framed _ e _
    (callOn_framed (fun p => Call.multiply p (TimeLike.lit 1 / TimeLike.lit 6))
      (fun p => H.multiply p (TimeLike.lit 1 / TimeLike.lit 6))
      (fun p => hp.multiply p _) e) w10 ps
    (by unfold IsQueue; rw [f3, e3, d3]; exact hq7) fuel hfuel
  obtain ⟨w12, i1, i2, i3, _, i5, _⟩ := visit_framed _ e _
    (callOn_framed Call.integrate H.integrate hp.integrate e) w11 ps
    (by unfold IsQueue; rw [g3, f3, e3, d3]; exact hq7) fuel hfuel
  obtain ⟨w13, j1, j2, j3, _, j5, _⟩ := visit_framed _ e _
    (callOn_framed Call.restore H.restore hp.restore e) w12 ps
    (by unfold IsQueue; rw [i3, g3, f3, e3, d3]; exact hq7) fuel hfuel
  refine ⟨w13, ?_, ?_, ?_, ?_⟩
  · simp only [RungeKutta.run, a1, Option.some_bind]
    rw [← hw3]
    simp only [b1, c1, Option.some_bind]
    rw [← hw7]
    simp only [d1, e1, f1, g1, i1, Option.some_bind]
    exact j1
  · exact (((((((a2.trans h17).trans d2).trans e2).trans f2).trans g2).trans i2).trans j2)
  · rw [j3, i3, g3, f3, e3, d3]
    have := hq7
    rw [hw7]; simp only; rw [c3, b3, hw3]; simp only; exact a3
  · rw [j5, i5, g5, f5, e5, d5, hc7]
    simp [RungeKutta.calls, List.append_assoc]

theorem Integrator.run_integrator_spec [TimeLike T] (H : Hooks T U) (hp : H.PartsPure) (e : Nat)
    (w : World T U) (ps : List Addr) (hq : IsQueue w e ps) (i : Integrator)
    (hi : w.integrator = some i) (fuel : Nat) (hfuel : ps.length < fuel) :
    ∃ w1, Integrator.run H e fuel w = some w1 ∧ SameBut w w1 ∧ w1.next = w.next ∧
      w1.calls = w.calls ++ Integrator.calls i ps := by
  cases i with
  | euler =>
    simp only [Integrator.run, hi, Integrator.calls]
    exact Euler.run_euler_spec H hp e w ps hq fuel hfuel
  | rungeKutta =>
    simp only [Integrator.run, hi, Integrator.calls]
    exact RungeKutta.run_rk_spec H hp e w ps hq fuel hfuel

theorem Simulator.resizeAll_spec (H : Hooks T U) (hpop : H.PopulationsKeepEvents) :
    ∀ (l : List (Nat × Int)) (w : World T U),
      (l.foldl (fun s it => H.resize it.1 it.2 (s.record (Call.resize it.1 it.2))) w).events =
        w.events ∧
      (l.foldl (fun s it => H.resize it.1 it.2 (s.record (Call.resize it.1 it.2))) w).queueConnect =
        w.queueConnect ∧
      (l.foldl (fun s it => H.resize it.1 it.2 (s.record (Call.resize it.1 it.2))) w).calls =
        w.calls ++ l.map (fun it => Call.resize it.1 it.2) := by
  intro l
  induction l with
  | nil => intro w; simp
  | cons it l ih =>
    intro w
    obtain ⟨h1, h2, h3⟩ := ih (H.resize it.1 it.2 (w.record (Call.resize it.1 it.2)))
    obtain ⟨k1, k2, k3⟩ := hpop.resize it.1 it.2 (w.record (Call.resize it.1 it.2))
    simp only [List.foldl_cons]
    refine ⟨by rw [h1, k1]; rfl, by rw [h2, k2]; rfl, ?_⟩
    rw [h3, k3]
    simp [World.record]

theorem Simulator.connectLoop_spec (H : Hooks T U) (hpop : H.PopulationsKeepEvents) :
    ∀ (q : List Nat) (fuel : Nat) (w : World T U), w.queueConnect = q → q.length ≤ fuel →
      ∃ w1, Simulator.connectLoop H fuel w = some w1 ∧ w1.events = w.events ∧
        w1.queueConnect = [] ∧ w1.calls = w.calls ++ q.map Call.connect := by
  intro q
  induction q with
  | nil =>
    intro fuel w hq _
    refine ⟨w, ?_, rfl, hq, by simp⟩
    cases fuel with
    | zero => simp [Simulator.connectLoop, hq]
    | succ n => simp [Simulator.connectLoop, hq]
  | cons x q ih =>
    intro fuel w hq hfuel
    obtain ⟨n, rfl⟩ : ∃ n, fuel = n + 1 := ⟨fuel - 1, by simp at hfuel; omega⟩
    obtain ⟨k1, k2, k3⟩ := hpop.connect x (w.record (Call.connect x))
    obtain ⟨w1, h1, h2, h3, h4⟩ := ih n
      { H.connect x (w.record (Call.connect x)) with
        queueConnect := (H.connect x (w.record (Call.connect x))).queueConnect.tail }
      (by simp only; rw [k2]; simp [World.record, hq]) (by simp at hfuel; omega)
    refine ⟨w1, ?_, ?_, h3, ?_⟩
    · simp only [Simulator.connectLoop, hq]
      exact h1
    · rw [h2]
      exact k1
    · rw [h4]
      simp only
      rw [k3]
      simp [World.record]

theorem Simulator.updatePopulations_spec (H : Hooks T U) (hpop : H.PopulationsKeepEvents)
    (w : World T U) (fuel : Nat) (hfuel : w.queueConnect.length ≤ fuel) :
    ∃ w1, Simulator.updatePopulations H fuel w = some w1 ∧ w1.events = w.events ∧
      w1.queueConnect = [] ∧
      w1.calls = w.calls ++ [Call.updatePopulations] ++
        w.queueResize.map (fun it => Call.resize it.1 it.2) ++ w.queueConnect.map Call.connect := by
  obtain ⟨r1, r2, r3⟩ := Simulator.resizeAll_spec H hpop w.queueResize
    (w.record Call.updatePopulations)
  obtain ⟨w1, h1, h2, h3, h4⟩ := Simulator.connectLoop_spec H hpop w.queueConnect fuel
    { (w.queueResize.foldl (fun s it => H.resize it.1 it.2 (s.record (Call.resize it.1 it.2)))
        (w.record Call.updatePopulations)) with queueResize := [] }
    (by simp only; rw [r2]; rfl) hfuel
  refine ⟨w1, h1, ?_, h3, ?_⟩
  · rw [h2]; exact r1
  · rw [h4]; simp only; rw [r3]; simp [World.record]

theorem setPrevious_next (a : Addr) (p : Option Addr) (w : World T U) :
    (setPrevious a p w).next = w.next := by
  rw [setPrevious_frame]

theorem setPrevious_timed (a : Addr) (p : Option Addr) (w : World T U) :
    (setPrevious a p w).timed = w.timed := by
  rw [setPrevious_frame]

theorem setPrevious_visitor (a : Addr) (p : Option Addr) (w : World T U) :
    (setPrevious a p w).visitor = w.visitor := by
  rw [setPrevious_frame]

theorem setPrevious_previous_part (i : Nat) (p : Option Addr) (w : World T U) :
    (setPrevious (Addr.part i) p w).previous =
      if w.timed i then upd w.previous i p else w.previous := by
  simp only [setPrevious]
  split <;> rfl

theorem setVisitor_frame (a : Addr) (v : Nat) (w : World T U) :
    setVisitor a v w = { w with visitor := (setVisitor a v w).visitor } := by
  cases a with
  | part i =>
    simp only [setVisitor]
    split <;> rfl
  | queue v => rfl

theorem setVisitor_visitor_part (i v : Nat) (w : World T U) :
    (setVisitor (Addr.part i) v w).visitor =
      if w.timed i then upd w.visitor i (some v) else w.visitor := by
  simp only [setVisitor]
  split <;> rfl

theorem VisitorStep.enqueue_next (v : Nat) (p : Addr) (w : World T U) :
    (VisitorStep.enqueue v p w).next =
      upd (upd w.next p (w.next (Addr.queue v))) (Addr.queue v) (some p) := by
  have h1 : (setVisitor p v w).next = w.next := by rw [setVisitor_frame]
  simp only [VisitorStep.enqueue]
  cases hn : (setVisitor p v w).next (Addr.queue v) with
  | none =>
    simp only [setPrevious_next, h1]
  | some hd =>
    simp only [setPrevious_next, h1]


theorem finalizeLoop (H : Hooks T U) (e : Nat)
    (hfin : ∀ p, KeepsRuntime (fun w => (H.finalize p w).2))
    (hleave : ∀ p, KeepsRuntime (H.leaveSimulation p)) :
    ∀ (rest pre : List Addr) (w : World T U),
      w.vprevious e = some (lastOf (Addr.queue e) pre) →
      Linked w.next (Addr.queue e) (pre ++ rest) → ∀ fuel, rest.length < fuel →
      ∃ w1 rs, VisitorStep.visitLoop (EventStep.finalizePart H) e fuel w = some w1 ∧
        rs.length = rest.length ∧
        w1.calls = w.calls ++ finalizeTrace rest rs ∧
        w1.visited = w.visited ++ rest ∧
        Linked w1.next (Addr.queue e) (pre ++ survivors rest rs) ∧
        (∀ r0 : Addr → Bool, (∀ p w, (H.finalize p w).1 = r0 p) → rs = rest.map r0) ∧
        SameBut w w1 := by
  intro rest
  induction rest with
  | nil =>
    intro pre w hc hl fuel hfuel
    obtain ⟨n, rfl⟩ : ∃ n, fuel = n + 1 := ⟨fuel - 1, by simp at hfuel; omega⟩
    have hcur := Linked.cursor pre _ [] hl
    simp only [Linked] at hcur
    refine ⟨w, [], ?_, rfl, by simp [finalizeTrace], by simp, by simpa [survivors] using hl,
      fun _ _ => rfl, SameBut.refl w⟩
    simp [VisitorStep.visitLoop, hc, hcur]
  | cons p rest ih =>
    intro pre w hc hl fuel hfuel
    obtain ⟨n, rfl⟩ : ∃ n, fuel = n + 1 := ⟨fuel - 1, by simp at hfuel; omega⟩
    have hlen : rest.length < n := by simp at hfuel; omega
    have hcur := Linked.cursor pre _ _ hl
    obtain ⟨hcp, hrest⟩ := hcur
    have hpp : w.next p ≠ some p := by
      intro hh
      cases rest with
      | nil => simp only [Linked] at hrest; rw [hrest] at hh; cases hh
      | cons q rest =>
        have h1 := hrest.1
        rw [hh] at h1
        cases h1
        exact hrest.not_mem (List.mem_cons_self _ _)
    obtain ⟨c, hcdef⟩ : ∃ c, c = lastOf (Addr.queue e) pre := ⟨_, rfl⟩
    rw [← hcdef] at hc hcp
    obtain ⟨w0, hw0⟩ : ∃ w0 : World T U, w0 = w.atPart e p := ⟨_, rfl⟩
    have hw0p : w0.vpart e = some p := by simp [hw0, upd, World.atPart]
    have hr2 := hfin p w0
    simp only at hr2
    cases hr : (H.finalize p w0).1 with
    | true =>
      have hf : EventStep.finalizePart H e w0 =
          (H.finalize p w0).2.record (Call.finalize p true) := by
        simp only [EventStep.finalizePart, hw0p, hr, if_true]
      have e1 : (EventStep.finalizePart H e w0).vprevious e = some c := by
        rw [hf, hr2, hw0]; exact hc
      have e2 : (EventStep.finalizePart H e w0).vpart e = some p := by
        rw [hf, hr2]; exact hw0p
      have e3 : (EventStep.finalizePart H e w0).next = w.next := by
        rw [hf, hr2, hw0]; rfl
      have e4 : (EventStep.finalizePart H e w0).calls = w.calls ++ [Call.finalize p true] := by
        rw [hf, hr2, hw0]; rfl
      have e5 : (EventStep.finalizePart H e w0).visited = w.visited ++ [p] := by
        rw [hf, hr2, hw0]; rfl
      have hadv := visitLoop_advance (EventStep.finalizePart H) e n w c p c hc hcp
        (by rw [← hw0]; exact e1) (by rw [← hw0, e3, e2]; exact hcp)
      rw [← hw0] at hadv
      have e7 : SameBut w (EventStep.finalizePart H e w0) := by
        unfold SameBut
        rw [hf, hr2, hw0]
        rfl
      obtain ⟨w1, rs, h1, h2, h3, h4, h5, h6, h7⟩ := ih (pre ++ [p])
        { EventStep.finalizePart H e w0 with
          vprevious := upd (EventStep.finalizePart H e w0).vprevious e
            ((EventStep.finalizePart H e w0).vpart e) }
        (by simp [upd, lastOf_append_singleton, e2])
        (by simpa [e3] using hl) n hlen
      refine ⟨w1, true :: rs, by rw [hadv]; exact h1, by simp [h2], ?_, ?_, ?_, ?_,
        SameBut.trans (SameBut.trans e7 (by rfl)) h7⟩
      · rw [h3]; simp [e4, finalizeTrace, finalizeCalls]
      · rw [h4]; simp [e5]
      · simpa [survivors] using h5
      · intro r0 hr0
        have := hr0 p w0
        rw [hr] at this
        simp [← this, h6 r0 hr0]
    | false =>
      obtain ⟨w1, hw1⟩ : ∃ w1 : World T U, w1 =
        (H.finalize p w0).2.record (Call.finalize p false) := ⟨_, rfl⟩
      have hw1' : w1 = { w0 with calls := w0.calls ++ [Call.finalize p false],
                                 user := (H.finalize p w0).2.user } := by
        rw [hw1, hr2]; rfl
      obtain ⟨w2, hw2⟩ : ∃ w2 : World T U, w2 = (match w1.next p with
                    | some n => setPrevious n (some c) w1
                    | none => w1) := ⟨_, rfl⟩
      have hw2' : w2 = { w1 with previous := w2.previous } := by
        rw [hw2]
        cases w1.next p with
        | none => rfl
        | some n => exact setPrevious_frame _ _ _
      obtain ⟨w3, hw3⟩ : ∃ w3 : World T U, w3 =
        { w2 with next := upd w2.next c (w2.next p) } := ⟨_, rfl⟩
      have hf : EventStep.finalizePart H e w0 =
          H.leaveSimulation p (w3.record (Call.leaveSimulation p)) := by
        have a1 : w1.vpart e = some p := by rw [hw1', hw0]; simp [upd, World.atPart]
        have a2 : w1.vprevious e = some c := by rw [hw1', hw0]; exact hc
        simp only [EventStep.finalizePart, hw0p, hr, ← hw1, a1, a2, ← hw2]
        simp [hw3]
      have hl4 := hleave p (w3.record (Call.leaveSimulation p))
      have e1 : (EventStep.finalizePart H e w0).vprevious e = some c := by
        rw [hf, hl4, hw3, hw2', hw1', hw0]; exact hc
      have e2 : (EventStep.finalizePart H e w0).vpart e = some p := by
        rw [hf, hl4, hw3, hw2', hw1', hw0]; simp [World.record, upd, World.atPart]
      have e3 : (EventStep.finalizePart H e w0).next = upd w.next c (w.next p) := by
        rw [hf, hl4, hw3, hw2', hw1', hw0]; rfl
      have e4 : (EventStep.finalizePart H e w0).calls =
          w.calls ++ [Call.finalize p false, Call.leaveSimulation p] := by
        rw [hf, hl4, hw3, hw2', hw1', hw0]; simp [World.record, World.atPart]
      have e5 : (EventStep.finalizePart H e w0).visited = w.visited ++ [p] := by
        rw [hf, hl4, hw3, hw2', hw1', hw0]; rfl
      have hstay := visitLoop_stay (EventStep.finalizePart H) e n w c p c hc hcp
        (by rw [← hw0]; exact e1)
        (by rw [← hw0, e3, e2]; simpa [upd] using hpp)
      rw [← hw0] at hstay
      have e7 : SameBut w (EventStep.finalizePart H e w0) := by
        unfold SameBut
        rw [hf, hl4, hw3, hw2', hw1', hw0]
        rfl
      obtain ⟨w5, rs, h1, h2, h3, h4, h5, h6, h7⟩ := ih pre (EventStep.finalizePart H e w0)
        (by rw [e1, hcdef])
        (by rw [e3, hcdef]; exact Linked.remove pre _ p rest hl) n hlen
      refine ⟨w5, false :: rs, by rw [hstay]; exact h1, by simp [h2], ?_, ?_, ?_, ?_,
        SameBut.trans e7 h7⟩
      · rw [h3]; simp [e4, finalizeTrace, finalizeCalls]
      · rw [h4]; simp [e5]
      · simpa [survivors] using h5
      · intro r0 hr0
        have := hr0 p w0
        rw [hr] at this
        simp [← this, h6 r0 hr0]

theorem passCalls_single (c : Addr → Call T) (ps : List Addr) :
    passCalls (fun p => [c p]) ps = ps.map c := by
  induction ps with
  | nil => rfl
  | cons p ps ih => simp [passCalls, ih]

/-- The parts of `EventStep::run` before `requeue`. -/
theorem EventStep.run_step_spec [TimeLike T] (H : Hooks T U) (hp : H.PartsPure)
    (hpop : H.PopulationsKeepEvents) (e : Nat) (w : World T U) (ps : List Addr)
    (hq : IsQueue w e ps) (i : Integrator) (hi : w.integrator = some i) (fuel : Nat)
    (hf1 : ps.length < fuel) (hf2 : w.queueConnect.length ≤ fuel) :
    ∃ w4 rs, EventStep.run H e fuel w = some (EventStep.requeue e w4) ∧
      rs.length = ps.length ∧ w4.events = w.events ∧
      w4.calls = w.calls ++ Integrator.calls i ps ++ ps.map Call.update ++
        finalizeTrace ps rs ++ [Call.updatePopulations] ++
        w.queueResize.map (fun it => Call.resize it.1 it.2) ++ w.queueConnect.map Call.connect := by
  obtain ⟨w1, a1, a2, a3, a5⟩ := Integrator.run_integrator_spec H hp e w ps hq i hi fuel hf1
  obtain ⟨w2, b1, b2, b3, _, b5, _⟩ := visit_framed _ e _
    (callOn_framed Call.update H.update hp.update e) w1 ps
    (by unfold IsQueue; rw [a3]; exact hq) fuel hf1
  obtain ⟨w3, rs, c1, c2, c3, _, _, _, c7⟩ := finalizeLoop H e hp.finalize hp.leaveSimulation ps []
    { w2 with vprevious := upd w2.vprevious e (some (Addr.queue e)) }
    (by simp [upd, lastOf]) (by simp only [List.nil_append]; rw [b3, a3]; exact hq) fuel hf1
  have h03 : SameBut w w3 := ((a2.trans b2).trans (by rfl)).trans c7
  obtain ⟨w4, d1, d2, _, d4⟩ := Simulator.updatePopulations_spec H hpop w3 fuel
    (by rw [h03.queueConnect]; exact hf2)
  refine ⟨w4, rs, ?_, c2, by rw [d2, h03.events], ?_⟩
  · simp only [EventStep.run, a1, Option.some_bind, b1]
    have : EventStep.visit (EventStep.finalizePart H) e fuel w2 = some w3 := c1
    simp only [this, Option.some_bind, d1]
  · rw [d4, h03.queueConnect, h03.queueResize, c3]
    simp only
    rw [b5, a5, passCalls_single]


theorem VisitorStep.enqueue_frame (v : Nat) (p : Addr) (w : World T U) :
    VisitorStep.enqueue v p w =
      { w with next := (VisitorStep.enqueue v p w).next,
               previous := (VisitorStep.enqueue v p w).previous,
               visitor := (VisitorStep.enqueue v p w).visitor } := by
  have h1 := setVisitor_frame p v w
  simp only [VisitorStep.enqueue]
  cases hn : (setVisitor p v w).next (Addr.queue v) with
  | none =>
    simp only
    rw [setPrevious_frame p (some (Addr.queue v)) (setVisitor p v w), h1]
  | some hd =>
    simp only
    rw [setPrevious_frame p (some (Addr.queue v)) (setPrevious hd (some p) (setVisitor p v w)),
      setPrevious_frame hd (some p) (setVisitor p v w), h1]

theorem VisitorStep.enqueue_isQueue (v i : Nat) (w : World T U) (q : List Addr)
    (hq : IsQueue w v q) (hp : Addr.part i ∉ q) :
    IsQueue (VisitorStep.enqueue v (Addr.part i) w) v (Addr.part i :: q) := by
  have hnq : Addr.queue v ∉ q := Linked.not_mem hq
  unfold IsQueue
  rw [VisitorStep.enqueue_next]
  refine ⟨by simp [upd], ?_⟩
  cases q with
  | nil =>
    simp only [IsQueue, Linked] at hq
    simp [Linked, upd, hq]
  | cons h rest =>
    obtain ⟨h1, h2⟩ := hq
    refine ⟨by simp [upd, h1], Linked.frame _ _ ?_ h2⟩
    intro x hx
    have hxq : x ∈ h :: rest := by
      rcases hx with rfl | hm
      · exact List.mem_cons_self _ _
      · exact List.mem_cons_of_mem _ hm
    have hx1 : x ≠ Addr.queue v := fun e => hnq (e ▸ hxq)
    have hx2 : x ≠ Addr.part i := fun e => hp (e ▸ hxq)
    simp [upd, hx1, hx2]

theorem Simulator.findPeriod_eq [TimeLike T] (w : World T U) (dt : T) :
    ∀ (l : List Nat) (k : Nat), Simulator.findPeriod w dt l k =
      k + (l.takeWhile (fun x => decide (w.dt x < dt))).length := by
  intro l
  induction l with
  | nil => intro k; simp [Simulator.findPeriod]
  | cons e l ih =>
    intro k
    simp only [Simulator.findPeriod, List.takeWhile_cons]
    by_cases h : w.dt e < dt
    · have h2 : ¬ (w.dt e ≥ dt) := not_le.mpr h
      simp only [h2, if_false, h, decide_True, if_true, List.length_cons]
      rw [ih]; omega
    · have h2 : w.dt e ≥ dt := not_lt.mp h
      simp [h2, h]

/-- The entry of `periods` that the search loop of `Simulator::enqueue` stops at. -/
theorem Simulator.findPeriod_getElem [TimeLike T] (w : World T U) (dt : T) :
    w.periods[Simulator.findPeriod w dt w.periods 0]? =
      (w.periods.dropWhile (fun x => decide (w.dt x < dt))).head? := by
  rw [Simulator.findPeriod_eq, Nat.zero_add]
  have h := @List.getElem?_append_right _
    (w.periods.takeWhile (fun x => decide (w.dt x < dt)))
    (w.periods.dropWhile (fun x => decide (w.dt x < dt))) _ (le_refl _)
  rw [List.takeWhile_append_dropWhile, Nat.sub_self] at h
  rw [h, List.head?_eq_getElem?]

theorem Simulator.findPeriod_found [TimeLike T] (w : World T U) (dt : T) (e : Nat)
    (hs : Simulator.PeriodsSorted w) (he : e ∈ w.periods) (hdt : w.dt e = dt) :
    w.periods[Simulator.findPeriod w dt w.periods 0]? = some e := by
  rw [Simulator.findPeriod_getElem]
  have hsplit := List.takeWhile_append_dropWhile (fun x => decide (w.dt x < dt)) w.periods
  have hmem : e ∈ w.periods.dropWhile (fun x => decide (w.dt x < dt)) := by
    rw [← hsplit] at he
    rcases List.mem_append.mp he with h | h
    · have := List.mem_takeWhile_imp h
      simp [hdt] at this
    · exact h
  have hnot := List.head?_dropWhile_not (fun x => decide (w.dt x < dt)) w.periods
  cases hd : w.periods.dropWhile (fun x => decide (w.dt x < dt)) with
  | nil => rw [hd] at hmem; simp at hmem
  | cons h rest =>
    rw [hd] at hmem hnot
    simp only [List.head?_cons, decide_eq_false_iff_not] at hnot
    simp only [List.head?_cons, Option.some.injEq]
    rcases List.mem_cons.mp hmem with rfl | hin
    · rfl
    · exfalso
      have hsub : (h :: rest).Pairwise (fun a b => w.dt a < w.dt b) := by
        rw [← hd]
        exact List.Pairwise.sublist (List.dropWhile_sublist _) hs
      have := (List.pairwise_cons.mp hsub).1 e hin
      rw [hdt] at this
      exact hnot this

theorem Simulator.enqueue_found [TimeLike T] (part : Addr) (dt : T) (w : World T U) (e : Nat)
    (hs : Simulator.PeriodsSorted w) (he : e ∈ w.periods) (hdt : w.dt e = dt) :
    Simulator.enqueue part dt w = some (VisitorStep.enqueue e part w) := by
  simp only [Simulator.enqueue, Simulator.findPeriod_found w dt e hs he hdt, hdt, if_true,
    EventStep.enqueue]

theorem Simulator.enqueue_notFound [TimeLike T] (part : Addr) (dt : T) (w : World T U) (ce : Nat)
    (hce : w.currentEvent = some ce) (hno : ∀ e ∈ w.periods, w.dt e ≠ dt) :
    Simulator.enqueue part dt w = some (Simulator.enqueueNew part dt ce w) := by
  have hidx : Simulator.findPeriod w dt w.periods 0 =
      (w.periods.takeWhile (fun x => decide (w.dt x < dt))).length := by
    rw [Simulator.findPeriod_eq, Nat.zero_add]
  have hsplit := List.takeWhile_append_dropWhile (fun x => decide (w.dt x < dt)) w.periods
  have htake : w.periods.take (Simulator.findPeriod w dt w.periods 0) =
      w.periods.takeWhile (fun x => decide (w.dt x < dt)) := by
    rw [hidx]
    have h := List.take_left (w.periods.takeWhile (fun x => decide (w.dt x < dt)))
      (w.periods.dropWhile (fun x => decide (w.dt x < dt)))
    rwa [hsplit] at h
  have hdrop : w.periods.drop (Simulator.findPeriod w dt w.periods 0) =
      w.periods.dropWhile (fun x => decide (w.dt x < dt)) := by
    rw [hidx]
    have h := List.drop_left (w.periods.takeWhile (fun x => decide (w.dt x < dt)))
      (w.periods.dropWhile (fun x => decide (w.dt x < dt)))
    rwa [hsplit] at h
  have hcreate : (match w.currentEvent with
      | none => none
      | some current =>
        let (event, w1) := EventStep.new (w.t current + dt) dt w
        let w2 := { w1 with periods := w1.periods.take (Simulator.findPeriod w dt w.periods 0) ++
          event :: w1.periods.drop (Simulator.findPeriod w dt w.periods 0) }
        let w3 := { w2 with queueEvent := Heap.push (More w2) event w2.queueEvent }
        some (EventStep.enqueue event part w3)) =
      some (Simulator.enqueueNew part dt ce w) := by
    rw [hce]
    simp only [EventStep.new, EventStep.enqueue, Simulator.enqueueNew, htake, hdrop]
    rfl
  unfold Simulator.enqueue
  simp only
  cases hg : w.periods[Simulator.findPeriod w dt w.periods 0]? with
  | none => simp only []; exact hcreate
  | some ev =>
    have hev : ev ∈ w.periods := List.mem_iff_getElem?.mpr ⟨_, hg⟩
    simp only [hno ev hev, if_false]
    exact hcreate

theorem Simulator.enqueueNew_frame [TimeLike T] (part : Addr) (dt : T) (ce : Nat)
    (w : World T U) :
    (Simulator.enqueueNew part dt ce w).t = upd w.t w.fresh (w.t ce + dt) ∧
    (Simulator.enqueueNew part dt ce w).dt = upd w.dt w.fresh dt ∧
    (Simulator.enqueueNew part dt ce w).fresh = w.fresh + 1 ∧
    (Simulator.enqueueNew part dt ce w).periods =
      w.periods.takeWhile (fun x => decide (w.dt x < dt)) ++
        w.fresh :: w.periods.dropWhile (fun x => decide (w.dt x < dt)) ∧
    (Simulator.enqueueNew part dt ce w).queueEvent =
      Heap.push (fun a b => decide (upd w.t w.fresh (w.t ce + dt) a ≥
        upd w.t w.fresh (w.t ce + dt) b)) w.fresh w.queueEvent ∧
    (Simulator.enqueueNew part dt ce w).currentEvent = w.currentEvent := by
  unfold Simulator.enqueueNew
  rw [VisitorStep.enqueue_frame]
  exact ⟨rfl, rfl, rfl, rfl, rfl, rfl⟩

theorem BackLinked.isPart {w : World T U} {v : Nat} :
    ∀ (l : List Addr) (a : Addr), BackLinked w v a l → ∀ p ∈ l, ∃ i, p = Addr.part i := by
  intro l
  induction l with
  | nil => intro a _ p hp; simp at hp
  | cons x l ih =>
    intro a h p hp
    rcases List.mem_cons.mp hp with rfl | hm
    · obtain ⟨⟨i, hi, _⟩, _⟩ := h
      exact ⟨i, hi⟩
    · exact ih x h.2 p hm

theorem BackLinked.agree_back {w w1 : World T U} {v : Nat} :
    ∀ (l : List Addr) (a : Addr),
      (∀ i, Addr.part i ∈ l → w1.previous i = w.previous i ∧
        w1.visitor i = w.visitor i ∧ w1.timed i = w.timed i) →
      BackLinked w v a l → BackLinked w1 v a l := by
  intro l
  induction l with
  | nil => intro a _ _; trivial
  | cons x l ih =>
    intro a hag h
    obtain ⟨⟨i, hi, h1, h2, h3⟩, hrest⟩ := h
    obtain ⟨g1, g2, g3⟩ := hag i (by rw [← hi]; exact List.mem_cons_self _ _)
    refine ⟨⟨i, hi, by rw [g3]; exact h1, by rw [g2]; exact h2, by rw [g1]; exact h3⟩, ?_⟩
    exact ih x (fun j hj => hag j (List.mem_cons_of_mem _ hj)) hrest

theorem WellLinked.agree {w w1 : World T U} {v : Nat} {l : List Addr}
    (h : WellLinked w v l) (hag : AgreeOn v l w w1) : WellLinked w1 v l := by
  obtain ⟨hq, hb⟩ := h
  obtain ⟨_, _, _, _, a5, a6⟩ := hag
  refine ⟨Linked.frame l _ ?_ hq, BackLinked.agree_back l _ (fun i hi => (a6 i hi).2) hb⟩
  intro x hx
  rcases hx with rfl | hm
  · exact a5
  · obtain ⟨i, rfl⟩ := BackLinked.isPart l _ hb x hm
    exact (a6 i hm).1

theorem AgreeOn.same (v : Nat) (l : List Addr) (w : World T U) : AgreeOn v l w w :=
  ⟨rfl, rfl, rfl, rfl, rfl, fun _ _ => ⟨rfl, rfl, rfl, rfl⟩⟩

/-- The record of a part in the middle of a well linked chain. -/
theorem BackLinked.mid {w : World T U} {v : Nat} :
    ∀ (A : List Addr) (a p : Addr) (B : List Addr), BackLinked w v a (A ++ p :: B) →
      ∃ i, p = Addr.part i ∧ w.timed i = true ∧ w.visitor i = some v ∧
        w.previous i = some (lastOf a A) := by
  intro A
  induction A with
  | nil => intro a p B h; exact h.1
  | cons x A ih => intro a p B h; exact ih x p B h.2

/-- Unlinking a part from a chain keeps the back links, once the part after it
points back to the part before it. -/
theorem BackLinked.remove_back (w : World T U) {w1 : World T U} {v : Nat} :
    ∀ (A : List Addr) (a p : Addr) (B : List Addr), (a :: (A ++ p :: B)).Nodup →
      BackLinked w v a (A ++ p :: B) →
      w1.timed = w.timed → w1.visitor = w.visitor →
      (∀ j, Addr.part j ∈ A ++ B → B.head? ≠ some (Addr.part j) → w1.previous j = w.previous j) →
      (∀ j, B.head? = some (Addr.part j) → w1.previous j = some (lastOf a A)) →
      BackLinked w1 v a (A ++ B) := by
  intro A
  induction A with
  | nil =>
    intro a p B hnd h ht hv hp1 hp2
    simp only [List.nil_append] at *
    obtain ⟨_, hB⟩ := h
    cases B with
    | nil => trivial
    | cons b B =>
      obtain ⟨⟨j, hj, h1, h2, _⟩, hrest⟩ := hB
      refine ⟨⟨j, hj, by rw [ht]; exact h1, by rw [hv]; exact h2, ?_⟩, ?_⟩
      · exact hp2 j (by simp [hj])
      · refine BackLinked.agree_back B b ?_ hrest
        intro k hk
        refine ⟨hp1 k (List.mem_cons_of_mem _ hk) ?_, by rw [hv], by rw [ht]⟩
        simp only [List.head?_cons, ne_eq, Option.some.injEq]
        intro e
        rw [e] at hnd
        have : (Addr.part k :: B).Nodup := by
          have h1 := (List.nodup_cons.mp hnd).2
          exact (List.nodup_cons.mp h1).2
        exact (List.nodup_cons.mp this).1 hk
  | cons x A ih =>
    intro a p B hnd h ht hv hp1 hp2
    obtain ⟨⟨i, hi, h1, h2, h3⟩, hrest⟩ := h
    have hnd2 : (x :: (A ++ p :: B)).Nodup := (List.nodup_cons.mp hnd).2
    refine ⟨⟨i, hi, by rw [ht]; exact h1, by rw [hv]; exact h2, ?_⟩, ?_⟩
    · rw [hp1 i (by rw [← hi]; simp) ?_]
      · exact h3
      · intro e
        rw [← hi] at e
        have hxB : x ∈ B := by
          cases B with
          | nil => simp at e
          | cons b B => simp at e; rw [e]; exact List.mem_cons_self _ _
        have := (List.nodup_cons.mp hnd2).1
        exact this (List.mem_append_right _ (List.mem_cons_of_mem _ hxB))
    · exact ih x p B hnd2 hrest ht hv
        (fun j hj => hp1 j (List.mem_cons_of_mem _ hj)) hp2

theorem BackLinked.suffix_back {w : World T U} {v : Nat} :
    ∀ (A : List Addr) (a p : Addr) (B : List Addr), BackLinked w v a (A ++ p :: B) →
      BackLinked w v p B := by
  intro A
  induction A with
  | nil => intro a p B h; exact h.2
  | cons x A ih => intro a p B h; exact ih x p B h.2

theorem PartTime.dequeue_spec (w : World T U) (v : Nat) (A B : List Addr) (i : Nat)
    (h : WellLinked w v (A ++ Addr.part i :: B)) :
    ∃ wd, PartTime.dequeue i w = some wd ∧ WellLinked wd v (A ++ B) ∧
      wd.vprevious v = (if w.currentEvent = some v ∧ w.vprevious v = some (Addr.part i)
        then w.next (Addr.part i) else w.vprevious v) ∧
      wd = { w with next := wd.next, previous := wd.previous, vprevious := wd.vprevious } := by
  obtain ⟨hq, hb⟩ := h
  have hnd := Linked.nodup _ _ hq
  obtain ⟨i2, hi2, ht, hv, hp⟩ := BackLinked.mid A _ _ B hb
  cases hi2
  have hsuf : Linked w.next (Addr.part i) B := Linked.suffix A _ _ B hq
  obtain ⟨w1, hw1⟩ : ∃ w1 : World T U, w1 =
      (if w.currentEvent = some v ∧ w.vprevious v = some (Addr.part i)
        then { w with vprevious := upd w.vprevious v (w.next (Addr.part i)) } else w) := ⟨_, rfl⟩
  have hw1f : w1 = { w with vprevious := w1.vprevious } := by
    rw [hw1]; split <;> rfl
  have hw1v : w1.vprevious v = (if w.currentEvent = some v ∧ w.vprevious v = some (Addr.part i)
        then w.next (Addr.part i) else w.vprevious v) := by
    rw [hw1]; split <;> simp [upd]
  have hrun : PartTime.dequeue i w =
      (match (match w1.next (Addr.part i) with
              | some n => setPrevious n (w1.previous i) w1
              | none => w1).previous i with
       | none => none
       | some prev => some { (match w1.next (Addr.part i) with
              | some n => setPrevious n (w1.previous i) w1
              | none => w1) with
            next := upd (match w1.next (Addr.part i) with
              | some n => setPrevious n (w1.previous i) w1
              | none => w1).next prev ((match w1.next (Addr.part i) with
              | some n => setPrevious n (w1.previous i) w1
              | none => w1).next (Addr.part i)) }) := by
    simp only [PartTime.dequeue, hv, hw1]
  have hn1 : w1.next = w.next := by rw [hw1f]
  have hp1 : w1.previous = w.previous := by rw [hw1f]
  have ht1 : w1.timed = w.timed := by rw [hw1f]
  have hlink := Linked.remove A (Addr.queue v) (Addr.part i) B hq
  cases B with
  | nil =>
    have hnone : w.next (Addr.part i) = none := hsuf
    have hres : PartTime.dequeue i w =
        some { w1 with next := upd w.next (lastOf (Addr.queue v) A) none } := by
      rw [hrun]
      simp only [hn1, hnone, hp1, hp]
    refine ⟨_, hres, ⟨?_, ?_⟩, ?_, ?_⟩
    · unfold IsQueue
      simpa [hnone] using hlink
    · refine BackLinked.remove_back w A _ (Addr.part i) [] hnd hb ?_ ?_ ?_ ?_
      · exact ht1
      · rw [hw1f]
      · intro j _ _; rw [hw1f]
      · intro j hj; simp at hj
    · exact hw1v
    · rw [hw1f]
  | cons b B =>
    obtain ⟨⟨j, hj, htj, _, _⟩, _⟩ := BackLinked.suffix_back A _ _ (b :: B) hb
    cases hj
    have hsome : w.next (Addr.part i) = some (Addr.part j) := hsuf.1
    have hji : j ≠ i := by
      intro e
      subst e
      have h1 : (A ++ Addr.part j :: Addr.part j :: B).Nodup := (List.nodup_cons.mp hnd).2
      have h2 := (List.nodup_append.mp h1).2.1
      simp at h2
    have hsp : setPrevious (Addr.part j) (some (lastOf (Addr.queue v) A)) w1 =
        { w1 with previous := upd w1.previous j (some (lastOf (Addr.queue v) A)) } := by
      simp only [setPrevious, ht1, htj, if_true]
    have hpi : upd w.previous j (some (lastOf (Addr.queue v) A)) i =
        some (lastOf (Addr.queue v) A) := by
      simp [upd, Ne.symm hji, hp]
    have hres : PartTime.dequeue i w =
        some { w1 with previous := upd w.previous j (some (lastOf (Addr.queue v) A)),
                       next := upd w.next (lastOf (Addr.queue v) A) (some (Addr.part j)) } := by
      rw [hrun]
      simp only [hn1, hsome, hp1, hp, hsp, hpi]
    refine ⟨_, hres, ⟨?_, ?_⟩, ?_, ?_⟩
    · unfold IsQueue
      simpa [hsome] using hlink
    · refine BackLinked.remove_back w A _ (Addr.part i) (Addr.part j :: B) hnd hb ?_ ?_ ?_ ?_
      · exact ht1
      · rw [hw1f]
      · intro k _ hk
        have : k ≠ j := by
          intro e; subst e; simp at hk
        simp [upd, this]
      · intro k hk
        simp only [List.head?_cons, Option.some.injEq, Addr.part.injEq] at hk
        subst hk
        simp [upd]
    · exact hw1v
    · rw [hw1f]

theorem WellLinked.congr {w : World T U} {v : Nat} {l : List Addr}
    (h : WellLinked w v l) (w1 : World T U) (h1 : w1.next = w.next) (h2 : w1.previous = w.previous)
    (h3 : w1.visitor = w.visitor) (h4 : w1.timed = w.timed) : WellLinked w1 v l := by
  obtain ⟨hq, hb⟩ := h
  refine ⟨by unfold IsQueue; rw [h1]; exact hq, BackLinked.agree_back l _ ?_ hb⟩
  intro i _
  rw [h2, h3, h4]
  exact ⟨rfl, rfl, rfl⟩

theorem lastOf_mem (a : Addr) (l : List Addr) : lastOf a l = a ∨ lastOf a l ∈ l := by
  induction l generalizing a with
  | nil => exact Or.inl rfl
  | cons x l ih =>
    rcases ih x with h | h
    · exact Or.inr (by simp only [lastOf]; rw [h]; exact List.mem_cons_self _ _)
    · exact Or.inr (by simp only [lastOf]; exact List.mem_cons_of_mem _ h)

theorem lastOf_append (a : Addr) (l1 l2 : List Addr) :
    lastOf a (l1 ++ l2) = lastOf (lastOf a l1) l2 := by
  induction l1 generalizing a with
  | nil => rfl
  | cons x l ih => exact ih x

/-- On the cells of the queue, stores that agree have the same `next`. -/
theorem AgreeOn.next_eq {w w1 : World T U} {v : Nat} {l : List Addr}
    (hag : AgreeOn v l w w1) (hw : WellLinked w v l) (a : Addr)
    (ha : a = Addr.queue v ∨ a ∈ l) : w1.next a = w.next a := by
  rcases ha with rfl | hm
  · exact hag.2.2.2.2.1
  · obtain ⟨i, rfl⟩ := BackLinked.isPart l _ hw.2 a hm
    exact (hag.2.2.2.2.2 i hm).1

theorem erase_mid (A B : List Addr) (q : Addr) (h : q ∉ A) :
    (A ++ q :: B).erase q = A ++ B := by
  induction A with
  | nil => simp
  | cons a A ih =>
    have hne : a ≠ q := fun e => h (e ▸ List.mem_cons_self _ _)
    have hq : q ∉ A := fun hm => h (List.mem_cons_of_mem _ hm)
    simp only [List.cons_append]
    rw [List.erase_cons_tail (by simpa using hne), ih hq]

theorem WalkAt.at_part {w : World T U} {v : Nat} {pre rest : List Addr} (p : Addr)
    (h : WalkAt w v pre rest) : WalkAt (w.atPart v p) v pre rest :=
  ⟨h.1.congr _ rfl rfl rfl rfl, h.2.1, h.2.2⟩

/-- A visit that leaves the queue alone: the cursor advances. -/
theorem walk_pure_step (f : VisitorFunction T U) (v : Nat) (x : Addr) (iq : Nat)
    (hf : DequeuesAt f v x iq) (w : World T U) (pre rest : List Addr) (p : Addr)
    (h : WalkAt w v pre (p :: rest)) (hpx : p ≠ x) :
    ∃ w3, (∀ n, VisitorStep.visitLoop f v (n + 1) w = VisitorStep.visitLoop f v n w3) ∧
      WalkAt w3 v (pre ++ [p]) rest ∧ w3.visited = w.visited ++ [p] := by
  have h0 := h.at_part p
  obtain ⟨hwl, hc, hce⟩ := h0
  have hp0 : (w.atPart v p).vpart v = some p := by simp [World.atPart, upd]
  have hag := hf.keeps _ _ hwl (by rw [hp0]; simpa using hpx)
  have hwf := hwl.agree hag
  have hcp : w.next (lastOf (Addr.queue v) pre) = some p := (Linked.cursor pre _ _ h.1.1).1
  have hcm : lastOf (Addr.queue v) pre = Addr.queue v ∨
      lastOf (Addr.queue v) pre ∈ pre ++ p :: rest := by
    rcases lastOf_mem (Addr.queue v) pre with e | e
    · exact Or.inl e
    · exact Or.inr (List.mem_append_left _ e)
  have e1 : (f v (w.atPart v p)).vprevious v = some (lastOf (Addr.queue v) pre) := by
    rw [hag.1]; exact hc
  have e2 : (f v (w.atPart v p)).vpart v = some p := by rw [hag.2.1]; exact hp0
  have e3 : (f v (w.atPart v p)).next (lastOf (Addr.queue v) pre) = some p := by
    rw [hag.next_eq hwl _ hcm]; exact hcp
  refine ⟨{ f v (w.atPart v p) with
      vprevious := upd (f v (w.atPart v p)).vprevious v ((f v (w.atPart v p)).vpart v) },
    ?_, ⟨?_, ?_, ?_⟩, ?_⟩
  · intro n
    exact visitLoop_advance f v n w _ p _ h.2.1 hcp e1 (by rw [e3, e2])
  · have := hwf.congr ({ f v (w.atPart v p) with
      vprevious := upd (f v (w.atPart v p)).vprevious v ((f v (w.atPart v p)).vpart v) })
      rfl rfl rfl rfl
    simpa using this
  · simp [upd, e2, lastOf_append_singleton]
  · show (f v (w.atPart v p)).currentEvent = some v
    rw [hag.2.2.1]; exact hce
  · show (f v (w.atPart v p)).visited = w.visited ++ [p]
    rw [hag.2.2.2.1]; rfl

/-- Visits of a segment of parts, none of which is `x`. -/
theorem walk_pure (f : VisitorFunction T U) (v : Nat) (x : Addr) (iq : Nat)
    (hf : DequeuesAt f v x iq) :
    ∀ (seg : List Addr) (w : World T U) (pre rest : List Addr),
      WalkAt w v pre (seg ++ rest) → x ∉ seg →
      ∃ w3, (∀ n, VisitorStep.visitLoop f v (n + seg.length) w = VisitorStep.visitLoop f v n w3) ∧
        WalkAt w3 v (pre ++ seg) rest ∧ w3.visited = w.visited ++ seg := by
  intro seg
  induction seg with
  | nil =>
    intro w pre rest h _
    exact ⟨w, fun n => rfl, by simpa using h, by simp⟩
  | cons p seg ih =>
    intro w pre rest h hx
    have hpx : p ≠ x := fun e => hx (e ▸ List.mem_cons_self _ _)
    obtain ⟨w1, a1, a2, a3⟩ := walk_pure_step f v x iq hf w pre (seg ++ rest) p h hpx
    obtain ⟨w3, b1, b2, b3⟩ := ih w1 (pre ++ [p]) rest a2
      (fun hm => hx (List.mem_cons_of_mem _ hm))
    refine ⟨w3, ?_, by simpa using b2, by rw [b3, a3]; simp⟩
    intro n
    have := a1 (n + seg.length)
    simp only [List.length_cons]
    rw [← Nat.add_assoc, this, b1]

theorem walk_exit (f : VisitorFunction T U) (v : Nat) (w : World T U) (pre : List Addr)
    (h : WalkAt w v pre []) (n : Nat) : VisitorStep.visitLoop f v (n + 1) w = some w := by
  have hcur : w.next (lastOf (Addr.queue v) pre) = none := Linked.cursor pre _ [] h.1.1
  simp [VisitorStep.visitLoop, h.2.1, hcur]

/-- The visit of `x`, in which `f` dequeues the part `iq`. -/
theorem dequeue_visit (f : VisitorFunction T U) (v : Nat) (x : Addr) (iq : Nat)
    (hf : DequeuesAt f v x iq) (w0 : World T U) (A B : List Addr)
    (h : WellLinked w0 v (A ++ Addr.part iq :: B)) (hx : w0.vpart v = some x)
    (hce : w0.currentEvent = some v) :
    WellLinked (f v w0) v (A ++ B) ∧ (f v w0).vpart v = some x ∧
    (f v w0).currentEvent = some v ∧ (f v w0).visited = w0.visited ∧
    (f v w0).vprevious v = (if w0.vprevious v = some (Addr.part iq)
      then w0.next (Addr.part iq) else w0.vprevious v) := by
  have hnd := Linked.nodup _ _ h.1
  have hqA : Addr.part iq ∉ A := by
    have h1 : (A ++ Addr.part iq :: B).Nodup := (List.nodup_cons.mp hnd).2
    intro hm
    exact (List.nodup_append.mp h1).2.2 hm (List.mem_cons_self _ _)
  obtain ⟨wd, hdq, hag⟩ := hf.dequeues w0 _ h hx hce (by simp)
  obtain ⟨wd2, hdq2, hwl, hvp, hfr⟩ := PartTime.dequeue_spec w0 v A B iq h
  rw [hdq2] at hdq
  have hwd : wd2 = wd := Option.some.inj hdq
  rw [← hwd] at hag
  rw [erase_mid A B _ hqA] at hag
  have g1 : wd2.vpart = w0.vpart := by rw [hfr]
  have g2 : wd2.currentEvent = w0.currentEvent := by rw [hfr]
  have g3 : wd2.visited = w0.visited := by rw [hfr]
  refine ⟨hwl.agree hag, by rw [hag.2.1, g1]; exact hx, by rw [hag.2.2.1, g2]; exact hce,
    by rw [hag.2.2.2.1, g3], ?_⟩
  rw [hag.1, hvp]
  simp [hce]

theorem Linked.next_ne_head {next : Addr → Option Addr} {a x : Addr} {l : List Addr}
    (h : Linked next a l) (hx : x ∉ l) : next a ≠ some x := by
  cases l with
  | nil => simp only [Linked] at h; rw [h]; exact fun e => Option.noConfusion e
  | cons y l =>
    rw [h.1]
    intro e
    cases e
    exact hx (List.mem_cons_self _ _)

theorem walk_dequeue_step (f : VisitorFunction T U) (v : Nat) (x : Addr) (iq : Nat)
    (hf : DequeuesAt f v x iq) (w : World T U) (pre tail : List Addr)
    (h : WalkAt w v pre (x :: tail)) (hq : Addr.part iq ∈ pre ++ x :: tail) :
    ∃ w3 pre1, (∀ n, VisitorStep.visitLoop f v (n + 1) w = VisitorStep.visitLoop f v n w3) ∧
      WalkAt w3 v pre1 (tail.erase (Addr.part iq)) ∧ w3.visited = w.visited ++ [x] ∧
      pre1 ++ tail.erase (Addr.part iq) = (pre ++ x :: tail).erase (Addr.part iq) := by
  have h0 := h.at_part x
  obtain ⟨hwl, hc, hce⟩ := h0
  have hnd := Linked.nodup _ _ h.1.1
  have hnd1 : (pre ++ x :: tail).Nodup := (List.nodup_cons.mp hnd).2
  have hxpre : x ∉ pre := fun hm =>
    (List.nodup_append.mp hnd1).2.2 hm (List.mem_cons_self _ _)
  have hxtail : x ∉ tail := (List.nodup_cons.mp (List.nodup_append.mp hnd1).2.1).1
  have hp0 : (w.atPart v x).vpart v = some x := by simp [World.atPart, upd]
  have hcp : w.next (lastOf (Addr.queue v) pre) = some x := (Linked.cursor pre _ _ h.1.1).1
  have hv0 : (w.atPart v x).visited = w.visited ++ [x] := rfl
  have hcx : lastOf (Addr.queue v) pre ≠ x := by
    intro e
    rcases lastOf_mem (Addr.queue v) pre with e1 | e1
    · rw [e1] at e
      rw [← e] at hnd
      exact (List.nodup_cons.mp hnd).1 (by simp)
    · rw [e] at e1; exact hxpre e1
  by_cases hqx : Addr.part iq = x
  · -- the part being visited is dequeued: the cursor stays
    have hw2 : WellLinked (w.atPart v x) v (pre ++ Addr.part iq :: tail) := by rw [hqx]; exact hwl
    obtain ⟨d1, d2, d3, d4, d5⟩ := dequeue_visit f v x iq hf _ pre tail hw2 hp0 hce
    have hvp : (f v (w.atPart v x)).vprevious v = some (lastOf (Addr.queue v) pre) := by
      rw [d5, if_neg (by rw [hc, hqx]; simpa using hcx)]; exact hc
    have hne : (f v (w.atPart v x)).next (lastOf (Addr.queue v) pre) ≠
        (f v (w.atPart v x)).vpart v := by
      rw [d2]
      exact Linked.next_ne_head (Linked.cursor pre _ _ d1.1) hxtail
    have hte : tail.erase (Addr.part iq) = tail := by
      rw [hqx]; exact List.erase_of_not_mem hxtail
    refine ⟨f v (w.atPart v x), pre, ?_, ?_, by rw [d4, hv0], ?_⟩
    · intro n
      exact visitLoop_stay f v n w _ x _ h.2.1 hcp hvp hne
    · rw [hte]; exact ⟨d1, hvp, d3⟩
    · rw [hte, hqx, erase_mid pre tail x hxpre]
  · rcases List.mem_append.mp hq with hqp | hqt
    · -- a part before the one being visited is dequeued
      obtain ⟨A, B, rfl⟩ := List.append_of_mem hqp
      have hqA : Addr.part iq ∉ A := by
        intro hm
        have h1 := (List.nodup_append.mp hnd1).1
        exact (List.nodup_append.mp h1).2.2 hm (List.mem_cons_self _ _)
      have hqB : Addr.part iq ∉ B := by
        have h1 := (List.nodup_append.mp hnd1).1
        exact (List.nodup_cons.mp (List.nodup_append.mp h1).2.1).1
      have hqtail : Addr.part iq ∉ tail := by
        intro hm
        exact (List.nodup_append.mp hnd1).2.2 hqp (List.mem_cons_of_mem _ hm)
      have hte : tail.erase (Addr.part iq) = tail := List.erase_of_not_mem hqtail
      have hw2 : WellLinked (w.atPart v x) v (A ++ Addr.part iq :: (B ++ x :: tail)) := by
        simpa using hwl
      obtain ⟨d1, d2, d3, d4, d5⟩ := dequeue_visit f v x iq hf _ A (B ++ x :: tail) hw2 hp0 hce
      have herase : (A ++ Addr.part iq :: B ++ x :: tail).erase (Addr.part iq) =
          A ++ B ++ x :: tail := by
        have := erase_mid A (B ++ x :: tail) _ hqA
        simpa using this
      cases B with
      | nil =>
        -- the predecessor is dequeued: the cursor moves to the part being visited
        have hcq : lastOf (Addr.queue v) (A ++ [Addr.part iq]) = Addr.part iq :=
          lastOf_append_singleton _ _ _
        have hvp : (f v (w.atPart v x)).vprevious v = some x := by
          rw [d5, if_pos (by rw [hc, hcq])]
          have : w.next (Addr.part iq) = some x := by rw [← hcq]; exact hcp
          exact this
        have hlx : Linked (f v (w.atPart v x)).next x tail := by
          have := Linked.cursor (A ++ [x]) (Addr.queue v) tail (by simpa using d1.1)
          rwa [lastOf_append_singleton] at this
        have hne : (f v (w.atPart v x)).next x ≠ (f v (w.atPart v x)).vpart v := by
          rw [d2]; exact Linked.next_ne_head hlx hxtail
        refine ⟨f v (w.atPart v x), A ++ [x], ?_, ?_, by rw [d4, hv0], ?_⟩
        · intro n
          exact visitLoop_stay f v n w _ x _ h.2.1 hcp hvp hne
        · rw [hte]
          refine ⟨by simpa using d1, ?_, d3⟩
          rw [hvp, lastOf_append_singleton]
        · rw [hte, herase]; simp
      | cons b B =>
        have hcb : lastOf (Addr.queue v) (A ++ Addr.part iq :: b :: B) = lastOf b B := by
          rw [lastOf_append]; rfl
        have hcb2 : lastOf (Addr.queue v) (A ++ b :: B) = lastOf b B := by
          rw [lastOf_append]; rfl
        have hcne : lastOf b B ≠ Addr.part iq := by
          intro e
          rcases lastOf_mem b B with e1 | e1
          · rw [e1] at e; rw [e] at hqB; exact hqB (List.mem_cons_self _ _)
          · rw [e] at e1; exact hqB (List.mem_cons_of_mem _ e1)
        have hvp : (f v (w.atPart v x)).vprevious v = some (lastOf b B) := by
          rw [d5, if_neg (by rw [hc, hcb]; simpa using hcne), hc, hcb]
        have hcp2 : (f v (w.atPart v x)).next (lastOf b B) = some x := by
          have := Linked.cursor (A ++ b :: B) (Addr.queue v) (x :: tail) (by simpa using d1.1)
          rw [hcb2] at this
          exact this.1
        refine ⟨{ f v (w.atPart v x) with
            vprevious := upd (f v (w.atPart v x)).vprevious v ((f v (w.atPart v x)).vpart v) },
          A ++ b :: B ++ [x], ?_, ⟨?_, ?_, d3⟩, by rw [← hv0, ← d4], ?_⟩
        · intro n
          exact visitLoop_advance f v n w _ x _ h.2.1 hcp hvp (by rw [hcp2, d2])
        · rw [hte]
          have := d1.congr ({ f v (w.atPart v x) with
            vprevious := upd (f v (w.atPart v x)).vprevious v ((f v (w.atPart v x)).vpart v) })
            rfl rfl rfl rfl
          simpa using this
        · rw [lastOf_append_singleton]
          simp [upd, d2]
        · rw [hte, herase]; simp
    · -- a part after the one being visited is dequeued
      rcases List.mem_cons.mp hqt with e | hqt2
      · exact absurd e hqx
      obtain ⟨A, B, rfl⟩ := List.append_of_mem hqt2
      have hnd2 : (x :: (A ++ Addr.part iq :: B)).Nodup := (List.nodup_append.mp hnd1).2.1
      have hqA : Addr.part iq ∉ A := by
        intro hm
        have h1 := (List.nodup_cons.mp hnd2).2
        exact (List.nodup_append.mp h1).2.2 hm (List.mem_cons_self _ _)
      have hqpre : Addr.part iq ∉ pre := by
        intro hm
        exact (List.nodup_append.mp hnd1).2.2 hm hqt
      have hte : (A ++ Addr.part iq :: B).erase (Addr.part iq) = A ++ B := erase_mid A B _ hqA
      have hw2 : WellLinked (w.atPart v x) v ((pre ++ x :: A) ++ Addr.part iq :: B) := by
        simpa using hwl
      obtain ⟨d1, d2, d3, d4, d5⟩ := dequeue_visit f v x iq hf _ (pre ++ x :: A) B hw2 hp0 hce
      have hcne : lastOf (Addr.queue v) pre ≠ Addr.part iq := by
        intro e
        rcases lastOf_mem (Addr.queue v) pre with e1 | e1
        · rw [e1] at e; cases e
        · rw [e] at e1; exact hqpre e1
      have hvp : (f v (w.atPart v x)).vprevious v = some (lastOf (Addr.queue v) pre) := by
        rw [d5, if_neg (by rw [hc]; simpa using hcne), hc]
      have hcp2 : (f v (w.atPart v x)).next (lastOf (Addr.queue v) pre) = some x := by
        have := Linked.cursor pre (Addr.queue v) (x :: (A ++ B)) (by simpa using d1.1)
        exact this.1
      have herase : (pre ++ x :: (A ++ Addr.part iq :: B)).erase (Addr.part iq) =
          pre ++ x :: (A ++ B) := by
        have hq2 : Addr.part iq ∉ pre ++ x :: A := by
          intro hm
          rcases List.mem_append.mp hm with h1 | h1
          · exact hqpre h1
          · rcases List.mem_cons.mp h1 with h2 | h2
            · exact hqx h2
            · exact hqA h2
        have := erase_mid (pre ++ x :: A) B _ hq2
        simpa using this
      refine ⟨{ f v (w.atPart v x) with
          vprevious := upd (f v (w.atPart v x)).vprevious v ((f v (w.atPart v x)).vpart v) },
        pre ++ [x], ?_, ⟨?_, ?_, d3⟩, by rw [← hv0, ← d4], ?_⟩
      · intro n
        exact visitLoop_advance f v n w _ x _ h.2.1 hcp hvp (by rw [hcp2, d2])
      · rw [hte]
        have := d1.congr ({ f v (w.atPart v x) with
          vprevious := upd (f v (w.atPart v x)).vprevious v ((f v (w.atPart v x)).vpart v) })
          rfl rfl rfl rfl
        simpa using this
      · simp [upd, d2, lastOf_append_singleton]
      · rw [hte, herase]; simp

theorem PartTime.setPeriod_spec [TimeLike T] (w : World T U) (v : Nat) (l : List Addr) (i : Nat)
    (dt1 : T) (h : WellLinked w v l) (hi : Addr.part i ∈ l) (hce : w.currentEvent ≠ none)
    (hs : Simulator.PeriodsSorted w) :
    ∃ w1 e1, PartTime.setPeriod i dt1 w = some w1 ∧ e1 ∈ w1.periods ∧ w1.dt e1 = dt1 ∧
      w1.next (Addr.queue e1) = some (Addr.part i) := by
  obtain ⟨A, B, rfl⟩ := List.append_of_mem hi
  obtain ⟨wd, hdq, _, _, hfr⟩ := PartTime.dequeue_spec w v A B i h
  have g1 : wd.periods = w.periods := by rw [hfr]
  have g2 : wd.dt = w.dt := by rw [hfr]
  have g3 : wd.currentEvent = w.currentEvent := by rw [hfr]
  have hsd : Simulator.PeriodsSorted wd := by
    unfold Simulator.PeriodsSorted; rw [g1, g2]; exact hs
  simp only [PartTime.setPeriod, hdq, Option.some_bind]
  by_cases hex : ∃ e ∈ wd.periods, wd.dt e = dt1
  · obtain ⟨e, he, hdt⟩ := hex
    refine ⟨_, e, Simulator.enqueue_found _ dt1 wd e hsd he hdt, ?_, ?_, ?_⟩
    · rw [VisitorStep.enqueue_frame]; exact he
    · rw [VisitorStep.enqueue_frame]; exact hdt
    · rw [VisitorStep.enqueue_next]; simp [upd]
  · have hno : ∀ e ∈ wd.periods, wd.dt e ≠ dt1 := fun e he h => hex ⟨e, he, h⟩
    obtain ⟨ce, hc⟩ : ∃ ce, wd.currentEvent = some ce := by
      cases hcur : wd.currentEvent with
      | none => rw [g3] at hcur; exact absurd hcur hce
      | some ce => exact ⟨ce, rfl⟩
    obtain ⟨_, f2, _, f4, _, _⟩ := Simulator.enqueueNew_frame (Addr.part i) dt1 ce wd
    refine ⟨_, wd.fresh, Simulator.enqueue_notFound _ dt1 wd ce hc hno, ?_, ?_, ?_⟩
    · rw [f4]; simp
    · rw [f2]; simp [upd]
    · unfold Simulator.enqueueNew
      rw [VisitorStep.enqueue_next]; simp [upd]


theorem visitLoop_keepsQueue (f : VisitorFunction T U) (v : Nat) (hf : KeepsQueue f v) :
    ∀ (ps : List Addr) (c : Addr) (w : World T U), w.vprevious v = some c →
      Linked w.next c ps → ∀ fuel, ps.length < fuel →
      ∃ w1, VisitorStep.visitLoop f v fuel w = some w1 ∧
        w1.visited = w.visited ++ ps ∧ w1.next = w.next := by
  intro ps
  induction ps with
  | nil =>
    intro c w hc hl fuel hfuel
    obtain ⟨n, rfl⟩ : ∃ n, fuel = n + 1 := ⟨fuel - 1, by simp at hfuel; omega⟩
    simp only [Linked] at hl
    refine ⟨w, ?_, by simp, rfl⟩
    simp [VisitorStep.visitLoop, hc, hl]
  | cons p ps ih =>
    intro c w hc hl fuel hfuel
    obtain ⟨n, rfl⟩ : ∃ n, fuel = n + 1 := ⟨fuel - 1, by simp at hfuel; omega⟩
    obtain ⟨hcp, hrest⟩ := hl
    have hlen : ps.length < n := by simp at hfuel; omega
    let w0 : World T U := { w with vpart := upd w.vpart v (some p), visited := w.visited ++ [p] }
    obtain ⟨h1, h2, h3, h4⟩ := hf w0
    let w3 : World T U := { f v w0 with vprevious := upd (f v w0).vprevious v (some p) }
    obtain ⟨w1, hw1, hv, hn⟩ := ih p w3 (by simp [w3, upd])
      (by simpa [w3, w0, h1] using hrest) n hlen
    refine ⟨w1, ?_, ?_, ?_⟩
    · have e2 : (f v w0).vprevious v = some c := by rw [h2]; exact hc
      have e1 : (f v w0).next c = (f v w0).vpart v := by
        rw [h1, h3]; simp [w0, upd, hcp]
      have e3 : (f v w0).vpart v = some p := by rw [h3]; simp [w0, upd]
      simp only [VisitorStep.visitLoop, hc, hcp]
      show (match (f v w0).vprevious v with
        | none => none
        | some prev2 => VisitorStep.visitLoop f v n
            (if (f v w0).next prev2 = (f v w0).vpart v
              then { f v w0 with vprevious := upd (f v w0).vprevious v ((f v w0).vpart v) }
              else f v w0)) = some w1
      rw [e2]
      simp only [e1, if_true, e3]
      exact hw1
    · rw [hv]; simp [w3, h4, w0]
    · rw [hn]; simp [w3, h1, w0]

/-- C1. For a queue `p1..pn` of a `VisitorStep` and a visitor function `f` that
does not modify the queue, `VisitorStep::visit` terminates (any fuel above `n`
is enough) and has called `f` exactly once on each `pi`, in queue order. -/
theorem C1_visit_calls_each_part_once (f : VisitorFunction T U) (v : Nat) (w : World T U)
    (ps : List Addr) (hq : IsQueue w v ps) (hf : KeepsQueue f v) :
    ∀ fuel, ps.length < fuel →
      ∃ w1, VisitorStep.visit f v fuel w = some w1 ∧
        w1.visited = w.visited ++ ps ∧ IsQueue w1 v ps := by
  intro fuel hfuel
  obtain ⟨w1, h1, h2, h3⟩ := visitLoop_keepsQueue f v hf ps (Addr.queue v)
    { w with vprevious := upd w.vprevious v (some (Addr.queue v)) }
    (by simp [upd]) hq fuel hfuel
  exact ⟨w1, h1, h2, by simpa [IsQueue, h3] using hq⟩

theorem C1_witness :
    ∃ w1, VisitorStep.visit (fun _ w => w) 0 4 exampleQueue = some w1 ∧
      w1.visited = exampleQueue.visited ++ [Addr.part 1, Addr.part 2, Addr.part 3] ∧
      IsQueue w1 0 [Addr.part 1, Addr.part 2, Addr.part 3] :=
  C1_visit_calls_each_part_once (fun _ w => w) 0 exampleQueue
    [Addr.part 1, Addr.part 2, Addr.part 3] (by simp [IsQueue, Linked, exampleQueue, upd])
    (fun _ => ⟨rfl, rfl, rfl, rfl⟩) 4 (by decide)

/-- C2. For a queue `p1..pn` of an `EventStep` and hooks `finalize`,
`leaveSimulation` that only change model state, the finalize pass of
`EventStep::run` terminates, calls `finalize` exactly once on every `pi` in queue
order, calls `leaveSimulation` exactly on the parts whose `finalize` returned
false (`rs` are the values returned; with results fixed per part by `r0` they are
`r0 p1, .., r0 pn`), and leaves the queue equal to the parts whose `finalize`
returned true, in their original order. -/
theorem C2_finalize_pass (H : Hooks T U) (e : Nat) (w : World T U) (ps : List Addr)
    (hq : IsQueue w e ps)
    (hfin : ∀ p, KeepsRuntime (fun w => (H.finalize p w).2))
    (hleave : ∀ p, KeepsRuntime (H.leaveSimulation p)) :
    ∀ fuel, ps.length < fuel →
      ∃ w1 rs, EventStep.visit (EventStep.finalizePart H) e fuel w = some w1 ∧
        rs.length = ps.length ∧
        w1.calls = w.calls ++ finalizeTrace ps rs ∧
        IsQueue w1 e (survivors ps rs) ∧
        (∀ r0 : Addr → Bool, (∀ p w, (H.finalize p w).1 = r0 p) → rs = ps.map r0) := by
  intro fuel hfuel
  obtain ⟨w1, rs, h1, h2, h3, _, h5, h6, _⟩ := finalizeLoop H e hfin hleave ps []
    { w with vprevious := upd w.vprevious e (some (Addr.queue e)) }
    (by simp [upd, lastOf]) hq fuel hfuel
  exact ⟨w1, rs, h1, h2, h3, h5, h6⟩

theorem C2_witness :
    ∃ w1 rs, EventStep.visit (EventStep.finalizePart exampleHooks) 0 4 exampleQueue = some w1 ∧
      rs.length = [Addr.part 1, Addr.part 2, Addr.part 3].length ∧
      w1.calls = exampleQueue.calls ++
        finalizeTrace [Addr.part 1, Addr.part 2, Addr.part 3] rs ∧
      IsQueue w1 0 (survivors [Addr.part 1, Addr.part 2, Addr.part 3] rs) ∧
      (∀ r0 : Addr → Bool, (∀ p w, (exampleHooks.finalize p w).1 = r0 p) →
        rs = [Addr.part 1, Addr.part 2, Addr.part 3].map r0) :=
  C2_finalize_pass exampleHooks 0 exampleQueue [Addr.part 1, Addr.part 2, Addr.part 3]
    (by simp [IsQueue, Linked, exampleQueue, upd]) (fun _ _ => rfl) (fun _ _ => rfl) 4
    (by decide)

/-! ### Order of events -/

/-- C4 (the code at the failing input). Events `1`, `2`, `3` with the same time `5`
are pushed in this order: `std::push_heap` under `More` moves each new event to
the front, and `Simulator::run` runs them in the order `3`, `2`, `1`. -/
theorem C4_equal_times_run_last_pushed_first :
    Heap.push (More exampleTies) 3 (Heap.push (More exampleTies) 2
      (Heap.push (More exampleTies) 1 [])) = [3, 1, 2] ∧
    (Simulator.run (fun _ w => some w) 3 { exampleTies with queueEvent := [3, 1, 2] }).map
      (fun r => r.1.ran.map Prod.fst) = some [3, 2, 1] := by
  decide

/-! ### `EventStep::run` -/

/-- C5. Let `e` be an `EventStep` that has been popped (it is in `periods`, which
has no duplicates, and not on `queueEvent`), with time `t0 = w.t e`, period
`w.dt e` and a well-formed part queue; let the hooks of parts change model state
only and `resize`, `connect` leave the event data alone.  Then `EventStep::run`
returns, and exactly one of two outcomes holds: the part queue is non-empty,
`e.t = t0 + dt`, `dt` is as before, `e` is on `queueEvent` exactly once and still in
`periods`; or the part queue is empty and `e` is in neither `periods` nor
`queueEvent`. -/
theorem C5_after_run_requeued_or_removed [TimeLike T] (H : Hooks T U) (hp : H.PartsPure)
    (hpop : H.PopulationsKeepEvents) (e : Nat) (w : World T U) (ps : List Addr)
    (hq : IsQueue w e ps) (i : Integrator) (hi : w.integrator = some i)
    (hper : e ∈ w.periods) (hnd : w.periods.Nodup) (hnq : e ∉ w.queueEvent) (fuel : Nat)
    (hf1 : ps.length < fuel) (hf2 : w.queueConnect.length ≤ fuel) :
    ∃ w1, EventStep.run H e fuel w = some w1 ∧
      Xor' (w1.next (Addr.queue e) ≠ none ∧ w1.t e = w.t e + w.dt e ∧ w1.dt e = w.dt e ∧
          w1.queueEvent.count e = 1 ∧ e ∈ w1.periods)
        (w1.next (Addr.queue e) = none ∧ e ∉ w1.periods ∧ e ∉ w1.queueEvent) := by
  obtain ⟨w4, rs, h1, _, h3, _⟩ := EventStep.run_step_spec H hp hpop e w ps hq i hi fuel hf1 hf2
  refine ⟨_, h1, ?_⟩
  have ht : w4.t = w.t := congrArg (fun x => x.1) h3
  have hdt : w4.dt = w.dt := congrArg (fun x => x.2.1) h3
  have hpe : w4.periods = w.periods := congrArg (fun x => x.2.2.1) h3
  have hqe : w4.queueEvent = w.queueEvent := congrArg (fun x => x.2.2.2) h3
  cases hn : w4.next (Addr.queue e) with
  | none =>
    have hres : EventStep.requeue e w4 =
        Simulator.removePeriod e (w4.record (Call.requeue e)) := by
      simp only [EventStep.requeue, World.record, hn]
    rw [hres]
    have g1 : (Simulator.removePeriod e (w4.record (Call.requeue e))).next (Addr.queue e) =
        none := hn
    have g2 : (Simulator.removePeriod e (w4.record (Call.requeue e))).periods =
        w.periods.erase e := by rw [← hpe]; rfl
    have g3 : (Simulator.removePeriod e (w4.record (Call.requeue e))).queueEvent =
        w.queueEvent := hqe
    refine Or.inr ⟨⟨g1, ?_, by rw [g3]; exact hnq⟩, fun h => h.1 g1⟩
    rw [g2]
    exact fun h => ((List.Nodup.mem_erase_iff hnd).mp h).1 rfl
  | some p =>
    obtain ⟨w5, hw5⟩ : ∃ w5 : World T U, w5 =
        { w4.record (Call.requeue e) with t := upd w4.t e (w4.t e + w4.dt e) } := ⟨_, rfl⟩
    have hres : EventStep.requeue e w4 =
        { w5 with queueEvent := Heap.push (More w5) e w5.queueEvent } := by
      simp only [EventStep.requeue, World.record, hn, hw5]
    rw [hres]
    have g1 : w5.next (Addr.queue e) = some p := by rw [hw5]; exact hn
    have g2 : w5.t e = w.t e + w.dt e := by rw [hw5]; simp [upd, ht, hdt]
    have g3 : w5.dt = w.dt := by rw [hw5]; exact hdt
    have g4 : w5.queueEvent = w.queueEvent := by rw [hw5]; exact hqe
    have g5 : w5.periods = w.periods := by rw [hw5]; exact hpe
    refine Or.inl ⟨⟨?_, g2, by simp only [g3], ?_, by simp only [g5]; exact hper⟩, ?_⟩
    · simp only [g1]; exact fun h => Option.noConfusion h
    · simp only []
      rw [(Heap.push_perm _ e w5.queueEvent).count_eq, g4]
      simp [List.count_eq_zero_of_not_mem hnq]
    · intro h
      have := h.1
      simp only [g1] at this
      exact Option.noConfusion this

theorem examplePartsPure : exampleHooks.PartsPure :=
  ⟨fun _ _ => rfl, fun _ _ => rfl, fun _ _ => rfl, fun _ _ => rfl, fun _ _ => rfl,
    fun _ _ => rfl, fun _ _ => rfl, fun _ _ => rfl, fun _ _ => rfl, fun _ _ _ => rfl,
    fun _ _ _ => rfl, fun _ _ => rfl⟩

theorem examplePopulationsKeepEvents : exampleHooks.PopulationsKeepEvents :=
  ⟨fun _ _ _ => ⟨rfl, rfl, rfl⟩, fun _ _ => ⟨rfl, rfl, rfl⟩⟩

theorem C5_witness :
    ∃ w1, EventStep.run exampleHooks 0 4 exampleStep = some w1 ∧
      Xor' (w1.next (Addr.queue 0) ≠ none ∧ w1.t 0 = exampleStep.t 0 + exampleStep.dt 0 ∧
          w1.dt 0 = exampleStep.dt 0 ∧ w1.queueEvent.count 0 = 1 ∧ 0 ∈ w1.periods)
        (w1.next (Addr.queue 0) = none ∧ 0 ∉ w1.periods ∧ 0 ∉ w1.queueEvent) :=
  C5_after_run_requeued_or_removed exampleHooks examplePartsPure examplePopulationsKeepEvents 0
    exampleStep [Addr.part 1, Addr.part 2, Addr.part 3]
    (by simp [IsQueue, Linked, exampleStep, exampleQueue, upd]) Integrator.euler rfl
    (by decide) (by decide) (by decide) 4 (by decide) (by decide)

/-- C6. With the Euler integrator, hooks of parts that change model state only
and `resize`, `connect` that leave the event data alone, `EventStep::run` on a queue
`p1..pn` returns and its calls are, in this order: `integrate` on `p1..pn`, `update`
on `p1..pn`, the finalize pass on `p1..pn` (`finalize`, followed by
`leaveSimulation` where it returned false), `Simulator::updatePopulations` once
(with its pending `resize` and `connect` calls), and `requeue`. -/
theorem C6_run_phases [TimeLike T] (H : Hooks T U) (hp : H.PartsPure)
    (hpop : H.PopulationsKeepEvents) (e : Nat) (w : World T U) (ps : List Addr)
    (hq : IsQueue w e ps) (hi : w.integrator = some Integrator.euler) (fuel : Nat)
    (hf1 : ps.length < fuel) (hf2 : w.queueConnect.length ≤ fuel) :
    ∃ w1 rs, EventStep.run H e fuel w = some w1 ∧ rs.length = ps.length ∧
      w1.calls = w.calls ++ ps.map Call.integrate ++ ps.map Call.update ++
        finalizeTrace ps rs ++ [Call.updatePopulations] ++
        w.queueResize.map (fun it => Call.resize it.1 it.2) ++
        w.queueConnect.map Call.connect ++ [Call.requeue e] := by
  obtain ⟨w4, rs, h1, h2, _, h4⟩ := EventStep.run_step_spec H hp hpop e w ps hq _ hi fuel hf1 hf2
  refine ⟨_, rs, h1, h2, ?_⟩
  have : (EventStep.requeue e w4).calls = w4.calls ++ [Call.requeue e] := by
    unfold EventStep.requeue
    cases hn : w4.next (Addr.queue e) <;> simp [World.record, hn, Simulator.removePeriod]
  rw [this, h4]
  simp [Integrator.calls, passCalls_single]

theorem C6_witness :
    ∃ w1 rs, EventStep.run exampleHooks 0 4 exampleStep = some w1 ∧
      rs.length = [Addr.part 1, Addr.part 2, Addr.part 3].length ∧
      w1.calls = exampleStep.calls ++ [Addr.part 1, Addr.part 2, Addr.part 3].map Call.integrate ++
        [Addr.part 1, Addr.part 2, Addr.part 3].map Call.update ++
        finalizeTrace [Addr.part 1, Addr.part 2, Addr.part 3] rs ++ [Call.updatePopulations] ++
        exampleStep.queueResize.map (fun it => Call.resize it.1 it.2) ++
        exampleStep.queueConnect.map Call.connect ++ [Call.requeue 0] :=
  C6_run_phases exampleHooks examplePartsPure examplePopulationsKeepEvents 0
    exampleStep [Addr.part 1, Addr.part 2, Addr.part 3]
    (by simp [IsQueue, Linked, exampleStep, exampleQueue, upd]) rfl 4 (by decide) (by decide)

/-! ### `VisitorStep::enqueue`, `Simulator::enqueue` -/

/-- C9. For a queue `q` of a `VisitorStep` and a part `p` not in `q`,
`VisitorStep::enqueue (p)` yields the queue `p` followed by `q`; when `p` is a
`PartTime` it sets `p.visitor` to this visitor and `p.previous` to the sentinel; and
the previous link of the old head, when that is a `PartTime`, is set to `p`. -/
theorem C9_enqueue_pushes_at_head (v i : Nat) (w : World T U) (q : List Addr)
    (hq : IsQueue w v q) (hp : Addr.part i ∉ q) :
    IsQueue (VisitorStep.enqueue v (Addr.part i) w) v (Addr.part i :: q) ∧
    (w.timed i = true →
      (VisitorStep.enqueue v (Addr.part i) w).visitor i = some v ∧
      (VisitorStep.enqueue v (Addr.part i) w).previous i = some (Addr.queue v)) ∧
    (∀ j rest, q = Addr.part j :: rest → w.timed j = true →
      (VisitorStep.enqueue v (Addr.part i) w).previous j = some (Addr.part i)) := by
  have hnq : Addr.queue v ∉ q := Linked.not_mem hq
  refine ⟨?_, ?_, ?_⟩
  · unfold IsQueue
    rw [VisitorStep.enqueue_next]
    refine ⟨by simp [upd], ?_⟩
    cases q with
    | nil =>
      simp only [IsQueue, Linked] at hq
      simp [Linked, upd, hq]
    | cons h rest =>
      obtain ⟨h1, h2⟩ := hq
      refine ⟨by simp [upd, h1], Linked.frame _ _ ?_ h2⟩
      intro x hx
      have hxq : x ∈ h :: rest := by
        rcases hx with rfl | hm
        · exact List.mem_cons_self _ _
        · exact List.mem_cons_of_mem _ hm
      have hx1 : x ≠ Addr.queue v := fun e => hnq (e ▸ hxq)
      have hx2 : x ≠ Addr.part i := fun e => hp (e ▸ hxq)
      simp [upd, hx1, hx2]
  · intro ht
    have h1 : (setVisitor (Addr.part i) v w).timed = w.timed := by rw [setVisitor_frame]
    have h2 : (setVisitor (Addr.part i) v w).visitor i = some v := by
      rw [setVisitor_visitor_part]; simp [ht, upd]
    simp only [VisitorStep.enqueue]
    cases hn : (setVisitor (Addr.part i) v w).next (Addr.queue v) with
    | none =>
      simp only [setPrevious_visitor, setPrevious_previous_part, h1, ht, if_true]
      exact ⟨h2, by simp [upd]⟩
    | some hd =>
      simp only [setPrevious_visitor, setPrevious_previous_part, setPrevious_timed, h1, ht,
        if_true]
      exact ⟨h2, by simp [upd]⟩
  · intro j rest hqe htj
    subst hqe
    have hji : j ≠ i := by
      intro e; subst e; exact hp (List.mem_cons_self _ _)
    have h0 : (setVisitor (Addr.part i) v w).next = w.next := by rw [setVisitor_frame]
    have h1 : (setVisitor (Addr.part i) v w).timed = w.timed := by rw [setVisitor_frame]
    have hn : (setVisitor (Addr.part i) v w).next (Addr.queue v) = some (Addr.part j) := by
      rw [h0]; exact hq.1
    simp only [VisitorStep.enqueue, hn, setPrevious_previous_part, setPrevious_timed, h1, htj,
      if_true]
    split
    · simp [upd, hji]
    · simp [upd]

theorem C9_witness :
    IsQueue (VisitorStep.enqueue 0 (Addr.part 4) exampleTimed) 0
      (Addr.part 4 :: [Addr.part 1, Addr.part 2, Addr.part 3]) ∧
    (exampleTimed.timed 4 = true →
      (VisitorStep.enqueue 0 (Addr.part 4) exampleTimed).visitor 4 = some 0 ∧
      (VisitorStep.enqueue 0 (Addr.part 4) exampleTimed).previous 4 = some (Addr.queue 0)) ∧
    (∀ j rest, [Addr.part 1, Addr.part 2, Addr.part 3] = Addr.part j :: rest →
      exampleTimed.timed j = true →
      (VisitorStep.enqueue 0 (Addr.part 4) exampleTimed).previous j = some (Addr.part 4)) :=
  C9_enqueue_pushes_at_head 0 4 exampleTimed [Addr.part 1, Addr.part 2, Addr.part 3]
    (by simp [IsQueue, Linked, exampleTimed, exampleQueue, upd]) (by decide)

/-- C7. In a simulator whose `periods` are sorted, whose `currentEvent` is set and
whose queued events have been allocated, `Simulator::enqueue (part, dt)` does the
following.  If `periods` holds an `EventStep` `e` with that `dt`, it is
`VisitorStep::enqueue` on the queue of `e` (the part becomes the head of that
queue), and `periods`, `queueEvent` and all `t`, `dt` are unchanged.  Otherwise a
new `EventStep` with time `currentEvent.t + dt` and period `dt` is made, inserted
into `periods`, pushed onto `queueEvent` exactly once, and the part is the only
member of its queue; no other event changes its `t` or `dt`. -/
theorem C7_simulator_enqueue [TimeLike T] (i : Nat) (dt : T) (w : World T U) (ce : Nat)
    (hs : Simulator.PeriodsSorted w) (hce : w.currentEvent = some ce)
    (hfresh : ∀ x ∈ w.queueEvent, x < w.fresh) :
    (∀ e ∈ w.periods, w.dt e = dt →
      ∃ w1, Simulator.enqueue (Addr.part i) dt w = some w1 ∧
        w1 = VisitorStep.enqueue e (Addr.part i) w ∧
        (∀ q, IsQueue w e q → Addr.part i ∉ q → IsQueue w1 e (Addr.part i :: q)) ∧
        w1.periods = w.periods ∧ w1.queueEvent = w.queueEvent ∧ w1.t = w.t ∧ w1.dt = w.dt) ∧
    ((∀ e ∈ w.periods, w.dt e ≠ dt) →
      ∃ w1, Simulator.enqueue (Addr.part i) dt w = some w1 ∧
        w1.t w.fresh = w.t ce + dt ∧ w1.dt w.fresh = dt ∧
        (∀ x, x ≠ w.fresh → w1.t x = w.t x ∧ w1.dt x = w.dt x) ∧
        List.Perm w1.periods (w.fresh :: w.periods) ∧
        List.Perm w1.queueEvent (w.queueEvent ++ [w.fresh]) ∧
        w1.queueEvent.count w.fresh = 1 ∧
        IsQueue w1 w.fresh [Addr.part i]) := by
  constructor
  · intro e he hdt
    refine ⟨_, Simulator.enqueue_found _ dt w e hs he hdt, rfl,
      fun q hq hp => VisitorStep.enqueue_isQueue e i w q hq hp, ?_, ?_, ?_, ?_⟩ <;>
    · rw [VisitorStep.enqueue_frame]
  · intro hno
    refine ⟨_, Simulator.enqueue_notFound _ dt w ce hce hno, ?_⟩
    obtain ⟨f1, f2, _, f4, f5, _⟩ := Simulator.enqueueNew_frame (Addr.part i) dt ce w
    have hperm : List.Perm (Simulator.enqueueNew (Addr.part i) dt ce w).queueEvent
        (w.queueEvent ++ [w.fresh]) := by
      rw [f5]; exact Heap.push_perm _ _ _
    refine ⟨by rw [f1]; simp [upd], by rw [f2]; simp [upd], ?_, ?_, hperm, ?_, ?_⟩
    · intro x hx
      rw [f1, f2]
      simp [upd, hx]
    · rw [f4]
      refine List.perm_middle.trans ?_
      rw [List.takeWhile_append_dropWhile]
    · rw [hperm.count_eq]
      have : w.fresh ∉ w.queueEvent := fun h => Nat.lt_irrefl _ (hfresh _ h)
      simp [List.count_eq_zero_of_not_mem this]
    · unfold Simulator.enqueueNew
      exact VisitorStep.enqueue_isQueue _ i _ [] (by simp [IsQueue, Linked, upd]) (by simp)


theorem C7_witness :
    (∀ e ∈ exampleTimed.periods, exampleTimed.dt e = 1 →
      ∃ w1, Simulator.enqueue (Addr.part 4) 1 exampleTimed = some w1 ∧
        w1 = VisitorStep.enqueue e (Addr.part 4) exampleTimed ∧
        (∀ q, IsQueue exampleTimed e q → Addr.part 4 ∉ q → IsQueue w1 e (Addr.part 4 :: q)) ∧
        w1.periods = exampleTimed.periods ∧ w1.queueEvent = exampleTimed.queueEvent ∧
        w1.t = exampleTimed.t ∧ w1.dt = exampleTimed.dt) ∧
    ((∀ e ∈ exampleTimed.periods, exampleTimed.dt e ≠ 1) →
      ∃ w1, Simulator.enqueue (Addr.part 4) 1 exampleTimed = some w1 ∧
        w1.t exampleTimed.fresh = exampleTimed.t 0 + 1 ∧ w1.dt exampleTimed.fresh = 1 ∧
        (∀ x, x ≠ exampleTimed.fresh → w1.t x = exampleTimed.t x ∧ w1.dt x = exampleTimed.dt x) ∧
        List.Perm w1.periods (exampleTimed.fresh :: exampleTimed.periods) ∧
        List.Perm w1.queueEvent (exampleTimed.queueEvent ++ [exampleTimed.fresh]) ∧
        w1.queueEvent.count exampleTimed.fresh = 1 ∧
        IsQueue w1 exampleTimed.fresh [Addr.part 4]) :=
  C7_simulator_enqueue 4 1 exampleTimed 0
    (by simp [Simulator.PeriodsSorted, exampleTimed, exampleQueue, World.blank]) rfl
    (by simp [exampleTimed, exampleQueue, World.blank])

/-- C10. Let the queue `pre, x, tail` of `PartTime` parts be walked by
`VisitorStep::visit` during its own event, and let the visitor function dequeue
the single part `iq` of that queue with `PartTime::dequeue` while it visits `x`
(`x` itself, its predecessor, or any other part) and leave the queue alone
otherwise.  Then the walk terminates and has called `f` exactly once on every part
of the queue, in order, except on the dequeued part when that comes after `x` (it
is dequeued before its turn); no part is visited twice, and the queue left is the
old one without the dequeued part.  Moreover `PartTime::setPeriod (dt1)` on a part
of a well linked queue returns with the part at the head of the queue of an
`EventStep` of `periods` whose period is `dt1`. -/
theorem C10_walk_survives_dequeue [TimeLike T] (f : VisitorFunction T U) (v : Nat) (x : Addr)
    (iq : Nat) (w : World T U) (pre tail : List Addr)
    (hwl : WellLinked w v (pre ++ x :: tail)) (hce : w.currentEvent = some v)
    (hq : Addr.part iq ∈ pre ++ x :: tail) (hf : DequeuesAt f v x iq) :
    (∀ fuel, (pre ++ x :: tail).length < fuel →
      ∃ w1, VisitorStep.visit f v fuel w = some w1 ∧
        w1.visited = w.visited ++ (pre ++ x :: tail.erase (Addr.part iq)) ∧
        (pre ++ x :: tail.erase (Addr.part iq)).Nodup ∧
        WellLinked w1 v ((pre ++ x :: tail).erase (Addr.part iq))) ∧
    (∀ (i : Nat) (dt1 : T) (w0 : World T U) (l : List Addr), WellLinked w0 v l →
      Addr.part i ∈ l → w0.currentEvent ≠ none → Simulator.PeriodsSorted w0 →
      ∃ w1 e1, PartTime.setPeriod i dt1 w0 = some w1 ∧ e1 ∈ w1.periods ∧ w1.dt e1 = dt1 ∧
        w1.next (Addr.queue e1) = some (Addr.part i)) := by
  refine ⟨?_, fun i dt1 w0 l h hi hc hs => PartTime.setPeriod_spec w0 v l i dt1 h hi hc hs⟩
  intro fuel hfuel
  have hnd : (pre ++ x :: tail).Nodup := (List.nodup_cons.mp (Linked.nodup _ _ hwl.1)).2
  have hxpre : x ∉ pre := fun hm => (List.nodup_append.mp hnd).2.2 hm (List.mem_cons_self _ _)
  have hxtail : x ∉ tail := (List.nodup_cons.mp (List.nodup_append.mp hnd).2.1).1
  have hsub : (tail.erase (Addr.part iq)).Sublist tail := List.erase_sublist _ _
  have h0 : WalkAt { w with vprevious := upd w.vprevious v (some (Addr.queue v)) } v []
      (pre ++ x :: tail) :=
    ⟨hwl.congr _ rfl rfl rfl rfl, by simp [upd, lastOf], hce⟩
  obtain ⟨w1, a1, a2, a3⟩ := walk_pure f v x iq hf pre _ [] (x :: tail) h0 hxpre
  obtain ⟨w2, pre1, b1, b2, b3, b4⟩ := walk_dequeue_step f v x iq hf w1 pre tail
    (by simpa using a2) hq
  obtain ⟨w3, c1, c2, c3⟩ := walk_pure f v x iq hf (tail.erase (Addr.part iq)) w2 pre1 []
    (by simpa using b2) (fun hm => hxtail (hsub.subset hm))
  have hlen : (tail.erase (Addr.part iq)).length ≤ tail.length := hsub.length_le
  simp only [List.length_append, List.length_cons] at hfuel
  obtain ⟨m, hm⟩ : ∃ m, fuel = m + 1 + (tail.erase (Addr.part iq)).length + 1 + pre.length :=
    ⟨fuel - (1 + (tail.erase (Addr.part iq)).length + 1 + pre.length), by omega⟩
  refine ⟨w3, ?_, ?_, ?_, ?_⟩
  · unfold VisitorStep.visit
    rw [hm, a1, b1, c1]
    exact walk_exit f v w3 _ (by simpa using c2) m
  · rw [c3, b3, a3]; simp
  · have : (pre ++ x :: tail.erase (Addr.part iq)).Sublist (pre ++ x :: tail) :=
      List.Sublist.append_left (hsub.cons₂ x) pre
    exact this.nodup hnd
  · have := c2.1
    rw [List.append_nil, b4] at this
    exact this

theorem exampleDequeue_dequeuesAt : DequeuesAt exampleDequeue 0 (Addr.part 2) 2 := by
  constructor
  · intro w l _ hx
    simp only [exampleDequeue, hx, if_false]
    exact AgreeOn.same _ _ _
  · intro w l hwl hx _ hq
    obtain ⟨A, B, rfl⟩ := List.append_of_mem hq
    obtain ⟨wd, hdq, _⟩ := PartTime.dequeue_spec w 0 A B 2 hwl
    refine ⟨wd, hdq, ?_⟩
    simp only [exampleDequeue, hx, if_true, hdq, Option.getD_some]
    exact AgreeOn.same _ _ _

theorem C10_witness :
    ((∀ fuel, ([Addr.part 1] ++ Addr.part 2 :: [Addr.part 3]).length < fuel →
      ∃ w1, VisitorStep.visit exampleDequeue 0 fuel exampleTimed = some w1 ∧
        w1.visited = exampleTimed.visited ++
          ([Addr.part 1] ++ Addr.part 2 :: [Addr.part 3].erase (Addr.part 2)) ∧
        ([Addr.part 1] ++ Addr.part 2 :: [Addr.part 3].erase (Addr.part 2)).Nodup ∧
        WellLinked w1 0 (([Addr.part 1] ++ Addr.part 2 :: [Addr.part 3]).erase (Addr.part 2))) ∧
    (∀ (i : Nat) (dt1 : Nat) (w0 : World Nat Unit) (l : List Addr), WellLinked w0 0 l →
      Addr.part i ∈ l → w0.currentEvent ≠ none → Simulator.PeriodsSorted w0 →
      ∃ w1 e1, PartTime.setPeriod i dt1 w0 = some w1 ∧ e1 ∈ w1.periods ∧ w1.dt e1 = dt1 ∧
        w1.next (Addr.queue e1) = some (Addr.part i))) ∧
    (VisitorStep.visit exampleSetPeriod 0 4 exampleTimed).map
      (fun w => (w.visited, w.next (Addr.queue 0), w.next (Addr.part 1), w.periods,
        w.periods.map w.dt, w.next (Addr.queue 1), w.next (Addr.part 2))) =
      some ([Addr.part 1, Addr.part 2, Addr.part 3], some (Addr.part 1), some (Addr.part 3),
        [0, 1], [1, 5], some (Addr.part 2), none) :=
  ⟨C10_walk_survives_dequeue exampleDequeue 0 (Addr.part 2) 2 exampleTimed [Addr.part 1]
    [Addr.part 3]
    (by simp [WellLinked, IsQueue, Linked, BackLinked, exampleTimed, exampleQueue, upd])
    rfl (by decide) exampleDequeue_dequeuesAt, by rfl⟩

/-! ### Population::allocate -/

theorem Chained.congr_next {f g : Node → Option Node} :
    ∀ (l : List Node) (x : Option Node), (∀ d ∈ l, g d = f d) → Chained f x l → Chained g x l
  | [], _, _, h => h
  | d :: ds, x, hfg, h => by
    refine ⟨h.1, ?_⟩
    rw [hfg d (List.mem_cons_self _ _)]
    exact Chained.congr_next ds _ (fun y hy => hfg y (List.mem_cons_of_mem _ hy)) h.2

theorem Chained.unique_list {f : Node → Option Node} :
    ∀ (l1 l2 : List Node) (x : Option Node), Chained f x l1 → Chained f x l2 → l1 = l2
  | [], [], _, _, _ => rfl
  | [], _ :: _, _, h1, h2 => by
    have h1 : _ = none := h1
    rw [h1] at h2; exact absurd h2.1 (by simp)
  | _ :: _, [], _, h1, h2 => by
    have h2 : _ = none := h2
    rw [h2] at h1; exact absurd h1.1 (by simp)
  | a :: l1, b :: l2, x, h1, h2 => by
    have hab : a = b := by
      have := h1.1.symm.trans h2.1
      exact Option.some.inj this
    subst hab
    rw [Chained.unique_list l1 l2 _ h1.2 h2.2]

theorem Chained.drop {f : Node → Option Node} :
    ∀ (pre : List Node) (d : Node) (post : List Node) (x : Option Node),
      Chained f x (pre ++ d :: post) → Chained f (f d) post
  | [], _, _, _, h => h.2
  | _ :: pre, d, post, _, h => Chained.drop pre d post _ h.2

theorem Chained.nodup_chain {f : Node → Option Node} :
    ∀ (l : List Node) (x : Option Node), Chained f x l → l.Nodup
  | [], _, _ => List.nodup_nil
  | d :: ds, x, h => by
    refine List.nodup_cons.2 ⟨?_, Chained.nodup_chain ds _ h.2⟩
    intro hmem
    obtain ⟨pre, post, hsplit⟩ := List.append_of_mem hmem
    have h2 := h.2
    rw [hsplit] at h2
    have h3 := Chained.drop pre d post _ h2
    rw [← hsplit] at h2
    have := Chained.unique_list _ _ _ h2 h3
    have hlen := congrArg List.length this
    rw [hsplit] at hlen
    simp at hlen
    omega

theorem Population.allocateLoop_found (H : PopHooks T U) (free : Node → Bool)
    (hfree : ∀ d w, (H.isFree d w).1 = free d) (d : Node) (post : List Node) (hd : free d = true) :
    ∀ (pre : List Node) (p : Slot) (w : PopWorld T U) (fuel : Nat),
      Chained w.next (w.read p) (pre ++ d :: post) → (∀ x ∈ pre, free x = false) →
      pre.length < fuel →
      ∃ u, Population.allocateLoop H fuel p w = some (some d,
        ({ w with calls := w.calls ++ pre.map (fun x => PopCall.isFree x false) ++
            [PopCall.isFree d true, PopCall.clear d], user := u }).write (slotAfter p pre) (w.next d))
  | [], p, w, fuel + 1, hch, _, _ => by
    have hr : w.read p = some d := hch.1
    refine ⟨H.clear d (w.call (PopCall.isFree d (H.isFree d w).1) (H.isFree d w).2), ?_⟩
    simp only [Population.allocateLoop, hr, hfree, hd, if_true, PopWorld.call, slotAfter,
      List.map_nil, List.append_nil, List.append_assoc, List.singleton_append]
  | x :: pre, p, w, fuel + 1, hch, hpre, hfuel => by
    have hr : w.read p = some x := hch.1
    have hx : free x = false := hpre x (List.mem_cons_self _ _)
    obtain ⟨u, hu⟩ := Population.allocateLoop_found H free hfree d post hd pre (Slot.next x)
      (w.call (PopCall.isFree x false) (H.isFree x w).2) fuel hch.2
      (fun y hy => hpre y (List.mem_cons_of_mem _ hy)) (by simpa using hfuel)
    refine ⟨u, ?_⟩
    simp only [Population.allocateLoop, hr, hfree, hx, Bool.false_eq_true, if_false, hu]
    simp [PopWorld.call, slotAfter]

theorem Population.allocateLoop_none (H : PopHooks T U) (free : Node → Bool)
    (hfree : ∀ d w, (H.isFree d w).1 = free d) :
    ∀ (ds : List Node) (p : Slot) (w : PopWorld T U) (fuel : Nat),
      Chained w.next (w.read p) ds → (∀ x ∈ ds, free x = false) → ds.length < fuel →
      ∃ u, Population.allocateLoop H fuel p w = some (none,
        { w with calls := w.calls ++ ds.map (fun x => PopCall.isFree x false), user := u })
  | [], p, w, fuel + 1, hch, _, _ => by
    have hr : w.read p = none := hch
    exact ⟨w.user, by simp [Population.allocateLoop, hr]⟩
  | x :: ds, p, w, fuel + 1, hch, hpre, hfuel => by
    have hr : w.read p = some x := hch.1
    have hx : free x = false := hpre x (List.mem_cons_self _ _)
    obtain ⟨u, hu⟩ := Population.allocateLoop_none H free hfree ds (Slot.next x)
      (w.call (PopCall.isFree x false) (H.isFree x w).2) fuel hch.2
      (fun y hy => hpre y (List.mem_cons_of_mem _ hy)) (by simpa using hfuel)
    refine ⟨u, ?_⟩
    simp only [Population.allocateLoop, hr, hfree, hx, Bool.false_eq_true, if_false, hu]
    simp [PopWorld.call]

theorem slotAfter_next : ∀ (pre : List Node) (x : Node),
    ∃ z ∈ x :: pre, slotAfter (Slot.next x) pre = Slot.next z
  | [], x => ⟨x, List.mem_cons_self _ _, rfl⟩
  | y :: pre, _ => by
    obtain ⟨z, hz, h⟩ := slotAfter_next pre y
    exact ⟨z, List.mem_cons_of_mem _ hz, h⟩

theorem PopWorld.read_write_same (w : PopWorld T U) (p : Slot) (v : Option Node) :
    (w.write p v).read p = v := by
  cases p <;> simp [PopWorld.write, PopWorld.read, upd]

theorem PopWorld.read_write_other (w : PopWorld T U) (p q : Slot) (v : Option Node) (h : q ≠ p) :
    (w.write p v).read q = w.read q := by
  cases p <;> cases q <;> simp_all [PopWorld.write, PopWorld.read, upd]

theorem PopWorld.next_write (w : PopWorld T U) (p : Slot) (v : Option Node) (x : Node)
    (h : p ≠ Slot.next x) : (w.write p v).next x = w.next x := by
  cases p with
  | dead P => rfl
  | next d =>
    have : x ≠ d := fun e => h (by rw [e])
    simp [PopWorld.write, upd, this]

/-- Taking `d` out of a chain: the slot that pointed to `d` receives `d->next`. -/
theorem Chained.unlink (d : Node) (post : List Node) :
    ∀ (pre : List Node) (p : Slot) (w : PopWorld T U),
      Chained w.next (w.read p) (pre ++ d :: post) →
      (∀ x ∈ pre ++ d :: post, p ≠ Slot.next x) →
      Chained (w.write (slotAfter p pre) (w.next d)).next
        ((w.write (slotAfter p pre) (w.next d)).read p) (pre ++ post)
  | [], p, w, hch, hp => by
    simp only [slotAfter, List.nil_append, PopWorld.read_write_same]
    refine Chained.congr_next post _ (fun y hy => ?_) hch.2
    exact PopWorld.next_write w p _ y (hp y (by simp [hy]))
  | x :: pre, p, w, hch, hp => by
    have hnd := Chained.nodup_chain _ _ hch
    have hx : x ∉ pre ++ d :: post := (List.nodup_cons.1 hnd).1
    have ih := Chained.unlink d post pre (Slot.next x) w hch.2
      (fun y hy e => hx (by rw [Slot.next.inj e]; exact hy))
    obtain ⟨z, hz, hslot⟩ := slotAfter_next pre x
    have hpz : p ≠ Slot.next z := hp z (by
      rcases List.mem_cons.1 hz with h | h
      · rw [h]; exact List.mem_cons_self _ _
      · exact List.mem_cons_of_mem _ (List.mem_append_left _ h))
    have hr : w.read p = some x := hch.1
    refine ⟨?_, ?_⟩
    · show (w.write (slotAfter (Slot.next x) pre) (w.next d)).read p = some x
      rw [hslot, PopWorld.read_write_other w _ _ _ hpz, hr]
    · exact ih

/-- `Population::allocate` when the dead chain holds a free part: the first one
is taken out of the chain, cleared and added. -/
theorem Population.allocate_found (H : PopHooks T U) (P : Nat) (free : Node → Bool)
    (hfree : ∀ d w, (H.isFree d w).1 = free d) (pre : List Node) (d : Node) (post : List Node)
    (w : PopWorld T U) (fuel : Nat) (hch : w.DeadChain P (pre ++ d :: post))
    (hpre : ∀ x ∈ pre, free x = false) (hd : free d = true) (hfuel : pre.length < fuel) :
    ∃ w1, Population.allocate H P fuel w = some (d, w1) ∧ w1.DeadChain P (pre ++ post) ∧
      w1.calls = w.calls ++ pre.map (fun x => PopCall.isFree x false) ++
        [PopCall.isFree d true, PopCall.clear d, PopCall.add d] := by
  obtain ⟨u, hu⟩ := Population.allocateLoop_found H free hfree d post hd pre (Slot.dead P) w fuel
    hch hpre hfuel
  obtain ⟨cs, hcs⟩ : ∃ cs : List (PopCall T), cs = w.calls ++
    pre.map (fun x => PopCall.isFree x false) ++ [PopCall.isFree d true, PopCall.clear d] :=
    ⟨_, rfl⟩
  obtain ⟨w0, hw0⟩ : ∃ w0 : PopWorld T U, w0 = { w with calls := cs, user := u } := ⟨_, rfl⟩
  rw [← hcs, ← hw0] at hu
  have hch0 : Chained w0.next (w0.read (Slot.dead P)) (pre ++ d :: post) := by
    rw [hw0]; exact hch
  have hun := Chained.unlink d post pre (Slot.dead P) w0 hch0 (fun _ _ e => Slot.noConfusion e)
  have hnext : w0.next d = w.next d := by rw [hw0]
  rw [hnext] at hun
  refine ⟨(w0.write (slotAfter (Slot.dead P) pre) (w.next d)).call (PopCall.add d)
    (H.add P d (w0.write (slotAfter (Slot.dead P) pre) (w.next d))), ?_, ?_, ?_⟩
  · simp only [Population.allocate, hu]
  · exact hun
  · have hc : ∀ (q : Slot) (v : Option Node), (w0.write q v).calls = w0.calls := by
      intro q v; cases q <;> rfl
    simp only [PopWorld.call, hc]
    rw [hw0, hcs]; simp

/-- `Population::allocate` when no part of the dead chain is free: a part is
created and added, the chain stays. -/
theorem Population.allocate_none (H : PopHooks T U) (P : Nat) (free : Node → Bool)
    (hfree : ∀ d w, (H.isFree d w).1 = free d) (ds : List Node)
    (w : PopWorld T U) (fuel : Nat) (hch : w.DeadChain P ds)
    (hds : ∀ x ∈ ds, free x = false) (hfuel : ds.length < fuel) :
    ∃ r w1, Population.allocate H P fuel w = some (r, w1) ∧ w1.DeadChain P ds ∧
      w1.calls = w.calls ++ ds.map (fun x => PopCall.isFree x false) ++
        [PopCall.create r, PopCall.add r] := by
  obtain ⟨u, hu⟩ := Population.allocateLoop_none H free hfree ds (Slot.dead P) w fuel hch hds hfuel
  obtain ⟨cs, hcs⟩ : ∃ cs : List (PopCall T),
    cs = w.calls ++ ds.map (fun x => PopCall.isFree x false) := ⟨_, rfl⟩
  obtain ⟨w0, hw0⟩ : ∃ w0 : PopWorld T U, w0 = { w with calls := cs, user := u } := ⟨_, rfl⟩
  rw [← hcs, ← hw0] at hu
  refine ⟨(Population.create H P w0).1, (Population.create H P w0).2.call
    (PopCall.add (Population.create H P w0).1)
    (H.add P (Population.create H P w0).1 (Population.create H P w0).2), ?_, ?_, ?_⟩
  · simp only [Population.allocate, hu]
  · have : Chained w0.next (w0.dead P) ds := by rw [hw0]; exact hch
    exact this
  · simp [PopWorld.call, Population.create, hw0, hcs]

theorem callsSince_eq (w1 w : PopWorld T U) (l : List (PopCall T)) (h : w1.calls = w.calls ++ l) :
    w1.callsSince w = l := by
  rw [PopWorld.callsSince, h, List.drop_left]

/-! ### Population::connect: the links stay -/

theorem PopWorld.SameLinks.links_same (w : PopWorld T U) : w.SameLinks w := ⟨rfl, rfl, rfl, rfl, rfl⟩

theorem PopWorld.SameLinks.links_then {w2 w1 w : PopWorld T U} (h2 : w2.SameLinks w1)
    (h1 : w1.SameLinks w) : w2.SameLinks w :=
  ⟨h2.1.trans h1.1, h2.2.1.trans h1.2.1, h2.2.2.1.trans h1.2.2.1, h2.2.2.2.1.trans h1.2.2.2.1,
    h2.2.2.2.2.trans h1.2.2.2.2⟩

theorem Population.setPart_links (H : PopHooks T U) (c : Node) (i : Nat) (p : Node)
    (w : PopWorld T U) : (Population.setPart H c i p w).SameLinks w := ⟨rfl, rfl, rfl, rfl, rfl⟩

theorem Population.getCount_links (H : PopHooks T U) (c : Node) (i : Nat) (w : PopWorld T U) :
    (Population.getCount H c i w).2.SameLinks w := ⟨rfl, rfl, rfl, rfl, rfl⟩

theorem Population.getP_links (H : PopHooks T U) (c : Node) (w : PopWorld T U) :
    (Population.getP H c w).2.SameLinks w := ⟨rfl, rfl, rfl, rfl, rfl⟩

theorem Population.create_links (H : PopHooks T U) (P : Nat) (w : PopWorld T U) :
    (Population.create H P w).2.SameLinks w := ⟨rfl, rfl, rfl, rfl, rfl⟩

theorem Population.enter_links (H : PopHooks T U) (p c : Node) (w : PopWorld T U) :
    (Population.enter H p c w).SameLinks w := ⟨rfl, rfl, rfl, rfl, rfl⟩

theorem Population.reject_links [TimeLike T] (H : PopHooks T U) (x : T) (w : PopWorld T U) :
    (Population.reject H x w).2.SameLinks w := by
  unfold Population.reject
  split_ifs <;> exact ⟨rfl, rfl, rfl, rfl, rfl⟩

theorem Population.offer_links [TimeLike T] (H : PopHooks T U) (P : Nat) (k : Walk) (p b : Node)
    (s : Scan) (w : PopWorld T U) : (Population.offer H P k p b s w).2.1.SameLinks w := by
  have h1 := Population.getP_links H s.c w
  have h2 := (Population.reject_links H (Population.getP H s.c w).1 (Population.getP H s.c w).2).links_then h1
  simp only [Population.offer]
  split_ifs
  · exact h2
  · exact ((Population.setPart_links H _ _ _ _).links_then ((Population.create_links H P _).links_then
      (Population.enter_links H _ _ _))).links_then h2
  · exact ((Population.setPart_links H _ _ _ _).links_then ((Population.create_links H P _).links_then
      (Population.enter_links H _ _ _))).links_then h2

theorem Population.scanBody_links [TimeLike T] (H : PopHooks T U) (P : Nat) (k : Walk)
    (p b : Node) (s : Scan) (w : PopWorld T U) :
    (Population.scanBody H P k p b s w).2.1.SameLinks w := by
  have h1 := Population.setPart_links H s.c k.innerIndex b w
  simp only [Population.scanBody]
  split_ifs
  · exact (Population.getCount_links H _ _ _).links_then h1
  · exact (Population.offer_links H P k p b s _).links_then ((Population.getCount_links H _ _ _).links_then h1)
  · exact (Population.offer_links H P k p b s _).links_then h1

theorem Population.scanList_links [TimeLike T] (H : PopHooks T U) (P : Nat) (k : Walk) (p : Node) :
    ∀ (cs : List Node) (s : Scan) (w : PopWorld T U),
      (Population.scanList H P k p cs s w).2.SameLinks w
  | [], _, w => PopWorld.SameLinks.links_same w
  | b :: cs, s, w => by
    have h1 := Population.scanBody_links H P k p b s w
    simp only [Population.scanList]
    split_ifs
    · exact h1
    · exact (Population.scanList_links H P k p cs _ _).links_then h1

theorem Population.passBodyList_links [TimeLike T] (H : PopHooks T U) (P : Nat) (k : Walk)
    (R : List Node) (p : Node) (v : Vars) (w : PopWorld T U) :
    (Population.passBodyList H P k R p v w).2.SameLinks w := by
  have h1 := Population.setPart_links H v.c k.outerIndex p w
  simp only [Population.passBodyList]
  split_ifs
  · exact (Population.getCount_links H _ _ _).links_then h1
  · exact (Population.scanList_links H P k p _ _ _).links_then ((Population.getCount_links H _ _ _).links_then h1)
  · exact h1
  · exact (Population.scanList_links H P k p _ _ _).links_then h1

theorem Population.passList_links [TimeLike T] (H : PopHooks T U) (P : Nat) (k : Walk)
    (R : List Node) : ∀ (ps : List Node) (v : Vars) (w : PopWorld T U),
      (Population.passList H P k R ps v w).2.SameLinks w
  | [], _, w => PopWorld.SameLinks.links_same w
  | p :: ps, v, w =>
    (Population.passList_links H P k R ps _ _).links_then (Population.passBodyList_links H P k R p v w)

theorem Walk.step_congr (k : Walk) {w1 w : PopWorld T U} (h : w1.SameLinks w) (x : Node) :
    k.step x w1 = k.step x w := by
  unfold Walk.step
  rw [h.1, h.2.2.1]

theorem Walk.prev_congr (k : Walk) {w1 w : PopWorld T U} (h : w1.SameLinks w) (x : Node) :
    k.prev x w1 = k.prev x w := by
  unfold Walk.prev
  rw [h.2.1, h.2.2.1]

theorem Walk.Cycle.cycle_congr {k : Walk} {w1 w : PopWorld T U} {R : List Node}
    (h : w1.SameLinks w) (hc : k.Cycle w R) : k.Cycle w1 R := by
  refine ⟨hc.1, fun x hx => ?_⟩
  obtain ⟨h1, h2⟩ := hc.2 x hx
  refine ⟨?_, by rw [Walk.prev_congr k h]; exact h2⟩
  exact h1.imp (fun a b hab => by rw [Walk.step_congr k h]; exact hab)

theorem Population.connect_at_once [TimeLike T] (H : PopHooks T U) (P fuel : Nat)
    (w : PopWorld T U)
    (h : H.getTarget P 0 w = none ∨ H.getTarget P 1 w = none ∨
      ∃ A B, H.getTarget P 0 w = some A ∧ H.getTarget P 1 w = some B ∧
        w.old A = w.after (Node.live A) ∧ w.old B = w.after (Node.live B)) :
    Population.connect H P fuel w =
      some { w with calls := w.calls ++ [PopCall.getTarget 0, PopCall.getTarget 1] } := by
  rcases h with h | h | ⟨A, B, hA, hB, hoA, hoB⟩
  · simp [Population.connect, h, PopWorld.call]
  · cases hA : H.getTarget P 0 w <;> simp [Population.connect, h, hA, PopWorld.call]
  · simp [Population.connect, hA, hB, hoA, hoB, PopWorld.call]

/-! ### Population::connect: the loops as recursions over lists -/

theorem Population.offer_cur [TimeLike T] (H : PopHooks T U) (P : Nat) (k : Walk) (p b : Node)
    (s : Scan) (w : PopWorld T U) : (Population.offer H P k p b s w).1.cur = b := by
  simp only [Population.offer]
  split_ifs <;> rfl

theorem Population.scanBody_cur [TimeLike T] (H : PopHooks T U) (P : Nat) (k : Walk) (p b : Node)
    (s : Scan) (w : PopWorld T U) : (Population.scanBody H P k p b s w).1.cur = b := by
  simp only [Population.scanBody]
  split_ifs
  · rfl
  · exact Population.offer_cur H P k p b s _
  · exact Population.offer_cur H P k p b s _

/-- The inner loop meets the candidates `cs` and then `last`. -/
theorem Population.scan_eq [TimeLike T] (H : PopHooks T U) (P : Nat) (k : Walk) (p last : Node) :
    ∀ (cs : List Node) (s : Scan) (w : PopWorld T U) (fuel : Nat),
      last ∉ cs → List.Chain' (fun a b => k.step a w = some b) (s.cur :: (cs ++ [last])) →
      cs.length < fuel →
      Population.scan H P k p last fuel s w =
        some (Population.scanList H P k p (cs ++ [last]) s w)
  | _, _, _, 0, _, _, hf => absurd hf (Nat.not_lt_zero _)
  | [], s, w, fuel + 1, _, hch, _ => by
    have hstep : k.step s.cur w = some last := (List.chain'_cons.1 hch).1
    simp only [Population.scan, hstep, List.nil_append, Population.scanList, ne_eq,
      not_true_eq_false, if_false]
    split_ifs <;> rfl
  | b :: cs, s, w, fuel + 1, hnot, hch, hf => by
    have hstep : k.step s.cur w = some b := (List.chain'_cons.1 hch).1
    have hb : b ≠ last := fun e => hnot (by rw [e]; exact List.mem_cons_self _ _)
    have hrest := (List.chain'_cons.1 hch).2
    have hcur := Population.scanBody_cur H P k p b s w
    have hl := Population.scanBody_links H P k p b s w
    have ih := Population.scan_eq H P k p last cs (Population.scanBody H P k p b s w).1
      (Population.scanBody H P k p b s w).2.1 fuel
      (fun h => hnot (List.mem_cons_of_mem _ h))
      (by
        rw [hcur]
        exact hrest.imp (fun a c hac => by rw [Walk.step_congr k hl]; exact hac))
      (by simpa using hf)
    simp only [Population.scan, hstep, List.cons_append, Population.scanList, ne_eq, hb,
      not_false_eq_true, if_true]
    split_ifs
    · rfl
    · exact ih

theorem candidates_eq (pre : List Node) (x : Node) (post : List Node) (hx : x ∉ pre) :
    candidates (pre ++ x :: post) x = post ++ pre ++ [x] := by
  unfold candidates
  rw [List.indexOf_append_of_not_mem hx, List.indexOf_cons_self, Nat.add_zero,
    List.rotate_eq_drop_append_take (by simp), List.drop_append, List.take_append]
  simp

theorem candidates_split {R : List Node} {x : Node} (hR : R.Nodup) (hx : x ∈ R) :
    ∃ pre post, R = pre ++ x :: post ∧ x ∉ pre ∧ x ∉ post ∧
      candidates R x = post ++ pre ++ [x] := by
  obtain ⟨pre, post, h⟩ := List.append_of_mem hx
  subst h
  have h1 : x ∉ pre := fun hm => by
    have := List.nodup_append.1 hR
    exact this.2.2 hm (List.mem_cons_self _ _)
  have h2 : x ∉ post := fun hm => by
    have := (List.nodup_append.1 hR).2.1
    exact (List.nodup_cons.1 this).1 hm
  exact ⟨pre, post, rfl, h1, h2, candidates_eq pre x post h1⟩

theorem candidates_mem {R : List Node} {x y : Node} : y ∈ candidates R x ↔ y ∈ R := by
  unfold candidates
  exact List.mem_rotate

theorem candidates_nodup {R : List Node} {x : Node} (hR : R.Nodup) : (candidates R x).Nodup := by
  unfold candidates
  exact List.nodup_rotate.2 hR

theorem candidates_length (R : List Node) (x : Node) : (candidates R x).length = R.length := by
  unfold candidates
  exact List.length_rotate _ _

theorem cyclicPrev_mem {R : List Node} {x : Node} (hx : x ∈ R) : cyclicPrev R x ∈ R := by
  unfold cyclicPrev
  cases h : (candidates R x).dropLast.getLast? with
  | none => exact hx
  | some y =>
    have h1 : y ∈ (candidates R x).dropLast := List.mem_of_getLast?_eq_some h
    exact candidates_mem.1 (List.dropLast_subset _ h1)

theorem Population.scanList_nxt [TimeLike T] (H : PopHooks T U) (P : Nat) (k : Walk) (p : Node) :
    ∀ (cs : List Node) (s : Scan) (w : PopWorld T U),
      (Population.scanList H P k p cs s w).1.nxt = s.nxt ∨
        (Population.scanList H P k p cs s w).1.nxt ∈ cs
  | [], _, _ => Or.inl rfl
  | b :: cs, s, w => by
    have hb : (Population.scanBody H P k p b s w).1.nxt = s.nxt ∨
        (Population.scanBody H P k p b s w).1.nxt = b := by
      simp only [Population.scanBody, Population.offer]
      split_ifs <;> simp
    simp only [Population.scanList]
    split_ifs
    · rcases hb with h | h
      · exact Or.inl h
      · exact Or.inr (by rw [h]; exact List.mem_cons_self _ _)
    · rcases Population.scanList_nxt H P k p cs _ _ with h | h
      · rcases hb with h2 | h2
        · exact Or.inl (h.trans h2)
        · exact Or.inr (by rw [h, h2]; exact List.mem_cons_self _ _)
      · exact Or.inr (List.mem_cons_of_mem _ h)

theorem Population.passBodyList_last [TimeLike T] (H : PopHooks T U) (P : Nat) (k : Walk)
    (R : List Node) (p : Node) (v : Vars) (w : PopWorld T U) (hv : v.last ∈ R) :
    (Population.passBodyList H P k R p v w).1.last ∈ R := by
  simp only [Population.passBodyList]
  split_ifs
  · exact hv
  · rcases Population.scanList_nxt H P k p (candidates R v.last) _ _ with h | h
    · rw [h]; exact cyclicPrev_mem hv
    · exact candidates_mem.1 h
  · exact hv
  · rcases Population.scanList_nxt H P k p (candidates R v.last) _ _ with h | h
    · rw [h]; exact cyclicPrev_mem hv
    · exact candidates_mem.1 h

theorem Population.passList_last [TimeLike T] (H : PopHooks T U) (P : Nat) (k : Walk)
    (R : List Node) : ∀ (ps : List Node) (v : Vars) (w : PopWorld T U), v.last ∈ R →
      (Population.passList H P k R ps v w).1.last ∈ R
  | [], _, _, hv => hv
  | p :: ps, v, w, hv =>
    Population.passList_last H P k R ps _ _ (Population.passBodyList_last H P k R p v w hv)

/-- The body of an outer loop, when the inner loop goes around `R`. -/
theorem Population.passBody_eq [TimeLike T] (H : PopHooks T U) (P : Nat) (k : Walk)
    (R : List Node) (fuel : Nat) (p : Node) (v : Vars) (w : PopWorld T U)
    (hc : k.Cycle w R) (hv : v.last ∈ R) (hf : R.length ≤ fuel) :
    Population.passBody H P k fuel p v w = some (Population.passBodyList H P k R p v w) := by
  obtain ⟨pre, post, hR, hpre, hpost, hcand⟩ := candidates_split hc.1 hv
  have hlen : (post ++ pre).length < fuel := by
    have := congrArg List.length hR
    simp at this
    simp
    omega
  have hnot : v.last ∉ post ++ pre := fun h => by
    rcases List.mem_append.1 h with h | h
    · exact hpost h
    · exact hpre h
  have key : ∀ (n : Int) (w1 : PopWorld T U), w1.SameLinks w →
      ∀ r, r = Population.scanList H P k p (candidates R v.last)
        ⟨v.c, v.last, cyclicPrev R v.last, n⟩ w1 →
      (match k.prev v.last w1 with
        | none => none
        | some nxt =>
          match Population.scan H P k p v.last fuel ⟨v.c, v.last, nxt, n⟩ w1 with
          | none => none
          | some (s, w2) => some ((⟨s.c, s.nxt⟩ : Vars), w2)) =
        some ((⟨r.1.c, r.1.nxt⟩ : Vars), r.2) := by
    intro n w1 hl r hr
    have hc1 := (Walk.Cycle.cycle_congr hl hc).2 v.last hv
    have hscan := Population.scan_eq H P k p v.last (post ++ pre)
      ⟨v.c, v.last, cyclicPrev R v.last, n⟩ w1 fuel hnot
      (by rw [← hcand]; exact hc1.1) hlen
    rw [← hcand, ← hr] at hscan
    simp only [hc1.2, hscan]
  have h1 := Population.setPart_links H v.c k.outerIndex p w
  simp only [Population.passBody, Population.passBodyList]
  split_ifs
  · rfl
  · exact key _ _ ((Population.getCount_links H _ _ _).links_then h1) _ rfl
  · rfl
  · exact key _ _ h1 _ rfl

/-- An outer loop meets the new parts `ns` and stops at `o`, the value of `old`. -/
theorem Population.pass_eq [TimeLike T] (H : PopHooks T U) (P : Nat) (k : Walk) (X : Nat)
    (R : List Node) (inner : Nat) (o : Node) (hf : R.length ≤ inner) :
    ∀ (ns : List Node) (p : Node) (v : Vars) (w : PopWorld T U) (fuel : Nat),
      (ns ++ [o]).head? = some p →
      List.Chain' (fun a b => w.after a = some b) (ns ++ [o]) →
      w.old X = some o → o ∉ ns → k.Cycle w R → v.last ∈ R → ns.length < fuel →
      Population.pass H P k X inner fuel p v w = some (Population.passList H P k R ns v w)
  | _, _, _, _, 0, _, _, _, _, _, _, hfuel => absurd hfuel (Nat.not_lt_zero _)
  | [], p, v, w, fuel + 1, hp, _, ho, _, _, _, _ => by
    have hpo : p = o := by simpa using hp.symm
    simp [Population.pass, ho, hpo, Population.passList]
  | n :: ns, p, v, w, fuel + 1, hp, hch, ho, hnot, hc, hv, hfuel => by
    have hpn : p = n := by simpa using hp.symm
    subst hpn
    have hne : ¬ (some p = w.old X) := by
      rw [ho]
      intro e
      exact hnot (by rw [← Option.some.inj e]; exact List.mem_cons_self _ _)
    have hbody := Population.passBody_eq H P k R inner p v w hc hv hf
    have hl := Population.passBodyList_links H P k R p v w
    obtain ⟨m, hm⟩ : ∃ m, (ns ++ [o]).head? = some m := by
      cases ns <;> simp
    have hch2 : List.Chain' (fun a b => w.after a = some b) (p :: (ns ++ [o])) := hch
    have hafter : w.after p = some m := by
      cases hns : ns ++ [o] with
      | nil => simp at hns
      | cons y t =>
        rw [hns] at hch2 hm
        have : y = m := by simpa using hm
        rw [← this]
        exact (List.chain'_cons.1 hch2).1
    have htail : List.Chain' (fun a b => w.after a = some b) (ns ++ [o]) := hch2.tail
    have ih := Population.pass_eq H P k X R inner o hf ns m
      (Population.passBodyList H P k R p v w).1 (Population.passBodyList H P k R p v w).2 fuel hm
      (htail.imp (fun a b hab => by rw [hl.1]; exact hab))
      (by rw [hl.2.2.1]; exact ho) (fun h => hnot (List.mem_cons_of_mem _ h))
      (Walk.Cycle.cycle_congr hl hc) (Population.passBodyList_last H P k R p v w hv)
      (by simpa using hfuel)
    simp only [Population.pass, hne, if_false, hbody, hl.1, hafter, ih, Population.passList]

/-! ### Population::connect: the inner loops go around the rings -/

theorem Walk.step_inside (k : Walk) (w : PopWorld T U) (a b : Node) (h : w.after a = some b)
    (hb : b ≠ Node.live k.inner) : k.step a w = some b := by
  simp [Walk.step, h, hb]

theorem Walk.step_wrap (k : Walk) (w : PopWorld T U) (a r0 : Node)
    (h : w.after a = some (Node.live k.inner))
    (hwrap : (if k.oldOnly then w.old k.inner else w.after (Node.live k.inner)) = some r0) :
    k.step a w = some r0 := by
  simp [Walk.step, h, hwrap]

/-- A chain of `after` through the parts `r0 :: rt` to the sentinel, closed by
the wrap of the loop, makes the inner loop go around `r0 :: rt`. -/
theorem Walk.cycle_of_chain (k : Walk) (w : PopWorld T U) (r0 : Node) (rt : List Node)
    (hnd : (r0 :: rt).Nodup) (hS : Node.live k.inner ∉ r0 :: rt)
    (hch : List.Chain' (fun a b => w.after a = some b ∧ w.before b = some a)
      ((r0 :: rt) ++ [Node.live k.inner]))
    (hwrap : (if k.oldOnly then w.old k.inner else w.after (Node.live k.inner)) = some r0)
    (hfirst : k.oldOnly = false → w.before r0 = some (Node.live k.inner)) :
    k.Cycle w (r0 :: rt) := by
  refine ⟨hnd, fun x hx => ?_⟩
  obtain ⟨pre, post, hR, hpre, hpost, hcand⟩ := candidates_split hnd hx
  have hchR := (List.chain'_append.1 hch).1
  have hlastS : ∀ a ∈ (r0 :: rt).getLast?, w.after a = some (Node.live k.inner) ∧
      w.before (Node.live k.inner) = some a :=
    fun a ha => (List.chain'_append.1 hch).2.2 a ha _ rfl
  have hstepR : List.Chain' (fun a b => k.step a w = some b) (r0 :: rt) := by
    refine (List.Chain'.iff_mem.1 hchR).imp ?_
    intro a b ⟨_, hb, hab⟩
    exact Walk.step_inside k w a b hab.1 (fun e => hS (by rw [← e]; exact hb))
  have hlast : (x :: post).getLast? = (r0 :: rt).getLast? := by
    rw [hR, List.getLast?_append_cons]
  have hhead : (pre ++ [x]).head? = some r0 := by
    cases pre with
    | nil =>
      simp only [List.nil_append] at hR
      simp [(List.cons.inj hR).1]
    | cons y pre' =>
      simp only [List.cons_append] at hR
      simp [(List.cons.inj hR).1]
  constructor
  · rw [hcand]
    have e : x :: (post ++ pre ++ [x]) = (x :: post) ++ (pre ++ [x]) := by simp
    rw [e]
    refine List.chain'_append.2 ⟨?_, ?_, ?_⟩
    · exact hstepR.suffix (by rw [hR]; exact List.suffix_append _ _)
    · refine hstepR.prefix ?_
      rw [hR]
      exact ⟨post, by simp⟩
    · intro a ha b hb
      rw [hhead] at hb
      have hb2 : b = r0 := (Option.some.inj hb).symm
      rw [hlast] at ha
      rw [hb2]
      exact Walk.step_wrap k w a r0 (hlastS a ha).1 hwrap
  · have hcp : cyclicPrev (r0 :: rt) x = (post ++ pre).getLast?.getD x := by
      unfold cyclicPrev
      rw [hcand, List.dropLast_concat]
    rw [hcp]
    rcases List.eq_nil_or_concat pre with hpn | ⟨pre', y, hpy⟩
    · subst hpn
      simp only [List.nil_append] at hR
      have hx0 : x = r0 := (List.cons.inj hR).1.symm
      have hz : w.before (Node.live k.inner) = some (post.getLast?.getD x) := by
        refine (hlastS _ ?_).2
        rw [← hlast, List.getLast?_cons]
        rfl
      simp only [List.append_nil]
      cases hk : k.oldOnly with
      | true =>
        rw [hk] at hwrap
        simp only [if_true] at hwrap
        subst hx0
        simp [Walk.prev, hk, hwrap, hz]
      | false =>
        have hb := hfirst hk
        subst hx0
        simp [Walk.prev, hk, hb, hz]
    · rw [List.concat_eq_append] at hpy
      subst hpy
      have hF : (r0 :: rt) ++ [Node.live k.inner] =
          pre' ++ y :: x :: (post ++ [Node.live k.inner]) := by
        rw [hR]; simp
      rw [hF] at hch
      have hyx := (List.chain'_append_cons_cons.1 hch).2.1
      have hyR : y ∈ r0 :: rt := by rw [hR]; simp
      have hyS : y ≠ Node.live k.inner := fun e => hS (by rw [← e]; exact hyR)
      have hxr : x ≠ r0 := by
        intro e
        apply hpre
        have : (pre' ++ [y] ++ x :: post).head? = some r0 := by rw [← hR]; rfl
        cases pre' with
        | nil =>
          simp at this
          rw [e, ← this]; simp
        | cons z t =>
          simp at this
          rw [e, ← this]; simp
      have hgl : (post ++ (pre' ++ [y])).getLast?.getD x = y := by
        rw [← List.append_assoc, List.getLast?_concat]; rfl
      rw [hgl]
      cases hk : k.oldOnly with
      | true =>
        rw [hk] at hwrap
        simp only [if_true] at hwrap
        have hne : ¬ (some x = w.old k.inner) := by
          rw [hwrap]; intro e; exact hxr (Option.some.inj e)
        simp [Walk.prev, hk, hne, hyx.2]
      | false =>
        simp [Walk.prev, hk, hyx.2, hyS]

theorem PopWorld.Ring.cycle_all {w : PopWorld T U} {B : Nat} {l : List Node} (h : w.Ring B l)
    (Amin Amax Bmax : Int) : (Walk.newA B Amin Amax Bmax).Cycle w (ringCycle B l) := by
  cases l with
  | nil =>
    have hl : w.after (Node.live B) = some (Node.live B) ∧
        w.before (Node.live B) = some (Node.live B) := (List.chain'_cons.1 h.2).1
    refine ⟨by simp [ringCycle], fun x hx => ?_⟩
    have hx : x = Node.live B := by simpa [ringCycle] using hx
    subst hx
    have hc : candidates [Node.live B] (Node.live B) = [Node.live B] := by
      simp [candidates]
    refine ⟨?_, ?_⟩
    · simp [ringCycle, hc, Walk.step, Walk.newA, hl.1]
    · simp [ringCycle, cyclicPrev, hc, Walk.prev, Walk.newA, hl.2]
  | cons b0 bt =>
    have hnd := (List.nodup_cons.1 h.1).2
    have hS := (List.nodup_cons.1 h.1).1
    have hlink : w.after (Node.live B) = some b0 ∧ w.before b0 = some (Node.live B) :=
      (List.chain'_cons.1 h.2).1
    have hc := Walk.cycle_of_chain (Walk.newA B Amin Amax Bmax) w b0 bt hnd hS h.2.tail
      (by simp [Walk.newA, hlink.1]) (fun _ => hlink.2)
    simpa [ringCycle] using hc

theorem PopWorld.Holds.cycle_old {w : PopWorld T U} {A : Nat} {newA : List Node} {o0 : Node}
    {ot : List Node} (h : w.Holds A newA (o0 :: ot)) (Bmin Bmax Amax : Int) :
    (Walk.newB A Bmin Bmax Amax).Cycle w (o0 :: ot) := by
  have hnd0 := (List.nodup_cons.1 h.1.1).2
  have hS0 := (List.nodup_cons.1 h.1.1).1
  have hnd : (o0 :: ot).Nodup := (List.nodup_append.1 hnd0).2.1
  have hS : Node.live A ∉ o0 :: ot := fun hm => hS0 (List.mem_append_right _ hm)
  have hch : List.Chain' (fun a b => w.after a = some b ∧ w.before b = some a)
      ((o0 :: ot) ++ [Node.live A]) := by
    refine h.1.2.suffix ?_
    exact ⟨Node.live A :: newA, by simp⟩
  have hold : w.old A = some o0 := h.2
  exact Walk.cycle_of_chain (Walk.newB A Bmin Bmax Amax) w o0 ot hnd hS hch
    (by simp [Walk.newB, hold]) (fun hk => by simp [Walk.newB] at hk)

/-- The outer loop over population `X` starts at `live.after`, goes through the
new parts and ends at `old`. -/
theorem PopWorld.Holds.outer {w : PopWorld T U} {X : Nat} {newX oldX : List Node}
    (h : w.Holds X newX oldX) :
    ∃ p, w.after (Node.live X) = some p ∧
      (newX ++ [oldX.head?.getD (Node.live X)]).head? = some p ∧
      List.Chain' (fun a b => w.after a = some b) (newX ++ [oldX.head?.getD (Node.live X)]) ∧
      oldX.head?.getD (Node.live X) ∉ newX := by
  obtain ⟨o, rest, ho, hor⟩ : ∃ o rest, oldX.head?.getD (Node.live X) = o ∧
      oldX ++ [Node.live X] = o :: rest := by
    cases oldX with
    | nil => exact ⟨_, [], rfl, rfl⟩
    | cons a t => exact ⟨a, t ++ [Node.live X], rfl, rfl⟩
  rw [ho]
  have hch : List.Chain' (fun a b => w.after a = some b)
      ((Node.live X :: newX) ++ o :: rest) := by
    have := h.1.2.imp (fun a b (hab : w.after a = some b ∧ w.before b = some a) => hab.1)
    rw [List.append_assoc, hor] at this
    exact this
  have hch2 : List.Chain' (fun a b => w.after a = some b) (Node.live X :: (newX ++ [o])) :=
    (List.chain'_split.1 hch).1
  obtain ⟨p, hp⟩ : ∃ p, (newX ++ [o]).head? = some p := by
    cases newX <;> simp
  refine ⟨p, ?_, hp, hch2.tail, ?_⟩
  · cases hn : newX ++ [o] with
    | nil => simp at hn
    | cons y t =>
      rw [hn] at hch2 hp
      have : y = p := by simpa using hp
      rw [← this]
      exact (List.chain'_cons.1 hch2).1
  · intro hm
    have hnd := h.1.1
    cases oldX with
    | nil =>
      have : o = Node.live X := ho.symm
      rw [this] at hm
      exact (List.nodup_cons.1 hnd).1 (List.mem_append_left _ hm)
    | cons a t =>
      have : o = a := ho.symm
      rw [this] at hm
      have hd := (List.nodup_append.1 (List.nodup_cons.1 hnd).2).2.2
      exact hd hm (List.mem_cons_self _ _)

/-- `old == live.after` exactly when no part is new. -/
theorem PopWorld.Holds.old_eq_after {w : PopWorld T U} {X : Nat} {newX oldX : List Node}
    (h : w.Holds X newX oldX) : w.old X = w.after (Node.live X) ↔ newX = [] := by
  obtain ⟨p, hp, hhead, _, hnot⟩ := h.outer
  rw [h.2, hp]
  constructor
  · intro e
    cases newX with
    | nil => rfl
    | cons a t =>
      exfalso
      apply hnot
      have : a = p := by simpa using hhead
      rw [Option.some.inj e, ← this]
      exact List.mem_cons_self _ _
  · intro e
    subst e
    simpa using hhead

theorem PopWorld.Holds.holds_congr {w1 w : PopWorld T U} {X : Nat} {newX oldX : List Node}
    (hl : w1.SameLinks w) (h : w.Holds X newX oldX) : w1.Holds X newX oldX := by
  refine ⟨⟨h.1.1, ?_⟩, by rw [hl.2.2.1]; exact h.2⟩
  exact h.1.2.imp (fun a b hab => by rw [hl.1, hl.2.1]; exact hab)

theorem ringCycle_ne_nil (B : Nat) (l : List Node) : ringCycle B l ≠ [] := by
  unfold ringCycle
  split_ifs with h
  · simp
  · exact h

theorem ringCycle_length (B : Nat) (l : List Node) : (ringCycle B l).length ≤ l.length + 1 := by
  unfold ringCycle
  split_ifs with h
  · simp
  · exact Nat.le_succ _

/-- `Blast = B->live.after` is the first part of the cyclic list of the walk
over `B`. -/
theorem PopWorld.Ring.after_live {w : PopWorld T U} {B : Nat} {l : List Node} (h : w.Ring B l) :
    w.after (Node.live B) = some ((ringCycle B l).headD (Node.live B)) := by
  cases l with
  | nil => exact ((List.chain'_cons.1 h.2).1).1
  | cons b0 bt => exact ((List.chain'_cons.1 h.2).1).1

/-- The body of the loop `while (! minSatisfied)`. -/
theorem Population.round_eq [TimeLike T] (H : PopHooks T U) (P A B : Nat)
    (Amin Amax Bmin Bmax : Int) (newA oldA newB oldB : List Node) (w : PopWorld T U)
    (fuel : Nat) (c : Node) (hHA : w.Holds A newA oldA) (hHB : w.Holds B newB oldB)
    (hfuel : (newA ++ oldA).length + (newB ++ oldB).length + 2 ≤ fuel)
    (r1 r2 : Vars × PopWorld T U)
    (hr1 : r1 = Population.passList H P (Walk.newA B Amin Amax Bmax)
      (ringCycle B (newB ++ oldB)) newA
      ⟨c, (ringCycle B (newB ++ oldB)).headD (Node.live B)⟩ w)
    (hr2 : r2 = if oldA = [] then r1
      else Population.passList H P (Walk.newB A Bmin Bmax Amax) oldA newB
        ⟨r1.1.c, oldA.headD (Node.live A)⟩ r1.2) :
    ∃ Alast1 Blast1, Population.round H P A B Amin Amax Bmin Bmax fuel c
        (oldA.headD (Node.live A)) ((ringCycle B (newB ++ oldB)).headD (Node.live B)) w =
      some (r2.1.c, Alast1, Blast1, r2.2) := by
  obtain ⟨pA, hpA, hheadA, hchA, hnotA⟩ := hHA.outer
  have hlenA : newA.length < fuel := by simp at hfuel; omega
  have hlenB : newB.length < fuel := by simp at hfuel; omega
  have hRlen : (ringCycle B (newB ++ oldB)).length ≤ fuel := by
    have := ringCycle_length B (newB ++ oldB)
    omega
  have hmem : (ringCycle B (newB ++ oldB)).headD (Node.live B) ∈ ringCycle B (newB ++ oldB) := by
    have := ringCycle_ne_nil B (newB ++ oldB)
    cases h : ringCycle B (newB ++ oldB) with
    | nil => exact absurd h this
    | cons a t => simp
  have hp1 := Population.pass_eq H P (Walk.newA B Amin Amax Bmax) A
    (ringCycle B (newB ++ oldB)) fuel (oldA.head?.getD (Node.live A)) hRlen newA pA
    ⟨c, (ringCycle B (newB ++ oldB)).headD (Node.live B)⟩ w fuel hheadA hchA hHA.2 hnotA
    (hHB.1.cycle_all Amin Amax Bmax) hmem hlenA
  rw [← hr1] at hp1
  have hl1 : r1.2.SameLinks w := by rw [hr1]; exact Population.passList_links _ _ _ _ _ _ _
  cases holdA : oldA with
  | nil =>
    have hold : r1.2.old A = some (Node.live A) := by
      rw [hl1.2.2.1, hHA.2, holdA]; rfl
    have e2 : r2 = r1 := by rw [hr2, holdA]; rfl
    rw [e2]
    refine ⟨Node.live A, r1.1.last, ?_⟩
    simp only [Population.round, hpA, hp1, hold, ne_eq, not_true_eq_false, if_false,
      List.headD_nil]
  | cons o0 ot =>
    have hHA' : w.Holds A newA (o0 :: ot) := by rw [← holdA]; exact hHA
    have hold : r1.2.old A = some o0 := by
      rw [hl1.2.2.1, hHA'.2]; rfl
    have ho0 : o0 ≠ Node.live A := by
      intro e
      have := (List.nodup_cons.1 hHA'.1.1).1
      apply this
      rw [← e]; simp
    have hne : r1.2.old A ≠ some (Node.live A) := by
      rw [hold]; intro e; exact ho0 (Option.some.inj e)
    have hHB1 : r1.2.Holds B newB oldB := hHB.holds_congr hl1
    obtain ⟨pB, hpB, hheadB, hchB, hnotB⟩ := hHB1.outer
    have hlenO : (o0 :: ot).length ≤ fuel := by
      rw [holdA] at hfuel; simp at hfuel; simp; omega
    have hp2 := Population.pass_eq H P (Walk.newB A Bmin Bmax Amax) B (o0 :: ot) fuel
      (oldB.head?.getD (Node.live B)) hlenO newB pB ⟨r1.1.c, o0⟩ r1.2 fuel hheadB hchB hHB1.2
      hnotB (Walk.Cycle.cycle_congr hl1 (hHA'.cycle_old Bmin Bmax Amax))
      (List.mem_cons_self _ _) hlenB
    have e2 : r2 = Population.passList H P (Walk.newB A Bmin Bmax Amax) (o0 :: ot) newB
        ⟨r1.1.c, o0⟩ r1.2 := by
      rw [hr2, holdA]; rfl
    rw [← e2] at hp2
    refine ⟨r2.1.last, r1.1.last, ?_⟩
    simp only [Population.round, hpA, hp1, hne, ne_eq, not_false_eq_true, if_true, hpB,
      List.headD_cons, hp2]

/-- `Population::connect` past the early returns, for rings that hold the parts
`newA ++ oldA` and `newB ++ oldB`. -/
theorem Population.connect_eq [TimeLike T] (H : PopHooks T U) (P A B : Nat)
    (newA oldA newB oldB : List Node) (w : PopWorld T U) (fuel : Nat)
    (hA : H.getTarget P 0 w = some A) (hB : H.getTarget P 1 w = some B)
    (hHA : w.Holds A newA oldA) (hHB : w.Holds B newB oldB)
    (hnew : ¬ (newA = [] ∧ newB = []))
    (hfuel : (newA ++ oldA).length + (newB ++ oldB).length + 2 ≤ fuel) :
    Population.connect H P fuel w = some (Population.connectList H P A B newA oldA newB
      (ringCycle B (newB ++ oldB)) w) := by
  obtain ⟨w1, hw1⟩ : ∃ w1, w1 = (w.call (PopCall.getTarget 0) w.user).call
    (PopCall.getTarget 1) w.user := ⟨_, rfl⟩
  obtain ⟨w2, hw2⟩ : ∃ w2, w2 = (((w1.call (PopCall.getMin 0) w1.user).call (PopCall.getMax 0)
    w1.user).call (PopCall.getMin 1) w1.user).call (PopCall.getMax 1) w1.user := ⟨_, rfl⟩
  have hl1 : w1.SameLinks w := by rw [hw1]; exact ⟨rfl, rfl, rfl, rfl, rfl⟩
  have hl2 : w2.SameLinks w := by rw [hw2]; exact PopWorld.SameLinks.links_then ⟨rfl, rfl, rfl, rfl, rfl⟩ hl1
  have hl3 : (Population.create H P w2).2.SameLinks w := (Population.create_links H P w2).links_then hl2
  have hcond : ¬ (w1.old A = w1.after (Node.live A) ∧ w1.old B = w1.after (Node.live B)) := by
    rw [hl1.1, hl1.2.2.1, hHA.old_eq_after, hHB.old_eq_after]
    exact hnew
  have hHA3 := hHA.holds_congr hl3
  have hHB3 := hHB.holds_congr hl3
  have hAlast : (Population.create H P w2).2.old A = some (oldA.headD (Node.live A)) := by
    rw [hHA3.2]; cases oldA <;> rfl
  have hBlast := hHB3.1.after_live
  obtain ⟨f, hf⟩ : ∃ f, fuel = f + 2 := ⟨fuel - 2, by omega⟩
  obtain ⟨r1, hr1⟩ : ∃ r1, r1 = Population.passList H P
    (Walk.newA B (H.getMin P 0 w1) (H.getMax P 0 w1) (H.getMax P 1 w1))
    (ringCycle B (newB ++ oldB)) newA
    ⟨(Population.create H P w2).1, (ringCycle B (newB ++ oldB)).headD (Node.live B)⟩
    (Population.create H P w2).2 := ⟨_, rfl⟩
  obtain ⟨r2, hr2⟩ : ∃ r2, r2 = if oldA = [] then r1
    else Population.passList H P
      (Walk.newB A (H.getMin P 1 w1) (H.getMax P 1 w1) (H.getMax P 0 w1)) oldA newB
      ⟨r1.1.c, oldA.headD (Node.live A)⟩ r1.2 := ⟨_, rfl⟩
  obtain ⟨Alast1, Blast1, hround⟩ := Population.round_eq H P A B (H.getMin P 0 w1)
    (H.getMax P 0 w1) (H.getMin P 1 w1) (H.getMax P 1 w1) newA oldA newB oldB
    (Population.create H P w2).2 fuel (Population.create H P w2).1 hHA3 hHB3 hfuel r1 r2 hr1 hr2
  have hrounds : Population.rounds H P A B (H.getMin P 0 w1) (H.getMax P 0 w1)
      (H.getMin P 1 w1) (H.getMax P 1 w1) fuel fuel false (Population.create H P w2).1
      (oldA.headD (Node.live A)) ((ringCycle B (newB ++ oldB)).headD (Node.live B))
      (Population.create H P w2).2 = some (r2.1.c, r2.2) := by
    conv_lhs => rw [hf]
    simp only [Population.rounds, Bool.false_eq_true, if_false, ← hf, hround, if_true]
  simp only [Population.connect, hA, hB, ← hw1, hcond, if_false, ← hw2, hAlast, hBlast, hrounds]
  simp only [Population.connectList, ← hw1, ← hw2, ← hr1, ← hr2]

/-! ### Population::connect when `getP` returns zero -/

theorem PopWorld.Probed.probed_same (w : PopWorld T U) : w.Probed w :=
  ⟨rfl, [], by simp, by simp⟩

theorem PopWorld.Probed.probed_then {w2 w1 w : PopWorld T U} (h2 : w2.Probed w1) (h1 : w1.Probed w) :
    w2.Probed w := by
  obtain ⟨a2, l2, c2, p2⟩ := h2
  obtain ⟨a1, l1, c1, p1⟩ := h1
  refine ⟨a2.trans a1, l1 ++ l2, by rw [c2, c1, List.append_assoc], ?_⟩
  intro x hx
  rcases List.mem_append.1 hx with h | h
  · exact p1 x h
  · exact p2 x h

theorem PopWorld.call_accepted (w : PopWorld T U) (k : PopCall T) (u : U) :
    (w.call k u).accepted = w.accepted := rfl

theorem PopWorld.call_calls (w : PopWorld T U) (k : PopCall T) (u : U) :
    (w.call k u).calls = w.calls ++ [k] := rfl

theorem PopWorld.call_proposed (w : PopWorld T U) (k : PopCall T) (u : U) :
    (w.call k u).proposed = w.proposed := rfl

theorem Population.create_accepted (H : PopHooks T U) (P : Nat) (w : PopWorld T U) :
    (Population.create H P w).2.accepted = w.accepted := rfl

theorem Population.create_proposed (H : PopHooks T U) (P : Nat) (w : PopWorld T U) :
    (Population.create H P w).2.proposed = w.proposed := rfl

theorem Population.create_calls (H : PopHooks T U) (P : Nat) (w : PopWorld T U) :
    (Population.create H P w).2.calls = w.calls ++ [PopCall.create (Population.create H P w).1] :=
  rfl

theorem Population.setPart_probed (H : PopHooks T U) (c : Node) (i : Nat) (p : Node)
    (w : PopWorld T U) : (Population.setPart H c i p w).Probed w :=
  ⟨rfl, [PopCall.setPart c i p], rfl, by simp [PopCall.isProbe]⟩

theorem Population.getCount_probed (H : PopHooks T U) (c : Node) (i : Nat) (w : PopWorld T U) :
    (Population.getCount H c i w).2.Probed w :=
  ⟨rfl, [PopCall.getCount c i (H.getCount c i w).1], rfl, by simp [PopCall.isProbe]⟩

theorem Population.getP_probed (H : PopHooks T U) (c : Node) (w : PopWorld T U) :
    (Population.getP H c w).2.Probed w :=
  ⟨rfl, [PopCall.getP c (H.getP c w).1], rfl, by simp [PopCall.isProbe]⟩

theorem Population.offer_zero [TimeLike T] (H : PopHooks T U) (P : Nat) (k : Walk) (p b : Node)
    (s : Scan) (w : PopWorld T U) (hP : ∀ c w, (H.getP c w).1 = TimeLike.lit 0) :
    Population.offer H P k p b s w = ({ s with cur := b }, (Population.getP H s.c w).2, false) := by
  have h0 : (Population.getP H s.c w).1 = TimeLike.lit 0 := hP s.c w
  simp [Population.offer, Population.reject, h0]

theorem Population.scanBody_zero [TimeLike T] (H : PopHooks T U) (P : Nat) (k : Walk)
    (p b : Node) (s : Scan) (w : PopWorld T U) (hP : ∀ c w, (H.getP c w).1 = TimeLike.lit 0) :
    (Population.scanBody H P k p b s w).1.c = s.c ∧
      (Population.scanBody H P k p b s w).2.1.Probed w := by
  have h1 := Population.setPart_probed H s.c k.innerIndex b w
  simp only [Population.scanBody, Population.offer_zero H P k p b s _ hP]
  split_ifs
  · exact ⟨rfl, (Population.getCount_probed H _ _ _).probed_then h1⟩
  · exact ⟨rfl, (Population.getP_probed H _ _).probed_then ((Population.getCount_probed H _ _ _).probed_then h1)⟩
  · exact ⟨rfl, (Population.getP_probed H _ _).probed_then h1⟩

theorem Population.scanList_zero [TimeLike T] (H : PopHooks T U) (P : Nat) (k : Walk) (p : Node)
    (hP : ∀ c w, (H.getP c w).1 = TimeLike.lit 0) :
    ∀ (cs : List Node) (s : Scan) (w : PopWorld T U),
      (Population.scanList H P k p cs s w).1.c = s.c ∧
        (Population.scanList H P k p cs s w).2.Probed w
  | [], _, w => ⟨rfl, PopWorld.Probed.probed_same w⟩
  | b :: cs, s, w => by
    have hb := Population.scanBody_zero H P k p b s w hP
    have ih := Population.scanList_zero H P k p hP cs (Population.scanBody H P k p b s w).1
      (Population.scanBody H P k p b s w).2.1
    simp only [Population.scanList]
    split_ifs
    · exact hb
    · exact ⟨ih.1.trans hb.1, ih.2.probed_then hb.2⟩

theorem Population.passBodyList_zero [TimeLike T] (H : PopHooks T U) (P : Nat) (k : Walk)
    (R : List Node) (p : Node) (v : Vars) (w : PopWorld T U)
    (hP : ∀ c w, (H.getP c w).1 = TimeLike.lit 0) :
    (Population.passBodyList H P k R p v w).1.c = v.c ∧
      (Population.passBodyList H P k R p v w).2.Probed w := by
  have h1 := Population.setPart_probed H v.c k.outerIndex p w
  simp only [Population.passBodyList]
  split_ifs
  · exact ⟨rfl, (Population.getCount_probed H _ _ _).probed_then h1⟩
  · have hs := Population.scanList_zero H P k p hP (candidates R v.last)
      ⟨v.c, v.last, cyclicPrev R v.last, (Population.getCount H v.c k.outerIndex
        (Population.setPart H v.c k.outerIndex p w)).1⟩
      (Population.getCount H v.c k.outerIndex (Population.setPart H v.c k.outerIndex p w)).2
    exact ⟨hs.1, hs.2.probed_then ((Population.getCount_probed H _ _ _).probed_then h1)⟩
  · exact ⟨rfl, h1⟩
  · have hs := Population.scanList_zero H P k p hP (candidates R v.last)
      ⟨v.c, v.last, cyclicPrev R v.last, 0⟩ (Population.setPart H v.c k.outerIndex p w)
    exact ⟨hs.1, hs.2.probed_then h1⟩

theorem Population.passList_zero [TimeLike T] (H : PopHooks T U) (P : Nat) (k : Walk)
    (R : List Node) (hP : ∀ c w, (H.getP c w).1 = TimeLike.lit 0) :
    ∀ (ps : List Node) (v : Vars) (w : PopWorld T U),
      (Population.passList H P k R ps v w).1.c = v.c ∧
        (Population.passList H P k R ps v w).2.Probed w
  | [], _, w => ⟨rfl, PopWorld.Probed.probed_same w⟩
  | p :: ps, v, w => by
    have hb := Population.passBodyList_zero H P k R p v w hP
    have ih := Population.passList_zero H P k R hP ps (Population.passBodyList H P k R p v w).1
      (Population.passBodyList H P k R p v w).2
    exact ⟨ih.1.trans hb.1, ih.2.probed_then hb.2⟩

theorem Population.connectList_zero [TimeLike T] (H : PopHooks T U) (P A B : Nat)
    (newA oldA newB RB : List Node) (w : PopWorld T U)
    (hP : ∀ c w, (H.getP c w).1 = TimeLike.lit 0) :
    ∃ c l, (Population.connectList H P A B newA oldA newB RB w).accepted = w.accepted ∧
      (Population.connectList H P A B newA oldA newB RB w).calls = w.calls ++
        [PopCall.getTarget 0, PopCall.getTarget 1, PopCall.getMin 0, PopCall.getMax 0,
          PopCall.getMin 1, PopCall.getMax 1, PopCall.create c] ++ l ++ [PopCall.delete c] ∧
      ∀ x ∈ l, PopCall.isProbe x = true := by
  obtain ⟨w1, hw1⟩ : ∃ w1, w1 = (w.call (PopCall.getTarget 0) w.user).call
    (PopCall.getTarget 1) w.user := ⟨_, rfl⟩
  obtain ⟨w2, hw2⟩ : ∃ w2, w2 = (((w1.call (PopCall.getMin 0) w1.user).call (PopCall.getMax 0)
    w1.user).call (PopCall.getMin 1) w1.user).call (PopCall.getMax 1) w1.user := ⟨_, rfl⟩
  obtain ⟨r1, hr1⟩ : ∃ r1, r1 = Population.passList H P
    (Walk.newA B (H.getMin P 0 w1) (H.getMax P 0 w1) (H.getMax P 1 w1)) RB newA
    ⟨(Population.create H P w2).1, RB.headD (Node.live B)⟩
    (Population.create H P w2).2 := ⟨_, rfl⟩
  obtain ⟨r2, hr2⟩ : ∃ r2, r2 = if oldA = [] then r1
    else Population.passList H P
      (Walk.newB A (H.getMin P 1 w1) (H.getMax P 1 w1) (H.getMax P 0 w1)) oldA newB
      ⟨r1.1.c, oldA.headD (Node.live A)⟩ r1.2 := ⟨_, rfl⟩
  have h1 : r1.1.c = (Population.create H P w2).1 ∧ r1.2.Probed (Population.create H P w2).2 := by
    rw [hr1]; exact Population.passList_zero H P _ RB hP newA _ _
  have h2 : r2.1.c = (Population.create H P w2).1 ∧ r2.2.Probed (Population.create H P w2).2 := by
    rw [hr2]
    split_ifs
    · exact h1
    · have := Population.passList_zero H P
        (Walk.newB A (H.getMin P 1 w1) (H.getMax P 1 w1) (H.getMax P 0 w1)) oldA hP newB
        ⟨r1.1.c, oldA.headD (Node.live A)⟩ r1.2
      exact ⟨this.1.trans h1.1, this.2.probed_then h1.2⟩
  have hfin : Population.connectList H P A B newA oldA newB RB w =
      r2.2.call (PopCall.delete r2.1.c) (H.delete r2.1.c r2.2) := by
    simp only [Population.connectList, ← hw1, ← hw2, ← hr1, ← hr2]
  obtain ⟨hacc, l, hcalls, hl⟩ := h2.2
  refine ⟨(Population.create H P w2).1, l, ?_, ?_, hl⟩
  · rw [hfin, PopWorld.call_accepted, hacc, Population.create_accepted, hw2, hw1]
    simp only [PopWorld.call_accepted]
  · rw [hfin, PopWorld.call_calls, hcalls, h2.1, Population.create_calls, hw2, hw1]
    simp only [PopWorld.call_calls, List.append_assoc, List.singleton_append, List.cons_append,
      List.nil_append]

/-! ### Population::connect: what is proposed and accepted -/

theorem Population.setPart_accepted (H : PopHooks T U) (c : Node) (i : Nat) (p : Node)
    (w : PopWorld T U) : (Population.setPart H c i p w).accepted = w.accepted := rfl

theorem Population.setPart_proposed (H : PopHooks T U) (c : Node) (i : Nat) (p : Node)
    (w : PopWorld T U) : (Population.setPart H c i p w).proposed = w.proposed := rfl

theorem Population.setPart_bound (H : PopHooks T U) (c : Node) (i : Nat) (p : Node)
    (w : PopWorld T U) : (Population.setPart H c i p w).bound = upd w.bound i (some p) := rfl

theorem Population.getCount_accepted (H : PopHooks T U) (c : Node) (i : Nat) (w : PopWorld T U) :
    (Population.getCount H c i w).2.accepted = w.accepted := rfl

theorem Population.getCount_proposed (H : PopHooks T U) (c : Node) (i : Nat) (w : PopWorld T U) :
    (Population.getCount H c i w).2.proposed = w.proposed := rfl

theorem Population.getCount_bound (H : PopHooks T U) (c : Node) (i : Nat) (w : PopWorld T U) :
    (Population.getCount H c i w).2.bound = w.bound := rfl

theorem Population.getCount_value (H : PopHooks T U) (c : Node) (i : Nat) (w : PopWorld T U) :
    (Population.getCount H c i w).1 = (H.getCount c i w).1 := rfl

theorem Population.getP_accepted (H : PopHooks T U) (c : Node) (w : PopWorld T U) :
    (Population.getP H c w).2.accepted = w.accepted := rfl

theorem Population.getP_proposed (H : PopHooks T U) (c : Node) (w : PopWorld T U) :
    (Population.getP H c w).2.proposed = w.proposed ++ [(w.bound 0, w.bound 1)] := rfl

theorem Population.getP_bound (H : PopHooks T U) (c : Node) (w : PopWorld T U) :
    (Population.getP H c w).2.bound = w.bound := rfl

theorem Population.getP_value (H : PopHooks T U) (c : Node) (w : PopWorld T U) :
    (Population.getP H c w).1 = (H.getP c w).1 := rfl

theorem Population.enter_accepted (H : PopHooks T U) (p c : Node) (w : PopWorld T U) :
    (Population.enter H p c w).accepted = w.accepted ++ [(w.bound 0, w.bound 1)] := rfl

theorem Population.enter_proposed (H : PopHooks T U) (p c : Node) (w : PopWorld T U) :
    (Population.enter H p c w).proposed = w.proposed := rfl

theorem Population.reject_fields [TimeLike T] (H : PopHooks T U) (x : T) (w : PopWorld T U) :
    (Population.reject H x w).2.accepted = w.accepted ∧
      (Population.reject H x w).2.proposed = w.proposed ∧
      (Population.reject H x w).2.bound = w.bound := by
  unfold Population.reject
  split_ifs <;> exact ⟨rfl, rfl, rfl⟩

theorem Population.reject_one [TimeLike T] (H : PopHooks T U) (w : PopWorld T U)
    (h01 : (TimeLike.lit 0 : T) < TimeLike.lit 1) :
    Population.reject H (TimeLike.lit 1) w = (false, w) := by
  simp [Population.reject, not_le.2 h01]

theorem Walk.pair_bound {k : Walk} (hg : k.Good) (bound : Nat → Option Node) (p b : Node)
    (hb : bound k.outerIndex = some p) :
    (upd bound k.innerIndex (some b) 0, upd bound k.innerIndex (some b) 1) = k.pair p b := by
  rcases hg with ⟨h0, h1⟩ | ⟨h0, h1⟩
  · rw [h0] at hb
    simp [Walk.pair, h0, h1, upd, hb]
  · rw [h0] at hb
    simp [Walk.pair, h0, h1, upd, hb]

theorem Walk.pair_inj {k : Walk} {p b p2 b2 : Node} (h : k.pair p b = k.pair p2 b2) :
    p = p2 ∧ b = b2 := by
  unfold Walk.pair at h
  split_ifs at h
  · exact ⟨Option.some.inj (Prod.mk.inj h).1, Option.some.inj (Prod.mk.inj h).2⟩
  · exact ⟨Option.some.inj (Prod.mk.inj h).2, Option.some.inj (Prod.mk.inj h).1⟩

/-- What `Population.offer` does to the instrumentation, by the result of the
acceptance test. -/
theorem Population.offer_spec [TimeLike T] (H : PopHooks T U) (P : Nat) (k : Walk) (p b : Node)
    (s : Scan) (w : PopWorld T U) :
    (Population.offer H P k p b s w).2.1.proposed = w.proposed ++ [(w.bound 0, w.bound 1)] ∧
    (((Population.reject H (Population.getP H s.c w).1 (Population.getP H s.c w).2).1 = true ∧
      (Population.offer H P k p b s w).2.1.accepted = w.accepted ∧
      (Population.offer H P k p b s w).2.1.bound = w.bound ∧
      (Population.offer H P k p b s w).1.nxt = s.nxt ∧
      (Population.offer H P k p b s w).1.count = s.count ∧
      (Population.offer H P k p b s w).2.2 = false) ∨
     ((Population.reject H (Population.getP H s.c w).1 (Population.getP H s.c w).2).1 = false ∧
      (Population.offer H P k p b s w).2.1.accepted = w.accepted ++ [(w.bound 0, w.bound 1)] ∧
      (Population.offer H P k p b s w).2.1.bound = upd (fun _ => none) k.outerIndex (some p) ∧
      (Population.offer H P k p b s w).1.nxt = b ∧
      (Population.offer H P k p b s w).1.count = (if k.outerMax ≠ 0 then s.count + 1 else s.count) ∧
      (Population.offer H P k p b s w).2.2 =
        decide (k.outerMax ≠ 0 ∧ s.count + 1 ≥ k.outerMax))) := by
  obtain ⟨g, hg⟩ : ∃ g, g = Population.getP H s.c w := ⟨_, rfl⟩
  obtain ⟨j, hj⟩ : ∃ j, j = Population.reject H g.1 g.2 := ⟨_, rfl⟩
  have hjf := Population.reject_fields H g.1 g.2
  rw [← hj] at hjf
  have hga : g.2.accepted = w.accepted := by rw [hg]; rfl
  have hgp : g.2.proposed = w.proposed ++ [(w.bound 0, w.bound 1)] := by rw [hg]; rfl
  have hgb : g.2.bound = w.bound := by rw [hg]; rfl
  rw [← hg, ← hj]
  cases hj1 : j.1 with
  | true =>
    have e : Population.offer H P k p b s w = ({ s with cur := b }, j.2, false) := by
      simp only [Population.offer, ← hg, ← hj, hj1, if_true]
    rw [e]
    exact ⟨by rw [hjf.2.1, hgp], Or.inl ⟨rfl, by rw [hjf.1, hga], by rw [hjf.2.2, hgb], rfl,
      rfl, rfl⟩⟩
  | false =>
    by_cases hk : k.outerMax = 0
    · have e : Population.offer H P k p b s w =
          (⟨(Population.create H P (Population.enter H p s.c j.2)).1, b, b, s.count⟩,
            Population.setPart H (Population.create H P (Population.enter H p s.c j.2)).1
              k.outerIndex p (Population.create H P (Population.enter H p s.c j.2)).2, false) := by
        simp only [Population.offer, ← hg, ← hj, hj1, Bool.false_eq_true, if_false, hk, ne_eq,
          not_true_eq_false]
      rw [e]
      refine ⟨?_, Or.inr ⟨rfl, ?_, rfl, rfl, by simp [hk], by simp [hk]⟩⟩
      · rw [Population.setPart_proposed, Population.create_proposed, Population.enter_proposed,
          hjf.2.1, hgp]
      · rw [Population.setPart_accepted, Population.create_accepted, Population.enter_accepted,
          hjf.1, hjf.2.2, hga, hgb]
    · have e : Population.offer H P k p b s w =
          (⟨(Population.create H P (Population.enter H p s.c j.2)).1, b, b, s.count + 1⟩,
            Population.setPart H (Population.create H P (Population.enter H p s.c j.2)).1
              k.outerIndex p (Population.create H P (Population.enter H p s.c j.2)).2,
            decide (s.count + 1 ≥ k.outerMax)) := by
        simp only [Population.offer, ← hg, ← hj, hj1, Bool.false_eq_true, if_false, hk, ne_eq,
          not_false_eq_true, if_true]
      rw [e]
      refine ⟨?_, Or.inr ⟨rfl, ?_, rfl, rfl, by simp [hk], by simp [hk]⟩⟩
      · rw [Population.setPart_proposed, Population.create_proposed, Population.enter_proposed,
          hjf.2.1, hgp]
      · rw [Population.setPart_accepted, Population.create_accepted, Population.enter_accepted,
          hjf.1, hjf.2.2, hga, hgb]

theorem Population.scanBody_cases [TimeLike T] (H : PopHooks T U) (P : Nat) (k : Walk)
    (p b : Node) (s : Scan) (w : PopWorld T U) :
    (k.innerMax ≠ 0 ∧
      (H.getCount s.c k.innerIndex (Population.setPart H s.c k.innerIndex b w)).1 ≥ k.innerMax ∧
      Population.scanBody H P k p b s w = ({ s with cur := b },
        (Population.getCount H s.c k.innerIndex
          (Population.setPart H s.c k.innerIndex b w)).2, false)) ∨
    ((k.innerMax = 0 ∨
      (H.getCount s.c k.innerIndex (Population.setPart H s.c k.innerIndex b w)).1 < k.innerMax) ∧
      ∃ w1 : PopWorld T U, w1.bound = upd w.bound k.innerIndex (some b) ∧
        w1.accepted = w.accepted ∧ w1.proposed = w.proposed ∧
        Population.scanBody H P k p b s w = Population.offer H P k p b s w1) := by
  by_cases hm : k.innerMax = 0
  · refine Or.inr ⟨Or.inl hm, Population.setPart H s.c k.innerIndex b w, rfl, rfl, rfl, ?_⟩
    simp only [Population.scanBody, hm, ne_eq, not_true_eq_false, if_false]
  · by_cases hfull :
      (H.getCount s.c k.innerIndex (Population.setPart H s.c k.innerIndex b w)).1 ≥ k.innerMax
    · refine Or.inl ⟨hm, hfull, ?_⟩
      simp only [Population.scanBody, hm, ne_eq, not_false_eq_true, if_true,
        Population.getCount_value, hfull]
    · refine Or.inr ⟨Or.inr (not_le.1 hfull), (Population.getCount H s.c k.innerIndex
        (Population.setPart H s.c k.innerIndex b w)).2, rfl, rfl, rfl, ?_⟩
      simp only [Population.scanBody, hm, ne_eq, not_false_eq_true, if_true,
        Population.getCount_value, hfull, if_false]

/-- One candidate: the bound outer endpoint stays, and the pair is proposed at
most once. -/
theorem Population.scanBody_spec [TimeLike T] (H : PopHooks T U) (P : Nat) (k : Walk)
    (p b : Node) (s : Scan) (w : PopWorld T U) (hg : k.Good)
    (hb : w.bound k.outerIndex = some p) :
    (Population.scanBody H P k p b s w).2.1.bound k.outerIndex = some p ∧
      ((Population.scanBody H P k p b s w).2.1.proposed = w.proposed ∨
        (Population.scanBody H P k p b s w).2.1.proposed = w.proposed ++ [k.pair p b]) := by
  have hio : k.outerIndex ≠ k.innerIndex := by
    rcases hg with ⟨h0, h1⟩ | ⟨h0, h1⟩ <;> rw [h0, h1] <;> decide
  rcases Population.scanBody_cases H P k p b s w with ⟨_, _, e⟩ | ⟨_, w1, hb1, _, hp1, e⟩
  · rw [e]
    refine ⟨?_, Or.inl rfl⟩
    show upd w.bound k.innerIndex (some b) k.outerIndex = some p
    simp [upd, hio, hb]
  · rw [e]
    have hpair : (w1.bound 0, w1.bound 1) = k.pair p b := by
      rw [hb1]; exact Walk.pair_bound hg w.bound p b hb
    obtain ⟨hprop, hcase⟩ := Population.offer_spec H P k p b s w1
    refine ⟨?_, Or.inr (by rw [hprop, hp1, hpair])⟩
    rcases hcase with ⟨_, _, hbd, _⟩ | ⟨_, _, hbd, _⟩
    · rw [hbd, hb1]; simp [upd, hio, hb]
    · rw [hbd]; simp [upd]

/-- One candidate with room under the caps, when `getP` returns `1`: the pair
is accepted. -/
theorem Population.scanBody_accept [TimeLike T] (H : PopHooks T U) (P : Nat) (k : Walk)
    (p b : Node) (s : Scan) (w : PopWorld T U) (hg : k.Good)
    (hb : w.bound k.outerIndex = some p)
    (hP : ∀ c w, (H.getP c w).1 = TimeLike.lit 1)
    (h01 : (TimeLike.lit 0 : T) < TimeLike.lit 1)
    (hroom : k.innerMax = 0 ∨
      (H.getCount s.c k.innerIndex (Population.setPart H s.c k.innerIndex b w)).1 < k.innerMax) :
    (Population.scanBody H P k p b s w).2.1.bound k.outerIndex = some p ∧
      (Population.scanBody H P k p b s w).2.1.accepted = w.accepted ++ [k.pair p b] ∧
      (Population.scanBody H P k p b s w).1.nxt = b ∧
      (Population.scanBody H P k p b s w).1.count =
        (if k.outerMax ≠ 0 then s.count + 1 else s.count) ∧
      (Population.scanBody H P k p b s w).2.2 =
        decide (k.outerMax ≠ 0 ∧ s.count + 1 ≥ k.outerMax) := by
  rcases Population.scanBody_cases H P k p b s w with ⟨hm, hfull, _⟩ | ⟨_, w1, hb1, ha1, _, e⟩
  · rcases hroom with h | h
    · exact absurd h hm
    · exact absurd hfull (not_le.2 h)
  · rw [e]
    have hpair : (w1.bound 0, w1.bound 1) = k.pair p b := by
      rw [hb1]; exact Walk.pair_bound hg w.bound p b hb
    obtain ⟨_, hcase⟩ := Population.offer_spec H P k p b s w1
    have hrej : (Population.reject H (Population.getP H s.c w1).1
        (Population.getP H s.c w1).2).1 = false := by
      rw [Population.getP_value, hP, Population.reject_one H _ h01]
    rcases hcase with ⟨ht, _⟩ | ⟨_, hacc, hbd, hn, hc, hbrk⟩
    · rw [hrej] at ht; exact absurd ht (by simp)
    · exact ⟨by rw [hbd]; simp [upd], by rw [hacc, ha1, hpair], hn, hc, hbrk⟩

theorem Population.scanList_proposed [TimeLike T] (H : PopHooks T U) (P : Nat) (k : Walk)
    (p : Node) (hg : k.Good) :
    ∀ (cs : List Node) (s : Scan) (w : PopWorld T U), w.bound k.outerIndex = some p →
      ∃ lp : List Node, lp.Sublist cs ∧
        (Population.scanList H P k p cs s w).2.proposed = w.proposed ++ lp.map (k.pair p)
  | [], _, w, _ => ⟨[], List.Sublist.refl _, by simp [Population.scanList]⟩
  | b :: cs, s, w, hb => by
    obtain ⟨hb1, hp1⟩ := Population.scanBody_spec H P k p b s w hg hb
    obtain ⟨lp, hsub, hlp⟩ := Population.scanList_proposed H P k p hg cs
      (Population.scanBody H P k p b s w).1 (Population.scanBody H P k p b s w).2.1 hb1
    simp only [Population.scanList]
    split_ifs
    · rcases hp1 with h | h
      · exact ⟨[], List.nil_sublist _, by rw [h]; simp⟩
      · exact ⟨[b], by simp, by rw [h]; simp⟩
    · rcases hp1 with h | h
      · exact ⟨lp, hsub.trans (List.sublist_cons_self _ _), by rw [hlp, h]⟩
      · exact ⟨b :: lp, hsub.cons₂ b, by rw [hlp, h]; simp⟩

theorem Population.passBodyList_proposed [TimeLike T] (H : PopHooks T U) (P : Nat) (k : Walk)
    (R : List Node) (p : Node) (v : Vars) (w : PopWorld T U) (hg : k.Good) :
    ∃ lp : List Node, lp.Sublist (candidates R v.last) ∧
      (Population.passBodyList H P k R p v w).2.proposed = w.proposed ++ lp.map (k.pair p) := by
  have hb : (Population.setPart H v.c k.outerIndex p w).bound k.outerIndex = some p := by
    simp [Population.setPart_bound, upd]
  simp only [Population.passBodyList]
  split_ifs
  · exact ⟨[], List.nil_sublist _, by simp [Population.getCount_proposed,
      Population.setPart_proposed]⟩
  · obtain ⟨lp, hsub, hlp⟩ := Population.scanList_proposed H P k p hg (candidates R v.last)
      ⟨v.c, v.last, cyclicPrev R v.last, (Population.getCount H v.c k.outerIndex
        (Population.setPart H v.c k.outerIndex p w)).1⟩
      (Population.getCount H v.c k.outerIndex (Population.setPart H v.c k.outerIndex p w)).2 hb
    exact ⟨lp, hsub, hlp⟩
  · exact ⟨[], List.nil_sublist _, by simp [Population.setPart_proposed]⟩
  · obtain ⟨lp, hsub, hlp⟩ := Population.scanList_proposed H P k p hg (candidates R v.last)
      ⟨v.c, v.last, cyclicPrev R v.last, 0⟩ (Population.setPart H v.c k.outerIndex p w) hb
    exact ⟨lp, hsub, hlp⟩

/-- An outer loop proposes each pair of a new part and a part of `R` at most
once. -/
theorem Population.passList_proposed [TimeLike T] (H : PopHooks T U) (P : Nat) (k : Walk)
    (R : List Node) (hg : k.Good) (hR : R.Nodup) :
    ∀ (ns : List Node) (v : Vars) (w : PopWorld T U), ns.Nodup →
      ∃ l, (Population.passList H P k R ns v w).2.proposed = w.proposed ++ l ∧ l.Nodup ∧
        ∀ x ∈ l, ∃ p ∈ ns, ∃ b ∈ R, x = k.pair p b
  | [], _, w, _ => ⟨[], by simp [Population.passList], List.nodup_nil, by simp⟩
  | p :: ns, v, w, hns => by
    obtain ⟨lp, hsub, hlp⟩ := Population.passBodyList_proposed H P k R p v w hg
    obtain ⟨l, hl, hnd, hmem⟩ := Population.passList_proposed H P k R hg hR ns
      (Population.passBodyList H P k R p v w).1 (Population.passBodyList H P k R p v w).2
      (List.nodup_cons.1 hns).2
    have hlpn : lp.Nodup := (candidates_nodup hR).sublist hsub
    refine ⟨lp.map (k.pair p) ++ l, ?_, ?_, ?_⟩
    · simp only [Population.passList]
      rw [hl, hlp, List.append_assoc]
    · refine List.nodup_append.2 ⟨?_, hnd, ?_⟩
      · exact hlpn.map (fun a b hab => (Walk.pair_inj hab).2)
      · intro x hx1 hx2
        obtain ⟨b, _, hb⟩ := List.mem_map.1 hx1
        obtain ⟨p2, hp2, b2, _, hx⟩ := hmem x hx2
        rw [← hb] at hx
        have := (Walk.pair_inj hx).1
        rw [← this] at hp2
        exact (List.nodup_cons.1 hns).1 hp2
    · intro x hx
      rcases List.mem_append.1 hx with h | h
      · obtain ⟨b, hb1, hb⟩ := List.mem_map.1 h
        exact ⟨p, List.mem_cons_self _ _, b, candidates_mem.1 (hsub.subset hb1), hb.symm⟩
      · obtain ⟨p2, hp2, b2, hb2, hx⟩ := hmem x h
        exact ⟨p2, List.mem_cons_of_mem _ hp2, b2, hb2, hx⟩

theorem Walk.newA_good (B : Nat) (Amin Amax Bmax : Int) : (Walk.newA B Amin Amax Bmax).Good :=
  Or.inl ⟨rfl, rfl⟩

theorem Walk.newB_good (A : Nat) (Bmin Bmax Amax : Int) : (Walk.newB A Bmin Bmax Amax).Good :=
  Or.inr ⟨rfl, rfl⟩

theorem Walk.newA_pair (B : Nat) (Amin Amax Bmax : Int) (p b : Node) :
    (Walk.newA B Amin Amax Bmax).pair p b = (some p, some b) := rfl

theorem Walk.newB_pair (A : Nat) (Bmin Bmax Amax : Int) (p b : Node) :
    (Walk.newB A Bmin Bmax Amax).pair p b = (some b, some p) := rfl

/-- The proposals of `Population::connect` past the early returns. -/
theorem Population.connectList_proposed [TimeLike T] (H : PopHooks T U) (P A B : Nat)
    (newA oldA newB RB : List Node) (w : PopWorld T U)
    (hnA : (newA ++ oldA).Nodup) (hnB : newB.Nodup) (hRB : RB.Nodup) :
    ∃ l, (Population.connectList H P A B newA oldA newB RB w).proposed = w.proposed ++ l ∧
      l.Nodup ∧ ∀ x ∈ l, ∃ a b, x = (some a, some b) ∧
        ((a ∈ newA ∧ b ∈ RB) ∨ (a ∈ oldA ∧ b ∈ newB)) := by
  obtain ⟨w1, hw1⟩ : ∃ w1, w1 = (w.call (PopCall.getTarget 0) w.user).call
    (PopCall.getTarget 1) w.user := ⟨_, rfl⟩
  obtain ⟨w2, hw2⟩ : ∃ w2, w2 = (((w1.call (PopCall.getMin 0) w1.user).call (PopCall.getMax 0)
    w1.user).call (PopCall.getMin 1) w1.user).call (PopCall.getMax 1) w1.user := ⟨_, rfl⟩
  obtain ⟨r1, hr1⟩ : ∃ r1, r1 = Population.passList H P
    (Walk.newA B (H.getMin P 0 w1) (H.getMax P 0 w1) (H.getMax P 1 w1)) RB newA
    ⟨(Population.create H P w2).1, RB.headD (Node.live B)⟩
    (Population.create H P w2).2 := ⟨_, rfl⟩
  obtain ⟨r2, hr2⟩ : ∃ r2, r2 = if oldA = [] then r1
    else Population.passList H P
      (Walk.newB A (H.getMin P 1 w1) (H.getMax P 1 w1) (H.getMax P 0 w1)) oldA newB
      ⟨r1.1.c, oldA.headD (Node.live A)⟩ r1.2 := ⟨_, rfl⟩
  have hfin : Population.connectList H P A B newA oldA newB RB w =
      r2.2.call (PopCall.delete r2.1.c) (H.delete r2.1.c r2.2) := by
    simp only [Population.connectList, ← hw1, ← hw2, ← hr1, ← hr2]
  have hp0 : (Population.create H P w2).2.proposed = w.proposed := by
    rw [Population.create_proposed, hw2, hw1]
    simp only [PopWorld.call_proposed]
  obtain ⟨l1, hl1, hnd1, hm1⟩ := Population.passList_proposed H P
    (Walk.newA B (H.getMin P 0 w1) (H.getMax P 0 w1) (H.getMax P 1 w1)) RB
    (Walk.newA_good _ _ _ _) hRB newA
    ⟨(Population.create H P w2).1, RB.headD (Node.live B)⟩ (Population.create H P w2).2
    (List.nodup_append.1 hnA).1
  rw [← hr1, hp0] at hl1
  obtain ⟨l2, hl2, hnd2, hm2⟩ : ∃ l2, r2.2.proposed = r1.2.proposed ++ l2 ∧ l2.Nodup ∧
      ∀ x ∈ l2, ∃ p ∈ newB, ∃ b ∈ oldA, x = (some b, some p) := by
    by_cases ho : oldA = []
    · exact ⟨[], by rw [hr2, if_pos ho]; simp, List.nodup_nil, by simp⟩
    · obtain ⟨l2, hl2, hnd2, hm2⟩ := Population.passList_proposed H P
        (Walk.newB A (H.getMin P 1 w1) (H.getMax P 1 w1) (H.getMax P 0 w1)) oldA
        (Walk.newB_good _ _ _ _) (List.nodup_append.1 hnA).2.1 newB
        ⟨r1.1.c, oldA.headD (Node.live A)⟩ r1.2 hnB
      exact ⟨l2, by rw [hr2, if_neg ho]; exact hl2, hnd2, hm2⟩
  refine ⟨l1 ++ l2, ?_, ?_, ?_⟩
  · rw [hfin, PopWorld.call_proposed, hl2, hl1, List.append_assoc]
  · refine List.nodup_append.2 ⟨hnd1, hnd2, ?_⟩
    intro x hx1 hx2
    obtain ⟨a, ha, b, _, hx⟩ := hm1 x hx1
    obtain ⟨b2, _, a2, ha2, hx'⟩ := hm2 x hx2
    rw [hx, Walk.newA_pair] at hx'
    have : a = a2 := Option.some.inj (Prod.mk.inj hx').1
    rw [← this] at ha2
    exact (List.nodup_append.1 hnA).2.2 ha ha2
  · intro x hx
    rcases List.mem_append.1 hx with h | h
    · obtain ⟨a, ha, b, hb, hx⟩ := hm1 x h
      exact ⟨a, b, hx, Or.inl ⟨ha, hb⟩⟩
    · obtain ⟨b, hb, a, ha, hx⟩ := hm2 x h
      exact ⟨a, b, hx, Or.inr ⟨ha, hb⟩⟩

/-! ### Population::connect without caps when `getP` returns one -/

theorem Population.scanList_all [TimeLike T] (H : PopHooks T U) (P : Nat) (k : Walk)
    (p : Node) (hg : k.Good) (hP : ∀ c w, (H.getP c w).1 = TimeLike.lit 1)
    (h01 : (TimeLike.lit 0 : T) < TimeLike.lit 1) (hi : k.innerMax = 0) (ho : k.outerMax = 0) :
    ∀ (cs : List Node) (s : Scan) (w : PopWorld T U), w.bound k.outerIndex = some p →
      (Population.scanList H P k p cs s w).2.accepted = w.accepted ++ cs.map (k.pair p) ∧
        (Population.scanList H P k p cs s w).1.nxt = cs.getLast?.getD s.nxt
  | [], _, w, _ => by simp [Population.scanList]
  | b :: cs, s, w, hb => by
    obtain ⟨hb1, hacc, hn, _, hbrk⟩ :=
      Population.scanBody_accept H P k p b s w hg hb hP h01 (Or.inl hi)
    have hbrk2 : (Population.scanBody H P k p b s w).2.2 = false := by
      rw [hbrk]; simp [ho]
    obtain ⟨ih1, ih2⟩ := Population.scanList_all H P k p hg hP h01 hi ho cs
      (Population.scanBody H P k p b s w).1 (Population.scanBody H P k p b s w).2.1 hb1
    simp only [Population.scanList, hbrk2, Bool.false_eq_true, if_false]
    refine ⟨by rw [ih1, hacc]; simp, ?_⟩
    rw [ih2, hn, List.getLast?_cons]
    rfl

theorem Population.passBodyList_all [TimeLike T] (H : PopHooks T U) (P : Nat) (k : Walk)
    (R : List Node) (p : Node) (v : Vars) (w : PopWorld T U) (hg : k.Good)
    (hP : ∀ c w, (H.getP c w).1 = TimeLike.lit 1)
    (h01 : (TimeLike.lit 0 : T) < TimeLike.lit 1) (hi : k.innerMax = 0) (ho : k.outerMax = 0)
    (hR : R.Nodup) (hv : v.last ∈ R) :
    (Population.passBodyList H P k R p v w).2.accepted =
        w.accepted ++ (candidates R v.last).map (k.pair p) ∧
      (Population.passBodyList H P k R p v w).1.last = v.last := by
  obtain ⟨pre, post, _, _, _, hcand⟩ := candidates_split hR hv
  have hlast : (candidates R v.last).getLast?.getD (cyclicPrev R v.last) = v.last := by
    rw [hcand, List.getLast?_concat]; rfl
  have hb : (Population.setPart H v.c k.outerIndex p w).bound k.outerIndex = some p := by
    simp [Population.setPart_bound, upd]
  have hfull : ∀ n : Int, ¬ (k.outerMax ≠ 0 ∧ n ≥ k.outerMax) := fun n h => h.1 ho
  simp only [Population.passBodyList, hfull, if_false]
  split_ifs
  · obtain ⟨h1, h2⟩ := Population.scanList_all H P k p hg hP h01 hi ho (candidates R v.last)
      ⟨v.c, v.last, cyclicPrev R v.last, (Population.getCount H v.c k.outerIndex
        (Population.setPart H v.c k.outerIndex p w)).1⟩
      (Population.getCount H v.c k.outerIndex (Population.setPart H v.c k.outerIndex p w)).2 hb
    exact ⟨h1, h2.trans hlast⟩
  · obtain ⟨h1, h2⟩ := Population.scanList_all H P k p hg hP h01 hi ho (candidates R v.last)
      ⟨v.c, v.last, cyclicPrev R v.last, 0⟩ (Population.setPart H v.c k.outerIndex p w) hb
    exact ⟨h1, h2.trans hlast⟩

/-- Without caps and with `getP = 1` an outer loop accepts each pair of a new
part and a part of `R` exactly once. -/
theorem Population.passList_all [TimeLike T] (H : PopHooks T U) (P : Nat) (k : Walk)
    (R : List Node) (hg : k.Good) (hP : ∀ c w, (H.getP c w).1 = TimeLike.lit 1)
    (h01 : (TimeLike.lit 0 : T) < TimeLike.lit 1) (hi : k.innerMax = 0) (ho : k.outerMax = 0)
    (hR : R.Nodup) :
    ∀ (ns : List Node) (v : Vars) (w : PopWorld T U), ns.Nodup → v.last ∈ R →
      ∃ l, (Population.passList H P k R ns v w).2.accepted = w.accepted ++ l ∧ l.Nodup ∧
        l.length = ns.length * R.length ∧
        ∀ x, x ∈ l ↔ ∃ p ∈ ns, ∃ b ∈ R, x = k.pair p b
  | [], _, w, _, _ => ⟨[], by simp [Population.passList], List.nodup_nil, by simp, by simp⟩
  | p :: ns, v, w, hns, hv => by
    obtain ⟨hacc, hlast⟩ := Population.passBodyList_all H P k R p v w hg hP h01 hi ho hR hv
    obtain ⟨l, hl, hnd, hlen, hmem⟩ := Population.passList_all H P k R hg hP h01 hi ho hR ns
      (Population.passBodyList H P k R p v w).1 (Population.passBodyList H P k R p v w).2
      (List.nodup_cons.1 hns).2 (by rw [hlast]; exact hv)
    refine ⟨(candidates R v.last).map (k.pair p) ++ l, ?_, ?_, ?_, ?_⟩
    · simp only [Population.passList]
      rw [hl, hacc, List.append_assoc]
    · refine List.nodup_append.2 ⟨?_, hnd, ?_⟩
      · exact (candidates_nodup hR).map (fun a b hab => (Walk.pair_inj hab).2)
      · intro x hx1 hx2
        obtain ⟨b, _, hb⟩ := List.mem_map.1 hx1
        obtain ⟨p2, hp2, b2, _, hx⟩ := (hmem x).1 hx2
        rw [← hb] at hx
        have := (Walk.pair_inj hx).1
        rw [← this] at hp2
        exact (List.nodup_cons.1 hns).1 hp2
    · rw [List.length_append, List.length_map, candidates_length, hlen, List.length_cons,
        Nat.succ_mul, Nat.add_comm]
    · intro x
      rw [List.mem_append, List.mem_map, hmem]
      constructor
      · rintro (⟨b, hb1, hb⟩ | ⟨p2, hp2, b2, hb2, hx⟩)
        · exact ⟨p, List.mem_cons_self _ _, b, candidates_mem.1 hb1, hb.symm⟩
        · exact ⟨p2, List.mem_cons_of_mem _ hp2, b2, hb2, hx⟩
      · rintro ⟨p2, hp2, b2, hb2, hx⟩
        rcases List.mem_cons.1 hp2 with h | h
        · exact Or.inl ⟨b2, candidates_mem.2 hb2, by rw [hx, h]⟩
        · exact Or.inr ⟨p2, h, b2, hb2, hx⟩

/-- The connections of `Population::connect` past the early returns, without
caps and with `getP = 1`. -/
theorem Population.connectList_all [TimeLike T] (H : PopHooks T U) (P A B : Nat)
    (newA oldA newB RB : List Node) (w : PopWorld T U)
    (hnA : (newA ++ oldA).Nodup) (hnB : newB.Nodup) (hRB : RB.Nodup) (hRB0 : RB ≠ [])
    (hP : ∀ c w, (H.getP c w).1 = TimeLike.lit 1)
    (h01 : (TimeLike.lit 0 : T) < TimeLike.lit 1)
    (hmax0 : ∀ w, H.getMax P 0 w = 0) (hmax1 : ∀ w, H.getMax P 1 w = 0) :
    ∃ l, (Population.connectList H P A B newA oldA newB RB w).accepted = w.accepted ++ l ∧
      l.Nodup ∧ l.length = newA.length * RB.length + newB.length * oldA.length ∧
      ∀ x, x ∈ l ↔ ∃ a b, x = (some a, some b) ∧
        ((a ∈ newA ∧ b ∈ RB) ∨ (a ∈ oldA ∧ b ∈ newB)) := by
  obtain ⟨w1, hw1⟩ : ∃ w1, w1 = (w.call (PopCall.getTarget 0) w.user).call
    (PopCall.getTarget 1) w.user := ⟨_, rfl⟩
  obtain ⟨w2, hw2⟩ : ∃ w2, w2 = (((w1.call (PopCall.getMin 0) w1.user).call (PopCall.getMax 0)
    w1.user).call (PopCall.getMin 1) w1.user).call (PopCall.getMax 1) w1.user := ⟨_, rfl⟩
  obtain ⟨r1, hr1⟩ : ∃ r1, r1 = Population.passList H P
    (Walk.newA B (H.getMin P 0 w1) (H.getMax P 0 w1) (H.getMax P 1 w1)) RB newA
    ⟨(Population.create H P w2).1, RB.headD (Node.live B)⟩
    (Population.create H P w2).2 := ⟨_, rfl⟩
  obtain ⟨r2, hr2⟩ : ∃ r2, r2 = if oldA = [] then r1
    else Population.passList H P
      (Walk.newB A (H.getMin P 1 w1) (H.getMax P 1 w1) (H.getMax P 0 w1)) oldA newB
      ⟨r1.1.c, oldA.headD (Node.live A)⟩ r1.2 := ⟨_, rfl⟩
  have hfin : Population.connectList H P A B newA oldA newB RB w =
      r2.2.call (PopCall.delete r2.1.c) (H.delete r2.1.c r2.2) := by
    simp only [Population.connectList, ← hw1, ← hw2, ← hr1, ← hr2]
  have hp0 : (Population.create H P w2).2.accepted = w.accepted := by
    rw [Population.create_accepted, hw2, hw1]
    simp only [PopWorld.call_accepted]
  have hhead : RB.headD (Node.live B) ∈ RB := by
    cases RB with
    | nil => exact absurd rfl hRB0
    | cons a t => simp
  obtain ⟨l1, hl1, hnd1, hlen1, hm1⟩ := Population.passList_all H P
    (Walk.newA B (H.getMin P 0 w1) (H.getMax P 0 w1) (H.getMax P 1 w1)) RB
    (Walk.newA_good _ _ _ _) hP h01 (hmax1 w1) (hmax0 w1) hRB newA
    ⟨(Population.create H P w2).1, RB.headD (Node.live B)⟩ (Population.create H P w2).2
    (List.nodup_append.1 hnA).1 hhead
  rw [← hr1, hp0] at hl1
  obtain ⟨l2, hl2, hnd2, hlen2, hm2⟩ : ∃ l2, r2.2.accepted = r1.2.accepted ++ l2 ∧ l2.Nodup ∧
      l2.length = newB.length * oldA.length ∧
      ∀ x, x ∈ l2 ↔ ∃ p ∈ newB, ∃ b ∈ oldA, x = (some b, some p) := by
    by_cases ho : oldA = []
    · exact ⟨[], by rw [hr2, if_pos ho]; simp, List.nodup_nil, by simp [ho], by simp [ho]⟩
    · have hmemo : oldA.headD (Node.live A) ∈ oldA := by
        cases oldA with
        | nil => exact absurd rfl ho
        | cons a t => simp
      obtain ⟨l2, hl2, hnd2, hlen2, hm2⟩ := Population.passList_all H P
        (Walk.newB A (H.getMin P 1 w1) (H.getMax P 1 w1) (H.getMax P 0 w1)) oldA
        (Walk.newB_good _ _ _ _) hP h01 (hmax0 w1) (hmax1 w1) (List.nodup_append.1 hnA).2.1 newB
        ⟨r1.1.c, oldA.headD (Node.live A)⟩ r1.2 hnB hmemo
      exact ⟨l2, by rw [hr2, if_neg ho]; exact hl2, hnd2, hlen2, hm2⟩
  refine ⟨l1 ++ l2, ?_, ?_, ?_, ?_⟩
  · rw [hfin, PopWorld.call_accepted, hl2, hl1, List.append_assoc]
  · refine List.nodup_append.2 ⟨hnd1, hnd2, ?_⟩
    intro x hx1 hx2
    obtain ⟨a, ha, b, _, hx⟩ := (hm1 x).1 hx1
    obtain ⟨b2, _, a2, ha2, hx'⟩ := (hm2 x).1 hx2
    rw [hx, Walk.newA_pair] at hx'
    have : a = a2 := Option.some.inj (Prod.mk.inj hx').1
    rw [← this] at ha2
    exact (List.nodup_append.1 hnA).2.2 ha ha2
  · rw [List.length_append, hlen1, hlen2]
  · intro x
    rw [List.mem_append, hm1, hm2]
    constructor
    · rintro (⟨a, ha, b, hb, hx⟩ | ⟨b, hb, a, ha, hx⟩)
      · exact ⟨a, b, hx, Or.inl ⟨ha, hb⟩⟩
      · exact ⟨a, b, hx, Or.inr ⟨ha, hb⟩⟩
    · rintro ⟨a, b, hx, (⟨ha, hb⟩ | ⟨ha, hb⟩)⟩
      · exact Or.inl ⟨a, ha, b, hb, hx⟩
      · exact Or.inr ⟨b, hb, a, ha, hx⟩

/-! ### Population::connect with caps one when `getP` returns one -/

theorem PopWorld.degree_one_zero (H : PopHooks T U) (c b : Node) (w : PopWorld T U)
    (h : ∀ x ∈ w.accepted, x.2 ≠ some b) : (Population.setPart H c 1 b w).degree 1 = 0 := by
  unfold PopWorld.degree
  rw [Population.setPart_accepted, Population.setPart_bound]
  simp only [Nat.one_ne_zero, if_false, upd, if_true, Nat.cast_eq_zero, List.countP_eq_zero]
  intro x hx
  simpa using h x hx

theorem PopWorld.degree_zero_zero (H : PopHooks T U) (c p : Node) (w : PopWorld T U)
    (h : ∀ x ∈ w.accepted, x.1 ≠ some p) : (Population.setPart H c 0 p w).degree 0 = 0 := by
  unfold PopWorld.degree
  rw [Population.setPart_accepted, Population.setPart_bound]
  simp only [if_true, upd, Nat.cast_eq_zero, List.countP_eq_zero]
  intro x hx
  simpa using h x hx

theorem Population.scanList_first [TimeLike T] (H : PopHooks T U) (P B : Nat) (Amin : Int)
    (p b : Node) (rest : List Node) (s : Scan) (w : PopWorld T U)
    (hP : ∀ c w, (H.getP c w).1 = TimeLike.lit 1)
    (h01 : (TimeLike.lit 0 : T) < TimeLike.lit 1)
    (hcount : ∀ c i w, (H.getCount c i w).1 = w.degree i)
    (hb : w.bound 0 = some p) (hs : s.count = 0) (hfree : ∀ x ∈ w.accepted, x.2 ≠ some b) :
    (Population.scanList H P (Walk.newA B Amin 1 1) p (b :: rest) s w).2.accepted =
        w.accepted ++ [(some p, some b)] ∧
      (Population.scanList H P (Walk.newA B Amin 1 1) p (b :: rest) s w).1.nxt = b := by
  have hroom : (Walk.newA B Amin 1 1).innerMax = 0 ∨
      (H.getCount s.c (Walk.newA B Amin 1 1).innerIndex
        (Population.setPart H s.c (Walk.newA B Amin 1 1).innerIndex b w)).1 <
        (Walk.newA B Amin 1 1).innerMax := by
    refine Or.inr ?_
    rw [hcount]
    show (Population.setPart H s.c 1 b w).degree 1 < 1
    rw [PopWorld.degree_one_zero H s.c b w hfree]
    decide
  obtain ⟨_, hacc, hn, _, hbrk⟩ := Population.scanBody_accept H P (Walk.newA B Amin 1 1) p b s w
    (Walk.newA_good _ _ _ _) hb hP h01 hroom
  have hbrk2 : (Population.scanBody H P (Walk.newA B Amin 1 1) p b s w).2.2 = true := by
    rw [hbrk, hs]
    simp [Walk.newA]
  simp only [Population.scanList, hbrk2, if_true]
  exact ⟨hacc, hn⟩

theorem Population.passBodyList_first [TimeLike T] (H : PopHooks T U) (P B : Nat) (Amin : Int)
    (R : List Node) (p b : Node) (v : Vars) (w : PopWorld T U)
    (hP : ∀ c w, (H.getP c w).1 = TimeLike.lit 1)
    (h01 : (TimeLike.lit 0 : T) < TimeLike.lit 1)
    (hcount : ∀ c i w, (H.getCount c i w).1 = w.degree i)
    (hcand : (candidates R v.last).head? = some b)
    (hfreeA : ∀ x ∈ w.accepted, x.1 ≠ some p) (hfreeB : ∀ x ∈ w.accepted, x.2 ≠ some b) :
    (Population.passBodyList H P (Walk.newA B Amin 1 1) R p v w).2.accepted =
        w.accepted ++ [(some p, some b)] ∧
      (Population.passBodyList H P (Walk.newA B Amin 1 1) R p v w).1.last = b := by
  obtain ⟨rest, hrest⟩ : ∃ rest, candidates R v.last = b :: rest := by
    cases hc : candidates R v.last with
    | nil => rw [hc] at hcand; simp at hcand
    | cons y t =>
      rw [hc] at hcand
      exact ⟨t, by rw [Option.some.inj hcand]⟩
  have hn : (Population.getCount H v.c 0 (Population.setPart H v.c 0 p w)).1 = 0 := by
    rw [Population.getCount_value, hcount, PopWorld.degree_zero_zero H v.c p w hfreeA]
  have hb : (Population.getCount H v.c 0 (Population.setPart H v.c 0 p w)).2.bound 0 = some p := by
    rw [Population.getCount_bound, Population.setPart_bound]
    simp [upd]
  have hs := Population.scanList_first H P B Amin p b rest
    ⟨v.c, v.last, cyclicPrev R v.last, 0⟩
    (Population.getCount H v.c 0 (Population.setPart H v.c 0 p w)).2 hP h01 hcount hb rfl hfreeB
  have e : Population.passBodyList H P (Walk.newA B Amin 1 1) R p v w =
      (⟨(Population.scanList H P (Walk.newA B Amin 1 1) p (b :: rest)
          ⟨v.c, v.last, cyclicPrev R v.last, 0⟩
          (Population.getCount H v.c 0 (Population.setPart H v.c 0 p w)).2).1.c,
        (Population.scanList H P (Walk.newA B Amin 1 1) p (b :: rest)
          ⟨v.c, v.last, cyclicPrev R v.last, 0⟩
          (Population.getCount H v.c 0 (Population.setPart H v.c 0 p w)).2).1.nxt⟩,
       (Population.scanList H P (Walk.newA B Amin 1 1) p (b :: rest)
          ⟨v.c, v.last, cyclicPrev R v.last, 0⟩
          (Population.getCount H v.c 0 (Population.setPart H v.c 0 p w)).2).2) := by
    simp [Population.passBodyList, Walk.newA, hn, hrest]
  rw [e]
  exact ⟨hs.1, hs.2⟩

/-- With caps one and `getP = 1` each new part of `A` is connected to the first
candidate of its walk, which is the next of the parts `bs`. -/
theorem Population.passList_match [TimeLike T] (H : PopHooks T U) (P B : Nat) (Amin : Int)
    (R : List Node) (hP : ∀ c w, (H.getP c w).1 = TimeLike.lit 1)
    (h01 : (TimeLike.lit 0 : T) < TimeLike.lit 1)
    (hcount : ∀ c i w, (H.getCount c i w).1 = w.degree i) :
    ∀ (ns bs : List Node) (v : Vars) (w : PopWorld T U), ns.length = bs.length →
      ns.Nodup → bs.Nodup → Follows R v.last bs →
      (∀ x ∈ w.accepted, (∀ p ∈ ns, x.1 ≠ some p) ∧ ∀ b ∈ bs, x.2 ≠ some b) →
      (Population.passList H P (Walk.newA B Amin 1 1) R ns v w).2.accepted =
        w.accepted ++ List.zip (ns.map some) (bs.map some)
  | [], _, _, w, _, _, _, _, _ => by simp [Population.passList]
  | p :: ns, [], _, _, hlen, _, _, _, _ => by simp at hlen
  | p :: ns, b :: bs, v, w, hlen, hns, hbs, hfol, hfree => by
    obtain ⟨hacc, hlast⟩ := Population.passBodyList_first H P B Amin R p b v w hP h01 hcount
      hfol.1 (fun x hx => (hfree x hx).1 p (List.mem_cons_self _ _))
      (fun x hx => (hfree x hx).2 b (List.mem_cons_self _ _))
    have ih := Population.passList_match H P B Amin R hP h01 hcount ns bs
      (Population.passBodyList H P (Walk.newA B Amin 1 1) R p v w).1
      (Population.passBodyList H P (Walk.newA B Amin 1 1) R p v w).2
      (by simpa using hlen) (List.nodup_cons.1 hns).2 (List.nodup_cons.1 hbs).2
      (by rw [hlast]; exact hfol.2)
      (by
        intro x hx
        rw [hacc] at hx
        rcases List.mem_append.1 hx with h | h
        · exact ⟨fun q hq => (hfree x h).1 q (List.mem_cons_of_mem _ hq),
            fun q hq => (hfree x h).2 q (List.mem_cons_of_mem _ hq)⟩
        · have hx2 : x = (some p, some b) := by simpa using h
          rw [hx2]
          refine ⟨fun q hq e => ?_, fun q hq e => ?_⟩
          · have : p = q := Option.some.inj e
            rw [← this] at hq
            exact (List.nodup_cons.1 hns).1 hq
          · have : b = q := Option.some.inj e
            rw [← this] at hq
            exact (List.nodup_cons.1 hbs).1 hq)
    simp only [Population.passList]
    rw [ih, hacc]
    simp

theorem Follows.behind : ∀ (post pre : List Node) (x : Node), (pre ++ x :: post).Nodup →
    Follows (pre ++ x :: post) x post
  | [], _, _, _ => trivial
  | y :: post, pre, x, h => by
    have hx : x ∉ pre := fun hm => (List.nodup_append.1 h).2.2 hm (List.mem_cons_self _ _)
    refine ⟨by rw [candidates_eq pre x (y :: post) hx]; rfl, ?_⟩
    have e : pre ++ x :: y :: post = (pre ++ [x]) ++ y :: post := by simp
    rw [e]
    exact Follows.behind post (pre ++ [x]) y (by rw [← e]; exact h)

theorem Follows.append (R : List Node) : ∀ (l1 l2 : List Node) (x : Node),
    Follows R x l1 → Follows R (l1.getLast?.getD x) l2 → Follows R x (l1 ++ l2)
  | [], _, _, _, h2 => h2
  | y :: l1, l2, x, h1, h2 => by
    refine ⟨h1.1, Follows.append R l1 l2 y h1.2 ?_⟩
    rw [List.getLast?_cons] at h2
    exact h2

/-- Round robin: from `live.after` of a ring the first candidates are, one after
the other, the parts of the ring rotated by one. -/
theorem Follows.rotate (b0 : Node) (t : List Node) (h : (b0 :: t).Nodup) :
    Follows (b0 :: t) b0 ((b0 :: t).rotate 1) := by
  have hr : (b0 :: t).rotate 1 = t ++ [b0] := by
    rw [List.rotate_cons_succ, List.rotate_zero]
  rw [hr]
  refine Follows.append _ t [b0] b0 (Follows.behind t [] b0 h) ?_
  refine ⟨?_, trivial⟩
  rcases List.eq_nil_or_concat t with ht | ⟨t1, z, ht⟩
  · subst ht
    simp [candidates]
  · rw [List.concat_eq_append] at ht
    subst ht
    have hz : z ∉ b0 :: t1 := by
      have e : b0 :: (t1 ++ [z]) = (b0 :: t1) ++ [z] := rfl
      rw [e] at h
      exact fun hm => (List.nodup_append.1 h).2.2 hm (List.mem_singleton_self _)
    have hc := candidates_eq (b0 :: t1) z [] hz
    have e2 : (t1 ++ [z]).getLast?.getD b0 = z := by
      rw [List.getLast?_concat]; rfl
    rw [e2]
    have e3 : b0 :: (t1 ++ [z]) = (b0 :: t1) ++ [z] := rfl
    rw [e3, hc]
    rfl

/-- The connections of `Population::connect` past the early returns, when all
parts are new, the caps are one and `getP = 1`. -/
theorem Population.connectList_match [TimeLike T] (H : PopHooks T U) (P A B : Nat)
    (LA : List Node) (b0 : Node) (t : List Node) (w : PopWorld T U)
    (hnA : LA.Nodup) (hnB : (b0 :: t).Nodup) (hlen : LA.length = (b0 :: t).length)
    (hP : ∀ c w, (H.getP c w).1 = TimeLike.lit 1)
    (h01 : (TimeLike.lit 0 : T) < TimeLike.lit 1)
    (hmax0 : ∀ w, H.getMax P 0 w = 1) (hmax1 : ∀ w, H.getMax P 1 w = 1)
    (hcount : ∀ c i w, (H.getCount c i w).1 = w.degree i)
    (hfresh : ∀ x ∈ w.accepted, (∀ a ∈ LA, x.1 ≠ some a) ∧ ∀ b ∈ b0 :: t, x.2 ≠ some b) :
    (Population.connectList H P A B LA [] (b0 :: t) (b0 :: t) w).accepted =
      w.accepted ++ List.zip (LA.map some) (((b0 :: t).rotate 1).map some) := by
  obtain ⟨w1, hw1⟩ : ∃ w1, w1 = (w.call (PopCall.getTarget 0) w.user).call
    (PopCall.getTarget 1) w.user := ⟨_, rfl⟩
  obtain ⟨w2, hw2⟩ : ∃ w2, w2 = (((w1.call (PopCall.getMin 0) w1.user).call (PopCall.getMax 0)
    w1.user).call (PopCall.getMin 1) w1.user).call (PopCall.getMax 1) w1.user := ⟨_, rfl⟩
  obtain ⟨r1, hr1⟩ : ∃ r1, r1 = Population.passList H P
    (Walk.newA B (H.getMin P 0 w1) 1 1) (b0 :: t) LA
    ⟨(Population.create H P w2).1, b0⟩ (Population.create H P w2).2 := ⟨_, rfl⟩
  have hfin : Population.connectList H P A B LA [] (b0 :: t) (b0 :: t) w =
      r1.2.call (PopCall.delete r1.1.c) (H.delete r1.1.c r1.2) := by
    simp only [Population.connectList, ← hw1, ← hw2, hmax0, hmax1, List.headD_cons, ← hr1,
      if_true]
  have hp0 : (Population.create H P w2).2.accepted = w.accepted := by
    rw [Population.create_accepted, hw2, hw1]
    simp only [PopWorld.call_accepted]
  have hm := Population.passList_match H P B (H.getMin P 0 w1) (b0 :: t) hP h01 hcount LA
    ((b0 :: t).rotate 1) ⟨(Population.create H P w2).1, b0⟩ (Population.create H P w2).2
    (by rw [List.length_rotate]; exact hlen) hnA (List.nodup_rotate.2 hnB)
    (Follows.rotate b0 t hnB)
    (by
      rw [hp0]
      intro x hx
      exact ⟨(hfresh x hx).1, fun b hb => (hfresh x hx).2 b (List.mem_rotate.1 hb)⟩)
  rw [← hr1, hp0] at hm
  rw [hfin, PopWorld.call_accepted, hm]

/-- C19: for every dead chain `ds` and every answer `free` of `isFree`,
`Population::allocate` returns; when some dead part is free it returns the first
free one in chain order, the dead chain becomes `ds` without that part, in the
same order, and `create` is not called; when no dead part is free `create` is
called exactly once and the dead chain is `ds` as before. -/
theorem C19_allocate_takes_first_free (H : PopHooks T U) (P : Nat) (free : Node → Bool)
    (ds : List Node) (w : PopWorld T U) (fuel : Nat)
    (hfree : ∀ d w, (H.isFree d w).1 = free d) (hch : w.DeadChain P ds)
    (hfuel : ds.length < fuel) :
    ∃ r w1, Population.allocate H P fuel w = some (r, w1) ∧
      (∀ d, ds.find? free = some d →
        r = d ∧ free r = true ∧ w1.DeadChain P (ds.erase d) ∧
        (w1.callsSince w).countP PopCall.isCreate = 0) ∧
      (ds.find? free = none →
        w1.DeadChain P ds ∧ (w1.callsSince w).countP PopCall.isCreate = 1) := by
  cases hfind : ds.find? free with
  | none =>
    have hall : ∀ x ∈ ds, free x = false := by
      intro x hx
      have := List.find?_eq_none.1 hfind x hx
      simpa using this
    obtain ⟨r, w1, hal, hdead, hcalls⟩ := Population.allocate_none H P free hfree ds w fuel hch hall hfuel
    refine ⟨r, w1, hal, fun d hd => by simp at hd, fun _ => ⟨hdead, ?_⟩⟩
    rw [List.append_assoc] at hcalls
    rw [callsSince_eq w1 w _ hcalls, List.countP_append, List.countP_map]
    simp [PopCall.isCreate, Function.comp_def]
  | some d =>
    obtain ⟨hd, pre, post, hsplit, hpre⟩ := List.find?_eq_some.1 hfind
    have hpre2 : ∀ x ∈ pre, free x = false := fun x hx => by simpa using hpre x hx
    subst hsplit
    obtain ⟨w1, hal, hdead, hcalls⟩ := Population.allocate_found H P free hfree pre d post w fuel
      hch hpre2 hd (by simp at hfuel; omega)
    have hnot : d ∉ pre := fun hmem => by
      have := hpre2 d hmem
      rw [hd] at this; exact absurd this (by simp)
    refine ⟨d, w1, hal, fun d2 hd2 => ?_, fun h => by simp at h⟩
    have hdd : d2 = d := (Option.some.inj hd2).symm
    subst hdd
    refine ⟨rfl, hd, ?_, ?_⟩
    · rw [List.erase_append_right _ hnot, List.erase_cons_head]; exact hdead
    · rw [List.append_assoc] at hcalls
      rw [callsSince_eq w1 w _ hcalls, List.countP_append, List.countP_map]
      simp [PopCall.isCreate, Function.comp_def]

theorem C19_witness :
    ∃ r w1, Population.allocate (exampleModel 0 1) 0 4 exampleDead = some (r, w1) ∧
      (∀ d, [Node.part 1, Node.part 2, Node.part 3].find? (fun d => decide (d ≠ Node.part 1))
          = some d →
        r = d ∧ decide (r ≠ Node.part 1) = true ∧
        w1.DeadChain 0 ([Node.part 1, Node.part 2, Node.part 3].erase d) ∧
        (w1.callsSince exampleDead).countP PopCall.isCreate = 0) ∧
      ([Node.part 1, Node.part 2, Node.part 3].find? (fun d => decide (d ≠ Node.part 1)) = none →
        w1.DeadChain 0 [Node.part 1, Node.part 2, Node.part 3] ∧
        (w1.callsSince exampleDead).countP PopCall.isCreate = 1) :=
  C19_allocate_takes_first_free (exampleModel 0 1) 0 (fun d => decide (d ≠ Node.part 1))
    [Node.part 1, Node.part 2, Node.part 3] exampleDead 4 (fun _ _ => rfl)
    ⟨rfl, rfl, rfl, rfl⟩ (by decide)

/-- C20, as the code has it: `Population::allocate` passes the part it returns
to `add` exactly once, as its last call; `clear` is called on the returned part
exactly when the part is recycled from the dead chain, and a part made by
`create` is added without a call of `clear`. -/
theorem C20_allocate_clears_recycled_only (H : PopHooks T U) (P : Nat) (free : Node → Bool)
    (ds : List Node) (w : PopWorld T U) (fuel : Nat)
    (hfree : ∀ d w, (H.isFree d w).1 = free d) (hch : w.DeadChain P ds)
    (hfuel : ds.length < fuel) :
    ∃ r w1, Population.allocate H P fuel w = some (r, w1) ∧
      (∀ d, ds.find? free = some d →
        r = d ∧ ∃ pre : List Node, w1.callsSince w = pre.map (fun x => PopCall.isFree x false) ++
          [PopCall.isFree r true, PopCall.clear r, PopCall.add r]) ∧
      (ds.find? free = none →
        w1.callsSince w = ds.map (fun x => PopCall.isFree x false) ++
          [PopCall.create r, PopCall.add r]) := by
  cases hfind : ds.find? free with
  | none =>
    have hall : ∀ x ∈ ds, free x = false := by
      intro x hx
      have := List.find?_eq_none.1 hfind x hx
      simpa using this
    obtain ⟨r, w1, hal, _, hcalls⟩ := Population.allocate_none H P free hfree ds w fuel hch hall hfuel
    refine ⟨r, w1, hal, fun d hd => by simp at hd, fun _ => ?_⟩
    rw [List.append_assoc] at hcalls
    exact callsSince_eq w1 w _ hcalls
  | some d =>
    obtain ⟨hd, pre, post, hsplit, hpre⟩ := List.find?_eq_some.1 hfind
    have hpre2 : ∀ x ∈ pre, free x = false := fun x hx => by simpa using hpre x hx
    subst hsplit
    obtain ⟨w1, hal, _, hcalls⟩ := Population.allocate_found H P free hfree pre d post w fuel
      hch hpre2 hd (by simp at hfuel; omega)
    refine ⟨d, w1, hal, fun d2 hd2 => ⟨Option.some.inj hd2, pre, ?_⟩, fun h => by simp at h⟩
    rw [List.append_assoc] at hcalls
    exact callsSince_eq w1 w _ hcalls

theorem C20_witness :
    ∃ r w1, Population.allocate (exampleModel 0 1) 0 4 exampleDead = some (r, w1) ∧
      (∀ d, [Node.part 1, Node.part 2, Node.part 3].find? (fun d => decide (d ≠ Node.part 1))
          = some d →
        r = d ∧ ∃ pre : List Node, w1.callsSince exampleDead = pre.map (fun x => PopCall.isFree x false) ++
          [PopCall.isFree r true, PopCall.clear r, PopCall.add r]) ∧
      ([Node.part 1, Node.part 2, Node.part 3].find? (fun d => decide (d ≠ Node.part 1)) = none →
        w1.callsSince exampleDead =
          [Node.part 1, Node.part 2, Node.part 3].map (fun x => PopCall.isFree x false) ++
          [PopCall.create r, PopCall.add r]) :=
  C20_allocate_clears_recycled_only (exampleModel 0 1) 0 (fun d => decide (d ≠ Node.part 1))
    [Node.part 1, Node.part 2, Node.part 3] exampleDead 4 (fun _ _ => rfl)
    ⟨rfl, rfl, rfl, rfl⟩ (by decide)

/-- C20 fails for a part made by `create`: with an empty dead chain
`Population::allocate` returns the created part `100` after the calls `create`
and `add`, without a call of `clear`. -/
theorem C20_created_part_is_not_cleared :
    ∃ w1, Population.allocate (exampleModel 0 1) 0 1 (PopWorld.blank 0) =
        some (Node.part 100, w1) ∧
      w1.calls = [PopCall.create (Node.part 100), PopCall.add (Node.part 100)] ∧
      PopCall.clear (Node.part 100) ∉ w1.calls :=
  ⟨_, rfl, rfl, by decide⟩

/-- C17: when `getTarget (0)` or `getTarget (1)` is null, and when
`old == live.after` in both endpoint populations, `Population::connect` returns
with any fuel and the store differs only by the two recorded calls of
`getTarget`: no call of `create`, `getMin`, `getMax`, `setPart`, `getP` or
`uniform` is made and no connection is created. -/
theorem C17_connect_returns_at_once [TimeLike T] (H : PopHooks T U) (P fuel : Nat)
    (w : PopWorld T U)
    (h : H.getTarget P 0 w = none ∨ H.getTarget P 1 w = none ∨
      ∃ A B, H.getTarget P 0 w = some A ∧ H.getTarget P 1 w = some B ∧
        w.old A = w.after (Node.live A) ∧ w.old B = w.after (Node.live B)) :
    Population.connect H P fuel w =
      some { w with calls := w.calls ++ [PopCall.getTarget 0, PopCall.getTarget 1] } :=
  Population.connect_at_once H P fuel w h

theorem C17_witness :
    Population.connect (exampleModel 0 1) 0 0
        (exampleRings [1, 2] (Node.part 1) [11] (Node.part 11)) =
      some { exampleRings [1, 2] (Node.part 1) [11] (Node.part 11) with
        calls := (exampleRings [1, 2] (Node.part 1) [11] (Node.part 11)).calls ++
          [PopCall.getTarget 0, PopCall.getTarget 1] } :=
  C17_connect_returns_at_once (exampleModel 0 1) 0 0
    (exampleRings [1, 2] (Node.part 1) [11] (Node.part 11))
    (Or.inr (Or.inr ⟨1, 2, rfl, rfl, rfl, rfl⟩))

/-- C14 fails in the code when `B` is empty: with one new part `1` in `A`, an
empty `B` and `getP = 1`, `Population::connect` binds the sentinel `B->live` as
endpoint `1` of the scratch connection and creates a connection from part `1`
to the sentinel. -/
theorem C14_empty_B_binds_sentinel :
    ∃ w1, Population.connect (exampleModel 0 1) 0 3
        (exampleRings [1] (Node.live 1) [] (Node.live 2)) = some w1 ∧
      PopCall.setPart (Node.part 100) 1 (Node.live 2) ∈ w1.calls ∧
      w1.accepted = [(some (Node.part 1), some (Node.live 2))] :=
  ⟨_, rfl, by decide, rfl⟩

/-- C18 fails with `Population::clearNew` of `runtime.cc`, whose body is empty:
with one new part in `A` and one in `B`, `connect`, `clearNew` on both and
`connect` again create the connection of parts `1` and `11` twice. -/
theorem C18_second_connect_repeats :
    Population.connect (exampleModel 0 1) 0 3
        (exampleRings [1] (Node.live 1) [11] (Node.live 2)) = some exampleConnected ∧
      (Population.connect (exampleModel 0 1) 0 3
        (Population.clearNew 2 (Population.clearNew 1 exampleConnected))).map
          (fun w2 => w2.accepted) =
        some [(some (Node.part 1), some (Node.part 11)),
          (some (Node.part 1), some (Node.part 11))] :=
  ⟨rfl, rfl⟩

/-- C18, as the code has it: once `old` has been set to `live.after` in both
endpoint populations `A` and `B`, which `Population::clearNew` of `runtime.cc`
does not do, `Population::connect` returns at once: it creates no connection
and calls nothing but `getTarget`. -/
theorem C18_no_connection_once_old_is_advanced [TimeLike T] (H : PopHooks T U)
    (P A B fuel : Nat) (w w1 : PopWorld T U)
    (hw1 : w1 = { w with old := upd (upd w.old A (w.after (Node.live A))) B (w.after (Node.live B)) })
    (hA : H.getTarget P 0 w1 = some A) (hB : H.getTarget P 1 w1 = some B) :
    ∃ w2, Population.connect H P fuel w1 = some w2 ∧ w2.accepted = w.accepted ∧
      w2.callsSince w1 = [PopCall.getTarget 0, PopCall.getTarget 1] := by
  have hoA : w1.old A = w1.after (Node.live A) := by
    rw [hw1]; by_cases h : A = B <;> simp [upd, h]
  have hoB : w1.old B = w1.after (Node.live B) := by
    rw [hw1]; simp [upd]
  refine ⟨_, Population.connect_at_once H P fuel w1 (Or.inr (Or.inr ⟨A, B, hA, hB, hoA, hoB⟩)),
    ?_, ?_⟩
  · rw [hw1]
  · simp [PopWorld.callsSince]

theorem C18_witness :
    ∃ w2, Population.connect (exampleModel 0 1) 0 3
        { exampleRings [1] (Node.live 1) [11] (Node.live 2) with
          old := upd (upd (exampleRings [1] (Node.live 1) [11] (Node.live 2)).old 1
            ((exampleRings [1] (Node.live 1) [11] (Node.live 2)).after (Node.live 1))) 2
            ((exampleRings [1] (Node.live 1) [11] (Node.live 2)).after (Node.live 2)) } = some w2 ∧
      w2.accepted = (exampleRings [1] (Node.live 1) [11] (Node.live 2)).accepted ∧
      w2.callsSince { exampleRings [1] (Node.live 1) [11] (Node.live 2) with
          old := upd (upd (exampleRings [1] (Node.live 1) [11] (Node.live 2)).old 1
            ((exampleRings [1] (Node.live 1) [11] (Node.live 2)).after (Node.live 1))) 2
            ((exampleRings [1] (Node.live 1) [11] (Node.live 2)).after (Node.live 2)) } =
        [PopCall.getTarget 0, PopCall.getTarget 1] :=
  C18_no_connection_once_old_is_advanced (exampleModel 0 1) 0 1 2 3
    (exampleRings [1] (Node.live 1) [11] (Node.live 2)) _ rfl rfl rfl

theorem PopCall.isProbe_not (x : PopCall T) (h : PopCall.isProbe x = true) :
    PopCall.isLife x = false ∧ PopCall.isEnter x = false := by
  cases x <;> simp_all [PopCall.isProbe, PopCall.isLife, PopCall.isEnter]

theorem exampleRings_holds_12 :
    (exampleRings [1, 2] (Node.live 1) [11] (Node.live 2)).Holds 1 [Node.part 1, Node.part 2] [] ∧
      (exampleRings [1, 2] (Node.live 1) [11] (Node.live 2)).Holds 2 [Node.part 11] [] := by
  refine ⟨⟨⟨by decide, ?_⟩, rfl⟩, ⟨⟨by decide, ?_⟩, rfl⟩⟩ <;>
  · simp only [List.append_nil, List.cons_append, List.nil_append, List.chain'_cons,
      List.chain'_singleton, and_true]
    decide

/-- C16: for rings of `A` and `B` in any state and any caps, when `getP`
returns `0` for every candidate, `Population::connect` returns without creating
a connection: no call of `enterSimulation`, `enqueue` or `init` is made, and the
calls of `create` and `delete` are either none (early return) or one `create`
followed by the `delete` of the same scratch part. -/
theorem C16_no_connection_when_getP_is_zero [TimeLike T] (H : PopHooks T U) (P A B : Nat)
    (newA oldA newB oldB : List Node) (w : PopWorld T U) (fuel : Nat)
    (hA : H.getTarget P 0 w = some A) (hB : H.getTarget P 1 w = some B)
    (hHA : w.Holds A newA oldA) (hHB : w.Holds B newB oldB)
    (hfuel : (newA ++ oldA).length + (newB ++ oldB).length + 2 ≤ fuel)
    (hP : ∀ c w, (H.getP c w).1 = TimeLike.lit 0) :
    ∃ w1, Population.connect H P fuel w = some w1 ∧ w1.accepted = w.accepted ∧
      (∀ x ∈ w1.callsSince w, PopCall.isEnter x = false) ∧
      ((w1.callsSince w).filter PopCall.isLife = [] ∨
        ∃ c, (w1.callsSince w).filter PopCall.isLife =
          [PopCall.create c, PopCall.delete c]) := by
  by_cases hnew : newA = [] ∧ newB = []
  · have h := Population.connect_at_once H P fuel w (Or.inr (Or.inr ⟨A, B, hA, hB,
      hHA.old_eq_after.2 hnew.1, hHB.old_eq_after.2 hnew.2⟩))
    refine ⟨_, h, rfl, ?_, Or.inl ?_⟩
    · intro x hx
      rw [callsSince_eq _ w [PopCall.getTarget 0, PopCall.getTarget 1] rfl] at hx
      simp at hx
      rcases hx with h | h <;> rw [h] <;> rfl
    · rw [callsSince_eq _ w [PopCall.getTarget 0, PopCall.getTarget 1] rfl]
      rfl
  · have h := Population.connect_eq H P A B newA oldA newB oldB w fuel hA hB hHA hHB hnew hfuel
    obtain ⟨c, l, hacc, hcalls, hl⟩ := Population.connectList_zero H P A B newA oldA newB
      (ringCycle B (newB ++ oldB)) w hP
    rw [List.append_assoc, List.append_assoc] at hcalls
    have hsince := callsSince_eq _ w _ hcalls
    have hfl : l.filter PopCall.isLife = [] := by
      rw [List.filter_eq_nil_iff]
      intro x hx
      rw [(PopCall.isProbe_not x (hl x hx)).1]
      simp
    refine ⟨_, h, hacc, ?_, Or.inr ⟨c, ?_⟩⟩
    · intro x hx
      rw [hsince] at hx
      simp only [List.mem_append, List.mem_cons, List.mem_singleton, List.not_mem_nil,
        or_false] at hx
      rcases hx with h | h | h
      · rcases h with h | h | h | h | h | h | h <;> rw [h] <;> rfl
      · exact (PopCall.isProbe_not x (hl x h)).2
      · rw [h]; rfl
    · rw [hsince, List.filter_append, List.filter_append, hfl]
      rfl

theorem C16_witness :
    ∃ w1, Population.connect (exampleModel 3 0) 0 5
        (exampleRings [1, 2] (Node.live 1) [11] (Node.live 2)) = some w1 ∧
      w1.accepted = (exampleRings [1, 2] (Node.live 1) [11] (Node.live 2)).accepted ∧
      (∀ x ∈ w1.callsSince (exampleRings [1, 2] (Node.live 1) [11] (Node.live 2)),
        PopCall.isEnter x = false) ∧
      ((w1.callsSince (exampleRings [1, 2] (Node.live 1) [11] (Node.live 2))).filter
          PopCall.isLife = [] ∨
        ∃ c, (w1.callsSince (exampleRings [1, 2] (Node.live 1) [11] (Node.live 2))).filter
          PopCall.isLife = [PopCall.create c, PopCall.delete c]) :=
  C16_no_connection_when_getP_is_zero (exampleModel 3 0) 0 1 2 [Node.part 1, Node.part 2] []
    [Node.part 11] [] (exampleRings [1, 2] (Node.live 1) [11] (Node.live 2)) 5 rfl rfl
    exampleRings_holds_12.1 exampleRings_holds_12.2 (by decide) (fun _ _ => rfl)

theorem ringCycle_nodup {B : Nat} {l : List Node} (h : l.Nodup) : (ringCycle B l).Nodup := by
  unfold ringCycle
  split_ifs
  · simp
  · exact h

theorem exampleRings_holds_mixed :
    (exampleRings [1, 2, 3] (Node.part 2) [11, 12] (Node.part 12)).Holds 1
        [Node.part 1] [Node.part 2, Node.part 3] ∧
      (exampleRings [1, 2, 3] (Node.part 2) [11, 12] (Node.part 12)).Holds 2
        [Node.part 11] [Node.part 12] := by
  refine ⟨⟨⟨by decide, ?_⟩, rfl⟩, ⟨⟨by decide, ?_⟩, rfl⟩⟩ <;>
  · simp only [List.append_nil, List.cons_append, List.nil_append, List.chain'_cons,
      List.chain'_singleton, and_true]
    decide

/-- C13: for rings of `A` and `B` in any state and any hooks, `Population::connect`
returns, and the pairs that it proposes (bound with `setPart` and tested with
`getP`) are pairwise different; each has a new part as one endpoint, so a
pair of two old parts is never proposed. -/
theorem C13_pairs_proposed_once [TimeLike T] (H : PopHooks T U) (P A B : Nat)
    (newA oldA newB oldB : List Node) (w : PopWorld T U) (fuel : Nat)
    (hA : H.getTarget P 0 w = some A) (hB : H.getTarget P 1 w = some B)
    (hHA : w.Holds A newA oldA) (hHB : w.Holds B newB oldB)
    (hfuel : (newA ++ oldA).length + (newB ++ oldB).length + 2 ≤ fuel) :
    ∃ w1 l, Population.connect H P fuel w = some w1 ∧ w1.proposed = w.proposed ++ l ∧
      l.Nodup ∧ ∀ x ∈ l, ∃ a b, x = (some a, some b) ∧ (a ∈ newA ∨ b ∈ newB) ∧
        ¬ (a ∈ oldA ∧ b ∈ oldB) := by
  have hnA : (newA ++ oldA).Nodup := (List.nodup_cons.1 hHA.1.1).2
  have hnB : (newB ++ oldB).Nodup := (List.nodup_cons.1 hHB.1.1).2
  by_cases hnew : newA = [] ∧ newB = []
  · have h := Population.connect_at_once H P fuel w (Or.inr (Or.inr ⟨A, B, hA, hB,
      hHA.old_eq_after.2 hnew.1, hHB.old_eq_after.2 hnew.2⟩))
    exact ⟨_, [], h, by simp, List.nodup_nil, by simp⟩
  · have h := Population.connect_eq H P A B newA oldA newB oldB w fuel hA hB hHA hHB hnew hfuel
    obtain ⟨l, hl, hnd, hm⟩ := Population.connectList_proposed H P A B newA oldA newB
      (ringCycle B (newB ++ oldB)) w hnA (List.nodup_append.1 hnB).1 (ringCycle_nodup hnB)
    refine ⟨_, l, h, hl, hnd, fun x hx => ?_⟩
    obtain ⟨a, b, hx, hab⟩ := hm x hx
    refine ⟨a, b, hx, ?_, ?_⟩
    · rcases hab with ⟨ha, _⟩ | ⟨_, hb⟩
      · exact Or.inl ha
      · exact Or.inr hb
    · rintro ⟨ha, hb⟩
      rcases hab with ⟨ha2, _⟩ | ⟨_, hb2⟩
      · exact (List.nodup_append.1 hnA).2.2 ha2 ha
      · exact (List.nodup_append.1 hnB).2.2 hb2 hb

theorem C13_witness :
    ∃ w1 l, Population.connect (exampleModel 0 1) 0 7
        (exampleRings [1, 2, 3] (Node.part 2) [11, 12] (Node.part 12)) = some w1 ∧
      w1.proposed = (exampleRings [1, 2, 3] (Node.part 2) [11, 12] (Node.part 12)).proposed ++ l ∧
      l.Nodup ∧ ∀ x ∈ l, ∃ a b, x = (some a, some b) ∧
        (a ∈ [Node.part 1] ∨ b ∈ [Node.part 11]) ∧
        ¬ (a ∈ [Node.part 2, Node.part 3] ∧ b ∈ [Node.part 12]) :=
  C13_pairs_proposed_once (exampleModel 0 1) 0 1 2 [Node.part 1] [Node.part 2, Node.part 3]
    [Node.part 11] [Node.part 12] (exampleRings [1, 2, 3] (Node.part 2) [11, 12] (Node.part 12)) 7
    rfl rfl exampleRings_holds_mixed.1 exampleRings_holds_mixed.2 (by decide)

theorem exampleRings_holds_22 :
    (exampleRings [1, 2] (Node.live 1) [11, 12] (Node.live 2)).Holds 1
        [Node.part 1, Node.part 2] [] ∧
      (exampleRings [1, 2] (Node.live 1) [11, 12] (Node.live 2)).Holds 2
        [Node.part 11, Node.part 12] [] := by
  refine ⟨⟨⟨by decide, ?_⟩, rfl⟩, ⟨⟨by decide, ?_⟩, rfl⟩⟩ <;>
  · simp only [List.append_nil, List.cons_append, List.nil_append, List.chain'_cons,
      List.chain'_singleton, and_true]
    decide

/-- C11: when `B` is not empty, no cap is set (`getMax = 0`) and `getP` returns
`1`, `Population::connect` returns and creates `|newA| * |B| + |newB| * |oldA|`
connections, pairwise different: exactly the pairs `(a, b)` of a part of `A` and
a part of `B` of which at least one is new. -/
theorem C11_connections_without_caps [TimeLike T] (H : PopHooks T U) (P A B : Nat)
    (newA oldA newB oldB : List Node) (w : PopWorld T U) (fuel : Nat)
    (hA : H.getTarget P 0 w = some A) (hB : H.getTarget P 1 w = some B)
    (hHA : w.Holds A newA oldA) (hHB : w.Holds B newB oldB)
    (hfuel : (newA ++ oldA).length + (newB ++ oldB).length + 2 ≤ fuel)
    (hB0 : newB ++ oldB ≠ [])
    (hP : ∀ c w, (H.getP c w).1 = TimeLike.lit 1)
    (h01 : (TimeLike.lit 0 : T) < TimeLike.lit 1)
    (hmax0 : ∀ w, H.getMax P 0 w = 0) (hmax1 : ∀ w, H.getMax P 1 w = 0) :
    ∃ w1 l, Population.connect H P fuel w = some w1 ∧ w1.accepted = w.accepted ++ l ∧
      l.Nodup ∧ l.length = newA.length * (newB ++ oldB).length + newB.length * oldA.length ∧
      ∀ x, x ∈ l ↔ ∃ a b, x = (some a, some b) ∧ a ∈ newA ++ oldA ∧ b ∈ newB ++ oldB ∧
        (a ∈ newA ∨ b ∈ newB) := by
  have hnA : (newA ++ oldA).Nodup := (List.nodup_cons.1 hHA.1.1).2
  have hnB : (newB ++ oldB).Nodup := (List.nodup_cons.1 hHB.1.1).2
  by_cases hnew : newA = [] ∧ newB = []
  · have h := Population.connect_at_once H P fuel w (Or.inr (Or.inr ⟨A, B, hA, hB,
      hHA.old_eq_after.2 hnew.1, hHB.old_eq_after.2 hnew.2⟩))
    refine ⟨_, [], h, by simp, List.nodup_nil, by simp [hnew.1, hnew.2], ?_⟩
    intro x
    simp [hnew.1, hnew.2]
  · have h := Population.connect_eq H P A B newA oldA newB oldB w fuel hA hB hHA hHB hnew hfuel
    have hRB : ringCycle B (newB ++ oldB) = newB ++ oldB := by
      simp [ringCycle, hB0]
    rw [hRB] at h
    obtain ⟨l, hl, hnd, hlen, hm⟩ := Population.connectList_all H P A B newA oldA newB
      (newB ++ oldB) w hnA (List.nodup_append.1 hnB).1 hnB hB0 hP h01 hmax0 hmax1
    refine ⟨_, l, h, hl, hnd, hlen, fun x => ?_⟩
    rw [hm]
    constructor
    · rintro ⟨a, b, hx, (⟨ha, hb⟩ | ⟨ha, hb⟩)⟩
      · exact ⟨a, b, hx, List.mem_append_left _ ha, hb, Or.inl ha⟩
      · exact ⟨a, b, hx, List.mem_append_right _ ha, List.mem_append_left _ hb, Or.inr hb⟩
    · rintro ⟨a, b, hx, ha, hb, hab⟩
      rcases List.mem_append.1 ha with ha1 | ha2
      · exact ⟨a, b, hx, Or.inl ⟨ha1, hb⟩⟩
      · rcases hab with h1 | h2
        · exact ⟨a, b, hx, Or.inl ⟨h1, hb⟩⟩
        · exact ⟨a, b, hx, Or.inr ⟨ha2, h2⟩⟩

theorem C11_witness :
    ∃ w1 l, Population.connect (exampleModel 0 1) 0 6
        (exampleRings [1, 2] (Node.live 1) [11, 12] (Node.live 2)) = some w1 ∧
      w1.accepted = (exampleRings [1, 2] (Node.live 1) [11, 12] (Node.live 2)).accepted ++ l ∧
      l.Nodup ∧ l.length = 4 ∧
      ∀ x, x ∈ l ↔ ∃ a b, x = (some a, some b) ∧ a ∈ [Node.part 1, Node.part 2] ∧
        b ∈ [Node.part 11, Node.part 12] ∧
        (a ∈ [Node.part 1, Node.part 2] ∨ b ∈ [Node.part 11, Node.part 12]) :=
  C11_connections_without_caps (exampleModel 0 1) 0 1 2 [Node.part 1, Node.part 2] []
    [Node.part 11, Node.part 12] [] (exampleRings [1, 2] (Node.live 1) [11, 12] (Node.live 2)) 6
    rfl rfl exampleRings_holds_22.1 exampleRings_holds_22.2 (by decide) (by decide)
    (fun _ _ => rfl) (by decide) (fun _ => rfl) (fun _ => rfl)

/-- C12: when `A` and `B` each hold `N >= 1` parts, all new, both caps are `1`,
`getP` returns `1` and `getCount (i)` returns the number of accepted connections
of the bound endpoint `i`, `Population::connect` returns and creates exactly `N`
connections: the parts of `A` in ring order, each connected once, to the parts
of `B` rotated by one, which are `N` different parts. -/
theorem C12_caps_one_match_each_part_once [TimeLike T] (H : PopHooks T U) (P A B N : Nat)
    (LA LB : List Node) (w : PopWorld T U) (fuel : Nat)
    (hA : H.getTarget P 0 w = some A) (hB : H.getTarget P 1 w = some B)
    (hHA : w.Holds A LA []) (hHB : w.Holds B LB [])
    (hN : 1 ≤ N) (hlenA : LA.length = N) (hlenB : LB.length = N)
    (hfuel : LA.length + LB.length + 2 ≤ fuel)
    (hP : ∀ c w, (H.getP c w).1 = TimeLike.lit 1)
    (h01 : (TimeLike.lit 0 : T) < TimeLike.lit 1)
    (hmax0 : ∀ w, H.getMax P 0 w = 1) (hmax1 : ∀ w, H.getMax P 1 w = 1)
    (hcount : ∀ c i w, (H.getCount c i w).1 = w.degree i)
    (hfresh : ∀ x ∈ w.accepted, (∀ a ∈ LA, x.1 ≠ some a) ∧ ∀ b ∈ LB, x.2 ≠ some b) :
    ∃ w1 l, Population.connect H P fuel w = some w1 ∧ w1.accepted = w.accepted ++ l ∧
      l = List.zip (LA.map some) ((LB.rotate 1).map some) ∧ l.length = N ∧
      l.map Prod.fst = LA.map some ∧ (l.map Prod.snd).Nodup ∧
      (l.map Prod.snd).Perm (LB.map some) := by
  have hnA : LA.Nodup := by
    have := (List.nodup_cons.1 hHA.1.1).2
    simpa using this
  have hnB : LB.Nodup := by
    have := (List.nodup_cons.1 hHB.1.1).2
    simpa using this
  have hnew : ¬ (LA = [] ∧ LB = []) := by
    rintro ⟨h, _⟩
    rw [h] at hlenA
    simp at hlenA
    omega
  have h := Population.connect_eq H P A B LA [] LB [] w fuel hA hB hHA hHB hnew
    (by simpa using hfuel)
  cases hLB : LB with
  | nil => rw [hLB] at hlenB; simp at hlenB; omega
  | cons b0 t =>
    rw [hLB] at hnB hHB hfresh hlenB
    have hRB : ringCycle B (b0 :: t ++ []) = b0 :: t := by simp [ringCycle]
    rw [hLB, hRB] at h
    have hacc := Population.connectList_match H P A B LA b0 t w hnA hnB
      (by rw [hlenA, hlenB]) hP h01 hmax0 hmax1 hcount hfresh
    have hlenr : ((b0 :: t).rotate 1).length = N := by rw [List.length_rotate]; exact hlenB
    have hsnd : (List.zip (LA.map some) (((b0 :: t).rotate 1).map some)).map Prod.snd =
        ((b0 :: t).rotate 1).map some := by
      rw [List.map_snd_zip]
      simp [hlenA, hlenr]
    refine ⟨_, _, h, hacc, rfl, ?_, ?_, ?_, ?_⟩
    · simp [hlenA, hlenr]
    · rw [List.map_fst_zip]
      simp [hlenA, hlenr]
    · rw [hsnd]
      exact (List.nodup_rotate.2 hnB).map (fun a b hab => Option.some.inj hab)
    · rw [hsnd]
      exact (List.rotate_perm _ _).map _

theorem C12_witness :
    ∃ w1 l, Population.connect (exampleModel 1 1) 0 6
        (exampleRings [1, 2] (Node.live 1) [11, 12] (Node.live 2)) = some w1 ∧
      w1.accepted = (exampleRings [1, 2] (Node.live 1) [11, 12] (Node.live 2)).accepted ++ l ∧
      l = List.zip ([Node.part 1, Node.part 2].map some)
        (([Node.part 11, Node.part 12].rotate 1).map some) ∧ l.length = 2 ∧
      l.map Prod.fst = [Node.part 1, Node.part 2].map some ∧ (l.map Prod.snd).Nodup ∧
      (l.map Prod.snd).Perm ([Node.part 11, Node.part 12].map some) :=
  C12_caps_one_match_each_part_once (exampleModel 1 1) 0 1 2 2 [Node.part 1, Node.part 2]
    [Node.part 11, Node.part 12] (exampleRings [1, 2] (Node.live 1) [11, 12] (Node.live 2)) 6
    rfl rfl exampleRings_holds_22.1 exampleRings_holds_22.2 (by decide) rfl rfl (by decide)
    (fun _ _ => rfl) (by decide) (fun _ => rfl) (fun _ => rfl) (fun _ _ _ => rfl)
    (fun x hx => by simp [exampleRings, PopWorld.withRing, PopWorld.blank] at hx)

/-! ### `Population::remove` -/

/-- C22 (the code at the failing input). On the vector `[0, p, 0]`,
`EventSpikeMulti::setLatch` copies the null pointer of the last slot into slot
`0` and goes on to slot `1` without looking at slot `0` again: the vector it
leaves is `[0, p]`, which starts with a null pointer. -/
theorem C22_null_entry_survives (H : SpikeHooks T U) (latch : Int) (p : Addr) (fuel : Nat)
    (w : World T U) :
    EventSpikeMulti.setLatch H latch (fuel + 3) [none, some p, none] w =
      some ([none, some p], H.setLatch p latch (w.record (Call.setLatch p latch))) := by
  simp [EventSpikeMulti.setLatch, EventSpikeMulti.setLatchLoop, vectorAt, vectorResize]

/-- C23 (the code at the failing input). On the vector `[0, p]`,
`EventSpikeMulti::setLatch` moves `p` into slot `0` and ends its loop: `p` stays
in the vector, and the store is as before, so no hook has been called and
`p->setLatch` in particular has not. -/
theorem C23_moved_part_is_not_latched (H : SpikeHooks T U) (latch : Int) (p : Addr) (fuel : Nat)
    (w : World T U) :
    EventSpikeMulti.setLatch H latch (fuel + 2) [none, some p] w = some ([some p], w) := by
  simp [EventSpikeMulti.setLatch, EventSpikeMulti.setLatchLoop, vectorAt, vectorResize]

/-! ### `RungeKutta::run` -/

theorem passCalls_count_integrate (q : Addr) (ps : List Addr) [DecidableEq T] :
    (passCalls (fun p => [(Call.integrate p : Call T)]) ps).count (Call.integrate q) =
      ps.count q := by
  induction ps with
  | nil => rfl
  | cons p ps ih =>
    simp only [passCalls, List.count_append, ih, List.count_cons, List.count_nil]
    by_cases h : p = q
    · simp [h]; omega
    · have : (Call.integrate p : Call T) ≠ Call.integrate q := fun e => h (Call.integrate.inj e)
      simp [h, this]

theorem passCalls_count_other (g : Addr → List (Call T)) (x : Call T) [DecidableEq T]
    (hg : ∀ p, x ∉ g p) (ps : List Addr) : (passCalls g ps).count x = 0 := by
  induction ps with
  | nil => rfl
  | cons p ps ih =>
    simp only [passCalls, List.count_append, ih, List.count_eq_zero_of_not_mem (hg p)]

theorem RungeKutta.calls_passes [TimeLike T] (ps : List Addr) :
    (RungeKutta.calls ps : List (Call T)) =
      RungeKutta.passes.flatMap (fun g => passCalls g ps) := by
  simp [RungeKutta.calls, RungeKutta.stageCalls, RungeKutta.passes, List.flatMap_cons,
    List.append_assoc]

theorem RungeKutta.calls_count [TimeLike T] (ps : List Addr) (q : Addr) :
    (RungeKutta.calls ps : List (Call T)).count (Call.integrate q) = 4 * ps.count q := by
  simp only [RungeKutta.calls, RungeKutta.stageCalls, List.count_append,
    passCalls_count_integrate]
  rw [passCalls_count_other _ _ (by simp), passCalls_count_other _ _ (by simp),
    passCalls_count_other _ _ (by simp), passCalls_count_other _ _ (by simp),
    passCalls_count_other _ _ (by simp), passCalls_count_other _ _ (by simp)]
  omega

/-- C24. With hooks of parts that change model state only, `RungeKutta::run` on
a queue `p1..pn` returns, and its calls are those of exactly thirteen passes over
the queue, in this order: `snapshot, pushDerivative`; twice the three passes
`integrate`, `updateDerivative`, `finalizeDerivative, multiplyAddToStack (2)`;
then `integrate`; `updateDerivative`; `finalizeDerivative, addToMembers`;
`multiply (1/6)`; `integrate`; `restore`.  Each part of the queue has `integrate`
called exactly four times. -/
theorem C24_rungeKutta_passes [TimeLike T] (H : Hooks T U) (hp : H.PartsPure) (e : Nat)
    (w : World T U) (ps : List Addr) (hq : IsQueue w e ps) (fuel : Nat)
    (hfuel : ps.length < fuel) :
    ∃ w1, RungeKutta.run H e fuel w = some w1 ∧
      w1.calls = w.calls ++ RungeKutta.passes.flatMap (fun g => passCalls g ps) ∧
      (RungeKutta.passes : List (Addr → List (Call T))).length = 13 ∧
      ∀ p ∈ ps, (w1.calls.drop w.calls.length).count (Call.integrate p) = 4 := by
  obtain ⟨w1, h1, _, _, h4⟩ := RungeKutta.run_rk_spec H hp e w ps hq fuel hfuel
  refine ⟨w1, h1, by rw [h4, RungeKutta.calls_passes], rfl, fun p hpm => ?_⟩
  have hnd : ps.Nodup := (List.nodup_cons.1 (Linked.nodup ps _ hq)).2
  rw [h4, List.drop_left, RungeKutta.calls_count, List.count_eq_one_of_mem hnd hpm]

theorem C24_witness :
    ∃ w1, RungeKutta.run exampleHooks 0 4 exampleQueue = some w1 ∧
      w1.calls = exampleQueue.calls ++
        RungeKutta.passes.flatMap
          (fun g => passCalls g [Addr.part 1, Addr.part 2, Addr.part 3]) ∧
      (RungeKutta.passes : List (Addr → List (Call Nat))).length = 13 ∧
      ∀ p ∈ [Addr.part 1, Addr.part 2, Addr.part 3],
        (w1.calls.drop exampleQueue.calls.length).count (Call.integrate p) = 4 :=
  C24_rungeKutta_passes exampleHooks examplePartsPure 0 exampleQueue
    [Addr.part 1, Addr.part 2, Addr.part 3]
    (by simp [IsQueue, Linked, exampleQueue, upd]) 4 (by decide)

/-! ### `RungeKutta::run`: the times that hooks read -/

theorem Reads.to_framed {f : VisitorFunction T U} {v e : Nat} {k : Call T → T → T → U → U}
    {g : Addr → List (Call T)} (hf : Reads f v e k g) : Framed f v g := by
  intro w p hp
  have h := hf w p hp
  rw [h]

theorem reads_callOn (c : Addr → Call T) (v e : Nat) (k : Call T → T → T → U → U) :
    Reads (callOn c (fun p w => { w with user := k (c p) (w.t e) (w.dt e) w.user })) v e k
      (fun p => [c p]) := by
  intro w p hp
  simp [callOn, hp, World.record]

theorem reads_callOn2 (c1 c2 : Addr → Call T) (v e : Nat) (k : Call T → T → T → U → U) :
    Reads (callOn2 c1 (fun p w => { w with user := k (c1 p) (w.t e) (w.dt e) w.user })
      c2 (fun p w => { w with user := k (c2 p) (w.t e) (w.dt e) w.user })) v e k
      (fun p => [c1 p, c2 p]) := by
  intro w p hp
  simp [callOn2, callOn, hp, World.record]

theorem visitLoop_reads (f : VisitorFunction T U) (v e : Nat) (k : Call T → T → T → U → U)
    (g : Addr → List (Call T)) (hf : Reads f v e k g) :
    ∀ (ps : List Addr) (c : Addr) (w : World T U), w.vprevious v = some c →
      Linked w.next c ps → ∀ fuel, ps.length < fuel →
      ∃ w1, VisitorStep.visitLoop f v fuel w = some w1 ∧
        w1.user = (passCalls g ps).foldl (fun u x => k x (w.t e) (w.dt e) u) w.user := by
  intro ps
  induction ps with
  | nil =>
    intro c w hc hl fuel hfuel
    obtain ⟨n, rfl⟩ : ∃ n, fuel = n + 1 := ⟨fuel - 1, by simp at hfuel; omega⟩
    simp only [Linked] at hl
    refine ⟨w, ?_, by simp [passCalls]⟩
    simp [VisitorStep.visitLoop, hc, hl]
  | cons p ps ih =>
    intro c w hc hl fuel hfuel
    obtain ⟨n, rfl⟩ : ∃ n, fuel = n + 1 := ⟨fuel - 1, by simp at hfuel; omega⟩
    have hlen : ps.length < n := by simp at hfuel; omega
    obtain ⟨hcp, hrest⟩ := hl
    have hw0p : (w.atPart v p).vpart v = some p := by simp [World.atPart, upd]
    have hfw := hf (w.atPart v p) p hw0p
    obtain ⟨wf, hwf⟩ : ∃ wf, wf = f v (w.atPart v p) := ⟨_, rfl⟩
    rw [← hwf] at hfw
    have e1 : wf.vprevious v = some c := by rw [hfw]; exact hc
    have e2 : wf.vpart v = some p := by rw [hfw]; exact hw0p
    have e3 : wf.next = w.next := by rw [hfw]; rfl
    have e4 : wf.t = w.t := by rw [hfw]; rfl
    have e5 : wf.dt = w.dt := by rw [hfw]; rfl
    have e6 : wf.user = (g p).foldl (fun u x => k x (w.t e) (w.dt e) u) w.user := by
      rw [hfw]; rfl
    have hadv := visitLoop_advance f v n w c p c hc hcp
      (by rw [← hwf]; exact e1) (by rw [← hwf, e3, e2]; exact hcp)
    rw [← hwf] at hadv
    obtain ⟨w1, h1, h2⟩ := ih p
      { wf with vprevious := upd wf.vprevious v (wf.vpart v) }
      (by simp [upd, e2]) (by simpa [e3] using hrest) n hlen
    refine ⟨w1, by rw [hadv]; exact h1, ?_⟩
    rw [h2]
    simp only [e4, e5, e6, passCalls, List.foldl_append]

/-- A pass of `EventStep::visit` with a visitor function whose hooks read `t` and
`dt` of the event. -/
theorem visit_reads (f : VisitorFunction T U) (e : Nat) (k : Call T → T → T → U → U)
    (g : Addr → List (Call T)) (hf : Reads f e e k g) (w : World T U) (ps : List Addr)
    (hq : IsQueue w e ps) (fuel : Nat) (hfuel : ps.length < fuel) :
    ∃ w1, EventStep.visit f e fuel w = some w1 ∧ SameBut w w1 ∧ w1.next = w.next ∧
      w1.user = (passCalls g ps).foldl (fun u x => k x (w.t e) (w.dt e) u) w.user := by
  obtain ⟨w1, h1, h2, h3, _, _, _⟩ := visit_framed f e g hf.to_framed w ps hq fuel hfuel
  obtain ⟨w2, k1, k2⟩ := visitLoop_reads f e e k g hf ps (Addr.queue e)
    { w with vprevious := upd w.vprevious e (some (Addr.queue e)) }
    (by simp [upd]) hq fuel hfuel
  have : w2 = w1 := Option.some.inj (k1.symm.trans h1)
  rw [this] at k2
  exact ⟨w1, h1, h2, h3, k2⟩

theorem SameBut.times {w w1 : World T U} (h : SameBut w w1) : w1.t = w.t ∧ w1.dt = w.dt := by
  unfold SameBut at h
  rw [h]
  exact ⟨rfl, rfl⟩

theorem RungeKutta.stage_reads [TimeLike T] (e : Nat) (k : Call T → T → T → U → U)
    (w : World T U) (ps : List Addr) (hq : IsQueue w e ps) (fuel : Nat)
    (hfuel : ps.length < fuel) :
    ∃ w1, RungeKutta.stage (Hooks.reading e k) e fuel w = some w1 ∧ SameBut w w1 ∧
      w1.next = w.next ∧
      w1.user = (RungeKutta.stageCalls ps).foldl (fun u x => k x (w.t e) (w.dt e) u) w.user := by
  obtain ⟨w1, a1, a2, a3, a4⟩ := visit_reads
    (callOn Call.integrate (Hooks.reading e k).integrate) e k _
    (reads_callOn Call.integrate e e k) w ps hq fuel hfuel
  obtain ⟨w2, b1, b2, b3, b4⟩ := visit_reads
    (callOn Call.updateDerivative (Hooks.reading e k).updateDerivative) e k _
    (reads_callOn Call.updateDerivative e e k) w1 ps
    (by unfold IsQueue; rw [a3]; exact hq) fuel hfuel
  obtain ⟨w3, c1, c2, c3, c4⟩ := visit_reads
    (callOn2 Call.finalizeDerivative (Hooks.reading e k).finalizeDerivative
      (fun p => Call.multiplyAddToStack p (TimeLike.lit 2))
      (fun p => (Hooks.reading e k).multiplyAddToStack p (TimeLike.lit 2))) e k _
    (reads_callOn2 Call.finalizeDerivative
      (fun p => Call.multiplyAddToStack p (TimeLike.lit 2)) e e k) w2 ps
    (by unfold IsQueue; rw [b3, a3]; exact hq) fuel hfuel
  refine ⟨w3, ?_, (a2.trans b2).trans c2, by rw [c3, b3, a3], ?_⟩
  · simp only [RungeKutta.stage, a1, b1, Option.some_bind]
    exact c1
  · rw [c4, b4, a4]
    simp only [(a2.trans b2).times.1, (a2.trans b2).times.2, a2.times.1, a2.times.2,
      RungeKutta.stageCalls, List.foldl_append]

theorem RungeKutta.run_rk_reads [TimeLike T] (e : Nat) (k : Call T → T → T → U → U)
    (w : World T U) (ps : List Addr) (hq : IsQueue w e ps) (fuel : Nat)
    (hfuel : ps.length < fuel) :
    ∃ w1, RungeKutta.run (Hooks.reading e k) e fuel w = some w1 ∧
      w1.user = (RungeKutta.seen (w.t e) (w.dt e) ps).foldl
        (fun u x => k x.1 x.2.1 x.2.2 u) w.user := by
  obtain ⟨w1, a1, a2, a3, a4⟩ := visit_reads
    (callOn2 Call.snapshot (Hooks.reading e k).snapshot Call.pushDerivative
      (Hooks.reading e k).pushDerivative) e k _
    (reads_callOn2 Call.snapshot Call.pushDerivative e e k) w ps hq fuel hfuel
  obtain ⟨w3, hw3⟩ : ∃ w3 : World T U, w3 =
      { w1 with dt := upd w1.dt e (w1.dt e / TimeLike.lit 2),
                t := upd w1.t e (w1.t e - upd w1.dt e (w1.dt e / TimeLike.lit 2) e) } := ⟨_, rfl⟩
  have hq3 : IsQueue w3 e ps := by unfold IsQueue; rw [hw3]; simp only; rw [a3]; exact hq
  have ht3 : w3.t e = w.t e - w.dt e / TimeLike.lit 2 := by
    rw [hw3]; simp [upd, a2.times.1, a2.times.2]
  have hd3 : w3.dt e = w.dt e / TimeLike.lit 2 := by
    rw [hw3]; simp [upd, a2.times.2]
  have hu3 : w3.user = w1.user := by rw [hw3]
  obtain ⟨w4, b1, b2, b3, b4⟩ := RungeKutta.stage_reads e k w3 ps hq3 fuel hfuel
  obtain ⟨w5, c1, c2, c3, c4⟩ := RungeKutta.stage_reads e k w4 ps
    (by unfold IsQueue; rw [b3]; exact hq3) fuel hfuel
  obtain ⟨w7, hw7⟩ : ∃ w7 : World T U, w7 =
      { w5 with dt := upd w5.dt e (w1.dt e), t := upd w5.t e (w1.t e) } := ⟨_, rfl⟩
  have hq7 : IsQueue w7 e ps := by
    unfold IsQueue; rw [hw7]; simp only; rw [c3, b3]; exact hq3
  have ht7 : w7.t e = w.t e := by rw [hw7]; simp [upd, a2.times.1]
  have hd7 : w7.dt e = w.dt e := by rw [hw7]; simp [upd, a2.times.2]
  have hu7 : w7.user = w5.user := by rw [hw7]
  obtain ⟨w8, d1, d2, d3, d4⟩ := visit_reads
    (callOn Call.integrate (Hooks.reading e k).integrate) e k _
    (reads_callOn Call.integrate e e k) w7 ps hq7 fuel hfuel
  obtain ⟨w9, e1, e2, e3, e4⟩ := visit_reads
    (callOn Call.updateDerivative (Hooks.reading e k).updateDerivative) e k _
    (reads_callOn Call.updateDerivative e e k) w8 ps
    (by unfold IsQueue; rw [d3]; exact hq7) fuel hfuel
  obtain ⟨w10, f1, f2, f3, f4⟩ := visit_reads
    (callOn2 Call.finalizeDerivative (Hooks.reading e k).finalizeDerivative Call.addToMembers
      (Hooks.reading e k).addToMembers) e k _
    (reads_callOn2 Call.finalizeDerivative Call.addToMembers e e k) w9 ps
    (by unfold IsQueue; rw [e3, d3]; exact hq7) fuel hfuel
  obtain ⟨w11, g1, g2, g3, g4⟩ := visit_reads
    (callOn (fun p => Call.multiply p (TimeLike.lit 1 / TimeLike.lit 6))
      (fun p => (Hooks.reading e k).multiply p (TimeLike.lit 1 / TimeLike.lit 6))) e k _
    (reads_callOn (fun p => Call.multiply p (TimeLike.lit 1 / TimeLike.lit 6)) e e k) w10 ps
    (by unfold IsQueue; rw [f3, e3, d3]; exact hq7) fuel hfuel
  obtain ⟨w12, i1, i2, i3, i4⟩ := visit_reads
    (callOn Call.integrate (Hooks.reading e k).integrate) e k _
    (reads_callOn Call.integrate e e k) w11 ps
    (by unfold IsQueue; rw [g3, f3, e3, d3]; exact hq7) fuel hfuel
  obtain ⟨w13, j1, j2, j3, j4⟩ := visit_reads
    (callOn Call.restore (Hooks.reading e k).restore) e k _
    (reads_callOn Call.restore e e k) w12 ps
    (by unfold IsQueue; rw [i3, g3, f3, e3, d3]; exact hq7) fuel hfuel
  refine ⟨w13, ?_, ?_⟩
  · simp only [RungeKutta.run, a1, Option.some_bind]
    rw [← hw3]
    simp only [b1, c1, Option.some_bind]
    rw [← hw7]
    simp only [d1, e1, f1, g1, i1, Option.some_bind]
    exact j1
  · have t4 := b2.times
    have t8 := d2.times
    have t9 := (d2.trans e2).times
    have t10 := ((d2.trans e2).trans f2).times
    have t11 := (((d2.trans e2).trans f2).trans g2).times
    have t12 := ((((d2.trans e2).trans f2).trans g2).trans i2).times
    rw [j4, i4, g4, f4, e4, d4, hu7, c4, b4, hu3, a4]
    simp only [t4.1, t4.2, t8.1, t8.2, t9.1, t9.2, t10.1, t10.2, t11.1, t11.2, t12.1, t12.2,
      ht3, hd3, ht7, hd7, RungeKutta.seen, RungeKutta.callsK1, RungeKutta.callsK4,
      List.foldl_append, List.foldl_map]

theorem Euler.run_euler_reads (e : Nat) (k : Call T → T → T → U → U)
    (w : World T U) (ps : List Addr) (hq : IsQueue w e ps) (fuel : Nat)
    (hfuel : ps.length < fuel) :
    ∃ w1, Euler.run (Hooks.reading e k) e fuel w = some w1 ∧
      w1.user = ((ps.map Call.integrate).map (fun c => (c, w.t e, w.dt e))).foldl
        (fun u x => k x.1 x.2.1 x.2.2 u) w.user := by
  obtain ⟨w1, a1, _, _, a4⟩ := visit_reads
    (callOn Call.integrate (Hooks.reading e k).integrate) e k _
    (reads_callOn Call.integrate e e k) w ps hq fuel hfuel
  refine ⟨w1, a1, ?_⟩
  rw [a4, passCalls_single]
  simp only [List.foldl_map]

theorem Hooks.base_pure : (Hooks.base : Hooks T U).PartsPure :=
  ⟨fun _ _ => rfl, fun _ _ => rfl, fun _ _ => rfl, fun _ _ => rfl, fun _ _ => rfl,
    fun _ _ => rfl, fun _ _ => rfl, fun _ _ => rfl, fun _ _ => rfl, fun _ _ _ => rfl,
    fun _ _ _ => rfl, fun _ _ => rfl⟩

/-- C25. On an event with the values `t0` and `dt0` of `t` and `dt` and a queue
`p1..pn`: with hooks of parts that change model state only, `RungeKutta::run`
returns with `t` and `dt` as at its start, and so does `Euler::run`.  And for model
code that computes with the values of `t` and `dt` that each hook reads: the hooks
of `RungeKutta::run` read `t0` and `dt0` in the first pass, `t0 - dt0 / 2` and
`dt0 / 2` in the six passes of the stages k2 and k3, and `t0` and `dt0` again in the
last six passes; the hooks of `Euler::run` read `t0` and `dt0`. -/
theorem C25_rungeKutta_times [TimeLike T] (e : Nat) (w : World T U) (ps : List Addr)
    (hq : IsQueue w e ps) (fuel : Nat) (hfuel : ps.length < fuel) :
    (∀ H : Hooks T U, H.PartsPure →
      (∃ w1, RungeKutta.run H e fuel w = some w1 ∧ w1.t = w.t ∧ w1.dt = w.dt) ∧
      (∃ w1, Euler.run H e fuel w = some w1 ∧ w1.t = w.t ∧ w1.dt = w.dt)) ∧
    (∀ k : Call T → T → T → U → U,
      (∃ w1, RungeKutta.run (Hooks.reading e k) e fuel w = some w1 ∧
        w1.user = (RungeKutta.seen (w.t e) (w.dt e) ps).foldl
          (fun u x => k x.1 x.2.1 x.2.2 u) w.user) ∧
      (∃ w1, Euler.run (Hooks.reading e k) e fuel w = some w1 ∧
        w1.user = ((ps.map Call.integrate).map (fun c => (c, w.t e, w.dt e))).foldl
          (fun u x => k x.1 x.2.1 x.2.2 u) w.user)) := by
  refine ⟨fun H hp => ⟨?_, ?_⟩, fun k => ⟨RungeKutta.run_rk_reads e k w ps hq fuel hfuel,
    Euler.run_euler_reads e k w ps hq fuel hfuel⟩⟩
  · obtain ⟨w1, h1, h2, _, _⟩ := RungeKutta.run_rk_spec H hp e w ps hq fuel hfuel
    exact ⟨w1, h1, h2.times⟩
  · obtain ⟨w1, h1, h2, _, _⟩ := Euler.run_euler_spec H hp e w ps hq fuel hfuel
    exact ⟨w1, h1, h2.times⟩

theorem C25_witness :
    (∃ w1, RungeKutta.run Hooks.base 0 3 exampleTimes = some w1 ∧ w1.t = exampleTimes.t ∧
      w1.dt = exampleTimes.dt) ∧
    (∃ w1, Euler.run Hooks.base 0 3 exampleTimes = some w1 ∧ w1.t = exampleTimes.t ∧
      w1.dt = exampleTimes.dt) ∧
    (∃ w1, RungeKutta.run (Hooks.reading 0 exampleNote) 0 3 exampleTimes = some w1 ∧
      w1.user = (RungeKutta.seen 10 4 [Addr.part 1, Addr.part 2]).foldl
        (fun u x => exampleNote x.1 x.2.1 x.2.2 u) []) ∧
    (∃ w1, Euler.run (Hooks.reading 0 exampleNote) 0 3 exampleTimes = some w1 ∧
      w1.user = [(Call.integrate (Addr.part 1), 10, 4), (Call.integrate (Addr.part 2), 10, 4)]) ∧
    (RungeKutta.seen 10 4 [Addr.part 1] : List (Call Nat × Nat × Nat)) =
      [(Call.snapshot (Addr.part 1), 10, 4), (Call.pushDerivative (Addr.part 1), 10, 4),
       (Call.integrate (Addr.part 1), 8, 2), (Call.updateDerivative (Addr.part 1), 8, 2),
       (Call.finalizeDerivative (Addr.part 1), 8, 2),
       (Call.multiplyAddToStack (Addr.part 1) 2, 8, 2),
       (Call.integrate (Addr.part 1), 8, 2), (Call.updateDerivative (Addr.part 1), 8, 2),
       (Call.finalizeDerivative (Addr.part 1), 8, 2),
       (Call.multiplyAddToStack (Addr.part 1) 2, 8, 2),
       (Call.integrate (Addr.part 1), 10, 4), (Call.updateDerivative (Addr.part 1), 10, 4),
       (Call.finalizeDerivative (Addr.part 1), 10, 4), (Call.addToMembers (Addr.part 1), 10, 4),
       (Call.multiply (Addr.part 1) 0, 10, 4), (Call.integrate (Addr.part 1), 10, 4),
       (Call.restore (Addr.part 1), 10, 4)] := by
  have h := @C25_rungeKutta_times Nat (List (Call Nat × Nat × Nat)) _ 0 exampleTimes
    [Addr.part 1, Addr.part 2] (by simp [IsQueue, Linked, exampleTimes, World.blank, upd]) 3
    (by decide)
  exact ⟨(h.1 Hooks.base Hooks.base_pure).1, (h.1 Hooks.base Hooks.base_pure).2,
    (h.2 exampleNote).1, (h.2 exampleNote).2, rfl⟩

/-! ### `EventSpikeSingle::run` -/

/-- A hook that changes model state only, called on the current part. -/
theorem callOn_at (c : Addr → Call T) (h : Addr → World T U → World T U)
    (hh : ∀ p, KeepsRuntime (h p)) (v : Nat) (w : World T U) (p : Addr)
    (hv : w.vpart v = some p) :
    ∃ u, callOn c h v w = { w with calls := w.calls ++ [c p], user := u } :=
  ⟨_, callOn_framed c h hh v w p hv⟩

/-- The visitor function of `EventSpikeSingle::run` on the current part `p`: the
calls `update`, `finalize`, `finalizeEvent`, and a change of model state. -/
theorem EventSpikeSingle.finish_at (H : SpikeHooks T U) (hp : H.PartsPure) (v : Nat)
    (w : World T U) (p : Addr) (hv : w.vpart v = some p) :
    ∃ u r, EventSpikeSingle.finish H v w =
      { w with calls := w.calls ++ [Call.update p, Call.finalize p r, Call.finalizeEvent p],
               user := u } := by
  obtain ⟨u1, h1⟩ := callOn_at Call.update H.update hp.parts.update v w p hv
  obtain ⟨w1, hw1⟩ : ∃ w1 : World T U, w1 = callOn Call.update H.update v w := ⟨_, rfl⟩
  rw [← hw1] at h1
  have hv1 : w1.vpart v = some p := by rw [h1]; exact hv
  obtain ⟨w2, hw2⟩ : ∃ w2 : World T U,
    w2 = (H.finalize p w1).2.record (Call.finalize p (H.finalize p w1).1) := ⟨_, rfl⟩
  have h2 : w2 = { w1 with calls := w1.calls ++ [Call.finalize p (H.finalize p w1).1],
                           user := (H.finalize p w1).2.user } := by
    have hf : (H.finalize p w1).2 = { w1 with user := (H.finalize p w1).2.user } :=
      hp.parts.finalize p w1
    rw [hw2, World.record, hf]
  have hv2 : w2.vpart v = some p := by rw [h2]; exact hv1
  obtain ⟨u3, h3⟩ := callOn_at Call.finalizeEvent H.finalizeEvent hp.finalizeEvent v w2 p hv2
  refine ⟨u3, (H.finalize p w1).1, ?_⟩
  have e0 : EventSpikeSingle.finish H v w = callOn Call.finalizeEvent H.finalizeEvent v w2 := by
    simp only [EventSpikeSingle.finish]
    rw [← hw1]
    simp only [hv1]
    rw [← hw2]
  rw [e0, h3, h2, h1]
  simp

/-- C27. With the Euler integrator and hooks of parts that change model state
only, `EventSpikeSingle::run` of an event with target `p` and latch `k` returns and
has made exactly the calls `setLatch (k)`, `integrate`, `update`, `finalize`,
`finalizeEvent`, in this order and all on `p`; whatever `finalize` returns, no
`leaveSimulation` is called and the links of the parts are as before; the event is
deleted. -/
theorem C27_spike_single_run (H : SpikeHooks T U) (hp : H.PartsPure)
    (rungeKutta : World T U → Option (World T U)) (e : Nat) (p : Addr) (latch : Int)
    (w : World T U) (hi : w.integrator = some Integrator.euler) :
    ∃ w1 r, EventSpikeSingle.run H rungeKutta e (some p) latch w = some w1 ∧
      w1.calls = w.calls ++ [Call.setLatch p latch, Call.integrate p, Call.update p,
        Call.finalize p r, Call.finalizeEvent p] ∧
      w1.visited = w.visited ++ [p, p] ∧ w1.next = w.next ∧ w1.previous = w.previous ∧
      w1.deleted = e :: w.deleted := by
  obtain ⟨w1, hw1⟩ : ∃ w1 : World T U,
    w1 = H.setLatch p latch (w.record (Call.setLatch p latch)) := ⟨_, rfl⟩
  have h1 : w1 = { w with calls := w.calls ++ [Call.setLatch p latch], user := w1.user } := by
    rw [hw1, hp.setLatch p latch (w.record (Call.setLatch p latch))]
    rfl
  have hi1 : w1.integrator = some Integrator.euler := by rw [h1]; exact hi
  obtain ⟨u2, h2⟩ := callOn_at Call.integrate H.integrate hp.parts.integrate e
    (w1.atPart e p) p (by simp [World.atPart, upd])
  obtain ⟨w2, hw2⟩ : ∃ w2 : World T U,
    w2 = callOn Call.integrate H.integrate e (w1.atPart e p) := ⟨_, rfl⟩
  rw [← hw2] at h2
  obtain ⟨u3, r, h3⟩ := EventSpikeSingle.finish_at H hp e (w2.atPart e p) p
    (by simp [World.atPart, upd])
  obtain ⟨w3, hw3⟩ : ∃ w3 : World T U,
    w3 = EventSpikeSingle.finish H e (w2.atPart e p) := ⟨_, rfl⟩
  rw [← hw3] at h3
  have hrun : EventSpikeSingle.run H rungeKutta e (some p) latch w =
      some { w3 with deleted := e :: w3.deleted } := by
    simp only [EventSpikeSingle.run]
    rw [← hw1]
    simp only [Integrator.runOn, hi1, Euler.runOn, EventSpikeSingle.visit, Option.some_bind]
    rw [← hw2, ← hw3]
  refine ⟨_, r, hrun, ?_, ?_, ?_, ?_, ?_⟩
  · simp only [h3, h2, World.atPart]
    rw [h1]
    simp
  · simp only [h3, h2, World.atPart]
    rw [h1]
    simp
  · simp only [h3, h2, World.atPart]
    rw [h1]
  · simp only [h3, h2, World.atPart]
    rw [h1]
  · simp only [h3, h2, World.atPart]
    rw [h1]

theorem SpikeHooks.spike_base_pure : (SpikeHooks.base : SpikeHooks T U).PartsPure :=
  ⟨Hooks.base_pure, fun _ _ _ => rfl, fun _ _ => rfl⟩

theorem C27_witness :
    ∃ w1 r, EventSpikeSingle.run (SpikeHooks.base : SpikeHooks Nat Unit) (fun _ => none) 1
        (some (Addr.part 2)) 7 exampleStep = some w1 ∧
      w1.calls = exampleStep.calls ++ [Call.setLatch (Addr.part 2) 7, Call.integrate (Addr.part 2),
        Call.update (Addr.part 2), Call.finalize (Addr.part 2) r,
        Call.finalizeEvent (Addr.part 2)] ∧
      w1.visited = exampleStep.visited ++ [Addr.part 2, Addr.part 2] ∧
      w1.next = exampleStep.next ∧ w1.previous = exampleStep.previous ∧
      w1.deleted = 1 :: exampleStep.deleted :=
  C27_spike_single_run SpikeHooks.base SpikeHooks.spike_base_pure (fun _ => none) 1 (Addr.part 2) 7
    exampleStep rfl

/-! ### `Simulator::updatePopulations` with populations that enqueue -/

/-- The loop over `queueResize` when `resize` may call `Simulator::connect`. -/
theorem Simulator.resizeAll_enqueue (H : Hooks T U) (hist : U → List Nat) (budget : U → Nat)
    (hpop : H.PopulationsEnqueue hist budget) :
    ∀ (l : List (Nat × Int)) (w : World T U),
      ∃ (w1 : World T U) (added : List Nat),
        l.foldl (fun s it => H.resize it.1 it.2 (s.record (Call.resize it.1 it.2))) w = w1 ∧
        w1.queueConnect = w.queueConnect ++ added ∧ w1.queueClearNew = w.queueClearNew ∧
        w1.calls = w.calls ++ l.map (fun it => Call.resize it.1 it.2) ∧
        hist w1.user = hist w.user ++ added ∧ budget w1.user + added.length ≤ budget w.user := by
  intro l
  induction l with
  | nil => intro w; exact ⟨w, [], rfl, by simp, rfl, by simp, by simp, by simp⟩
  | cons it l ih =>
    intro w
    obtain ⟨a, k1, _, k3, k4, k5, k6⟩ := hpop.resize it.1 it.2 (w.record (Call.resize it.1 it.2))
    obtain ⟨w1, b, h1, h2, h3, h4, h5, h6⟩ :=
      ih (H.resize it.1 it.2 (w.record (Call.resize it.1 it.2)))
    refine ⟨w1, a ++ b, by simp only [List.foldl_cons]; exact h1, ?_, ?_, ?_, ?_, ?_⟩
    · rw [h2, k1]; simp [World.record]
    · rw [h3, k3]; rfl
    · rw [h4, k4]; simp [World.record]
    · rw [h5, k5]; simp [World.record]
    · have : budget (w.record (Call.resize it.1 it.2)).user = budget w.user := rfl
      simp only [List.length_append]
      omega

/-- The loop over `queueConnect` when `connect` may call `Simulator::connect`:
with fuel for the queue and the budget, the loop ends with the queue empty, and
`connect` has been called on the queue followed by what was added, in order. -/
theorem Simulator.connectLoop_enqueue (H : Hooks T U) (hist : U → List Nat) (budget : U → Nat)
    (hpop : H.PopulationsEnqueue hist budget) :
    ∀ (fuel : Nat) (w : World T U), w.queueConnect.length + budget w.user ≤ fuel →
      ∃ (w1 : World T U) (added : List Nat), Simulator.connectLoop H fuel w = some w1 ∧
        w1.queueConnect = [] ∧ w1.queueResize = w.queueResize ∧
        w1.queueClearNew = w.queueClearNew ∧
        w1.calls = w.calls ++ (w.queueConnect ++ added).map Call.connect ∧
        hist w1.user = hist w.user ++ added := by
  intro fuel
  induction fuel with
  | zero =>
    intro w hfuel
    have hq : w.queueConnect = [] := List.length_eq_zero.1 (by omega)
    exact ⟨w, [], by simp [Simulator.connectLoop, hq], hq, rfl, rfl, by simp [hq], by simp⟩
  | succ n ih =>
    intro w hfuel
    cases hq : w.queueConnect with
    | nil =>
      exact ⟨w, [], by simp [Simulator.connectLoop, hq], hq, rfl, rfl, by simp, by simp⟩
    | cons x q =>
      obtain ⟨a, k1, k2, k3, k4, k5, k6⟩ := hpop.connect x (w.record (Call.connect x))
      obtain ⟨w0, hw0⟩ : ∃ w0 : World T U, w0 = H.connect x (w.record (Call.connect x)) :=
        ⟨_, rfl⟩
      rw [← hw0] at k1 k2 k3 k4 k5 k6
      have hrq : (w.record (Call.connect x)).queueConnect = x :: q := hq
      have hru : (w.record (Call.connect x)).user = w.user := rfl
      rw [hrq] at k1
      rw [hru] at k5 k6
      obtain ⟨w1, b, h1, h2, h3, h4, h5, h6⟩ :=
        ih { w0 with queueConnect := w0.queueConnect.tail } (by
          simp only [k1, List.cons_append, List.tail_cons, List.length_append]
          rw [hq] at hfuel
          simp only [List.length_cons] at hfuel
          omega)
      refine ⟨w1, a ++ b, ?_, h2, ?_, ?_, ?_, ?_⟩
      · simp only [Simulator.connectLoop, hq]
        rw [← hw0]
        exact h1
      · rw [h3]; exact k2
      · rw [h4]; exact k3
      · rw [h5]
        simp only [k1, k4, List.cons_append, List.tail_cons]
        simp [World.record]
      · rw [h6]
        simp only [k5]
        simp

/-- C26. Let `resize` and `connect` of the populations do no more to the
scheduler than call `Simulator::connect`, with a history `hist` of these calls in
the model and a budget that bounds them.  Then `Simulator::updatePopulations`
returns, and its calls are: `resize (n)` for every pending request in the order of
`queueResize`, and after all of them `connect ()` on the populations of
`queueConnect` in order, followed by the populations that were enqueued in the
meantime, in the order of the history.  Afterwards `queueResize` and `queueConnect`
are empty and `queueClearNew` is as before; no other call is made. -/
theorem C26_updatePopulations_drains (H : Hooks T U) (hist : U → List Nat) (budget : U → Nat)
    (hpop : H.PopulationsEnqueue hist budget) (w : World T U) (fuel : Nat)
    (hfuel : w.queueConnect.length + budget w.user ≤ fuel) :
    ∃ w1, Simulator.updatePopulations H fuel w = some w1 ∧ w1.queueResize = [] ∧
      w1.queueConnect = [] ∧ w1.queueClearNew = w.queueClearNew ∧
      w1.calls = w.calls ++ [Call.updatePopulations] ++
        w.queueResize.map (fun it => Call.resize it.1 it.2) ++
        (w.queueConnect ++ (hist w1.user).drop (hist w.user).length).map Call.connect := by
  obtain ⟨w0, a, r1, r2, r3, r4, r5, r6⟩ := Simulator.resizeAll_enqueue H hist budget hpop
    (w.record Call.updatePopulations).queueResize (w.record Call.updatePopulations)
  have hu : (w.record Call.updatePopulations).user = w.user := rfl
  have hqc : (w.record Call.updatePopulations).queueConnect = w.queueConnect := rfl
  rw [hu] at r5 r6
  rw [hqc] at r2
  obtain ⟨w1, b, h1, h2, h3, h4, h5, h6⟩ := Simulator.connectLoop_enqueue H hist budget hpop fuel
    { w0 with queueResize := [] } (by
      simp only [r2, List.length_append]
      omega)
  refine ⟨w1, ?_, by rw [h3], h2, by rw [h4]; exact r3, ?_⟩
  · simp only [Simulator.updatePopulations]
    rw [r1]
    exact h1
  · have hd : (hist w1.user).drop (hist w.user).length = a ++ b := by
      rw [h6]
      simp only [r5, List.append_assoc, List.drop_left]
    rw [hd, h5]
    simp only [r4, r2]
    simp [World.record]

theorem exampleEnqueue_enqueues :
    exampleEnqueue.PopulationsEnqueue (fun u => u.1) (fun u => u.2) := by
  refine ⟨fun _ _ w => ⟨[], by simp [exampleEnqueue, Hooks.base]⟩, fun population w => ?_⟩
  by_cases h : population = 8 ∧ 0 < w.user.2
  · refine ⟨[9], ?_⟩
    simp [exampleEnqueue, h]
    omega
  · refine ⟨[], ?_⟩
    simp [exampleEnqueue, h]

theorem C26_witness :
    ∃ w1, Simulator.updatePopulations exampleEnqueue 2 examplePending = some w1 ∧
      w1.queueResize = [] ∧ w1.queueConnect = [] ∧
      w1.queueClearNew = examplePending.queueClearNew ∧
      w1.calls = examplePending.calls ++ [Call.updatePopulations] ++
        examplePending.queueResize.map (fun it => Call.resize it.1 it.2) ++
        (examplePending.queueConnect ++
          (w1.user.1).drop (examplePending.user.1).length).map Call.connect :=
  C26_updatePopulations_drains exampleEnqueue (fun u => u.1) (fun u => u.2)
    exampleEnqueue_enqueues examplePending 2 (by decide)

/-! ### `Simulator::run` and `stop` -/

/-- C28. When `stop` is set, `Simulator::run` returns at once with the store as
it is, whatever the fuel: no event is popped or run.  When `stop` is clear, the
queue is not empty and the event that is popped and run returns with `stop`
set in the store `w1`, then `Simulator::run` returns with exactly `w1`: that
event has completed, and no other event is popped from the queue of `w1`. -/
theorem C28_stop_ends_run [TimeLike T] (run : Nat → World T U → Option (World T U))
    (w : World T U) :
    (w.stop = true → ∀ fuel, Simulator.run run fuel w = some (w, true)) ∧
    (∀ w1, w.queueEvent ≠ [] → w.stop = false → Simulator.step run w = some w1 →
      w1.stop = true → ∀ fuel, Simulator.run run (fuel + 1) w = some (w1, true)) := by
  refine ⟨fun hs fuel => ?_, fun w1 hq hs hstep hs1 fuel => ?_⟩
  · cases fuel with
    | zero => simp [Simulator.run, hs]
    | succ n => simp [Simulator.run, hs]
  · have h1 : Simulator.run run (fuel + 1) w = Simulator.run run fuel w1 := by
      simp [Simulator.run, hq, hs, hstep]
    rw [h1]
    cases fuel with
    | zero => simp [Simulator.run, hs1]
    | succ n => simp [Simulator.run, hs1]

theorem C28_witness :
    Simulator.run exampleStop 5 exampleStopped = some (exampleStopped, true) ∧
    Simulator.run exampleStop 5 exampleThree = some (exampleStopped, true) ∧
    exampleThree.queueEvent = [3, 1, 2] ∧ exampleStopped.queueEvent = [2, 1] ∧
    exampleStopped.ran = [(3, 5)] :=
  ⟨(C28_stop_ends_run exampleStop exampleStopped).1 rfl 5,
    (C28_stop_ends_run exampleStop exampleThree).2 exampleStopped (by decide) rfl rfl rfl 4,
    rfl, rfl, rfl⟩

/-! ### uniform, grid, gridRaw -/

theorem roundHalfEven_intCast (n : Int) : roundHalfEven (n : ℚ) = n := by
  simp [roundHalfEven]

theorem roundHalfEven_floor_le (q : ℚ) : ⌊q⌋ ≤ roundHalfEven q := by
  unfold roundHalfEven
  split_ifs <;> omega

theorem roundHalfEven_le_floor_succ (q : ℚ) : roundHalfEven q ≤ ⌊q⌋ + 1 := by
  unfold roundHalfEven
  split_ifs <;> omega

theorem roundHalfEven_mono {p q : ℚ} (h : p ≤ q) : roundHalfEven p ≤ roundHalfEven q := by
  have hf : ⌊p⌋ ≤ ⌊q⌋ := Int.floor_mono h
  rcases lt_or_eq_of_le hf with hlt | heq
  · exact le_trans (roundHalfEven_le_floor_succ p) (le_trans (by omega) (roundHalfEven_floor_le q))
  · have hd : p - ⌊p⌋ ≤ q - ⌊q⌋ := by rw [heq]; linarith
    unfold roundHalfEven
    rw [heq]
    split_ifs <;> first | omega | (exfalso; linarith)

theorem roundHalfEven_near (q : ℚ) (M : Int) (h1 : (M : ℚ) - 1 / 2 < q)
    (h2 : q < (M : ℚ) + 1 / 2) : roundHalfEven q = M := by
  by_cases hq : (M : ℚ) ≤ q
  · have hf : ⌊q⌋ = M := Int.floor_eq_iff.2 ⟨hq, by linarith⟩
    unfold roundHalfEven
    rw [hf, if_pos (by linarith)]
  · have hf : ⌊q⌋ = M - 1 := Int.floor_eq_iff.2 ⟨by push_cast; linarith, by push_cast; linarith⟩
    unfold roundHalfEven
    rw [hf, if_neg (by push_cast; linarith), if_pos (by push_cast; linarith)]
    omega

theorem roundHalfEven_tie (f : Int) : roundHalfEven ((f : ℚ) + 1 / 2) =
    if f % 2 = 0 then f else f + 1 := by
  have hf : ⌊(f : ℚ) + 1 / 2⌋ = f := Int.floor_eq_iff.2 ⟨by linarith, by linarith⟩
  unfold roundHalfEven
  rw [hf, if_neg (by linarith), if_neg (by linarith)]

theorem Float32.ulp_pos (a : ℚ) : 0 < Float32.ulp a := by
  unfold Float32.ulp
  positivity

theorem Float32.ulp_of_binade (a : ℚ) (e : Int) (h1 : (2 : ℚ) ^ e ≤ a) (h2 : a < (2 : ℚ) ^ (e + 1))
    (he : -126 ≤ e) : Float32.ulp a = 2 ^ (e - 23) := by
  have ha : 0 < a := lt_of_lt_of_le (by positivity) h1
  have hl : Int.log 2 a = e := by
    apply le_antisymm
    · have := (Int.lt_zpow_iff_log_lt (by norm_num : 1 < 2) ha).1
        (by simpa using h2 : a < ((2 : ℕ) : ℚ) ^ (e + 1))
      omega
    · exact (Int.zpow_le_iff_le_log (by norm_num : 1 < 2) ha).1
        (by simpa using h1 : ((2 : ℕ) : ℚ) ^ e ≤ a)
  unfold Float32.ulp
  rw [hl, max_eq_left he]

theorem Float32.nearest_of_binade (a : ℚ) (e : Int) (h1 : (2 : ℚ) ^ e ≤ a)
    (h2 : a < (2 : ℚ) ^ (e + 1)) (he : -126 ≤ e) :
    Float32.nearest a = (roundHalfEven (a / 2 ^ (e - 23)) : ℚ) * 2 ^ (e - 23) := by
  unfold Float32.nearest
  rw [Float32.ulp_of_binade a e h1 h2 he]

theorem Float32.nearest_nonneg {a : ℚ} (ha : 0 ≤ a) : 0 ≤ Float32.nearest a := by
  unfold Float32.nearest
  have h0 : (0 : ℚ) ≤ a / Float32.ulp a := div_nonneg ha (le_of_lt (Float32.ulp_pos a))
  have h1 : (0 : Int) ≤ roundHalfEven (a / Float32.ulp a) := by
    have := roundHalfEven_mono h0
    rwa [show (0 : ℚ) = ((0 : Int) : ℚ) by simp, roundHalfEven_intCast] at this
  exact mul_nonneg (by exact_mod_cast h1) (le_of_lt (Float32.ulp_pos a))

/-- The exponent of the binade of `a > 0`, not below that of the subnormal
numbers. -/
theorem Float32.ulp_exponent (a : ℚ) (ha : 0 < a) :
    ∃ e : Int, -126 ≤ e ∧ Float32.ulp a = 2 ^ (e - 23) ∧ a < 2 ^ (e + 1) ∧
      (-126 ≤ Int.log 2 a → (2 : ℚ) ^ e ≤ a) ∧ e = max (Int.log 2 a) (-126) := by
  refine ⟨max (Int.log 2 a) (-126), le_max_right _ _, rfl, ?_, ?_, rfl⟩
  · have h := Int.lt_zpow_succ_log_self (by norm_num : 1 < 2) a
    have h2 : ((2 : ℕ) : ℚ) ^ (Int.log 2 a + 1) ≤ (2 : ℚ) ^ (max (Int.log 2 a) (-126) + 1) := by
      rw [Nat.cast_ofNat]
      exact zpow_le_zpow_right₀ (by norm_num) (by have := le_max_left (Int.log 2 a) (-126); omega)
    exact lt_of_lt_of_le h h2
  · intro hl
    rw [max_eq_left hl]
    have h := Int.zpow_log_le_self (by norm_num : 1 < 2) ha
    rwa [Nat.cast_ofNat] at h

theorem two_zpow_shift (n : Nat) (k e : Int) (h : (n : Int) + k = e) :
    (((2 : Int) ^ n : Int) : ℚ) * 2 ^ k = 2 ^ e := by
  rw [Int.cast_pow, Int.cast_ofNat, ← zpow_natCast, ← zpow_add₀ (by norm_num : (2 : ℚ) ≠ 0), h]

theorem Float32.nearest_le_binade (a : ℚ) (e : Int)
    (hu : Float32.ulp a = 2 ^ (e - 23)) (h2 : a < (2 : ℚ) ^ (e + 1)) :
    Float32.nearest a ≤ 2 ^ (e + 1) := by
  unfold Float32.nearest
  rw [hu]
  have hpos : (0 : ℚ) < 2 ^ (e - 23) := by positivity
  have hq : a / 2 ^ (e - 23) ≤ (((2 : Int) ^ 24 : Int) : ℚ) := by
    rw [div_le_iff₀ hpos]
    have : ((((2 : Int) ^ 24 : Int) : ℚ)) * 2 ^ (e - 23) = 2 ^ (e + 1) :=
      two_zpow_shift 24 (e - 23) (e + 1) (by omega)
    rw [this]
    exact le_of_lt h2
  have hr := roundHalfEven_mono hq
  rw [roundHalfEven_intCast] at hr
  have hr2 : ((roundHalfEven (a / 2 ^ (e - 23)) : Int) : ℚ) ≤ (((2 : Int) ^ 24 : Int) : ℚ) := by
    exact_mod_cast hr
  calc ((roundHalfEven (a / 2 ^ (e - 23)) : Int) : ℚ) * 2 ^ (e - 23)
      ≤ (((2 : Int) ^ 24 : Int) : ℚ) * 2 ^ (e - 23) := mul_le_mul_of_nonneg_right hr2 (le_of_lt hpos)
    _ = 2 ^ (e + 1) := two_zpow_shift 24 (e - 23) (e + 1) (by omega)

theorem Float32.binade_le_nearest (a : ℚ) (e : Int)
    (hu : Float32.ulp a = 2 ^ (e - 23)) (h1 : (2 : ℚ) ^ e ≤ a) :
    2 ^ e ≤ Float32.nearest a := by
  unfold Float32.nearest
  rw [hu]
  have hpos : (0 : ℚ) < 2 ^ (e - 23) := by positivity
  have e1 : ((((2 : Int) ^ 23 : Int) : ℚ)) * 2 ^ (e - 23) = 2 ^ e :=
    two_zpow_shift 23 (e - 23) e (by omega)
  have hq : (((2 : Int) ^ 23 : Int) : ℚ) ≤ a / 2 ^ (e - 23) := by
    rw [le_div_iff₀ hpos, e1]
    exact h1
  have hr := roundHalfEven_mono hq
  rw [roundHalfEven_intCast] at hr
  have hr2 : (((2 : Int) ^ 23 : Int) : ℚ) ≤ ((roundHalfEven (a / 2 ^ (e - 23)) : Int) : ℚ) := by
    exact_mod_cast hr
  calc (2 : ℚ) ^ e = (((2 : Int) ^ 23 : Int) : ℚ) * 2 ^ (e - 23) := e1.symm
    _ ≤ ((roundHalfEven (a / 2 ^ (e - 23)) : Int) : ℚ) * 2 ^ (e - 23) :=
      mul_le_mul_of_nonneg_right hr2 (le_of_lt hpos)

theorem Float32.nearest_zero : Float32.nearest 0 = 0 := by
  unfold Float32.nearest
  rw [zero_div, show (0 : ℚ) = ((0 : Int) : ℚ) by simp, roundHalfEven_intCast]
  simp

/-- Rounding to the nearest `float` keeps the order. -/
theorem Float32.nearest_mono {a b : ℚ} (ha : 0 ≤ a) (hab : a ≤ b) :
    Float32.nearest a ≤ Float32.nearest b := by
  rcases eq_or_lt_of_le ha with h0 | hpos
  · rw [← h0, Float32.nearest_zero]
    exact Float32.nearest_nonneg (le_trans ha hab)
  · have hbpos : 0 < b := lt_of_lt_of_le hpos hab
    obtain ⟨ea, ha1, ha2, ha3, ha4, ha5⟩ := Float32.ulp_exponent a hpos
    obtain ⟨eb, hb1, hb2, hb3, hb4, hb5⟩ := Float32.ulp_exponent b hbpos
    have hlog : Int.log 2 a ≤ Int.log 2 b := Int.log_mono_right hpos hab
    have hle : ea ≤ eb := by
      rw [ha5, hb5]
      exact max_le_max hlog (le_refl _)
    rcases eq_or_lt_of_le hle with heq | hlt
    · unfold Float32.nearest
      rw [ha2, hb2, heq]
      have hp : (0 : ℚ) < 2 ^ (eb - 23) := by positivity
      have hq : a / 2 ^ (eb - 23) ≤ b / 2 ^ (eb - 23) := div_le_div_of_nonneg_right hab (le_of_lt hp)
      have hr := roundHalfEven_mono hq
      exact mul_le_mul_of_nonneg_right (by exact_mod_cast hr) (le_of_lt hp)
    · have hbl : -126 ≤ Int.log 2 b := by
        by_contra hc
        have : eb = -126 := by rw [hb5]; exact max_eq_right (by omega)
        omega
      have h1 := Float32.nearest_le_binade a ea ha2 ha3
      have h2 := Float32.binade_le_nearest b eb hb2 (hb4 hbl)
      have h3 : (2 : ℚ) ^ (ea + 1) ≤ 2 ^ eb := zpow_le_zpow_right₀ (by norm_num) (by omega)
      exact le_trans h1 (le_trans h3 h2)

/-- A number with a significand of at most `24` bits and an exponent of the
format is a `float`: rounding leaves it as it is. -/
theorem Float32.nearest_exact (m : Nat) (k : Int) (hm : m < 2 ^ 24) (hk : -149 ≤ k) :
    Float32.nearest ((m : ℚ) * 2 ^ k) = (m : ℚ) * 2 ^ k := by
  rcases Nat.eq_zero_or_pos m with h0 | hpos
  · rw [h0]
    simp [Float32.nearest_zero]
  · have hmq : (0 : ℚ) < (m : ℚ) := by exact_mod_cast hpos
    have ha : (0 : ℚ) < (m : ℚ) * 2 ^ k := by positivity
    obtain ⟨e, he1, he2, he3, he4, he5⟩ := Float32.ulp_exponent ((m : ℚ) * 2 ^ k) ha
    have hlt : (m : ℚ) * 2 ^ k < 2 ^ (k + 24) := by
      have h1 : (m : ℚ) < 2 ^ (24 : Int) := by
        rw [zpow_ofNat]
        exact_mod_cast hm
      calc (m : ℚ) * 2 ^ k < 2 ^ (24 : Int) * 2 ^ k :=
            mul_lt_mul_of_pos_right h1 (by positivity)
        _ = 2 ^ (k + 24) := by
          rw [← zpow_add₀ (by norm_num : (2 : ℚ) ≠ 0)]
          congr 1
          omega
    have hlog : Int.log 2 ((m : ℚ) * 2 ^ k) < k + 24 :=
      (Int.lt_zpow_iff_log_lt (by norm_num : 1 < 2) ha).1 (by simpa using hlt)
    have hek : e ≤ k + 23 := by
      rw [he5]
      exact max_le (by omega) (by omega)
    obtain ⟨n, hn⟩ : ∃ n : Nat, (n : Int) = k + 23 - e := ⟨(k + 23 - e).toNat, by omega⟩
    have hdiv : (m : ℚ) * 2 ^ k / 2 ^ (e - 23) = (((m * 2 ^ n : Nat) : Int) : ℚ) := by
      rw [div_eq_iff (by positivity)]
      push_cast
      rw [mul_assoc, ← zpow_natCast, ← zpow_add₀ (by norm_num : (2 : ℚ) ≠ 0)]
      congr 2
      omega
    unfold Float32.nearest
    rw [he2, hdiv, roundHalfEven_intCast, ← hdiv]
    exact div_mul_cancel₀ _ (by positivity)

theorem Float32.nearest_natCast (n : Nat) (hn : n ≤ 2 ^ 24) :
    Float32.nearest (n : ℚ) = (n : ℚ) := by
  rcases lt_or_eq_of_le hn with h | h
  · have := Float32.nearest_exact n 0 h (by norm_num)
    simpa using this
  · have := Float32.nearest_exact 1 24 (by norm_num) (by norm_num)
    rw [h]
    norm_num at this ⊢
    exact this

theorem Float32.nearest_one : Float32.nearest 1 = 1 := by
  have := Float32.nearest_natCast 1 (by norm_num)
  simpa using this

/-- The result of an operation whose exact result is not negative and rounds
to less than `2 ^ 128`. -/
theorem Float32.round_of_nonneg {q : ℚ} (hq : 0 ≤ q) (hlt : Float32.nearest q < 2 ^ 128) :
    Float32.round q = Float32.finite (Float32.nearest q) := by
  unfold Float32.round
  rw [abs_of_nonneg hq, if_neg (not_le.2 hlt), if_neg (not_lt.2 hq)]

/-- The conversion of an `int` that is not negative. -/
theorem Float32.ofInt_natCast (n : Nat) (hn : n < 2 ^ 31) :
    Float32.ofInt (n : Int) = Float32.finite (Float32.nearest (n : ℚ)) ∧
      Float32.nearest (n : ℚ) ≤ 2 ^ 31 := by
  have h0 : (0 : ℚ) ≤ (n : ℚ) := by positivity
  have hle : (n : ℚ) ≤ (((2 ^ 24 : Nat) : ℚ)) * 2 ^ (7 : Int) := by
    have : (n : ℚ) ≤ ((2 ^ 31 : Nat) : ℚ) := by exact_mod_cast le_of_lt hn
    calc (n : ℚ) ≤ ((2 ^ 31 : Nat) : ℚ) := this
      _ = (((2 ^ 24 : Nat) : ℚ)) * 2 ^ (7 : Int) := by norm_num
  have hmax : Float32.nearest ((((2 ^ 24 : Nat) : ℚ)) * 2 ^ (7 : Int)) = 2 ^ 31 := by
    have := Float32.nearest_exact 1 31 (by norm_num) (by norm_num)
    norm_num at this ⊢
    exact this
  have hb : Float32.nearest (n : ℚ) ≤ 2 ^ 31 := by
    have := Float32.nearest_mono h0 hle
    rwa [hmax] at this
  refine ⟨?_, hb⟩
  unfold Float32.ofInt
  rw [Int.cast_natCast]
  exact Float32.round_of_nonneg h0 (lt_of_le_of_lt hb (by norm_num))

/-- `uniform ()` for a value `r` of `rand ()`: the `float` nearest to the
quotient of the conversions of `r` and of `RAND_MAX`. -/
theorem uniform_spec (RAND_MAX r : Nat) (hM : 0 < RAND_MAX) (hM31 : RAND_MAX < 2 ^ 31)
    (hr : r ≤ RAND_MAX) :
    uniform RAND_MAX r = Float32.finite
        (Float32.nearest (Float32.nearest (r : ℚ) / Float32.nearest (RAND_MAX : ℚ))) ∧
      1 ≤ Float32.nearest (RAND_MAX : ℚ) ∧
      0 ≤ Float32.nearest (r : ℚ) ∧
      Float32.nearest (r : ℚ) ≤ Float32.nearest (RAND_MAX : ℚ) ∧
      0 ≤ Float32.nearest (Float32.nearest (r : ℚ) / Float32.nearest (RAND_MAX : ℚ)) ∧
      Float32.nearest (Float32.nearest (r : ℚ) / Float32.nearest (RAND_MAX : ℚ)) ≤ 1 := by
  obtain ⟨h1, _⟩ := Float32.ofInt_natCast r (lt_of_le_of_lt hr hM31)
  obtain ⟨h2, _⟩ := Float32.ofInt_natCast RAND_MAX hM31
  have hr0 : (0 : ℚ) ≤ (r : ℚ) := by positivity
  have hR1 : 1 ≤ Float32.nearest (RAND_MAX : ℚ) := by
    have := Float32.nearest_mono (by norm_num : (0 : ℚ) ≤ 1)
      (by exact_mod_cast hM : (1 : ℚ) ≤ (RAND_MAX : ℚ))
    rwa [Float32.nearest_one] at this
  have ha0 : 0 ≤ Float32.nearest (r : ℚ) := Float32.nearest_nonneg hr0
  have haR : Float32.nearest (r : ℚ) ≤ Float32.nearest (RAND_MAX : ℚ) :=
    Float32.nearest_mono hr0 (by exact_mod_cast hr)
  have hRpos : 0 < Float32.nearest (RAND_MAX : ℚ) := lt_of_lt_of_le (by norm_num) hR1
  have hq0 : 0 ≤ Float32.nearest (r : ℚ) / Float32.nearest (RAND_MAX : ℚ) :=
    div_nonneg ha0 (le_of_lt hRpos)
  have hq1 : Float32.nearest (r : ℚ) / Float32.nearest (RAND_MAX : ℚ) ≤ 1 :=
    (div_le_one hRpos).2 haR
  have hn1 : Float32.nearest (Float32.nearest (r : ℚ) / Float32.nearest (RAND_MAX : ℚ)) ≤ 1 := by
    have := Float32.nearest_mono hq0 hq1
    rwa [Float32.nearest_one] at this
  refine ⟨?_, hR1, ha0, haR, Float32.nearest_nonneg hq0, hn1⟩
  unfold uniform
  rw [h1, h2]
  simp only [Float32.div]
  rw [if_neg (ne_of_gt hRpos)]
  exact Float32.round_of_nonneg hq0 (lt_of_le_of_lt hn1 (by norm_num))

/-- The conversion of `2147483647`, the `RAND_MAX` of the GNU C library, is
`2 ^ 31`. -/
theorem Float32.nearest_2147483647 : Float32.nearest (2147483647 : ℚ) = 2147483648 := by
  rw [Float32.nearest_of_binade 2147483647 30 (by norm_num) (by norm_num) (by norm_num),
    roundHalfEven_near _ 16777216 (by norm_num) (by norm_num)]
  norm_num

/-- The conversion of `2147483584 = 2 ^ 31 - 64`, which lies halfway between two
`float`, is `2 ^ 31`, the one with the even significand. -/
theorem Float32.nearest_2147483584 : Float32.nearest (2147483584 : ℚ) = 2147483648 := by
  rw [Float32.nearest_of_binade 2147483584 30 (by norm_num) (by norm_num) (by norm_num),
    show (2147483584 : ℚ) / 2 ^ ((30 : Int) - 23) = ((16777215 : Int) : ℚ) + 1 / 2 by norm_num,
    roundHalfEven_tie]
  norm_num

theorem Float32.nearest_2147483583 : Float32.nearest (2147483583 : ℚ) = 2147483520 := by
  rw [Float32.nearest_of_binade 2147483583 30 (by norm_num) (by norm_num) (by norm_num),
    roundHalfEven_near _ 16777215 (by norm_num) (by norm_num)]
  norm_num

/-- C29 (counterexample). With `RAND_MAX = 2147483647`: when `rand ()` returns
`RAND_MAX`, and also when it returns `2147483584`, `uniform ()` returns `1`,
which is not strictly less than `1`; when `rand ()` returns `1` it returns
`2 ^ (-31)`, which is not the rational number `1 / 2147483647`. -/
theorem C29_uniform_reaches_one :
    uniform 2147483647 2147483647 = Float32.finite 1 ∧
    uniform 2147483647 2147483584 = Float32.finite 1 ∧
    uniform 2147483647 1 = Float32.finite (1 / 2147483648) := by
  have hR : Float32.nearest (((2147483647 : Nat) : ℚ)) = 2147483648 := by
    have := Float32.nearest_2147483647
    simpa using this
  refine ⟨?_, ?_, ?_⟩
  · rw [(uniform_spec 2147483647 2147483647 (by norm_num) (by norm_num) (by norm_num)).1, hR]
    norm_num [Float32.nearest_one]
  · have ha : Float32.nearest (((2147483584 : Nat) : ℚ)) = 2147483648 := by
      have := Float32.nearest_2147483584
      simpa using this
    rw [(uniform_spec 2147483647 2147483584 (by norm_num) (by norm_num) (by norm_num)).1, hR, ha]
    norm_num [Float32.nearest_one]
  · have ha : Float32.nearest (((1 : Nat) : ℚ)) = 1 := by
      have := Float32.nearest_one
      simpa using this
    rw [(uniform_spec 2147483647 1 (by norm_num) (by norm_num) (by norm_num)).1, hR, ha]
    have := Float32.nearest_exact 1 (-31) (by norm_num) (by norm_num)
    norm_num at this ⊢
    exact this

/-- C29 (amended). For a `RAND_MAX` that is a positive `int` and every value `r`
of `rand ()` with `0 ≤ r ≤ RAND_MAX`, `uniform ()` returns a finite `float`, the
one nearest to the quotient of the `float` nearest to `r` and the `float` nearest
to `RAND_MAX`; it is at least `0` and at most `1`, and it is `1` whenever `r`
and `RAND_MAX` convert to the same `float`, as they do for `r = RAND_MAX`.  With
`RAND_MAX = 2147483647` it is `1` exactly for the `64` values
`2147483584 ≤ r`. -/
theorem C29_uniform_range (RAND_MAX r : Nat) (hM : 0 < RAND_MAX) (hM31 : RAND_MAX < 2 ^ 31)
    (hr : r ≤ RAND_MAX) :
    ∃ q : ℚ, uniform RAND_MAX r = Float32.finite q ∧
      q = Float32.nearest (Float32.nearest (r : ℚ) / Float32.nearest (RAND_MAX : ℚ)) ∧
      0 ≤ q ∧ q ≤ 1 ∧
      (Float32.nearest (r : ℚ) = Float32.nearest (RAND_MAX : ℚ) → q = 1) ∧
      (r = RAND_MAX → q = 1) ∧
      (RAND_MAX = 2147483647 → (q = 1 ↔ 2147483584 ≤ r)) := by
  obtain ⟨h1, hR1, ha0, haR, hq0, hq1⟩ := uniform_spec RAND_MAX r hM hM31 hr
  have hRpos : 0 < Float32.nearest (RAND_MAX : ℚ) := lt_of_lt_of_le (by norm_num) hR1
  have hsame : Float32.nearest (r : ℚ) = Float32.nearest (RAND_MAX : ℚ) →
      Float32.nearest (Float32.nearest (r : ℚ) / Float32.nearest (RAND_MAX : ℚ)) = 1 := by
    intro h
    rw [h, div_self (ne_of_gt hRpos), Float32.nearest_one]
  refine ⟨_, h1, rfl, hq0, hq1, hsame, fun h => hsame (by rw [h]), ?_⟩
  intro hmax
  subst hmax
  have hR : Float32.nearest (((2147483647 : Nat) : ℚ)) = 2147483648 := by
    have := Float32.nearest_2147483647
    simpa using this
  constructor
  · intro hone
    by_contra hlt
    have hr2 : r ≤ 2147483583 := by omega
    have hle : Float32.nearest (r : ℚ) ≤ 2147483520 := by
      have := Float32.nearest_mono (by positivity : (0 : ℚ) ≤ (r : ℚ))
        (by exact_mod_cast hr2 : (r : ℚ) ≤ 2147483583)
      rwa [Float32.nearest_2147483583] at this
    have hex : Float32.nearest ((2147483520 : ℚ) / 2147483648) = 2147483520 / 2147483648 := by
      have := Float32.nearest_exact 16777215 (-24) (by norm_num) (by norm_num)
      norm_num at this ⊢
      exact this
    have hq : Float32.nearest (r : ℚ) / Float32.nearest (((2147483647 : Nat) : ℚ)) ≤
        2147483520 / 2147483648 := by
      rw [hR]
      exact div_le_div_of_nonneg_right hle (by norm_num)
    have := Float32.nearest_mono (div_nonneg ha0 (le_of_lt hRpos)) hq
    rw [hex, hone] at this
    norm_num at this
  · intro hge
    apply hsame
    have hle : (2147483584 : ℚ) ≤ (r : ℚ) := by exact_mod_cast hge
    have h2 := Float32.nearest_mono (by norm_num) hle
    rw [Float32.nearest_2147483584] at h2
    rw [hR] at haR ⊢
    exact le_antisymm haR h2

theorem C29_witness :
    ∃ q : ℚ, uniform 2147483647 1073741824 = Float32.finite q ∧
      q = Float32.nearest (Float32.nearest ((1073741824 : Nat) : ℚ) /
        Float32.nearest ((2147483647 : Nat) : ℚ)) ∧
      0 ≤ q ∧ q ≤ 1 ∧
      (Float32.nearest ((1073741824 : Nat) : ℚ) = Float32.nearest ((2147483647 : Nat) : ℚ) →
        q = 1) ∧
      (1073741824 = 2147483647 → q = 1) ∧
      (2147483647 = 2147483647 → (q = 1 ↔ 2147483584 ≤ 1073741824)) :=
  C29_uniform_range 2147483647 1073741824 (by decide) (by decide) (by decide)

theorem wrapInt_of_range (x : Int) (h0 : 0 ≤ x) (h1 : x < 2 ^ 31) : wrapInt x = x := by
  unfold wrapInt
  rw [Int.emod_eq_of_lt (by omega) (by omega)]
  omega

/-- The conversion of an `int` that is not negative. -/
theorem Float32.ofInt_nonneg (x : Int) (h0 : 0 ≤ x) (h1 : x < 2 ^ 31) :
    Float32.ofInt x = Float32.finite (Float32.nearest (x : ℚ)) := by
  obtain ⟨n, rfl⟩ := Int.eq_ofNat_of_zero_le h0
  have := (Float32.ofInt_natCast n (by omega)).1
  simpa using this

/-- An `int` of at most `2 ^ 24` converts to itself. -/
theorem Float32.nearest_intCast (x : Int) (h0 : 0 ≤ x) (h1 : x ≤ 2 ^ 24) :
    Float32.nearest (x : ℚ) = (x : ℚ) := by
  obtain ⟨n, rfl⟩ := Int.eq_ofNat_of_zero_le h0
  have := Float32.nearest_natCast n (by omega)
  simpa using this

/-- The integer operations of `grid` and `gridRaw`. -/
theorem grid_ints (i nx ny nz : Int) (hny : 0 < ny) (hnz : 0 < nz) (hi : 0 ≤ i)
    (hsx : ny * nz < 2 ^ 31) :
    gridRaw i nx ny nz = some (Float32.ofInt (i / (ny * nz)),
      Float32.ofInt ((i % (ny * nz)) / nz), Float32.ofInt (i % nz)) ∧
    grid i nx ny nz = some
      (Float32.div (Float32.add (Float32.ofInt (i / (ny * nz))) (Float32.finite (1 / 2)))
        (Float32.ofInt nx),
      Float32.div (Float32.add (Float32.ofInt ((i % (ny * nz)) / nz)) (Float32.finite (1 / 2)))
        (Float32.ofInt ny),
      Float32.div (Float32.add (Float32.ofInt (i % nz)) (Float32.finite (1 / 2)))
        (Float32.ofInt nz)) := by
  have hs : 0 < ny * nz := Int.mul_pos hny hnz
  have hw : wrapInt (ny * nz) = ny * nz := wrapInt_of_range _ (le_of_lt hs) hsx
  have hr0 : 0 ≤ i % (ny * nz) := Int.emod_nonneg _ (ne_of_gt hs)
  have d1 : intDiv i (ny * nz) = some (i / (ny * nz)) := by
    unfold intDiv
    rw [if_neg (by omega), Int.tdiv_eq_ediv hi (le_of_lt hs)]
  have m1 : intMod i (ny * nz) = some (i % (ny * nz)) := by
    unfold intMod
    rw [if_neg (by omega), Int.tmod_eq_emod hi (le_of_lt hs)]
  have d2 : intDiv (i % (ny * nz)) nz = some ((i % (ny * nz)) / nz) := by
    unfold intDiv
    rw [if_neg (by omega), Int.tdiv_eq_ediv hr0 (le_of_lt hnz)]
  have m2 : intMod (i % (ny * nz)) nz = some ((i % (ny * nz)) % nz) := by
    unfold intMod
    rw [if_neg (by omega), Int.tmod_eq_emod hr0 (le_of_lt hnz)]
  have hz : (i % (ny * nz)) % nz = i % nz := by
    rw [mul_comm ny nz]
    exact Int.emod_emod_of_dvd i (Dvd.intro ny rfl)
  constructor
  · simp only [gridRaw, hw, d1, m1, d2, m2, hz, Option.some_bind]
  · simp only [grid, hw, d1, m1, d2, m2, hz, Option.some_bind]

/-- One coordinate of `grid`: for `0 ≤ x < 2 ^ 23` and `0 < n ≤ 2 ^ 24` the
conversions and the sum are exact, and the quotient is rounded once. -/
theorem grid_cell (x n : Int) (hx0 : 0 ≤ x) (hx : x < 2 ^ 23) (hn0 : 0 < n) (hn : n ≤ 2 ^ 24) :
    Float32.div (Float32.add (Float32.ofInt x) (Float32.finite (1 / 2))) (Float32.ofInt n) =
      Float32.finite (Float32.nearest (((x : ℚ) + 1 / 2) / (n : ℚ))) := by
  have hxq : (0 : ℚ) ≤ (x : ℚ) := by exact_mod_cast hx0
  have hnq : (0 : ℚ) < (n : ℚ) := by exact_mod_cast hn0
  have hn1 : (1 : ℚ) ≤ (n : ℚ) := by exact_mod_cast hn0
  rw [Float32.ofInt_nonneg x hx0 (by omega), Float32.ofInt_nonneg n (le_of_lt hn0) (by omega),
    Float32.nearest_intCast x hx0 (by omega), Float32.nearest_intCast n (le_of_lt hn0) hn]
  have hhalf : Float32.nearest ((x : ℚ) + 1 / 2) = (x : ℚ) + 1 / 2 := by
    obtain ⟨m, rfl⟩ := Int.eq_ofNat_of_zero_le hx0
    have := Float32.nearest_exact (2 * m + 1) (-1) (by omega) (by norm_num)
    have e : (((2 * m + 1 : Nat) : ℚ)) * 2 ^ (-1 : Int) = ((m : Int) : ℚ) + 1 / 2 := by
      push_cast
      rw [zpow_neg_one]
      ring
    rwa [e] at this
  have hsum : Float32.add (Float32.finite (x : ℚ)) (Float32.finite (1 / 2)) =
      Float32.finite ((x : ℚ) + 1 / 2) := by
    simp only [Float32.add]
    rw [Float32.round_of_nonneg (by positivity) (by
      rw [hhalf]
      have : (x : ℚ) < 2 ^ 23 := by exact_mod_cast hx
      linarith [this, (by norm_num : (2 : ℚ) ^ 23 + 1 / 2 < 2 ^ 128)]), hhalf]
  rw [hsum]
  simp only [Float32.div]
  rw [if_neg (ne_of_gt hnq)]
  have hq0 : (0 : ℚ) ≤ ((x : ℚ) + 1 / 2) / (n : ℚ) := by positivity
  have hq1 : ((x : ℚ) + 1 / 2) / (n : ℚ) ≤ 2 ^ 23 := by
    rw [div_le_iff₀ hnq]
    have h1 : (x : ℚ) + 1 ≤ 2 ^ 23 := by exact_mod_cast (by omega : x + 1 ≤ 2 ^ 23)
    nlinarith
  have hb : Float32.nearest (((x : ℚ) + 1 / 2) / (n : ℚ)) ≤ 2 ^ 23 := by
    have := Float32.nearest_mono hq0 hq1
    have e := Float32.nearest_natCast (2 ^ 23) (by norm_num)
    norm_num at e this ⊢
    rwa [e] at this
  exact Float32.round_of_nonneg hq0 (lt_of_le_of_lt hb (by norm_num))

/-- The conversion of `16777217 = 2 ^ 24 + 1`, which lies halfway between two
`float`, is `2 ^ 24`. -/
theorem Float32.nearest_16777217 : Float32.nearest (16777217 : ℚ) = 16777216 := by
  rw [Float32.nearest_of_binade 16777217 24 (by norm_num) (by norm_num) (by norm_num),
    show (16777217 : ℚ) / 2 ^ ((24 : Int) - 23) = ((8388608 : Int) : ℚ) + 1 / 2 by norm_num,
    roundHalfEven_tie]
  norm_num

/-- The `float` nearest to `1 / 6`. -/
theorem Float32.nearest_sixth : Float32.nearest ((1 : ℚ) / 6) = 11184811 / 67108864 := by
  rw [Float32.nearest_of_binade (1 / 6) (-3) (by norm_num) (by norm_num) (by norm_num),
    roundHalfEven_near _ 11184811 (by norm_num) (by norm_num)]
  norm_num

/-- The `float` nearest to `5 / 6`. -/
theorem Float32.nearest_five_sixth : Float32.nearest ((5 : ℚ) / 6) = 13981013 / 16777216 := by
  rw [Float32.nearest_of_binade (5 / 6) (-1) (by norm_num) (by norm_num) (by norm_num),
    roundHalfEven_near _ 13981013 (by norm_num) (by norm_num)]
  norm_num

/-- C30 (counterexample). `gridRaw (16777217, 1, 1, 1)` returns `x = 16777216`,
since `16777217` is no `float`: then `x * ny * nz + y * nz + z` is not `i`.
`grid (7, 3, 3, 3)` returns the `float` nearest to `1 / 6`, to `5 / 6` and to
`1 / 2`, of which the first two are not these rational numbers, and
`grid (0, 0, 1, 1)` divides by zero and returns an infinity as `x`.  With
`ny = nz = 65536` the stride `ny * nz` is no `int`, and the division by the
stride has no defined result. -/
theorem C30_coordinates_are_rounded :
    gridRaw 16777217 1 1 1 = some (Float32.finite 16777216, Float32.finite 0, Float32.finite 0) ∧
    (16777216 : ℚ) * 1 * 1 + 0 * 1 + 0 ≠ 16777217 ∧
    grid 7 3 3 3 = some (Float32.finite (11184811 / 67108864),
      Float32.finite (13981013 / 16777216), Float32.finite (1 / 2)) ∧
    (11184811 / 67108864 : ℚ) ≠ 1 / 6 ∧ (13981013 / 16777216 : ℚ) ≠ 5 / 6 ∧
    grid 0 0 1 1 = some (Float32.inf false, Float32.finite (1 / 2), Float32.finite (1 / 2)) ∧
    gridRaw 5 1 65536 65536 = none := by
  have h0 : Float32.ofInt 0 = Float32.finite 0 := by
    rw [Float32.ofInt_nonneg 0 (by norm_num) (by norm_num)]
    simp [Float32.nearest_zero]
  refine ⟨?_, by norm_num, ?_, by norm_num, by norm_num, ?_, ?_⟩
  · rw [(grid_ints 16777217 1 1 1 (by norm_num) (by norm_num) (by norm_num) (by norm_num)).1]
    norm_num
    rw [h0, Float32.ofInt_nonneg 16777217 (by norm_num) (by norm_num)]
    have := Float32.nearest_16777217
    norm_num at this ⊢
    exact this
  · rw [(grid_ints 7 3 3 3 (by norm_num) (by norm_num) (by norm_num) (by norm_num)).2]
    norm_num
    rw [grid_cell 0 3 (by norm_num) (by norm_num) (by norm_num) (by norm_num),
      grid_cell 2 3 (by norm_num) (by norm_num) (by norm_num) (by norm_num),
      grid_cell 1 3 (by norm_num) (by norm_num) (by norm_num) (by norm_num)]
    have e1 := Float32.nearest_sixth
    have e2 := Float32.nearest_five_sixth
    have e3 := Float32.nearest_exact 1 (-1) (by norm_num) (by norm_num)
    norm_num at e1 e2 e3 ⊢
    exact ⟨e1, e2, e3⟩
  · rw [(grid_ints 0 0 1 1 (by norm_num) (by norm_num) (by norm_num) (by norm_num)).2]
    norm_num
    rw [grid_cell 0 1 (by norm_num) (by norm_num) (by norm_num) (by norm_num), h0]
    have e3 := Float32.nearest_exact 1 (-1) (by norm_num) (by norm_num)
    have hadd : Float32.add (Float32.finite 0) (Float32.finite (1 / 2)) =
        Float32.finite (1 / 2) := by
      simp only [Float32.add]
      rw [zero_add, Float32.round_of_nonneg (by norm_num) (by
        norm_num at e3 ⊢
        rw [e3]
        norm_num)]
      norm_num at e3 ⊢
      exact e3
    norm_num at e3 hadd ⊢
    rw [hadd]
    refine ⟨?_, e3⟩
    simp [Float32.div]
  · simp [gridRaw, wrapInt, intDiv]

/-- C30 (amended). For `0 < ny`, `0 < nz`, an `int` `i ≥ 0` and a stride
`ny * nz` that is an `int` (less than `2 ^ 31`), the integers
`x = i div (ny * nz)`, `y = (i mod (ny * nz)) div nz`, `z = i mod nz` satisfy
`x * ny * nz + y * nz + z = i`, `0 ≤ y < ny`, `0 ≤ z < nz`, and `x < nx` whenever
`i < nx * ny * nz`.  `gridRaw (i, nx, ny, nz)` returns the `float` nearest to
`x`, `y` and `z`, which are `x`, `y` and `z` themselves when `i ≤ 2 ^ 24`.  For
`i < 2 ^ 23` and `0 < nx`, `nx, ny, nz ≤ 2 ^ 24`, `grid (i, nx, ny, nz)` returns
the `float` nearest to `(x + 1/2) / nx`, `(y + 1/2) / ny` and `(z + 1/2) / nz`. -/
theorem C30_grid_coordinates (i nx ny nz : Int) (hny : 0 < ny) (hnz : 0 < nz) (hi : 0 ≤ i)
    (hi31 : i < 2 ^ 31) (hsx : ny * nz < 2 ^ 31) :
    ∃ x y z : Int,
      x = i / (ny * nz) ∧ y = (i % (ny * nz)) / nz ∧ z = i % nz ∧
      x * ny * nz + y * nz + z = i ∧ 0 ≤ x ∧ 0 ≤ y ∧ y < ny ∧ 0 ≤ z ∧ z < nz ∧
      (i < nx * ny * nz → x < nx) ∧
      gridRaw i nx ny nz = some (Float32.finite (Float32.nearest (x : ℚ)),
        Float32.finite (Float32.nearest (y : ℚ)), Float32.finite (Float32.nearest (z : ℚ))) ∧
      (i ≤ 2 ^ 24 → gridRaw i nx ny nz = some (Float32.finite (x : ℚ),
        Float32.finite (y : ℚ), Float32.finite (z : ℚ))) ∧
      (i < 2 ^ 23 → 0 < nx → nx ≤ 2 ^ 24 → ny ≤ 2 ^ 24 → nz ≤ 2 ^ 24 →
        grid i nx ny nz = some
          (Float32.finite (Float32.nearest (((x : ℚ) + 1 / 2) / (nx : ℚ))),
          Float32.finite (Float32.nearest (((y : ℚ) + 1 / 2) / (ny : ℚ))),
          Float32.finite (Float32.nearest (((z : ℚ) + 1 / 2) / (nz : ℚ))))) := by
  have hs : 0 < ny * nz := Int.mul_pos hny hnz
  have hr0 : 0 ≤ i % (ny * nz) := Int.emod_nonneg _ (ne_of_gt hs)
  have hr1 : i % (ny * nz) < ny * nz := Int.emod_lt_of_pos _ hs
  have hz : (i % (ny * nz)) % nz = i % nz := by
    rw [mul_comm ny nz]
    exact Int.emod_emod_of_dvd i (Dvd.intro ny rfl)
  have hx0 : 0 ≤ i / (ny * nz) := Int.ediv_nonneg hi (le_of_lt hs)
  have hy0 : 0 ≤ (i % (ny * nz)) / nz := Int.ediv_nonneg hr0 (le_of_lt hnz)
  have hy1 : (i % (ny * nz)) / nz < ny := by
    apply Int.ediv_lt_of_lt_mul hnz
    exact hr1
  have hz0 : 0 ≤ i % nz := Int.emod_nonneg _ (ne_of_gt hnz)
  have hsum : i / (ny * nz) * ny * nz + (i % (ny * nz)) / nz * nz + i % nz = i := by
    have e1 := Int.ediv_add_emod i (ny * nz)
    have e2 := Int.ediv_add_emod (i % (ny * nz)) nz
    rw [hz] at e2
    have e3 : i / (ny * nz) * ny * nz = ny * nz * (i / (ny * nz)) := by ring
    have e4 : (i % (ny * nz)) / nz * nz = nz * ((i % (ny * nz)) / nz) := by ring
    rw [e3, e4]
    omega
  have hxi : i / (ny * nz) ≤ i := Int.ediv_le_self _ hi
  have hri : i % (ny * nz) ≤ i := by
    have e1 := Int.ediv_add_emod i (ny * nz)
    have e2 := mul_nonneg (le_of_lt hs) hx0
    omega
  have hyi : (i % (ny * nz)) / nz ≤ i := le_trans (Int.ediv_le_self _ hr0) hri
  have hzi : i % nz ≤ i := by
    have e1 := Int.ediv_add_emod i nz
    have e2 := mul_nonneg (le_of_lt hnz) (Int.ediv_nonneg hi (le_of_lt hnz))
    omega
  obtain ⟨g1, g2⟩ := grid_ints i nx ny nz hny hnz hi hsx
  refine ⟨i / (ny * nz), (i % (ny * nz)) / nz, i % nz, rfl, rfl, rfl, hsum, hx0, hy0, hy1,
    hz0, Int.emod_lt_of_pos _ hnz, ?_, ?_, ?_, ?_⟩
  · intro hlt
    have : i < nx * (ny * nz) := by rw [← mul_assoc]; exact hlt
    exact Int.ediv_lt_of_lt_mul hs this
  · rw [g1, Float32.ofInt_nonneg _ hx0 (by omega), Float32.ofInt_nonneg _ hy0 (by omega),
      Float32.ofInt_nonneg _ hz0 (by omega)]
  · intro h24
    rw [g1, Float32.ofInt_nonneg _ hx0 (by omega), Float32.ofInt_nonneg _ hy0 (by omega),
      Float32.ofInt_nonneg _ hz0 (by omega), Float32.nearest_intCast _ hx0 (by omega),
      Float32.nearest_intCast _ hy0 (by omega), Float32.nearest_intCast _ hz0 (by omega)]
  · intro h23 hnx0 hnx hny24 hnz24
    rw [g2, grid_cell _ nx hx0 (by omega) hnx0 hnx, grid_cell _ ny hy0 (by omega) hny hny24,
      grid_cell _ nz hz0 (by omega) hnz hnz24]

theorem C30_witness :
    ∃ x y z : Int,
      x = 17 / (3 * 4) ∧ y = (17 % (3 * 4)) / 4 ∧ z = 17 % 4 ∧
      x * 3 * 4 + y * 4 + z = 17 ∧ 0 ≤ x ∧ 0 ≤ y ∧ y < 3 ∧ 0 ≤ z ∧ z < 4 ∧
      ((17 : Int) < 2 * 3 * 4 → x < 2) ∧
      gridRaw 17 2 3 4 = some (Float32.finite (Float32.nearest (x : ℚ)),
        Float32.finite (Float32.nearest (y : ℚ)), Float32.finite (Float32.nearest (z : ℚ))) ∧
      ((17 : Int) ≤ 2 ^ 24 → gridRaw 17 2 3 4 = some (Float32.finite (x : ℚ),
        Float32.finite (y : ℚ), Float32.finite (z : ℚ))) ∧
      ((17 : Int) < 2 ^ 23 → (0 : Int) < 2 → (2 : Int) ≤ 2 ^ 24 → (3 : Int) ≤ 2 ^ 24 →
        (4 : Int) ≤ 2 ^ 24 →
        grid 17 2 3 4 = some
          (Float32.finite (Float32.nearest (((x : ℚ) + 1 / 2) / ((2 : Int) : ℚ))),
          Float32.finite (Float32.nearest (((y : ℚ) + 1 / 2) / ((3 : Int) : ℚ))),
          Float32.finite (Float32.nearest (((z : ℚ) + 1 / 2) / ((4 : Int) : ℚ))))) :=
  C30_grid_coordinates 17 2 3 4 (by decide) (by decide) (by decide) (by decide) (by decide)

/-! ### `EventSpikeMulti::setLatch`: bounds and contents -/

/-- C36 (the code at the failing input). On the empty vector the loop of
`EventSpikeMulti::setLatch` is not entered and leaves `last = -1`; on the vector
`[0]` the loop decrements `last` to `-1`.  In both cases the test
`(*targets)[last]` after the loop reads the element `-1`, which is outside the
vector, so `setLatch` has no defined result. -/
theorem C36_reads_before_the_vector (H : SpikeHooks T U) (latch : Int) (fuel : Nat)
    (w : World T U) :
    EventSpikeMulti.setLatchLoop H latch (fuel + 1) 0 ((([] : List (Option Addr)).length : Int) - 1)
      [] w = some (-1, [], w) ∧
    EventSpikeMulti.setLatchLoop H latch (fuel + 2) 0 ((([none] : List (Option Addr)).length : Int) - 1)
      [none] w = some (-1, [none], w) ∧
    vectorAt ([] : List (Option Addr)) (-1) = none ∧
    vectorAt ([none] : List (Option Addr)) (-1) = none ∧
    EventSpikeMulti.setLatch H latch (fuel + 1) [] w = none ∧
    EventSpikeMulti.setLatch H latch (fuel + 2) [none] w = none := by
  simp [EventSpikeMulti.setLatch, EventSpikeMulti.setLatchLoop, vectorAt]

theorem vectorAt_nat {α : Type} (v : List α) (k : Nat) : vectorAt v (k : Int) = v[k]? := by
  simp [vectorAt]

/-- Moving the last element of the live part of the vector into the slot of a
null pointer keeps the number of times each part occurs in the live part. -/
theorem count_take_set_none (l : List (Option Addr)) (k m : Nat) (x : Option Addr)
    (hk : k < m + 1) (hm : m + 1 ≤ l.length) (hnone : l[k]? = some none)
    (hx : l[m]? = some x) (p : Addr) :
    ((l.set k x).take m).count (some p) = (l.take (m + 1)).count (some p) := by
  rw [List.take_succ, hx, List.count_append, List.set_take]
  by_cases hkm : k < m
  · have hlen : k < (l.take m).length := by simp; omega
    rw [List.count_set _ _ _ _ hlen]
    have hget : (l.take m)[k] = none := by
      have h1 : (l.take m)[k]? = some none := by
        rw [List.getElem?_take_of_lt hkm]; exact hnone
      rw [List.getElem?_eq_getElem hlen] at h1
      exact Option.some.inj h1
    rw [hget]
    cases x with
    | none => simp
    | some q =>
      by_cases hq : q = p
      · simp [hq]
      · have hne : (some q : Option Addr) ≠ some p := fun e => hq (Option.some.inj e)
        simp [hq, List.count_cons, hne]
  · have hkm2 : k = m := by omega
    subst hkm2
    rw [List.set_eq_of_length_le (by simp)]
    rw [hnone] at hx
    have : x = none := (Option.some.inj hx).symm
    subst this
    simp

/-- The loop of `EventSpikeMulti::setLatch` from slot `k` with a live part of
`m` slots: it ends within `m - k + 1` iterations, and the parts of the live part
it leaves are those of the live part at its start, each as often. -/
theorem EventSpikeMulti.setLatchLoop_spec (H : SpikeHooks T U) (latch : Int)
    (orig : List (Option Addr)) :
    ∀ (fuel k m : Nat) (i last : Int) (targets : List (Option Addr)) (w : World T U),
      i = (k : Int) → last = (m : Int) - 1 → m ≤ targets.length → m - k < fuel →
      (∀ p, (targets.take m).count (some p) = orig.count (some p)) →
      ∃ (m1 : Nat) (targets1 : List (Option Addr)) (w1 : World T U),
        EventSpikeMulti.setLatchLoop H latch fuel i last targets w =
          some ((m1 : Int) - 1, targets1, w1) ∧
        m1 ≤ m ∧ targets1.length = targets.length ∧
        (∀ p, (targets1.take m1).count (some p) = orig.count (some p)) := by
  intro fuel
  induction fuel with
  | zero => intro k m i last targets w _ _ _ hf; omega
  | succ n ih =>
    intro k m i last targets w hi hlast hm hf hc
    subst hi hlast
    by_cases hkm : k < m
    · obtain ⟨m0, rfl⟩ : ∃ m0, m = m0 + 1 := ⟨m - 1, by omega⟩
      have hle : (k : Int) ≤ ((m0 + 1 : Nat) : Int) - 1 := by push_cast; omega
      have hklen : k < targets.length := by omega
      have e1 : ((m0 + 1 : Nat) : Int) - 1 = (m0 : Int) := by push_cast; ring
      cases hv : targets[k] with
      | some target =>
        have hat : vectorAt targets (k : Int) = some (some target) := by
          rw [vectorAt_nat, List.getElem?_eq_getElem hklen, hv]
        obtain ⟨m1, t1, w1, h1, h2, h3, h4⟩ := ih (k + 1) (m0 + 1) ((k : Int) + 1)
          (((m0 + 1 : Nat) : Int) - 1) targets
          (H.setLatch target latch (w.record (Call.setLatch target latch)))
          (by push_cast; ring) rfl hm (by omega) hc
        refine ⟨m1, t1, w1, ?_, h2, h3, h4⟩
        simp only [EventSpikeMulti.setLatchLoop, hle, if_true, hat]
        exact h1
      | none =>
        have hat : vectorAt targets (k : Int) = some none := by
          rw [vectorAt_nat, List.getElem?_eq_getElem hklen, hv]
        have hm0 : m0 < targets.length := by omega
        have hlastAt : vectorAt targets (((m0 + 1 : Nat) : Int) - 1) = some targets[m0] := by
          rw [e1, vectorAt_nat, List.getElem?_eq_getElem hm0]
        obtain ⟨m1, t1, w1, h1, h2, h3, h4⟩ := ih (k + 1) m0 ((k : Int) + 1)
          (((m0 + 1 : Nat) : Int) - 1 - 1) (targets.set k targets[m0]) w
          (by push_cast; ring) (by push_cast; ring) (by simp; omega) (by omega)
          (fun p => by
            rw [count_take_set_none targets k m0 targets[m0] hkm hm
              (by rw [List.getElem?_eq_getElem hklen, hv]) (List.getElem?_eq_getElem hm0) p]
            exact hc p)
        refine ⟨m1, t1, w1, ?_, by omega, by rw [h3]; simp, h4⟩
        simp only [EventSpikeMulti.setLatchLoop, hle, if_true, hat, hlastAt, Int.toNat_ofNat]
        exact h1
    · have hle : ¬ (k : Int) ≤ (m : Int) - 1 := by omega
      refine ⟨m, targets, w, ?_, le_refl m, rfl, hc⟩
      simp only [EventSpikeMulti.setLatchLoop, hle, if_false]

/-- C37. For every vector of targets that holds at least one part, and fuel
above its length, `EventSpikeMulti::setLatch` returns, and every part occurs in
the vector it leaves exactly as often as in the vector at its start: no part is
lost, none is duplicated, and none appears that was not there. -/
theorem C37_setLatch_keeps_the_parts (H : SpikeHooks T U) (latch : Int) (fuel : Nat)
    (targets : List (Option Addr)) (w : World T U) (p0 : Addr) (hp0 : some p0 ∈ targets)
    (hfuel : targets.length < fuel) :
    ∃ r w1, EventSpikeMulti.setLatch H latch fuel targets w = some (r, w1) ∧
      ∀ p, r.count (some p) = targets.count (some p) := by
  obtain ⟨m1, t1, w1, h1, h2, h3, h4⟩ := EventSpikeMulti.setLatchLoop_spec H latch targets fuel 0
    targets.length 0 ((targets.length : Int) - 1) targets w rfl rfl (le_refl _) (by omega)
    (fun p => by rw [List.take_length])
  have hpos : 0 < m1 := by
    rcases Nat.eq_zero_or_pos m1 with h0 | h0
    · have := h4 p0
      rw [h0, List.take_zero, List.count_nil] at this
      have hc : 0 < targets.count (some p0) := List.count_pos_iff.2 hp0
      omega
    · exact h0
  obtain ⟨m0, rfl⟩ : ∃ m0, m1 = m0 + 1 := ⟨m1 - 1, by omega⟩
  have e1 : ((m0 + 1 : Nat) : Int) - 1 = (m0 : Int) := by push_cast; ring
  have hm0 : m0 < t1.length := by omega
  have hat : vectorAt t1 (((m0 + 1 : Nat) : Int) - 1) = some t1[m0] := by
    rw [e1, vectorAt_nat, List.getElem?_eq_getElem hm0]
  cases hy : t1[m0] with
  | some y =>
    refine ⟨vectorResize t1 (((m0 + 1 : Nat) : Int) - 1 + 1), w1, ?_, fun p => ?_⟩
    · simp only [EventSpikeMulti.setLatch, h1, hat, hy]
    · have e2 : (((m0 + 1 : Nat) : Int) - 1 + 1).toNat = m0 + 1 := by
        rw [e1]; omega
      have e3 : m0 + 1 - t1.length = 0 := by omega
      rw [vectorResize, e2, e3]
      simp only [List.replicate_zero, List.append_nil]
      exact h4 p
  | none =>
    refine ⟨vectorResize t1 (((m0 + 1 : Nat) : Int) - 1), w1, ?_, fun p => ?_⟩
    · simp only [EventSpikeMulti.setLatch, h1, hat, hy]
    · have e2 : (((m0 + 1 : Nat) : Int) - 1).toNat = m0 := by
        rw [e1]; omega
      have e3 : m0 - t1.length = 0 := by omega
      rw [vectorResize, e2, e3]
      simp only [List.replicate_zero, List.append_nil]
      rw [← h4 p, List.take_succ, List.getElem?_eq_getElem hm0, hy]
      simp

theorem C37_witness :
    ∃ r w1, EventSpikeMulti.setLatch (SpikeHooks.base : SpikeHooks Nat Unit) 7 5
        [none, some (Addr.part 1), none, some (Addr.part 2)] exampleQueue = some (r, w1) ∧
      ∀ p, r.count (some p) =
        [none, some (Addr.part 1), none, some (Addr.part 2)].count (some p) :=
  C37_setLatch_keeps_the_parts SpikeHooks.base 7 5
    [none, some (Addr.part 1), none, some (Addr.part 2)] exampleQueue (Addr.part 1)
    (by decide) (by decide)

/-! ### holderHelper -/

/-- C40 (the code at the failing input). With the holders `[1, 2]`, holder `1`
writing file `a` and holder `2` file `b`, the call
`holderHelper (holders, "b", oldHandle = 1)` erases holder `1` from the vector,
but `delete *it` then destroys holder `2`, on which the iterator stands after
`erase`; holder `2` stays in the vector and is the holder returned. -/
theorem C40_destroys_the_next_holder :
    holderHelper exampleFileName [1, 2] "b" (some 1) = (some 2, [2], [2]) := by
  decide

/-! ### The event made by the constructor of `Simulator` -/

/-- C38 (the code at the failing input). The constructor of `Simulator` makes
the event `0` with period `1e-4`, stores it in `periods` and as `currentEvent`,
and does not push it on `queueEvent`.  For every type of times: a part enqueued
with `dt = 1e-4` goes to the queue of event `0`, `queueEvent` stays empty, and
`Simulator::run` returns at once, whatever the events do and whatever the fuel,
so the part is never visited.  And in the example, after a second part is
enqueued with `dt = 5`, one iteration of `Simulator::run` makes the new event `1`
the current event: event `0` is in `periods` but neither on `queueEvent` nor
`currentEvent`, and only part `2` has been visited. -/
theorem C38_first_event_is_never_queued [TimeLike T] (u : U) (part : Addr)
    (run : Nat → World T U → Option (World T U)) (fuel : Nat) :
    (Simulator.new u : World T U).periods = [0] ∧
    (Simulator.new u : World T U).currentEvent = some 0 ∧
    (Simulator.new u : World T U).queueEvent = [] ∧
    Simulator.enqueue part (TimeLike.lit 1 / TimeLike.lit 10000) (Simulator.new u : World T U) =
      some (EventStep.enqueue 0 part (Simulator.new u)) ∧
    (EventStep.enqueue 0 part (Simulator.new u : World T U)).queueEvent = [] ∧
    (EventStep.enqueue 0 part (Simulator.new u : World T U)).next (Addr.queue 0) = some part ∧
    Simulator.run run fuel (EventStep.enqueue 0 part (Simulator.new u : World T U)) =
      some (EventStep.enqueue 0 part (Simulator.new u), true) ∧
    exampleSecond.map (fun w => (w.periods, w.queueEvent, w.currentEvent,
      w.next (Addr.queue 0), w.next (Addr.queue 1))) =
      some ([0, 1], [1], some 0, some (Addr.part 1), some (Addr.part 2)) ∧
    (exampleSecond.bind (Simulator.run exampleStepRun 1)).map (fun r => (r.1.periods,
      r.1.queueEvent, r.1.currentEvent, r.1.next (Addr.queue 0), r.1.ran.map Prod.fst,
      r.1.visited)) =
      some ([0, 1], [1], some 1, some (Addr.part 1), [1],
        [Addr.part 2, Addr.part 2, Addr.part 2]) := by
  have hq : (EventStep.enqueue 0 part (Simulator.new u : World T U)).queueEvent = [] := by
    rw [EventStep.enqueue, VisitorStep.enqueue_frame]
    rfl
  refine ⟨rfl, rfl, rfl, ?_, hq, ?_, ?_, rfl, rfl⟩
  · simp [Simulator.enqueue, Simulator.new, EventStep.new, World.blank, Simulator.findPeriod, upd]
  · rw [EventStep.enqueue, VisitorStep.enqueue_next]
    simp [upd]
  · cases fuel with
    | zero => simp [Simulator.run, hq]
    | succ n => simp [Simulator.run, hq]

/-! ### replace_all -/

theorem toSize_nat (k : Nat) (hk : k < 2 ^ 31) : toSize (k : Int) = k := by
  unfold toSize
  rw [Int.emod_eq_of_lt (by omega) (by omega)]
  simp

theorem wrapInt_nat (k : Nat) (hk : k < 2 ^ 31) : wrapInt (k : Int) = (k : Int) :=
  wrapInt_of_range _ (by omega) (by omega)

theorem isPrefixOf_length {a l : List Char} (h : a.isPrefixOf l = true) :
    a.length ≤ l.length :=
  (List.isPrefixOf_iff_prefix.1 h).length_le

theorem replaceList_skip (a b : List Char) : ∀ (k : Nat) (s : List Char),
    replaceList a b k s = replaceList a b 0 (s.drop k)
  | 0, s => by simp
  | k + 1, [] => by simp [replaceList]
  | k + 1, _ :: s => by
    simp only [replaceList, List.drop_succ_cons]
    exact replaceList_skip a b k s

theorem occurrences_skip (a : List Char) : ∀ (k : Nat) (s : List Char),
    occurrences a k s = occurrences a 0 (s.drop k)
  | 0, s => by simp
  | k + 1, [] => by simp [occurrences]
  | k + 1, _ :: s => by
    simp only [occurrences, List.drop_succ_cons]
    exact occurrences_skip a k s

/-- When `find` finds nothing, nothing is replaced. -/
theorem findIn_none (a b : List Char) (ha : a ≠ []) : ∀ (s : List Char) (p : Nat),
    findIn a s p = none → replaceList a b 0 s = s ∧ occurrences a 0 s = 0
  | [], _, _ => ⟨rfl, rfl⟩
  | c :: s, p, h => by
    simp only [findIn] at h
    split_ifs at h with hpre
    obtain ⟨h1, h2⟩ := findIn_none a b ha s (p + 1) h
    simp [replaceList, occurrences, hpre, h1, h2]

/-- When `find` finds `a` at distance `j`, the text up to there is kept, `b`
follows, and the replacement goes on behind the occurrence. -/
theorem findIn_some (a b : List Char) (ha : a ≠ []) : ∀ (s : List Char) (p q : Nat),
    findIn a s p = some q → ∃ j, q = p + j ∧ j + a.length ≤ s.length ∧
      replaceList a b 0 s = s.take j ++ b ++ replaceList a b 0 (s.drop (j + a.length)) ∧
      occurrences a 0 s = 1 + occurrences a 0 (s.drop (j + a.length))
  | [], p, q, h => by
    simp [findIn, ha] at h
  | c :: s, p, q, h => by
    simp only [findIn] at h
    split_ifs at h with hpre
    · have hq : q = p := (Option.some.inj h).symm
      have hlen := isPrefixOf_length hpre
      have hpos : 0 < a.length := List.length_pos.2 ha
      refine ⟨0, by omega, by simpa using hlen, ?_, ?_⟩
      · simp only [replaceList, hpre, if_true, List.take_zero, List.nil_append, Nat.zero_add]
        rw [replaceList_skip a b (a.length - 1) s]
        obtain ⟨n, hn⟩ : ∃ n, a.length = n + 1 := ⟨a.length - 1, by omega⟩
        rw [hn]
        simp
      · simp only [occurrences, hpre, if_true, Nat.zero_add]
        rw [occurrences_skip a (a.length - 1) s]
        obtain ⟨n, hn⟩ : ∃ n, a.length = n + 1 := ⟨a.length - 1, by omega⟩
        rw [hn]
        simp
    · obtain ⟨j, h1, h2, h3, h4⟩ := findIn_some a b ha s (p + 1) q h
      refine ⟨j + 1, by omega, by simp; omega, ?_, ?_⟩
      · simp only [replaceList, hpre, Bool.false_eq_true, if_false]
        rw [h3]
        have : j + 1 + a.length = (j + a.length) + 1 := by omega
        rw [this]
        simp
      · simp only [occurrences, hpre, Bool.false_eq_true, if_false]
        rw [h4]
        have : j + 1 + a.length = (j + a.length) + 1 := by omega
        rw [this]
        simp

/-- The loop of `replace_all` from position `k`, for a text and a pattern whose
lengths are values of `int`: it ends within the fuel and appends the replaced
rest of the text. -/
theorem replace_allLoop_spec (target a b : List Char) (ha : a ≠ [])
    (ht : target.length < 2 ^ 31) (hal : a.length < 2 ^ 31) :
    ∀ (fuel k : Nat) (result : List Char), k ≤ target.length → target.length - k < fuel →
      replace_allLoop target a b (target.length : Int) (a.length : Int) fuel (k : Int) result =
        some (result ++ replaceList a b 0 (target.drop k)) := by
  intro fuel
  induction fuel with
  | zero => intro k result _ hf; omega
  | succ n ih =>
    intro k result hk hf
    by_cases hlt : k < target.length
    · have hlt2 : (k : Int) < (target.length : Int) := by omega
      have hks : toSize (k : Int) = k := toSize_nat k (by omega)
      simp only [replace_allLoop, hlt2, if_true, hks, stringFind, hk]
      cases hfind : findIn a (target.drop k) k with
      | none =>
        obtain ⟨h1, _⟩ := findIn_none a b ha _ _ hfind
        have e1 : wrapInt ((target.length : Int) - (k : Int)) = ((target.length - k : Nat) : Int) := by
          rw [Nat.cast_sub hk]
          exact wrapInt_of_range _ (by omega) (by omega)
        simp only [intOfFind, if_true, e1, toSize_nat _ (show target.length - k < 2 ^ 31 by omega),
          substr, hk, Option.map_some', h1]
        rw [List.take_of_length_le (by simp)]
      | some q =>
        obtain ⟨j, hq, hj, h1, _⟩ := findIn_some a b ha _ _ _ hfind
        simp only [List.length_drop] at hj
        have hq31 : q < 2 ^ 31 := by omega
        have hpos : 0 < a.length := List.length_pos.2 ha
        have hb1 : q + a.length ≤ target.length := by omega
        have hb2 : target.length - (q + a.length) < n := by omega
        have hj31 : j < 2 ^ 31 := by omega
        have hqa31 : q + a.length < 2 ^ 31 := by omega
        have hne2 : ¬ ((q : Int) = -1) := by omega
        have hne : wrapInt (q : Int) ≠ -1 := by rw [wrapInt_nat q hq31]; omega
        have e1 : wrapInt ((q : Int) - (k : Int)) = (j : Int) := by
          rw [hq]; push_cast
          rw [show (k : Int) + (j : Int) - (k : Int) = (j : Int) by ring]
          exact wrapInt_nat j hj31
        have e2 : wrapInt ((q : Int) + (a.length : Int)) = ((q + a.length : Nat) : Int) := by
          rw [← Nat.cast_add]
          exact wrapInt_nat _ hqa31
        simp only [intOfFind, hne, if_false, wrapInt_nat q hq31, e1, toSize_nat j hj31,
          substr, hk, Option.some_bind, e2]
        rw [if_neg hne2]
        simp only [if_true, Option.some_bind]
        rw [ih (q + a.length) _ hb1 hb2, h1]
        have e3 : List.drop (j + a.length) (List.drop k target) =
            List.drop (q + a.length) target := by
          rw [List.drop_drop, hq, Nat.add_assoc]
        rw [e3]
        simp [List.append_assoc]
    · have hge : ¬ (k : Int) < (target.length : Int) := by omega
      have hkeq : k = target.length := by omega
      simp only [replace_allLoop, hge, if_false]
      rw [hkeq, List.drop_length]
      simp [replaceList]

/-- `replace_all` with a non-empty pattern, on strings whose lengths are values
of `int`, returns the text replaced from left to right. -/
theorem replace_all_eq (target a b : List Char) (ha : a ≠ [])
    (ht : target.length < 2 ^ 31) (hal : a.length < 2 ^ 31) (fuel : Nat)
    (hfuel : target.length < fuel) :
    replace_all target a b fuel = some (replaceList a b 0 target) := by
  have h := replace_allLoop_spec target a b ha ht hal fuel 0 [] (Nat.zero_le _) (by omega)
  simp only [List.drop_zero, List.nil_append, Nat.cast_zero] at h
  rw [replace_all, wrapInt_nat _ ht, wrapInt_nat _ hal]
  exact h

theorem findIn_bound (a : List Char) : ∀ (s : List Char) (p q : Nat),
    findIn a s p = some q → ∃ j, q = p + j ∧ j + a.length ≤ s.length
  | [], p, q, h => by
    simp only [findIn] at h
    split_ifs at h with ha
    exact ⟨0, (Option.some.inj h).symm, by simp [ha]⟩
  | c :: s, p, q, h => by
    simp only [findIn] at h
    split_ifs at h with hpre
    · exact ⟨0, (Option.some.inj h).symm, by simpa using isPrefixOf_length hpre⟩
    · obtain ⟨j, h1, h2⟩ := findIn_bound a s (p + 1) q h
      exact ⟨j + 1, by omega, by simp; omega⟩

/-- `split` on a string whose length is a value of `int`, with a delimiter of one
character: it returns, `first` is no longer than the string, and `second` is
shorter than the string unless that is empty. -/
theorem split_spec (source delimiter : List Char) (hs : source.length < 2 ^ 31)
    (hd : delimiter.length = 1) :
    ∃ first second, split source delimiter = some (first, second) ∧
      first.length ≤ source.length ∧ second.length ≤ source.length ∧
      (source ≠ [] → second.length < source.length) := by
  unfold split
  simp only [stringFind, Nat.zero_le, if_true, List.drop_zero]
  cases hf : findIn delimiter source 0 with
  | none =>
    refine ⟨source, [], by simp [intOfFind], le_refl _, by simp, fun h => ?_⟩
    simpa using List.length_pos.2 h
  | some q =>
    obtain ⟨j, hq, hj⟩ := findIn_bound delimiter source 0 q hf
    have hq31 : q < 2 ^ 31 := by omega
    have hne : ¬ ((q : Int) = -1) := by omega
    have e1 : toSize (q : Int) = q := toSize_nat q hq31
    have e2 : (q + delimiter.length) % 2 ^ 64 = q + 1 := by
      rw [hd]
      exact Nat.mod_eq_of_lt (by omega)
    have e3 : q + 1 ≤ source.length := by omega
    refine ⟨source.take q, source.drop (q + 1), ?_, by simp, by simp, fun _ => by simp; omega⟩
    simp only [intOfFind, wrapInt_nat q hq31, hne, if_false, e1, e2, substr, Nat.zero_le, if_true,
      List.drop_zero, Option.some_bind, e3, Option.map_some']
    rw [List.take_of_length_le (show (List.drop (q + 1) source).length ≤ source.length by simp)]

theorem trim_length (source : List Char) : (trim source).length ≤ source.length := by
  simp only [trim]
  split
  · simp only [List.length_take, List.length_drop]
    omega
  · simp

theorem OutputHolder.setMode_spec (i : Nat) (key value : List Char)
    (columnMode : List (List (List Char × List Char))) (hi : i < columnMode.length) :
    ∃ m, OutputHolder.setMode i key value columnMode = some m ∧ m.length = columnMode.length := by
  refine ⟨columnMode.set i (mapAssign key value columnMode[i]), ?_, by simp⟩
  simp [OutputHolder.setMode, List.getElem?_eq_getElem hi]

/-- The loop of `OutputHolder::addMode` ends within `|rest| + 1` iterations and
keeps the number of columns. -/
theorem OutputHolder.addModeLoop_spec (result : Nat) :
    ∀ (fuel : Nat) (rest : List Char) (columnMode : List (List (List Char × List Char))),
      rest.length < fuel → rest.length < 2 ^ 31 → 0 < columnMode.length →
      result < columnMode.length →
      ∃ m, OutputHolder.addModeLoop result fuel rest columnMode = some m ∧
        m.length = columnMode.length := by
  intro fuel
  induction fuel with
  | zero => intro rest _ h; omega
  | succ n ih =>
    intro rest columnMode hf hr h0 hres
    by_cases hrest : rest = []
    · exact ⟨columnMode, by simp [OutputHolder.addModeLoop, hrest], rfl⟩
    · obtain ⟨hint, rest1, s1, s2, s3, s4⟩ := split_spec rest ",".toList hr rfl
      have ht := trim_length hint
      obtain ⟨key, value, t1, _, _, _⟩ := split_spec (trim hint) "=".toList (by omega) rfl
      have hstep : ∀ m1 : List (List (List Char × List Char)), m1.length = columnMode.length →
          ∃ m, OutputHolder.addModeLoop result n rest1 m1 = some m ∧
            m.length = columnMode.length := by
        intro m1 hm1
        obtain ⟨m, k1, k2⟩ := ih rest1 m1 (by have := s4 hrest; omega) (by omega)
          (by omega) (by omega)
        exact ⟨m, k1, by omega⟩
      simp only [OutputHolder.addModeLoop, hrest, if_false, s1, t1, Option.some_bind]
      split_ifs
      · obtain ⟨m1, a1, a2⟩ := OutputHolder.setMode_spec 0 "scale".toList value columnMode h0
        rw [a1]
        exact hstep m1 a2
      · obtain ⟨m1, a1, a2⟩ := OutputHolder.setMode_spec 0 key value columnMode h0
        rw [a1]
        exact hstep m1 a2
      · obtain ⟨m1, a1, a2⟩ := OutputHolder.setMode_spec result key value columnMode hres
        rw [a1]
        exact hstep m1 a2

/-- `OutputHolder::addMode` returns and adds one column to `columnMode`. -/
theorem OutputHolder.addMode_spec {V : Type} (mode : Option (List Char)) (h : OutputHolder V)
    (hm : ∀ m, mode = some m → m.length < 2 ^ 31) :
    ∃ m, OutputHolder.addMode mode h = some { h with columnMode := m } ∧
      m.length = h.columnMode.length + 1 := by
  cases mode with
  | none => exact ⟨h.columnMode ++ [[]], rfl, by simp⟩
  | some rest =>
    obtain ⟨m, h1, h2⟩ := OutputHolder.addModeLoop_spec h.columnMode.length (rest.length + 1) rest
      (h.columnMode ++ [[]]) (by omega) (hm rest rfl) (by simp) (by simp)
    refine ⟨m, ?_, by rw [h2]; simp⟩
    simp only [OutputHolder.addMode, h1, Option.map_some']

theorem OutputHolder.header_spec (header : List Char) (hh : header.length < 2 ^ 31) :
    ∃ x, OutputHolder.header header = some x := by
  unfold OutputHolder.header
  split_ifs
  · rw [replace_all_eq header "\"".toList "\"\"".toList (by decide) hh (by decide) _ (by omega)]
    exact ⟨_, rfl⟩
  · exact ⟨_, rfl⟩

theorem OutputHolder.headerLine_spec (columnsPrevious : Nat) :
    ∀ (headers : List (List Char)) (i : Nat), (∀ x ∈ headers, x.length < 2 ^ 31) →
      ∃ s, OutputHolder.headerLine columnsPrevious i headers = some s
  | [], _, _ => ⟨[], rfl⟩
  | x :: rest, i, hx => by
    obtain ⟨s, hs⟩ := OutputHolder.headerLine_spec columnsPrevious rest (i + 1)
      (fun y hy => hx y (List.mem_cons_of_mem _ hy))
    obtain ⟨y, hy⟩ := OutputHolder.header_spec x (hx x (List.mem_cons_self _ _))
    simp only [OutputHolder.headerLine, hs, hy, Option.map_some', Option.some_bind]
    split_ifs
    · exact ⟨_, rfl⟩
    · exact ⟨_, rfl⟩

theorem OutputHolder.headers_spec :
    ∀ (columnMap : List (List Char × Nat)) (headers : List (List Char)),
      (∀ it ∈ columnMap, it.2 < headers.length ∧ it.1.length < 2 ^ 31) →
      (∀ x ∈ headers, x.length < 2 ^ 31) →
      ∃ r, OutputHolder.headers columnMap headers = some r ∧ ∀ x ∈ r, x.length < 2 ^ 31
  | [], headers, _, hh => ⟨headers, rfl, hh⟩
  | it :: rest, headers, hc, hh => by
    have h1 := hc it (List.mem_cons_self _ _)
    obtain ⟨r, k1, k2⟩ := OutputHolder.headers_spec rest (headers.set it.2 it.1)
      (fun x hx => by
        have := hc x (List.mem_cons_of_mem _ hx)
        simpa using this)
      (fun x hx => by
        rcases List.mem_or_eq_of_mem_set hx with h | h
        · exact hh x h
        · rw [h]; exact h1.2)
    exact ⟨r, by simp only [OutputHolder.headers, h1.1, if_true]; exact k1, k2⟩

theorem OutputHolder.columnLines_spec (columnMode : List (List (List Char × List Char))) :
    ∀ (columnMap : List (List Char × Nat)), (∀ it ∈ columnMap, it.2 < columnMode.length) →
      ∃ text, OutputHolder.columnLines columnMode columnMap = some text
  | [], _ => ⟨[], rfl⟩
  | it :: rest, hc => by
    obtain ⟨text, ht⟩ := OutputHolder.columnLines_spec columnMode rest
      (fun x hx => hc x (List.mem_cons_of_mem _ hx))
    have hi := hc it (List.mem_cons_self _ _)
    simp only [OutputHolder.columnLines, List.getElem?_eq_getElem hi, ht, Option.map_some']
    exact ⟨_, rfl⟩

/-! ### OutputHolder: `writeTrace`, `trace` -/

theorem indexedFrom_mem : ∀ (seen : List (List Char)) (k : Nat) (it : List Char × Nat),
    it ∈ indexedFrom k seen → k ≤ it.2 ∧ it.2 < k + seen.length ∧ it.1 ∈ seen
  | [], _, _, h => by simp [indexedFrom] at h
  | n :: ns, k, it, h => by
    simp only [indexedFrom, List.mem_cons] at h
    rcases h with h | h
    · rw [h]; simp
    · obtain ⟨h1, h2, h3⟩ := indexedFrom_mem ns (k + 1) it h
      simp only [List.length_cons, List.mem_cons]
      exact ⟨by omega, by omega, Or.inr h3⟩

theorem indexedFrom_append : ∀ (seen : List (List Char)) (k : Nat) (name : List Char),
    indexedFrom k (seen ++ [name]) = indexedFrom k seen ++ [(name, k + seen.length)]
  | [], k, name => by simp [indexedFrom]
  | n :: ns, k, name => by
    have ih := indexedFrom_append ns (k + 1) name
    show indexedFrom k (n :: (ns ++ [name])) = _
    simp only [indexedFrom, List.cons_append, List.length_cons, ih]
    rw [show k + 1 + ns.length = k + (ns.length + 1) by omega]

theorem umapFind_indexed_none : ∀ (seen : List (List Char)) (k : Nat) (name : List Char),
    name ∉ seen → umapFind name (indexedFrom k seen) = none
  | [], _, _, _ => rfl
  | n :: ns, k, name, h => by
    have h1 : name ≠ n := fun e => h (by rw [e]; exact List.mem_cons_self _ _)
    simp only [indexedFrom, umapFind, h1, if_false]
    exact umapFind_indexed_none ns (k + 1) name (fun hm => h (List.mem_cons_of_mem _ hm))

theorem umapFind_indexed_some : ∀ (seen : List (List Char)) (k : Nat) (name : List Char),
    name ∈ seen → ∃ i, umapFind name (indexedFrom k seen) = some i ∧ k ≤ i ∧ i < k + seen.length
  | [], _, _, h => by simp at h
  | n :: ns, k, name, h => by
    by_cases h1 : name = n
    · exact ⟨k, by simp [indexedFrom, umapFind, h1], le_refl _, by simp⟩
    · have h2 : name ∈ ns := by
        rcases List.mem_cons.1 h with e | e
        · exact absurd e h1
        · exact e
      obtain ⟨i, a1, a2, a3⟩ := umapFind_indexed_some ns (k + 1) name h2
      refine ⟨i, by simp only [indexedFrom, umapFind, h1, if_false]; exact a1, by omega, ?_⟩
      simp only [List.length_cons]
      omega

theorem umapAssign_absent {K W : Type} [DecidableEq K] (key : K) (value : W) :
    ∀ m : List (K × W), umapFind key m = none → umapAssign key value m = m ++ [(key, value)]
  | [], _ => rfl
  | (k, v) :: m, h => by
    simp only [umapFind] at h
    split_ifs at h with hk
    simp only [umapAssign, hk, if_false, List.cons_append]
    rw [umapAssign_absent key value m h]

/-- `OutputHolder::writeTrace` of a holder whose columns have their indices
within `columnValues` and `columnMode`: it returns, and the columns stay. -/
theorem OutputHolder.writeTrace_spec {V : Type} (F : Format V) (h : OutputHolder V)
    (hout : h.out = true)
    (hidx : ∀ it ∈ h.columnMap, it.2 < h.columnValues.length ∧ it.2 < h.columnMode.length ∧
      it.1.length < 2 ^ 31) :
    ∃ h1, OutputHolder.writeTrace F h = some h1 ∧ h1.columnMap = h.columnMap ∧
      h1.columnMode = h.columnMode ∧ h1.columnValues.length = h.columnValues.length ∧
      h1.raw = h.raw ∧ h1.out = h.out ∧ h1.t = h.t ∧ h1.traceReceived = false := by
  by_cases htr : h.traceReceived = false
  · exact ⟨h, by simp [OutputHolder.writeTrace, htr], rfl, rfl, rfl, rfl, rfl, rfl, htr⟩
  · have hcond : ¬ (h.traceReceived = false ∨ h.out = false) := by simp [htr, hout]
    obtain ⟨text, ht⟩ := OutputHolder.columnLines_spec h.columnMode (F.iterate h.columnMap)
      (fun it hit => (hidx it ((F.visits h.columnMap).mem_iff.1 hit)).2.1)
    by_cases hcount : h.columnValues.length > h.columnsPrevious
    · by_cases hraw : h.raw = false
      · obtain ⟨r, hr, hr2⟩ := OutputHolder.headers_spec (F.iterate h.columnMap)
          (List.replicate h.columnValues.length [])
          (fun it hit => ⟨by simpa using (hidx it ((F.visits h.columnMap).mem_iff.1 hit)).1,
            (hidx it ((F.visits h.columnMap).mem_iff.1 hit)).2.2⟩)
          (fun x hx => by rw [List.eq_of_mem_replicate hx]; simp)
        obtain ⟨line, hl⟩ := OutputHolder.headerLine_spec h.columnsPrevious r.tail 1
          (fun x hx => hr2 x (List.mem_of_mem_tail hx))
        simp only [OutputHolder.writeTrace, hcond, if_false, hcount, if_true, hraw, hr, hl,
          OutputHolder.writeModes, ht, Option.some_bind, Option.map_some']
        exact ⟨_, rfl, rfl, rfl, by simp, rfl, rfl, rfl, rfl⟩
      · have hraw2 : h.raw = true := by simpa using hraw
        simp only [OutputHolder.writeTrace, hcond, if_false, hcount, if_true, hraw2,
          Bool.true_eq_false, OutputHolder.writeModes, ht, Option.some_bind, Option.map_some']
        exact ⟨_, rfl, rfl, rfl, by simp, rfl, rfl, rfl, rfl⟩
    · simp only [OutputHolder.writeTrace, hcond, if_false, hcount, Option.map_some']
      exact ⟨_, rfl, rfl, rfl, by simp, rfl, rfl, rfl, rfl⟩

theorem OutputHolder.Good.indices {V : Type} {h : OutputHolder V} {seen : List (List Char)}
    (hg : h.Good seen) :
    ∀ it ∈ h.columnMap, it.2 < h.columnValues.length ∧ it.2 < h.columnMode.length ∧
      it.1.length < 2 ^ 31 := by
  intro it hit
  rw [hg.map] at hit
  rcases List.mem_cons.1 hit with e | e
  · rw [e, hg.values, hg.mode]
    exact ⟨by simp, by simp, by decide⟩
  · obtain ⟨h1, h2, h3⟩ := indexedFrom_mem seen 1 it e
    rw [hg.values, hg.mode]
    exact ⟨by omega, by omega, hg.short _ h3⟩

/-- `OutputHolder::trace (now)` on a new holder or on a holder with the columns
`seen`: it returns, the columns are `seen`, `t` is replaced by `now` when that is
greater, a trace has been received, and column `0` holds `t`. -/
theorem OutputHolder.traceTime_spec {V : Type} [LinearOrder V] (F : Format V) (now : V)
    (h : OutputHolder V) (seen : List (List Char)) (hs : (h.Fresh ∧ seen = []) ∨ h.Good seen) :
    ∃ h1, OutputHolder.traceTime F now h = some h1 ∧ h1.Good seen ∧ h1.traceReceived = true ∧
      h1.t = (if now > h.t then now else h.t) ∧ h1.columnValues[0]? = some (some h1.t) := by
  rcases hs with ⟨hf, rfl⟩ | hg
  · have hw : OutputHolder.writeTrace F h = some h := by
      simp [OutputHolder.writeTrace, hf.received]
    by_cases hnow : now > h.t
    · simp only [OutputHolder.traceTime, hnow, if_true, hw, Option.map_some', hf.received,
        hf.values]
      exact ⟨_, rfl, ⟨hf.out, hf.raw, by simp [hf.map, umapAssign, indexedFrom], rfl,
        by simp [hf.mode], by simp, fun _ => rfl⟩, rfl, rfl, rfl⟩
    · simp only [OutputHolder.traceTime, hnow, if_false, Option.map_some', hf.received,
        hf.values, if_true]
      exact ⟨_, rfl, ⟨hf.out, hf.raw, by simp [hf.map, umapAssign, indexedFrom], rfl,
        by simp [hf.mode], by simp, fun _ => rfl⟩, rfl, rfl, rfl⟩
  · have hne : h.columnValues ≠ [] := by
      intro e
      have := hg.values
      rw [e] at this
      simp at this
    by_cases hnow : now > h.t
    · obtain ⟨h2, w1, w2, w3, w4, w5, w6, w7, w8⟩ :=
        OutputHolder.writeTrace_spec F h hg.out hg.indices
      have hne2 : h2.columnValues ≠ [] := by
        intro e
        rw [e] at w4
        have := hg.values
        rw [← w4] at this
        simp at this
      simp only [OutputHolder.traceTime, hnow, if_true, w1, Option.map_some', w8, hne2, if_false]
      refine ⟨_, rfl, ⟨by rw [← hg.out, ← w6], by rw [← hg.raw, ← w5], by rw [← hg.map, ← w2],
        by simp only [List.length_set]; rw [w4, hg.values],
        by rw [← hg.mode, ← w3], hg.short, fun _ => ?_⟩, rfl, rfl, ?_⟩
      · simp only [List.getElem?_set_self (List.length_pos.2 hne2)]
      · simp only [List.getElem?_set_self (List.length_pos.2 hne2)]
    · by_cases htr : h.traceReceived = false
      · simp only [OutputHolder.traceTime, hnow, if_false, Option.map_some', htr, hne, if_true]
        refine ⟨_, rfl, ⟨hg.out, hg.raw, hg.map, by simp only [List.length_set]; exact hg.values,
          hg.mode, hg.short, fun _ => ?_⟩, rfl, rfl, ?_⟩
        · simp only [List.getElem?_set_self (List.length_pos.2 hne)]
        · simp only [List.getElem?_set_self (List.length_pos.2 hne)]
      · have htrue : h.traceReceived = true := by simpa using htr
        simp only [OutputHolder.traceTime, hnow, if_false, Option.map_some', htr]
        exact ⟨h, rfl, hg, htrue, rfl, hg.time htrue⟩

/-- The rest of `trace` for a column name other than `$t`, on a holder with
the columns `seen` that has received a trace: it returns; a new name gets the
next index; and the column of the name holds `value`. -/
theorem OutputHolder.put_spec {V : Type} (name : List Char) (value : V)
    (mode : Option (List Char)) (h : OutputHolder V) (seen : List (List Char))
    (hg : h.Good seen) (htr : h.traceReceived = true) (hname : name ≠ "$t".toList)
    (hshort : name.length < 2 ^ 31) (hm : ∀ m, mode = some m → m.length < 2 ^ 31) :
    ∃ h1, OutputHolder.put name none value mode h = some h1 ∧ h1.Good (noteName seen name) ∧
      h1.traceReceived = true ∧ h1.t = h.t ∧ h1.columnValues[0]? = h.columnValues[0]? ∧
      ∃ i, umapFind name h1.columnMap = some i ∧ h1.columnValues[i]? = some (some value) := by
  have hne : "$t".toList ≠ name := fun e => hname e.symm
  by_cases hmem : name ∈ seen
  · obtain ⟨i, a1, a2, a3⟩ := umapFind_indexed_some seen 1 name hmem
    have hfind : umapFind name h.columnMap = some i := by
      rw [hg.map]
      simp only [umapFind, hname, if_false]
      exact a1
    have hi : i < h.columnValues.length := by rw [hg.values]; omega
    have hnote : noteName seen name = seen := by simp [noteName, hmem]
    simp only [OutputHolder.put, hfind, hi, if_true]
    rw [hnote]
    refine ⟨_, rfl, ⟨hg.out, hg.raw, hg.map, by simp only [List.length_set]; exact hg.values,
      hg.mode, hg.short, fun _ => ?_⟩, htr, rfl, ?_, i, hfind, ?_⟩
    · simp only []
      rw [List.getElem?_set_ne (by omega)]
      exact hg.time htr
    · simp only []
      rw [List.getElem?_set_ne (by omega)]
    · simp only [List.getElem?_set_self hi]
  · have hnone := umapFind_indexed_none seen 1 name hmem
    have hfind : umapFind name h.columnMap = none := by
      rw [hg.map]
      simp only [umapFind, hname, if_false]
      exact hnone
    obtain ⟨m, b1, b2⟩ := OutputHolder.addMode_spec mode
      { h with columnMap := umapAssign name h.columnValues.length h.columnMap,
               columnValues := h.columnValues ++ [some value] } hm
    simp only [OutputHolder.put, hfind, Option.some_bind, b1]
    have hmap : umapAssign name h.columnValues.length h.columnMap =
        ("$t".toList, 0) :: indexedFrom 1 (seen ++ [name]) := by
      rw [umapAssign_absent _ _ _ hfind, hg.map, hg.values, indexedFrom_append]
      simp [Nat.add_comm]
    have hnote : noteName seen name = seen ++ [name] := by simp [noteName, hmem]
    have hpos : 0 < h.columnValues.length := by rw [hg.values]; omega
    refine ⟨_, rfl, ⟨hg.out, hg.raw, by rw [hnote]; exact hmap,
      by simp only [List.length_append, List.length_singleton, hnote]; rw [hg.values],
      by simp only [hnote, List.length_append, List.length_singleton]; rw [b2]
         simp only []; rw [hg.mode],
      by
        rw [hnote]
        intro n hn
        rcases List.mem_append.1 hn with e | e
        · exact hg.short n e
        · rw [List.mem_singleton.1 e]; exact hshort,
      fun _ => ?_⟩, htr, rfl, ?_, seen.length + 1, ?_, ?_⟩
    · simp only []
      rw [List.getElem?_append_left hpos]
      exact hg.time htr
    · simp only []
      rw [List.getElem?_append_left hpos]
    · simp only []
      rw [umapAssign_absent _ _ _ hfind, hg.map, hg.values]
      simp only [List.cons_append, umapFind, hname, if_false]
      have : ∀ (l : List (List Char × Nat)) (v : Nat), umapFind name l = none →
          umapFind name (l ++ [(name, v)]) = some v := by
        intro l
        induction l with
        | nil => intro v _; simp [umapFind]
        | cons x l ih =>
          intro v hx
          obtain ⟨k, w⟩ := x
          simp only [umapFind] at hx
          split_ifs at hx with hk
          simp only [List.cons_append, umapFind, hk, if_false]
          exact ih v hx
      exact this _ _ hnone
    · simp only []
      rw [← hg.values, List.getElem?_append_right (le_refl _)]
      simp

theorem indexedFrom_length : ∀ (seen : List (List Char)) (k : Nat),
    (indexedFrom k seen).length = seen.length
  | [], _ => rfl
  | _ :: ns, k => by simp [indexedFrom, indexedFrom_length ns (k + 1)]

theorem noteName_grows : ∀ (more seen : List (List Char)), seen <+: more.foldl noteName seen
  | [], seen => List.prefix_refl seen
  | n :: more, seen => by
    have h1 : seen <+: noteName seen n := by
      unfold noteName
      split_ifs
      · exact List.prefix_refl seen
      · exact List.prefix_append seen [n]
    exact h1.trans (noteName_grows more (noteName seen n))

theorem mapAssign_mem {K W : Type} [LinearOrder K] (key : K) (value : W) :
    ∀ (m : List (K × W)) (x : K × W), x ∈ mapAssign key value m → x.1 = key ∨ ∃ y ∈ m, y.1 = x.1
  | [], x, h => by
    simp only [mapAssign, List.mem_singleton] at h
    exact Or.inl (by rw [h])
  | (k, v) :: m, x, h => by
    simp only [mapAssign] at h
    split_ifs at h with h1 h2
    · rcases List.mem_cons.1 h with e | e
      · exact Or.inl (by rw [e])
      · exact Or.inr ⟨x, e, rfl⟩
    · rcases List.mem_cons.1 h with e | e
      · exact Or.inl (by rw [e, h2])
      · exact Or.inr ⟨x, List.mem_cons_of_mem _ e, rfl⟩
    · rcases List.mem_cons.1 h with e | e
      · exact Or.inr ⟨(k, v), List.mem_cons_self _ _, by rw [e]⟩
      · rcases mapAssign_mem key value m x e with e1 | ⟨y, e1, e2⟩
        · exact Or.inl e1
        · exact Or.inr ⟨y, List.mem_cons_of_mem _ e1, e2⟩

/-- An assignment to a `std::map` keeps the keys in strictly ascending order. -/
theorem mapAssign_sorted {K W : Type} [LinearOrder K] (key : K) (value : W) :
    ∀ m : List (K × W), m.Pairwise (fun x y => x.1 < y.1) →
      (mapAssign key value m).Pairwise (fun x y => x.1 < y.1)
  | [], _ => by simp [mapAssign]
  | (k, v) :: m, h => by
    obtain ⟨h1, h2⟩ := List.pairwise_cons.1 h
    simp only [mapAssign]
    split_ifs with a1 a2
    · refine List.pairwise_cons.2 ⟨fun y hy => ?_, h⟩
      rcases List.mem_cons.1 hy with e | e
      · rw [e]; exact a1
      · exact lt_trans a1 (h1 y e)
    · exact List.pairwise_cons.2 ⟨h1, h2⟩
    · refine List.pairwise_cons.2 ⟨fun y hy => ?_, mapAssign_sorted key value m h2⟩
      rcases mapAssign_mem key value m y hy with e | ⟨z, e1, e2⟩
      · rw [e]
        exact lt_of_le_of_ne (not_lt.1 a1) (fun e3 => a2 e3.symm)
      · have := h1 z e1
        rw [e2] at this
        exact this

theorem OutputHolder.modeLines_eq : ∀ mode : List (List Char × List Char),
    OutputHolder.modeLines mode =
      mode.flatMap (fun nv => " ".toList ++ nv.1 ++ ":".toList ++ nv.2 ++ "\n".toList)
  | [] => rfl
  | nv :: mode => by
    simp only [OutputHolder.modeLines, List.flatMap_cons, OutputHolder.modeLines_eq mode]

theorem OutputHolder.columnLines_eq (columnMode : List (List (List Char × List Char))) :
    ∀ (columnMap : List (List Char × Nat)), (∀ it ∈ columnMap, it.2 < columnMode.length) →
      OutputHolder.columnLines columnMode columnMap = some (columnMap.flatMap (fun it =>
        (toString it.2).toList ++ ":".toList ++ it.1 ++ "\n".toList ++
          (columnMode.getD it.2 []).flatMap
            (fun nv => " ".toList ++ nv.1 ++ ":".toList ++ nv.2 ++ "\n".toList)))
  | [], _ => rfl
  | it :: rest, hc => by
    have hi := hc it (List.mem_cons_self _ _)
    have ih := OutputHolder.columnLines_eq columnMode rest
      (fun x hx => hc x (List.mem_cons_of_mem _ hx))
    simp only [OutputHolder.columnLines, List.getElem?_eq_getElem hi, ih, Option.map_some',
      List.flatMap_cons, OutputHolder.modeLines_eq, List.getD_eq_getElem?_getD,
      Option.getD_some]

/-- The calls of `trace` one after the other, from a new holder or from a holder
with the columns `seen`. -/
theorem OutputHolder.traces_spec {V : Type} [LinearOrder V] (F : Format V) :
    ∀ (calls : List (TraceCall V)) (h : OutputHolder V) (seen : List (List Char)),
      ((h.Fresh ∧ seen = []) ∨ h.Good seen) →
      (∀ c ∈ calls, c.column ≠ "$t".toList ∧ c.column.length < 2 ^ 31 ∧
        ∀ m, c.mode = some m → m.length < 2 ^ 31) →
      ∃ h1, OutputHolder.traces F calls h = some h1 ∧
        h1.t = latest h.t (calls.map (fun c => c.now)) ∧
        (calls ≠ [] → h1.Good ((calls.map (fun c => c.column)).foldl noteName seen) ∧
          h1.columnValues[0]? = some (some h1.t) ∧
          ∀ c, calls.getLast? = some c →
            ∃ i, umapFind c.column h1.columnMap = some i ∧
              h1.columnValues[i]? = some (some c.value))
  | [], h, _, _, _ => ⟨h, rfl, rfl, fun hne => absurd rfl hne⟩
  | c :: cs, h, seen, hs, hc => by
    obtain ⟨h2, a1, a2, a3, a4, a5⟩ := OutputHolder.traceTime_spec F c.now h seen hs
    obtain ⟨c1, c2, c3⟩ := hc c (List.mem_cons_self _ _)
    obtain ⟨h3, b1, b2, b3, b4, b5, i, b6, b7⟩ :=
      OutputHolder.put_spec c.column c.value c.mode h2 seen a2 a3 c1 c2 c3
    obtain ⟨h1, d1, d2, d3⟩ := OutputHolder.traces_spec F cs h3 (noteName seen c.column)
      (Or.inr b2) (fun x hx => hc x (List.mem_cons_of_mem _ hx))
    have hstep : OutputHolder.trace F c.now c.column c.value c.mode h = some h3 := by
      simp only [OutputHolder.trace, a1, Option.some_bind, b1]
    refine ⟨h1, by simp only [OutputHolder.traces, hstep, Option.some_bind]; exact d1, ?_,
      fun _ => ?_⟩
    · rw [d2, b4, a4]
      rfl
    · cases cs with
      | nil =>
        have e : h1 = h3 := (Option.some.inj d1).symm
        rw [e]
        refine ⟨b2, by rw [b5, a5, b4], fun x hx => ?_⟩
        have : x = c := by simpa using hx.symm
        rw [this]
        exact ⟨i, b6, b7⟩
      | cons c' cs' =>
        obtain ⟨e1, e2, e3⟩ := d3 (by simp)
        exact ⟨e1, e2, fun x hx => e3 x (by simpa [List.getLast?_cons_cons] using hx)⟩

theorem OutputHolder.new_fresh {V : Type} [Zero V] (fileName : List Char) :
    (OutputHolder.new fileName : OutputHolder V).Fresh :=
  ⟨rfl, rfl, rfl, rfl, rfl, rfl⟩

/-- C31 (counterexample). After `trace (0, "x", 5, "k=v")` on a new holder,
`writeModes` writes the lines `N2A.schema=3`, `1:x`, ` k:v`, `0:$t` when the
`std::unordered_map` is iterated from the entry inserted last, and the lines
`N2A.schema=3`, `0:$t`, `1:x`, ` k:v` when it is iterated from the entry inserted
first: in both cases the line of the mode entry starts with one space, not with
two. -/
theorem C31_one_space_indent :
    ((OutputHolder.trace exampleFormat 0 "x".toList 5 (some "k=v".toList)
      (OutputHolder.new "f".toList)).bind (OutputHolder.writeModes exampleFormat)).map
        (fun h => h.modes) = some (some "N2A.schema=3\n1:x\n k:v\n0:$t\n".toList) ∧
    ((OutputHolder.trace exampleForward 0 "x".toList 5 (some "k=v".toList)
      (OutputHolder.new "f".toList)).bind (OutputHolder.writeModes exampleForward)).map
        (fun h => h.modes) = some (some "N2A.schema=3\n0:$t\n1:x\n k:v\n".toList) := by
  decide

/-- C31 (amended). For every holder whose columns have their indices within
`columnMode`, and every order `F.iterate` in which the `std::unordered_map`
`columnMap` is iterated, `writeModes` writes the line `N2A.schema=3` and then,
for each column in that order, the line `<index>:<name>` followed by one line
per mode entry of that column, which is one space followed by `<key>:<value>`;
every column is written once; and every assignment to the modes of a column
keeps its entries in ascending order of the keys. -/
theorem C31_writeModes_text {V : Type} (F : Format V) (h : OutputHolder V)
    (hidx : ∀ it ∈ h.columnMap, it.2 < h.columnMode.length) :
    h.writeModes F = some { h with modes := some ("N2A.schema=3\n".toList ++
      (F.iterate h.columnMap).flatMap (fun it =>
        (toString it.2).toList ++ ":".toList ++ it.1 ++ "\n".toList ++
          (h.columnMode.getD it.2 []).flatMap
            (fun nv => " ".toList ++ nv.1 ++ ":".toList ++ nv.2 ++ "\n".toList))) } ∧
    (F.iterate h.columnMap).Perm h.columnMap ∧
    ∀ (key value : List Char) (mode : List (List Char × List Char)),
      mode.Pairwise (fun x y => x.1 < y.1) →
      (mapAssign key value mode).Pairwise (fun x y => x.1 < y.1) := by
  refine ⟨?_, F.visits h.columnMap, fun key value mode => mapAssign_sorted key value mode⟩
  simp only [OutputHolder.writeModes, OutputHolder.columnLines_eq h.columnMode
    (F.iterate h.columnMap) (fun it hit => hidx it ((F.visits h.columnMap).mem_iff.1 hit)),
    Option.map_some']

theorem C31_witness :
    OutputHolder.trace exampleFormat 0 "x".toList 5 (some "k=v,a=b".toList)
      (OutputHolder.new "f".toList) = some exampleTraced ∧
    (exampleTraced.writeModes exampleFormat).map (fun h => h.modes) =
      some (some "N2A.schema=3\n1:x\n a:b\n k:v\n0:$t\n".toList) ∧
    (exampleTraced.writeModes exampleFormat = some { exampleTraced with
      modes := some ("N2A.schema=3\n".toList ++
        (exampleFormat.iterate exampleTraced.columnMap).flatMap (fun it =>
          (toString it.2).toList ++ ":".toList ++ it.1 ++ "\n".toList ++
            (exampleTraced.columnMode.getD it.2 []).flatMap
              (fun nv => " ".toList ++ nv.1 ++ ":".toList ++ nv.2 ++ "\n".toList))) } ∧
    (exampleFormat.iterate exampleTraced.columnMap).Perm exampleTraced.columnMap ∧
    ∀ (key value : List Char) (mode : List (List Char × List Char)),
      mode.Pairwise (fun x y => x.1 < y.1) →
      (mapAssign key value mode).Pairwise (fun x y => x.1 < y.1)) :=
  ⟨rfl, by decide, C31_writeModes_text exampleFormat exampleTraced (by decide)⟩

/-- C34 (counterexample). The call `trace (1, "$t", 7)` on a new holder finds the
column `$t` that `trace (now)` has just made and assigns `7` to it: column `0` then
holds `7`, and the time of the holder is `1`. -/
theorem C34_time_column_is_overwritten :
    (OutputHolder.trace exampleFormat 1 "$t".toList 7 none (OutputHolder.new "f".toList)).map
      (fun h => (h.columnMap, h.columnValues, h.t)) =
      some ([("$t".toList, 0)], [some 7], 1) := by
  decide

/-- C34 (amended). For every non-empty sequence of calls `trace (now, name, value,
mode)` on a new holder, with names other than `$t` and names and modes whose
lengths are values of `int`: the calls return; the column `$t` has index `0`, and
the distinct names have the indices `1, 2, 3, ...` in the order in which they are
traced first; `columnValues` and `columnMode` have one entry for each column; the
time of the holder is the greatest `now` so far (or `0`), and column `0` holds it;
the column of the name traced last holds the value traced last; and the columns
after more calls start with the columns now, so that no index changes. -/
theorem C34_columns_in_order_of_first_trace {V : Type} [LinearOrder V] [Zero V] (F : Format V)
    (fileName : List Char) (calls : List (TraceCall V)) (hne : calls ≠ [])
    (hcalls : ∀ c ∈ calls, c.column ≠ "$t".toList ∧ c.column.length < 2 ^ 31 ∧
      ∀ m, c.mode = some m → m.length < 2 ^ 31) :
    ∃ h, OutputHolder.traces F calls (OutputHolder.new fileName) = some h ∧
      h.columnMap = ("$t".toList, 0) ::
        indexedFrom 1 (firstTraced (calls.map (fun c => c.column))) ∧
      h.columnValues.length = h.columnMap.length ∧ h.columnMode.length = h.columnMap.length ∧
      h.t = latest 0 (calls.map (fun c => c.now)) ∧
      h.columnValues[0]? = some (some h.t) ∧
      (∀ c, calls.getLast? = some c →
        ∃ i, umapFind c.column h.columnMap = some i ∧
          h.columnValues[i]? = some (some c.value)) ∧
      ∀ more : List (TraceCall V), firstTraced (calls.map (fun c => c.column)) <+:
        firstTraced ((calls ++ more).map (fun c => c.column)) := by
  obtain ⟨h, h1, h2, h3⟩ := OutputHolder.traces_spec F calls (OutputHolder.new fileName) []
    (Or.inl ⟨OutputHolder.new_fresh fileName, rfl⟩) hcalls
  obtain ⟨g, g1, g2⟩ := h3 hne
  refine ⟨h, h1, g.map, ?_, ?_, h2, g1, g2, fun more => ?_⟩
  · rw [g.map, g.values]
    simp [indexedFrom_length, firstTraced]
  · rw [g.map, g.mode]
    simp [indexedFrom_length, firstTraced]
  · simp only [firstTraced, List.map_append, List.foldl_append]
    exact noteName_grows _ _

theorem C34_witness :
    ∃ h, OutputHolder.traces exampleFormat exampleCalls (OutputHolder.new "f".toList) = some h ∧
      h.columnMap = ("$t".toList, 0) ::
        indexedFrom 1 (firstTraced (exampleCalls.map (fun c => c.column))) ∧
      h.columnValues.length = h.columnMap.length ∧ h.columnMode.length = h.columnMap.length ∧
      h.t = latest 0 (exampleCalls.map (fun c => c.now)) ∧
      h.columnValues[0]? = some (some h.t) ∧
      (∀ c, exampleCalls.getLast? = some c →
        ∃ i, umapFind c.column h.columnMap = some i ∧
          h.columnValues[i]? = some (some c.value)) ∧
      ∀ more : List (TraceCall Int), firstTraced (exampleCalls.map (fun c => c.column)) <+:
        firstTraced ((exampleCalls ++ more).map (fun c => c.column)) :=
  C34_columns_in_order_of_first_trace exampleFormat "f".toList exampleCalls
    (List.cons_ne_nil _ _) (by simp [exampleCalls])

/-- C39 (the code at the failing input). In raw mode, `trace (0, 5, 50)` on a
new holder resizes `columnValues` to `6` entries and stores the column `5` at
index `6`: `columnValues` has `7` entries and `columnMode` has `2`.  Then
`trace (0, 2, 20)` resizes `columnValues` down to `3` entries and stores the column
`2` at index `3`: `columnValues` has `4` entries, and the index `6` of the column
`5` is behind its end.  The next call, `trace (1, 5, 51)`, writes the modes and
reads `columnMode[6]`, which is outside `columnMode`: it has no defined result. -/
theorem C39_raw_columns_out_of_range :
    (OutputHolder.traceNumber exampleFormat 0 5 50 none exampleRaw).map
      (fun h => (h.columnMap, h.columnValues, h.columnMode.length)) =
      some ([("$t".toList, 0), ("5".toList, 6)],
        [some 0, none, none, none, none, none, some 50], 2) ∧
    ((OutputHolder.traceNumber exampleFormat 0 5 50 none exampleRaw).bind
      (OutputHolder.traceNumber exampleFormat 0 2 20 none)).map
      (fun h => (h.columnMap, h.columnValues, h.columnMode.length)) =
      some ([("$t".toList, 0), ("5".toList, 6), ("2".toList, 3)],
        [some 0, none, none, some 20], 3) ∧
    (((OutputHolder.traceNumber exampleFormat 0 5 50 none exampleRaw).bind
      (OutputHolder.traceNumber exampleFormat 0 2 20 none)).bind
      (OutputHolder.traceNumber exampleFormat 1 5 51 none)).map
      (fun h => (h.columnMap, h.columnValues, h.columnMode.length)) = none :=
  ⟨rfl, rfl, rfl⟩

/-! ### The back links of a queue of `PartTime` parts -/

theorem VisitorStep.enqueue_wellLinked (v i : Nat) (w : World T U) (l : List Addr)
    (h : WellLinked w v l) (ht : w.timed i = true) (hp : Addr.part i ∉ l) :
    WellLinked (VisitorStep.enqueue v (Addr.part i) w) v (Addr.part i :: l) := by
  obtain ⟨hq, hb⟩ := h
  refine ⟨VisitorStep.enqueue_isQueue v i w l hq hp, ?_⟩
  have htim : (VisitorStep.enqueue v (Addr.part i) w).timed = w.timed := by
    rw [VisitorStep.enqueue_frame]
  cases l with
  | nil =>
    have hnone : w.next (Addr.queue v) = none := hq
    have hvis : (VisitorStep.enqueue v (Addr.part i) w).visitor i = some v := by
      simp [VisitorStep.enqueue, setVisitor, setPrevious, ht, hnone, upd]
    have hprev : (VisitorStep.enqueue v (Addr.part i) w).previous i = some (Addr.queue v) := by
      simp [VisitorStep.enqueue, setVisitor, setPrevious, ht, hnone, upd]
    exact ⟨⟨i, rfl, by rw [htim]; exact ht, hvis, hprev⟩, trivial⟩
  | cons b l =>
    have hnd := Linked.nodup _ _ hq
    obtain ⟨⟨j, hj, htj, hvj, hpj⟩, hrest⟩ := hb
    subst hj
    have hsome : w.next (Addr.queue v) = some (Addr.part j) := hq.1
    have hij : i ≠ j := by
      intro e
      subst e
      exact hp (List.mem_cons_self _ _)
    have hvis : (VisitorStep.enqueue v (Addr.part i) w).visitor = upd w.visitor i (some v) := by
      simp [VisitorStep.enqueue, setVisitor, setPrevious, ht, htj, hsome]
    have hprev : (VisitorStep.enqueue v (Addr.part i) w).previous =
        upd (upd w.previous j (some (Addr.part i))) i (some (Addr.queue v)) := by
      simp [VisitorStep.enqueue, setVisitor, setPrevious, ht, htj, hsome]
    refine ⟨⟨i, rfl, by rw [htim]; exact ht, by simp [hvis, upd], by simp [hprev, upd]⟩,
      ⟨j, rfl, by rw [htim]; exact htj, by simp [hvis, upd, Ne.symm hij, hvj],
        by simp [hprev, upd, Ne.symm hij]⟩, ?_⟩
    refine BackLinked.agree_back l _ ?_ hrest
    intro k hk
    have hki : k ≠ i := by
      intro e
      subst e
      exact hp (List.mem_cons_of_mem _ hk)
    have hkj : k ≠ j := by
      intro e
      subst e
      have h1 : (Addr.part k :: l).Nodup := (List.nodup_cons.mp hnd).2
      exact (List.nodup_cons.mp h1).1 hk
    exact ⟨by simp [hprev, upd, hki, hkj], by simp [hvis, upd, hki], by rw [htim]⟩

theorem WellLinked.previous_next {w : World T U} {v : Nat} (A B : List Addr) (i : Nat)
    (h : WellLinked w v (A ++ Addr.part i :: B)) :
    ∃ a, w.previous i = some a ∧ w.next a = some (Addr.part i) ∧ w.visitor i = some v ∧
      a = lastOf (Addr.queue v) A := by
  obtain ⟨hq, hb⟩ := h
  obtain ⟨i2, hi2, _, hv, hp⟩ := BackLinked.mid A _ _ B hb
  cases hi2
  exact ⟨_, hp, (Linked.cursor A _ _ hq).1, hv, rfl⟩

theorem EventStep.finalizePart_unlink (H : Hooks T U)
    (hfin : ∀ p, KeepsRuntime (fun w => (H.finalize p w).2))
    (hleave : ∀ p, KeepsRuntime (H.leaveSimulation p))
    (v : Nat) (w : World T U) (A B : List Addr) (i : Nat)
    (h : WellLinked w v (A ++ Addr.part i :: B))
    (hc : w.vprevious v = some (lastOf (Addr.queue v) A))
    (hp : w.vpart v = some (Addr.part i))
    (hr : (H.finalize (Addr.part i) w).1 = false) :
    WellLinked (EventStep.finalizePart H v w) v (A ++ B) ∧
      (EventStep.finalizePart H v w).next =
        upd w.next (lastOf (Addr.queue v) A) (w.next (Addr.part i)) ∧
      (EventStep.finalizePart H v w).vprevious v = w.vprevious v ∧
      (EventStep.finalizePart H v w).vpart v = w.vpart v := by
  obtain ⟨hq, hb⟩ := h
  have hnd := Linked.nodup _ _ hq
  have hsuf : Linked w.next (Addr.part i) B := Linked.suffix A _ _ B hq
  obtain ⟨c, hcdef⟩ : ∃ c, c = lastOf (Addr.queue v) A := ⟨_, rfl⟩
  rw [← hcdef] at hc
  have hr2 := hfin (Addr.part i) w
  simp only at hr2
  obtain ⟨w1, hw1⟩ : ∃ w1 : World T U, w1 =
    (H.finalize (Addr.part i) w).2.record (Call.finalize (Addr.part i) false) := ⟨_, rfl⟩
  have hw1f : w1 = { w with calls := w.calls ++ [Call.finalize (Addr.part i) false],
                             user := (H.finalize (Addr.part i) w).2.user } := by
    rw [hw1, hr2]; rfl
  obtain ⟨w2, hw2⟩ : ∃ w2 : World T U, w2 = (match w1.next (Addr.part i) with
                | some n => setPrevious n (some c) w1
                | none => w1) := ⟨_, rfl⟩
  have hw2f : w2 = { w1 with previous := w2.previous } := by
    rw [hw2]
    cases w1.next (Addr.part i) with
    | none => rfl
    | some n => exact setPrevious_frame _ _ _
  obtain ⟨w3, hw3⟩ : ∃ w3 : World T U, w3 =
    { w2 with next := upd w2.next c (w2.next (Addr.part i)) } := ⟨_, rfl⟩
  have hf : EventStep.finalizePart H v w =
      H.leaveSimulation (Addr.part i) (w3.record (Call.leaveSimulation (Addr.part i))) := by
    have a1 : w1.vpart v = some (Addr.part i) := by rw [hw1f]; exact hp
    have a2 : w1.vprevious v = some c := by rw [hw1f]; exact hc
    simp only [EventStep.finalizePart, hp, hr, ← hw1, a1, a2, ← hw2]
    simp [hw3]
  have hl4 := hleave (Addr.part i) (w3.record (Call.leaveSimulation (Addr.part i)))
  have e3 : (EventStep.finalizePart H v w).next = upd w.next c (w.next (Addr.part i)) := by
    rw [hf, hl4, hw3, hw2f, hw1f]; rfl
  have e4 : (EventStep.finalizePart H v w).timed = w.timed := by
    rw [hf, hl4, hw3, hw2f, hw1f]; rfl
  have e5 : (EventStep.finalizePart H v w).visitor = w.visitor := by
    rw [hf, hl4, hw3, hw2f, hw1f]; rfl
  have e6 : (EventStep.finalizePart H v w).previous = w2.previous := by
    rw [hf, hl4, hw3]; rfl
  have hn1 : w1.next = w.next := by rw [hw1f]
  have hp1 : w1.previous = w.previous := by rw [hw1f]
  have ht1 : w1.timed = w.timed := by rw [hw1f]
  have e7 : (EventStep.finalizePart H v w).vprevious v = w.vprevious v := by
    rw [hf, hl4, hw3, hw2f, hw1f]; rfl
  have e8 : (EventStep.finalizePart H v w).vpart v = w.vpart v := by
    rw [hf, hl4, hw3, hw2f, hw1f]; rfl
  refine ⟨⟨?_, ?_⟩, by rw [e3, hcdef], e7, e8⟩
  · unfold IsQueue
    rw [e3, hcdef]
    exact Linked.remove A _ _ B hq
  · cases B with
    | nil =>
      have hnone : w.next (Addr.part i) = none := hsuf
      have hw2p : w2.previous = w.previous := by
        rw [hw2, hn1, hnone]; exact hp1
      refine BackLinked.remove_back w A _ (Addr.part i) [] hnd hb e4 e5 ?_ ?_
      · intro j _ _; rw [e6, hw2p]
      · intro j hj; simp at hj
    | cons b B =>
      obtain ⟨⟨j, hj, htj, _, _⟩, _⟩ := BackLinked.suffix_back A _ _ (b :: B) hb
      cases hj
      have hsome : w.next (Addr.part i) = some (Addr.part j) := hsuf.1
      have hw2p : w2.previous = upd w.previous j (some c) := by
        rw [hw2, hn1, hsome]
        simp only [setPrevious, ht1, htj, if_true, hp1]
      refine BackLinked.remove_back w A _ (Addr.part i) (Addr.part j :: B) hnd hb e4 e5 ?_ ?_
      · intro k _ hk
        have : k ≠ j := by
          intro e; subst e; simp at hk
        rw [e6, hw2p]
        simp [upd, this]
      · intro k hk
        simp only [List.head?_cons, Option.some.injEq, Addr.part.injEq] at hk
        subst hk
        rw [e6, hw2p, hcdef]
        simp [upd]

theorem EventStep.finalizePart_keep (H : Hooks T U)
    (hfin : ∀ p, KeepsRuntime (fun w => (H.finalize p w).2))
    (v : Nat) (w : World T U) (p : Addr) (hp : w.vpart v = some p)
    (hr : (H.finalize p w).1 = true) :
    EventStep.finalizePart H v w =
      { w with calls := w.calls ++ [Call.finalize p true], user := (H.finalize p w).2.user } := by
  have hr2 := hfin p w
  simp only at hr2
  have hf : EventStep.finalizePart H v w = (H.finalize p w).2.record (Call.finalize p true) := by
    simp only [EventStep.finalizePart, hp, hr, if_true]
  rw [hf, hr2]
  rfl

theorem finalizeLoop_wellLinked (H : Hooks T U) (e : Nat)
    (hfin : ∀ p, KeepsRuntime (fun w => (H.finalize p w).2))
    (hleave : ∀ p, KeepsRuntime (H.leaveSimulation p)) :
    ∀ (rest pre : List Addr) (w : World T U),
      w.vprevious e = some (lastOf (Addr.queue e) pre) →
      WellLinked w e (pre ++ rest) → ∀ fuel, rest.length < fuel →
      ∃ w1 rs, VisitorStep.visitLoop (EventStep.finalizePart H) e fuel w = some w1 ∧
        rs.length = rest.length ∧ WellLinked w1 e (pre ++ survivors rest rs) := by
  intro rest
  induction rest with
  | nil =>
    intro pre w hc hl fuel hfuel
    obtain ⟨n, rfl⟩ : ∃ n, fuel = n + 1 := ⟨fuel - 1, by simp at hfuel; omega⟩
    have hcur := Linked.cursor pre _ [] hl.1
    simp only [Linked] at hcur
    refine ⟨w, [], ?_, rfl, by simpa [survivors] using hl⟩
    simp [VisitorStep.visitLoop, hc, hcur]
  | cons p rest ih =>
    intro pre w hc hl fuel hfuel
    obtain ⟨n, rfl⟩ : ∃ n, fuel = n + 1 := ⟨fuel - 1, by simp at hfuel; omega⟩
    have hlen : rest.length < n := by simp at hfuel; omega
    obtain ⟨i, hi⟩ := BackLinked.isPart _ _ hl.2 p (by simp)
    subst hi
    have hcur := Linked.cursor pre _ _ hl.1
    obtain ⟨hcp, hrest⟩ := hcur
    have hpp : w.next (Addr.part i) ≠ some (Addr.part i) := by
      intro hh
      cases rest with
      | nil => simp only [Linked] at hrest; rw [hrest] at hh; cases hh
      | cons q rest =>
        have h1 := hrest.1
        rw [hh] at h1
        cases h1
        exact hrest.not_mem (List.mem_cons_self _ _)
    obtain ⟨w0, hw0⟩ : ∃ w0 : World T U, w0 = w.atPart e (Addr.part i) := ⟨_, rfl⟩
    have hw0p : w0.vpart e = some (Addr.part i) := by simp [hw0, upd, World.atPart]
    have hw0c : w0.vprevious e = some (lastOf (Addr.queue e) pre) := by rw [hw0]; exact hc
    have hw0n : w0.next = w.next := by rw [hw0]; rfl
    have hl0 : WellLinked w0 e (pre ++ Addr.part i :: rest) :=
      hl.congr w0 hw0n (by rw [hw0]; rfl) (by rw [hw0]; rfl) (by rw [hw0]; rfl)
    cases hr : (H.finalize (Addr.part i) w0).1 with
    | true =>
      have hf := EventStep.finalizePart_keep H hfin e w0 (Addr.part i) hw0p hr
      have e1 : (EventStep.finalizePart H e w0).vprevious e =
          some (lastOf (Addr.queue e) pre) := by
        rw [hf]; exact hw0c
      have e2 : (EventStep.finalizePart H e w0).vpart e = some (Addr.part i) := by
        rw [hf]; exact hw0p
      have e3 : (EventStep.finalizePart H e w0).next = w.next := by
        rw [hf, hw0]; rfl
      have hadv := visitLoop_advance (EventStep.finalizePart H) e n w _ (Addr.part i) _ hc hcp
        (by rw [← hw0]; exact e1) (by rw [← hw0, e3, e2]; exact hcp)
      rw [← hw0] at hadv
      have hl1 : WellLinked (EventStep.finalizePart H e w0) e (pre ++ Addr.part i :: rest) :=
        hl0.congr _ (by rw [hf]) (by rw [hf]) (by rw [hf]) (by rw [hf])
      obtain ⟨w1, rs, h1, h2, h3⟩ := ih (pre ++ [Addr.part i])
        { EventStep.finalizePart H e w0 with
          vprevious := upd (EventStep.finalizePart H e w0).vprevious e
            ((EventStep.finalizePart H e w0).vpart e) }
        (by simp [upd, lastOf_append_singleton, e2])
        (by
          have := hl1.congr { EventStep.finalizePart H e w0 with
            vprevious := upd (EventStep.finalizePart H e w0).vprevious e
              ((EventStep.finalizePart H e w0).vpart e) } rfl rfl rfl rfl
          simpa using this) n hlen
      refine ⟨w1, true :: rs, by rw [hadv]; exact h1, by simp [h2], ?_⟩
      simpa [survivors] using h3
    | false =>
      obtain ⟨g1, g2, g3, g4⟩ := EventStep.finalizePart_unlink H hfin hleave e w0 pre rest i hl0
        hw0c hw0p hr
      have hstay := visitLoop_stay (EventStep.finalizePart H) e n w _ (Addr.part i) _ hc hcp
        (by rw [← hw0, g3]; exact hw0c)
        (by rw [← hw0, g2, g4, hw0p, hw0n]; simpa [upd] using hpp)
      rw [← hw0] at hstay
      obtain ⟨w5, rs, h1, h2, h3⟩ := ih pre (EventStep.finalizePart H e w0)
        (by rw [g3]; exact hw0c) g1 n hlen
      refine ⟨w5, false :: rs, by rw [hstay]; exact h1, by simp [h2], ?_⟩
      simpa [survivors] using h3

/-- C32. The invariant of a queue of `PartTime` parts is `WellLinked w v l`: the
queue of `VisitorStep` `v` holds the parts `l`, and every part of `l` is a
`PartTime` whose `visitor` is `v` and whose `previous` is the part before it,
the sentinel `queue` for the head.  An empty queue has the invariant.  For a
part `i` of a queue that has it, `previous->next` is the part itself and
`visitor` is `v`; `PartTime::dequeue` of the part returns and leaves the
invariant with the queue less the part, and so does the unlink of the visitor
function in the last pass of `EventStep::run` when the part is the current one,
the cursor is on the part before it and `finalize` returns `false`.
`VisitorStep::enqueue` of a `PartTime` part that is not in the queue leaves the
invariant with the part at the head, and the whole last pass of `EventStep::run`
leaves it with the parts whose `finalize` returned `true`.  The hooks `finalize`
and `leaveSimulation` change the state of the model code only. -/
theorem C32_queue_back_links (H : Hooks T U) (v : Nat)
    (hfin : ∀ p, KeepsRuntime (fun w => (H.finalize p w).2))
    (hleave : ∀ p, KeepsRuntime (H.leaveSimulation p)) :
    (∀ w : World T U, w.next (Addr.queue v) = none → WellLinked w v []) ∧
    (∀ (w : World T U) (A B : List Addr) (i : Nat), WellLinked w v (A ++ Addr.part i :: B) →
      (∃ a, w.previous i = some a ∧ w.next a = some (Addr.part i) ∧ w.visitor i = some v ∧
        a = lastOf (Addr.queue v) A) ∧
      (∃ wd, PartTime.dequeue i w = some wd ∧ WellLinked wd v (A ++ B)) ∧
      (w.vprevious v = some (lastOf (Addr.queue v) A) → w.vpart v = some (Addr.part i) →
        (H.finalize (Addr.part i) w).1 = false →
        WellLinked (EventStep.finalizePart H v w) v (A ++ B))) ∧
    (∀ (w : World T U) (l : List Addr) (i : Nat), WellLinked w v l → w.timed i = true →
      Addr.part i ∉ l →
      WellLinked (VisitorStep.enqueue v (Addr.part i) w) v (Addr.part i :: l)) ∧
    (∀ (w : World T U) (l : List Addr) (fuel : Nat), WellLinked w v l → l.length < fuel →
      ∃ w1 rs, EventStep.visit (EventStep.finalizePart H) v fuel w = some w1 ∧
        rs.length = l.length ∧ WellLinked w1 v (survivors l rs)) := by
  refine ⟨fun w h => ⟨h, trivial⟩, ?_, ?_, ?_⟩
  · intro w A B i h
    refine ⟨WellLinked.previous_next A B i h, ?_, ?_⟩
    · obtain ⟨wd, h1, h2, _⟩ := PartTime.dequeue_spec w v A B i h
      exact ⟨wd, h1, h2⟩
    · intro hc hp hr
      exact (EventStep.finalizePart_unlink H hfin hleave v w A B i h hc hp hr).1
  · intro w l i h ht hp
    exact VisitorStep.enqueue_wellLinked v i w l h ht hp
  · intro w l fuel h hfuel
    have hw : WellLinked { w with vprevious := upd w.vprevious v (some (Addr.queue v)) } v
        ([] ++ l) := h.congr _ rfl rfl rfl rfl
    exact finalizeLoop_wellLinked H v hfin hleave l []
      { w with vprevious := upd w.vprevious v (some (Addr.queue v)) }
      (by simp [upd, lastOf]) hw fuel hfuel

theorem C32_witness :
    (∃ a, exampleTimed.previous 2 = some a ∧ exampleTimed.next a = some (Addr.part 2) ∧
      exampleTimed.visitor 2 = some 0 ∧ a = lastOf (Addr.queue 0) [Addr.part 1]) ∧
    (∃ wd, PartTime.dequeue 2 exampleTimed = some wd ∧
      WellLinked wd 0 ([Addr.part 1] ++ [Addr.part 3])) ∧
    WellLinked (EventStep.finalizePart exampleHooks 0 exampleCursor) 0
      ([Addr.part 1] ++ [Addr.part 3]) ∧
    WellLinked (VisitorStep.enqueue 0 (Addr.part 4) exampleTimed) 0
      (Addr.part 4 :: ([Addr.part 1] ++ Addr.part 2 :: [Addr.part 3])) ∧
    (∃ w1 rs, EventStep.visit (EventStep.finalizePart exampleHooks) 0 4 exampleTimed = some w1 ∧
      rs.length = ([Addr.part 1] ++ Addr.part 2 :: [Addr.part 3]).length ∧
      WellLinked w1 0 (survivors ([Addr.part 1] ++ Addr.part 2 :: [Addr.part 3]) rs)) :=
  have hw : WellLinked exampleTimed 0 ([Addr.part 1] ++ Addr.part 2 :: [Addr.part 3]) := by
    simp [WellLinked, IsQueue, Linked, BackLinked, exampleTimed, exampleQueue, upd]
  have hw2 : WellLinked exampleCursor 0 ([Addr.part 1] ++ Addr.part 2 :: [Addr.part 3]) :=
    hw.congr _ rfl rfl rfl rfl
  have h := C32_queue_back_links exampleHooks 0 (fun _ _ => rfl) (fun _ _ => rfl)
  ⟨(h.2.1 exampleTimed [Addr.part 1] [Addr.part 3] 2 hw).1,
    (h.2.1 exampleTimed [Addr.part 1] [Addr.part 3] 2 hw).2.1,
    (h.2.1 exampleCursor [Addr.part 1] [Addr.part 3] 2 hw2).2.2 rfl rfl rfl,
    h.2.2.1 exampleTimed _ 4 hw rfl (by decide),
    h.2.2.2 exampleTimed _ 4 hw (by decide)⟩

/-! ### Population::connect and the values of getMin -/

theorem PopWorld.Alike.self (w : PopWorld T U) : PopWorld.Alike w w :=
  ⟨rfl, rfl, rfl, rfl, rfl, rfl, rfl, rfl, rfl⟩

theorem PopWorld.Alike.pair {w w1 : PopWorld T U} (h : PopWorld.Alike w w1) :
    (w1.bound 0, w1.bound 1) = (w.bound 0, w.bound 1) := by
  rw [h.bound]

theorem PopWorld.Alike.then {w w1 w2 : PopWorld T U} (h : PopWorld.Alike w w1)
    (h2 : PopWorld.Alike w1 w2) : PopWorld.Alike w w2 :=
  ⟨h2.after.trans h.after, h2.before.trans h.before, h2.old.trans h.old, h2.dead.trans h.dead,
    h2.next.trans h.next, h2.bound.trans h.bound, h2.proposed.trans h.proposed,
    h2.accepted.trans h.accepted, h2.user.trans h.user⟩

theorem PopHooks.Agree.withMin {H : PopHooks T U} (hb : H.Blind)
    (g : Nat → Nat → PopWorld T U → Int) : PopHooks.Agree H (H.withMin g) :=
  ⟨hb.create, hb.delete, hb.setPart, hb.getCount, hb.getP, hb.uniform, hb.enterSimulation,
    hb.enqueue, hb.init⟩

theorem Population.setPart_alike {H H1 : PopHooks T U} (hh : PopHooks.Agree H H1)
    {c c1 : Node} (hc : c1 = c) {i i1 : Nat} (hi : i1 = i) (p : Node) {w w1 : PopWorld T U}
    (h : PopWorld.Alike w w1) :
    PopWorld.Alike (Population.setPart H c i p w) (Population.setPart H1 c1 i1 p w1) := by
  subst hc
  subst hi
  exact ⟨h.after, h.before, h.old, h.dead, h.next,
    congrArg (fun f => upd f i1 (some p)) h.bound, h.proposed, h.accepted,
    hh.setPart c1 i1 p w w1 h⟩

theorem Population.getCount_alike {H H1 : PopHooks T U} (hh : PopHooks.Agree H H1)
    (c : Node) (i : Nat) {w w1 : PopWorld T U} (h : PopWorld.Alike w w1) :
    (Population.getCount H1 c i w1).1 = (Population.getCount H c i w).1 ∧
      PopWorld.Alike (Population.getCount H c i w).2 (Population.getCount H1 c i w1).2 :=
  ⟨show (H1.getCount c i w1).1 = (H.getCount c i w).1 from
      congrArg Prod.fst (hh.getCount c i w w1 h),
    ⟨h.after, h.before, h.old, h.dead, h.next, h.bound, h.proposed, h.accepted,
      congrArg Prod.snd (hh.getCount c i w w1 h)⟩⟩

theorem Population.getCount_alike2 {H H1 : PopHooks T U} (hh : PopHooks.Agree H H1)
    {c c1 : Node} (hc : c1 = c) {i i1 : Nat} (hi : i1 = i) {w w1 : PopWorld T U}
    (h : PopWorld.Alike w w1) :
    (Population.getCount H1 c1 i1 w1).1 = (Population.getCount H c i w).1 ∧
      PopWorld.Alike (Population.getCount H c i w).2 (Population.getCount H1 c1 i1 w1).2 := by
  subst hc
  subst hi
  exact Population.getCount_alike hh c1 i1 h

theorem Population.getCount_quiet {H : PopHooks T U}
    (hq : ∀ c i (w : PopWorld T U), (H.getCount c i w).2 = w.user)
    (c : Node) (i : Nat) (w : PopWorld T U) :
    PopWorld.Alike w (Population.getCount H c i w).2 :=
  ⟨rfl, rfl, rfl, rfl, rfl, rfl, rfl, rfl, hq c i w⟩

theorem Population.getP_alike {H H1 : PopHooks T U} (hh : PopHooks.Agree H H1)
    (c : Node) {w w1 : PopWorld T U} (h : PopWorld.Alike w w1) :
    (Population.getP H1 c w1).1 = (Population.getP H c w).1 ∧
      PopWorld.Alike (Population.getP H c w).2 (Population.getP H1 c w1).2 :=
  ⟨show (H1.getP c w1).1 = (H.getP c w).1 from congrArg Prod.fst (hh.getP c w w1 h),
    ⟨h.after, h.before, h.old, h.dead, h.next, h.bound,
      congrArg₂ (fun a b => a ++ [b]) h.proposed h.pair, h.accepted,
      congrArg Prod.snd (hh.getP c w w1 h)⟩⟩

theorem Population.uniform_alike {H H1 : PopHooks T U} (hh : PopHooks.Agree H H1)
    {w w1 : PopWorld T U} (h : PopWorld.Alike w w1) :
    (Population.uniform H1 w1).1 = (Population.uniform H w).1 ∧
      PopWorld.Alike (Population.uniform H w).2 (Population.uniform H1 w1).2 :=
  ⟨show (H1.uniform w1).1 = (H.uniform w).1 from congrArg Prod.fst (hh.uniform w w1 h),
    ⟨h.after, h.before, h.old, h.dead, h.next, h.bound, h.proposed, h.accepted,
      congrArg Prod.snd (hh.uniform w w1 h)⟩⟩

theorem Population.reject_alike [TimeLike T] {H H1 : PopHooks T U} (hh : PopHooks.Agree H H1)
    (g : T) {w w1 : PopWorld T U} (h : PopWorld.Alike w w1) :
    (Population.reject H1 g w1).1 = (Population.reject H g w).1 ∧
      PopWorld.Alike (Population.reject H g w).2 (Population.reject H1 g w1).2 := by
  unfold Population.reject
  split_ifs
  · exact ⟨rfl, h⟩
  · obtain ⟨h1, h2⟩ := Population.uniform_alike hh h
    exact ⟨by simp only [h1], h2⟩
  · exact ⟨rfl, h⟩

theorem Population.enter_alike {H H1 : PopHooks T U} (hh : PopHooks.Agree H H1)
    (p c : Node) {w w1 : PopWorld T U} (h : PopWorld.Alike w w1) :
    PopWorld.Alike (Population.enter H p c w) (Population.enter H1 p c w1) :=
  ⟨h.after, h.before, h.old, h.dead, h.next, h.bound, h.proposed,
    congrArg₂ (fun a b => a ++ [b]) h.accepted h.pair,
    hh.init c _ _ ⟨h.after, h.before, h.old, h.dead, h.next, h.bound, h.proposed,
      congrArg₂ (fun a b => a ++ [b]) h.accepted h.pair,
      hh.enqueue p c _ _ ⟨h.after, h.before, h.old, h.dead, h.next, h.bound, h.proposed,
        congrArg₂ (fun a b => a ++ [b]) h.accepted h.pair, hh.enterSimulation c w w1 h⟩⟩⟩

theorem Population.create_alike {H H1 : PopHooks T U} (hh : PopHooks.Agree H H1)
    (P : Nat) {w w1 : PopWorld T U} (h : PopWorld.Alike w w1) :
    (Population.create H1 P w1).1 = (Population.create H P w).1 ∧
      PopWorld.Alike (Population.create H P w).2 (Population.create H1 P w1).2 :=
  ⟨show (H1.create P w1).1 = (H.create P w).1 from congrArg Prod.fst (hh.create P w w1 h),
    ⟨h.after, h.before, h.old, h.dead, h.next, rfl, h.proposed, h.accepted,
      congrArg Prod.snd (hh.create P w w1 h)⟩⟩

theorem Population.offer_alike [TimeLike T] {H H1 : PopHooks T U} (hh : PopHooks.Agree H H1)
    (P : Nat) {k k1 : Walk} (hk : Walk.Alike k k1) (p b : Node) {s s1 : Scan}
    (hs : Scan.Alike k s s1) {w w1 : PopWorld T U} (h : PopWorld.Alike w w1) :
    Scan.Alike k (Population.offer H P k p b s w).1 (Population.offer H1 P k1 p b s1 w1).1 ∧
      PopWorld.Alike (Population.offer H P k p b s w).2.1
        (Population.offer H1 P k1 p b s1 w1).2.1 ∧
      (Population.offer H1 P k1 p b s1 w1).2.2 = (Population.offer H P k p b s w).2.2 := by
  obtain ⟨hk1, hk2, hk3, hk4⟩ := hk
  obtain ⟨c, cur, nxt, n⟩ := s
  obtain ⟨c1, cur1, nxt1, n1⟩ := s1
  obtain ⟨hs1, hs2, hs3, hs4⟩ := hs
  simp only at hs1 hs2 hs3 hs4
  subst hs1 hs2 hs3
  obtain ⟨hg1, hg2⟩ := Population.getP_alike hh c1 h
  obtain ⟨hj1, hj2⟩ := Population.reject_alike hh (Population.getP H c1 w).1 hg2
  have hcond : (Population.reject H1 (Population.getP H1 c1 w1).1
      (Population.getP H1 c1 w1).2).1 =
      (Population.reject H (Population.getP H c1 w).1 (Population.getP H c1 w).2).1 := by
    rw [hg1]; exact hj1
  have hw : PopWorld.Alike
      (Population.reject H (Population.getP H c1 w).1 (Population.getP H c1 w).2).2
      (Population.reject H1 (Population.getP H1 c1 w1).1 (Population.getP H1 c1 w1).2).2 := by
    rw [hg1]; exact hj2
  have hw2 := Population.enter_alike hh p c1 hw
  obtain ⟨hc, hw3⟩ := Population.create_alike hh P hw2
  have hw4 := Population.setPart_alike hh hc hk1 p hw3
  simp only [Population.offer, hcond, hk3]
  by_cases hj : (Population.reject H (Population.getP H c1 w).1 (Population.getP H c1 w).2).1
      = true
  · simp only [hj, if_true]
    exact ⟨⟨rfl, rfl, rfl, hs4⟩, hw, by trivial⟩
  · simp only [hj, if_false]
    by_cases hm : k.outerMax = 0
    · simp only [hm, ne_eq, not_true_eq_false, if_false]
      exact ⟨⟨hc, rfl, rfl, fun h0 => absurd hm h0⟩, hw4, by trivial⟩
    · simp only [ne_eq, hm, not_false_eq_true, if_true]
      have hn := hs4 hm
      subst hn
      exact ⟨⟨hc, rfl, rfl, fun _ => rfl⟩, hw4, by trivial⟩

theorem Population.scanBody_alike [TimeLike T] {H H1 : PopHooks T U} (hh : PopHooks.Agree H H1)
    (P : Nat) {k k1 : Walk} (hk : Walk.Alike k k1) (p b : Node) {s s1 : Scan}
    (hs : Scan.Alike k s s1) {w w1 : PopWorld T U} (h : PopWorld.Alike w w1) :
    Scan.Alike k (Population.scanBody H P k p b s w).1
        (Population.scanBody H1 P k1 p b s1 w1).1 ∧
      PopWorld.Alike (Population.scanBody H P k p b s w).2.1
        (Population.scanBody H1 P k1 p b s1 w1).2.1 ∧
      (Population.scanBody H1 P k1 p b s1 w1).2.2 = (Population.scanBody H P k p b s w).2.2 := by
  have hw1 := Population.setPart_alike hh hs.1 hk.2.1 b h
  obtain ⟨hn, hw2⟩ := Population.getCount_alike2 hh hs.1 hk.2.1 hw1
  simp only [Population.scanBody, hk.2.2.2]
  by_cases hm : k.innerMax = 0
  · simp only [hm, ne_eq, not_true_eq_false, if_false]
    exact Population.offer_alike hh P hk p b hs hw1
  · simp only [ne_eq, hm, not_false_eq_true, if_true, hn]
    split_ifs
    · exact ⟨⟨hs.1, rfl, hs.2.2.1, hs.2.2.2⟩, hw2, by trivial⟩
    · exact Population.offer_alike hh P hk p b hs hw2

theorem PopWorld.Alike.flip {w w1 : PopWorld T U} (h : PopWorld.Alike w w1) :
    PopWorld.Alike w1 w :=
  ⟨h.after.symm, h.before.symm, h.old.symm, h.dead.symm, h.next.symm, h.bound.symm,
    h.proposed.symm, h.accepted.symm, h.user.symm⟩

theorem Population.scanList_alike [TimeLike T] {H H1 : PopHooks T U} (hh : PopHooks.Agree H H1)
    (P : Nat) {k k1 : Walk} (hk : Walk.Alike k k1) (p : Node) :
    ∀ (l : List Node) {s s1 : Scan}, Scan.Alike k s s1 → ∀ {w w1 : PopWorld T U},
      PopWorld.Alike w w1 →
      Scan.Alike k (Population.scanList H P k p l s w).1
          (Population.scanList H1 P k1 p l s1 w1).1 ∧
        PopWorld.Alike (Population.scanList H P k p l s w).2
          (Population.scanList H1 P k1 p l s1 w1).2
  | [], _, _, hs, _, _, h => ⟨hs, h⟩
  | b :: bs, s, s1, hs, w, w1, h => by
    obtain ⟨a1, a2, a3⟩ := Population.scanBody_alike hh P hk p b hs h
    simp only [Population.scanList, a3]
    by_cases hbr : (Population.scanBody H P k p b s w).2.2 = true
    · simp only [hbr, if_true]
      exact ⟨a1, a2⟩
    · simp only [hbr, if_false]
      exact Population.scanList_alike hh P hk p bs a1 a2

/-- The count read at the start of the body of an outer loop: when the cap is
zero the two walks may differ in calling `getCount`, which leaves the state of
the model code as it is. -/
theorem Population.count_alike {H H1 : PopHooks T U} (hh : PopHooks.Agree H H1)
    (hq : ∀ c i (w : PopWorld T U), (H.getCount c i w).2 = w.user)
    {k k1 : Walk} (hk : Walk.Alike k k1) (c : Node) {w w1 : PopWorld T U}
    (h : PopWorld.Alike w w1) :
    PopWorld.Alike
        (if k.outerMax ≠ 0 ∨ k.outerMin ≠ 0 then Population.getCount H c k.outerIndex w
          else (0, w)).2
        (if k1.outerMax ≠ 0 ∨ k1.outerMin ≠ 0 then Population.getCount H1 c k1.outerIndex w1
          else (0, w1)).2 ∧
      (k.outerMax ≠ 0 →
        (if k1.outerMax ≠ 0 ∨ k1.outerMin ≠ 0 then Population.getCount H1 c k1.outerIndex w1
          else (0, w1)).1 =
        (if k.outerMax ≠ 0 ∨ k.outerMin ≠ 0 then Population.getCount H c k.outerIndex w
          else (0, w)).1) := by
  obtain ⟨hk1, hk2, hk3, hk4⟩ := hk
  have hq1 : ∀ c i (w : PopWorld T U), (H1.getCount c i w).2 = w.user := by
    intro c i w
    rw [hh.getCount c i w w (PopWorld.Alike.self w)]
    exact hq c i w
  obtain ⟨hn, hw⟩ := Population.getCount_alike2 hh (rfl : c = c) hk1 h
  by_cases hm : k.outerMax = 0
  · have hl : PopWorld.Alike
        (if k.outerMax ≠ 0 ∨ k.outerMin ≠ 0 then Population.getCount H c k.outerIndex w
          else (0, w)).2 w := by
      split_ifs
      · exact (Population.getCount_quiet hq c k.outerIndex w).flip
      · exact PopWorld.Alike.self w
    have hr : PopWorld.Alike w1
        (if k1.outerMax ≠ 0 ∨ k1.outerMin ≠ 0 then Population.getCount H1 c k1.outerIndex w1
          else (0, w1)).2 := by
      split_ifs
      · exact Population.getCount_quiet hq1 c k1.outerIndex w1
      · exact PopWorld.Alike.self w1
    exact ⟨(hl.then h).then hr, fun h0 => absurd hm h0⟩
  · have e1 : (k.outerMax ≠ 0 ∨ k.outerMin ≠ 0) := Or.inl hm
    have e2 : (k1.outerMax ≠ 0 ∨ k1.outerMin ≠ 0) := Or.inl (by rw [hk3]; exact hm)
    rw [if_pos e1, if_pos e2]
    exact ⟨hw, fun _ => hn⟩

theorem Population.passBodyList_alike [TimeLike T] {H H1 : PopHooks T U}
    (hh : PopHooks.Agree H H1)
    (hq : ∀ c i (w : PopWorld T U), (H.getCount c i w).2 = w.user)
    (P : Nat) {k k1 : Walk} (hk : Walk.Alike k k1) (R : List Node) (p : Node) (v : Vars)
    {w w1 : PopWorld T U} (h : PopWorld.Alike w w1) :
    (Population.passBodyList H1 P k1 R p v w1).1 = (Population.passBodyList H P k R p v w).1 ∧
      PopWorld.Alike (Population.passBodyList H P k R p v w).2
        (Population.passBodyList H1 P k1 R p v w1).2 := by
  have hw1 := Population.setPart_alike hh (rfl : v.c = v.c) hk.1 p h
  obtain ⟨hn2, hn1⟩ := Population.count_alike hh hq hk v.c hw1
  obtain ⟨N, hN⟩ : ∃ N : Int × PopWorld T U, N =
      (if k.outerMax ≠ 0 ∨ k.outerMin ≠ 0
        then Population.getCount H v.c k.outerIndex (Population.setPart H v.c k.outerIndex p w)
        else (0, Population.setPart H v.c k.outerIndex p w)) := ⟨_, rfl⟩
  obtain ⟨N1, hN1⟩ : ∃ N1 : Int × PopWorld T U, N1 =
      (if k1.outerMax ≠ 0 ∨ k1.outerMin ≠ 0
        then Population.getCount H1 v.c k1.outerIndex
          (Population.setPart H1 v.c k1.outerIndex p w1)
        else (0, Population.setPart H1 v.c k1.outerIndex p w1)) := ⟨_, rfl⟩
  rw [← hN, ← hN1] at hn2 hn1
  simp only [Population.passBodyList]
  rw [← hN, ← hN1]
  by_cases hm : k.outerMax = 0
  · have hm1 : k1.outerMax = 0 := by rw [hk.2.2.1]; exact hm
    simp only [hm, hm1, ne_eq, not_true_eq_false, false_and, if_false]
    obtain ⟨b1, b2⟩ := Population.scanList_alike hh P hk p (candidates R v.last)
      (⟨rfl, rfl, rfl, fun h0 => absurd hm h0⟩ : Scan.Alike k
        ⟨v.c, v.last, cyclicPrev R v.last, N.1⟩ ⟨v.c, v.last, cyclicPrev R v.last, N1.1⟩) hn2
    exact ⟨by rw [b1.1, b1.2.2.1], b2⟩
  · have hn := hn1 hm
    rw [hk.2.2.1, hn]
    by_cases hge : k.outerMax ≠ 0 ∧ N.1 ≥ k.outerMax
    · rw [if_pos hge, if_pos hge]
      exact ⟨rfl, hn2⟩
    · rw [if_neg hge, if_neg hge]
      obtain ⟨b1, b2⟩ := Population.scanList_alike hh P hk p (candidates R v.last)
        (⟨rfl, rfl, rfl, fun _ => rfl⟩ : Scan.Alike k
          ⟨v.c, v.last, cyclicPrev R v.last, N.1⟩ ⟨v.c, v.last, cyclicPrev R v.last, N.1⟩) hn2
      exact ⟨by rw [b1.1, b1.2.2.1], b2⟩

theorem Population.passList_alike [TimeLike T] {H H1 : PopHooks T U}
    (hh : PopHooks.Agree H H1)
    (hq : ∀ c i (w : PopWorld T U), (H.getCount c i w).2 = w.user)
    (P : Nat) {k k1 : Walk} (hk : Walk.Alike k k1) (R : List Node) :
    ∀ (ps : List Node) (v : Vars) {w w1 : PopWorld T U}, PopWorld.Alike w w1 →
      (Population.passList H1 P k1 R ps v w1).1 = (Population.passList H P k R ps v w).1 ∧
        PopWorld.Alike (Population.passList H P k R ps v w).2
          (Population.passList H1 P k1 R ps v w1).2
  | [], _, _, _, h => ⟨rfl, h⟩
  | p :: ps, v, w, w1, h => by
    obtain ⟨a1, a2⟩ := Population.passBodyList_alike hh hq P hk R p v h
    simp only [Population.passList, a1]
    exact Population.passList_alike hh hq P hk R ps _ a2

theorem Population.connectTail_alike [TimeLike T] {H H1 : PopHooks T U}
    (hh : PopHooks.Agree H H1)
    (hq : ∀ c i (w : PopWorld T U), (H.getCount c i w).2 = w.user)
    (P A B : Nat) (newA oldA newB RB : List Node) (Amin Amin1 Amax Bmin Bmin1 Bmax : Int)
    {c c1 : Node} (hc : c1 = c) {w w1 : PopWorld T U} (h : PopWorld.Alike w w1) :
    let r1 := Population.passList H P (Walk.newA B Amin Amax Bmax) RB newA
      ⟨c, RB.headD (Node.live B)⟩ w
    let r2 := if oldA = [] then r1
      else Population.passList H P (Walk.newB A Bmin Bmax Amax) oldA newB
        ⟨r1.1.c, oldA.headD (Node.live A)⟩ r1.2
    let q1 := Population.passList H1 P (Walk.newA B Amin1 Amax Bmax) RB newA
      ⟨c1, RB.headD (Node.live B)⟩ w1
    let q2 := if oldA = [] then q1
      else Population.passList H1 P (Walk.newB A Bmin1 Bmax Amax) oldA newB
        ⟨q1.1.c, oldA.headD (Node.live A)⟩ q1.2
    PopWorld.Alike (r2.2.call (PopCall.delete r2.1.c) (H.delete r2.1.c r2.2))
      (q2.2.call (PopCall.delete q2.1.c) (H1.delete q2.1.c q2.2)) := by
  intro r1 r2 q1 q2
  subst hc
  have hk1 : Walk.Alike (Walk.newA B Amin Amax Bmax) (Walk.newA B Amin1 Amax Bmax) :=
    ⟨rfl, rfl, rfl, rfl⟩
  have hk2 : Walk.Alike (Walk.newB A Bmin Bmax Amax) (Walk.newB A Bmin1 Bmax Amax) :=
    ⟨rfl, rfl, rfl, rfl⟩
  obtain ⟨a1, a2⟩ : q1.1 = r1.1 ∧ PopWorld.Alike r1.2 q1.2 :=
    Population.passList_alike hh hq P hk1 RB newA _ h
  have hr2 : q2.1 = r2.1 ∧ PopWorld.Alike r2.2 q2.2 := by
    by_cases ho : oldA = []
    · simp only [r2, q2, ho, if_true]
      exact ⟨a1, a2⟩
    · simp only [r2, q2, ho, if_false]
      rw [a1]
      exact Population.passList_alike hh hq P hk2 oldA newB _ a2
  obtain ⟨b1, b2⟩ := hr2
  have hu : H1.delete q2.1.c q2.2 = H.delete r2.1.c r2.2 := by
    rw [b1]
    exact hh.delete _ _ _ b2
  exact ⟨b2.after, b2.before, b2.old, b2.dead, b2.next, b2.bound, b2.proposed, b2.accepted, hu⟩

/-- The store that `Population::connect` leaves does not depend on what `getMin`
returns, but for the record of calls: when `getMax` is zero, `getCount` is
called exactly when `getMin` is not zero. -/
theorem Population.connectList_getMin [TimeLike T] {H : PopHooks T U} (hb : H.Blind)
    (hq : ∀ c i (w : PopWorld T U), (H.getCount c i w).2 = w.user)
    (g : Nat → Nat → PopWorld T U → Int) (P A B : Nat) (newA oldA newB RB : List Node)
    (w : PopWorld T U) :
    PopWorld.Alike (Population.connectList H P A B newA oldA newB RB w)
      (Population.connectList (H.withMin g) P A B newA oldA newB RB w) := by
  have hh := PopHooks.Agree.withMin hb g
  obtain ⟨w2, hw2⟩ : ∃ w2 : PopWorld T U, w2 =
      ((((((w.call (PopCall.getTarget 0) w.user).call (PopCall.getTarget 1) w.user).call
        (PopCall.getMin 0) w.user).call (PopCall.getMax 0) w.user).call
        (PopCall.getMin 1) w.user).call (PopCall.getMax 1) w.user) := ⟨_, rfl⟩
  obtain ⟨hc, hr⟩ := Population.create_alike hh P (PopWorld.Alike.self w2)
  rw [hw2] at hc hr
  exact Population.connectTail_alike hh hq P A B newA oldA newB RB _ _ _ _ _ _ hc hr

/-- The loop `while (! minSatisfied)` of `Population::connect` runs its body
once: with two units of fuel it returns what the body leaves, whatever the
values of `Amin` and `Bmin`. -/
theorem Population.rounds_once [TimeLike T] (H : PopHooks T U) (P A B : Nat)
    (Amin Amax Bmin Bmax : Int) (inner fuel : Nat) (c Alast Blast : Node) (w : PopWorld T U) :
    Population.rounds H P A B Amin Amax Bmin Bmax inner (fuel + 2) false c Alast Blast w =
      (Population.round H P A B Amin Amax Bmin Bmax inner c Alast Blast w).map
        (fun r => (r.1, r.2.2.2)) := by
  simp only [Population.rounds]
  cases Population.round H P A B Amin Amax Bmin Bmax inner c Alast Blast w with
  | none => rfl
  | some r => rfl

/-- `Population::connect` returns, for rings of `A` and `B` in any state and any
hooks, and the store it leaves does not depend on what `getMin` returns, but
for the record of calls. -/
theorem Population.connect_getMin [TimeLike T] (H : PopHooks T U) (hb : H.Blind)
    (hq : ∀ c i (w : PopWorld T U), (H.getCount c i w).2 = w.user)
    (g : Nat → Nat → PopWorld T U → Int) (P A B : Nat)
    (newA oldA newB oldB : List Node) (w : PopWorld T U) (fuel : Nat)
    (hA : H.getTarget P 0 w = some A) (hB : H.getTarget P 1 w = some B)
    (hHA : w.Holds A newA oldA) (hHB : w.Holds B newB oldB)
    (hfuel : (newA ++ oldA).length + (newB ++ oldB).length + 2 ≤ fuel) :
    ∃ w1 w2, Population.connect H P fuel w = some w1 ∧
      Population.connect (H.withMin g) P fuel w = some w2 ∧ PopWorld.Alike w1 w2 := by
  by_cases hnew : newA = [] ∧ newB = []
  · have h1 := Population.connect_at_once H P fuel w (Or.inr (Or.inr ⟨A, B, hA, hB,
      hHA.old_eq_after.2 hnew.1, hHB.old_eq_after.2 hnew.2⟩))
    have h2 := Population.connect_at_once (H.withMin g) P fuel w (Or.inr (Or.inr ⟨A, B, hA, hB,
      hHA.old_eq_after.2 hnew.1, hHB.old_eq_after.2 hnew.2⟩))
    exact ⟨_, _, h1, h2, PopWorld.Alike.self _⟩
  · have h1 := Population.connect_eq H P A B newA oldA newB oldB w fuel hA hB hHA hHB hnew hfuel
    have h2 := Population.connect_eq (H.withMin g) P A B newA oldA newB oldB w fuel hA hB hHA
      hHB hnew hfuel
    exact ⟨_, _, h1, h2, Population.connectList_getMin hb hq g P A B newA oldA newB _ w⟩

theorem exampleModel_blind (cap : Int) (p : Nat) : (exampleModel cap p).Blind := by
  refine ⟨?_, ?_, ?_, ?_, ?_, ?_, ?_, ?_, ?_⟩
  · intro P w w1 h
    simp only [exampleModel, h.user]
  · intro c w w1 h
    exact h.user
  · intro c i q w w1 h
    exact h.user
  · intro c i w w1 h
    simp only [exampleModel, PopWorld.degree, h.user, h.accepted, h.bound]
  · intro c w w1 h
    simp only [exampleModel, h.user]
  · intro w w1 h
    simp only [exampleModel, h.user]
  · intro c w w1 h
    exact h.user
  · intro q c w w1 h
    exact h.user
  · intro c w w1 h
    exact h.user

/-- Example of `Population.connect_getMin`: with one new part in `A` and one in
`B`, `connect` creates the same connection whether `getMin` returns `0` or `5`. -/
theorem Population.connect_getMin_example :
    ∃ w1 w2, Population.connect (exampleModel 0 1) 0 4
        (exampleRings [1] (Node.live 1) [11] (Node.live 2)) = some w1 ∧
      Population.connect ((exampleModel 0 1).withMin (fun _ _ _ => 5)) 0 4
        (exampleRings [1] (Node.live 1) [11] (Node.live 2)) = some w2 ∧
      w2.accepted = w1.accepted ∧ w1.accepted = [(some (Node.part 1), some (Node.part 11))] := by
  obtain ⟨w1, w2, h1, h2, h3⟩ := Population.connect_getMin (exampleModel 0 1)
    (exampleModel_blind 0 1) (fun _ _ _ => rfl) (fun _ _ _ => 5) 0 1 2 [Node.part 1] []
    [Node.part 11] [] (exampleRings [1] (Node.live 1) [11] (Node.live 2)) 4 rfl rfl
    ⟨⟨by decide, by
      simp only [List.append_nil, List.cons_append, List.nil_append, List.chain'_cons,
        List.chain'_singleton, and_true]
      decide⟩, rfl⟩
    ⟨⟨by decide, by
      simp only [List.append_nil, List.cons_append, List.nil_append, List.chain'_cons,
        List.chain'_singleton, and_true]
      decide⟩, rfl⟩ (by decide)
  refine ⟨w1, w2, h1, h2, h3.accepted, ?_⟩
  have e : Population.connect (exampleModel 0 1) 0 4
      (exampleRings [1] (Node.live 1) [11] (Node.live 2)) = some exampleConnected := rfl
  rw [e] at h1
  cases h1
  rfl

/-- When `getCount` changes the state of the model code and `getP` reads it, the
value of `getMin` shows: without caps `getCount` is called exactly when `getMin`
is not zero. -/
theorem Population.connect_getMin_seen :
    (Population.connect (exampleCounting 0) 0 4
        (exampleRings [1] (Node.live 1) [11] (Node.live 2))).map (fun w => w.accepted) =
      some [] ∧
    (Population.connect (exampleCounting 1) 0 4
        (exampleRings [1] (Node.live 1) [11] (Node.live 2))).map (fun w => w.accepted) =
      some [(some (Node.part 1), some (Node.part 11))] :=
  ⟨rfl, rfl⟩

/-- C33 fails for an empty `B`: the ring of population `2` holds no part, and
with two new parts in `A`, no caps and `getP` returning `0` the walk over `B`
of `Population::connect` meets one candidate for each part of `A`, the sentinel
`&B->live`, and proposes the pair to `getP`; `connect` returns. -/
theorem C33_walk_over_empty_B_meets_sentinel :
    (exampleRings [1, 2] (Node.live 1) [] (Node.live 2)).Holds 2 [] [] ∧
    (candidates (ringCycle 2 ([] ++ [])) (Node.live 2)).length = 1 ∧
    (Population.connect (exampleModel 0 0) 0 4
        (exampleRings [1, 2] (Node.live 1) [] (Node.live 2))).map
      (fun w => (w.proposed, w.accepted, w.calls.filter
        (fun x => decide (x = PopCall.setPart (Node.part 100) 1 (Node.live 2))))) =
      some ([(some (Node.part 1), some (Node.live 2)), (some (Node.part 2), some (Node.live 2))],
        [], [PopCall.setPart (Node.part 100) 1 (Node.live 2),
          PopCall.setPart (Node.part 100) 1 (Node.live 2)]) := by
  refine ⟨⟨⟨by decide, ?_⟩, rfl⟩, by decide, rfl⟩
  simp only [List.append_nil, List.cons_append, List.nil_append, List.chain'_cons,
    List.chain'_singleton, and_true]
  decide

end N2A
